import Mathlib

/-!
# csource: generation of C reproducers from decoded syzkaller programs

A shallow embedding of `pkg/csource/csource.go`.  Emitted text is a list of
characters (`Text`); raw data blocks are lists of bytes (`Nat` below 256);
64-bit unsigned arithmetic is `Nat` arithmetic reduced modulo `2^64`.
A Go `panic` is the result `none`.
-/

namespace Csource

/-- Emitted program text. -/
abbrev Text := List Char

/-! ## Formatting verbs of `fmt` -/

/-- The verbs `%v` and `%d` applied to an unsigned integer: decimal digits. -/
def fmtDec (n : Nat) : Text := Nat.toDigits 10 n

/-- The verb `%x` applied to an unsigned integer: lower-case hexadecimal digits. -/
def fmtHex (n : Nat) : Text := Nat.toDigits 16 n

/-- The verb `%v` applied to a signed integer. -/
def fmtInt : Int → Text
  | Int.ofNat n => fmtDec n
  | Int.negSucc n => '-' :: fmtDec (n + 1)

/-! ## 64-bit unsigned arithmetic -/

/-- Product of two `uint64` values. -/
def mul64 (a b : Nat) : Nat := (a * b) % 2 ^ 64

/-- Left shift of a `uint64` by an unsigned count; counts of 64 and more give 0. -/
def shl64 (x s : Nat) : Nat := if s < 64 then (x * 2 ^ s) % 2 ^ 64 else 0

/-- Difference of two `uint64` values, wrapping around. -/
def sub64 (a b : Nat) : Nat := (a % 2 ^ 64 + 2 ^ 64 - b % 2 ^ 64) % 2 ^ 64

/-- Bitwise complement of a `uint64` value. -/
def not64 (a : Nat) : Nat := 2 ^ 64 - 1 - a % 2 ^ 64

/-! ## Data model (package `prog`, execution encoding) -/

/-- The generation options read by this file. -/
structure Options where
  Threaded : Bool := false
  Collide : Bool := false
  Repeat : Bool := false
  Procs : Int := 1
  Sandbox : Text := []
  Fault : Bool := false
  FaultCall : Int := 0
  FaultNth : Int := 0
  EnableTun : Bool := false
  UseTmpDir : Bool := false
  EnableCgroups : Bool := false
  HandleSegv : Bool := false
  Debug : Bool := false
  Repro : Bool := false

/-- A constant argument: `prog.ExecArgConst`. -/
structure ExecArgConst where
  Size : Nat
  Value : Nat
  BitfieldOffset : Nat := 0
  BitfieldLength : Nat := 0
  PidStride : Nat := 0
  BigEndian : Bool := false

/-- A reference to an earlier result: `prog.ExecArgResult`. -/
structure ExecArgResult where
  Size : Nat
  Index : Nat
  DivOp : Nat := 0
  AddOp : Nat := 0

/-- One chunk of a checksum: `prog.ExecCsumChunk`. -/
structure ExecCsumChunk where
  Kind : Nat
  Value : Nat
  Size : Nat

/-- A checksum argument: `prog.ExecArgCsum`. -/
structure ExecArgCsum where
  Size : Nat
  Kind : Nat
  Chunks : List ExecCsumChunk

/-- The argument variants behind the interface `prog.ExecArg`. -/
inductive ExecArg where
  | const (arg : ExecArgConst)
  | result (arg : ExecArgResult)
  | data (Data : List Nat)
  | csum (arg : ExecArgCsum)

/-- A memory write before a call: `prog.ExecCopyin`. -/
structure ExecCopyin where
  Addr : Nat
  Arg : ExecArg

/-- A memory read after a call: `prog.ExecCopyout`. -/
structure ExecCopyout where
  Index : Nat
  Addr : Nat
  Size : Nat

/-- One decoded call: `prog.ExecCall`, with the two fields of `Meta` that are read. -/
structure ExecCall where
  CallName : Text
  NR : Nat := 0
  Index : Nat
  Args : List ExecArg := []
  Copyin : List ExecCopyin := []
  Copyout : List ExecCopyout := []

/-- A decoded program: `prog.ExecProg`. -/
structure ExecProg where
  Calls : List ExecCall
  Vars : List Nat

/-- The constant `prog.ExecNoCopyout`, the all-ones `uint64`. -/
def ExecNoCopyout : Nat := 2 ^ 64 - 1

/-- The constant `prog.ExecArgCsumInet`. -/
def ExecArgCsumInet : Nat := 0

/-- The constant `prog.ExecArgCsumChunkData`. -/
def ExecArgCsumChunkData : Nat := 0

/-- The constant `prog.ExecArgCsumChunkConst`. -/
def ExecArgCsumChunkConst : Nat := 1

/-- The fields of `targets.Target` that are read. -/
structure SysTarget where
  SyscallPrefix : Text
  NeedSyscallDefine : Nat → Bool

/-- The fields of `prog.Target` that are read. -/
structure Target where
  OS : Text
  PtrSize : Nat

/-! ## Argument formatter -/

/-- The method `constArgToStr`. -/
def constArgToStr (opts : Options) (arg : ExecArgConst) : Text :=
  let mask := sub64 (shl64 1 (mul64 arg.Size 8)) 1
  let v := arg.Value &&& mask
  let val := fmtDec v
  let val :=
    if v = not64 0 &&& mask then "-1".toList
    else if v ≥ 10 then "0x".toList ++ fmtHex v
    else val
  let val :=
    if opts.Procs > 1 ∧ arg.PidStride ≠ 0 then
      val ++ (" + procid*".toList ++ fmtDec arg.PidStride)
    else val
  let val :=
    if arg.BigEndian then
      "htobe".toList ++ fmtDec (mul64 arg.Size 8) ++ "(".toList ++ val ++ ")".toList
    else val
  val

/-- The method `resultArgToStr`. -/
def resultArgToStr (arg : ExecArgResult) : Text :=
  let res := "r[".toList ++ fmtDec arg.Index ++ "]".toList
  let res := if arg.DivOp ≠ 0 then res ++ "/".toList ++ fmtDec arg.DivOp else res
  let res := if arg.AddOp ≠ 0 then res ++ "+".toList ++ fmtDec arg.AddOp else res
  res

/-! ## Reading a C integer literal back (specification side) -/

/-- Value of one digit character, in any base up to 16. -/
def digitVal (c : Char) : Option Nat :=
  if '0' ≤ c ∧ c ≤ '9' then some (c.toNat - 48)
  else if 'a' ≤ c ∧ c ≤ 'f' then some (c.toNat - 87)
  else if 'A' ≤ c ∧ c ≤ 'F' then some (c.toNat - 55)
  else none

/-- Left-to-right accumulation of the digits of a literal in base `base`. -/
def readDigitsAux (base : Nat) : Nat → Text → Option Nat
  | acc, [] => some acc
  | acc, c :: cs =>
    match digitVal c with
    | some d => if d < base then readDigitsAux base (acc * base + d) cs else none
    | none => none

/-- A non-empty run of digits in base `base`. -/
def readDigits (base : Nat) (cs : Text) : Option Nat :=
  if cs = [] then none else readDigitsAux base 0 cs

/-- An unsigned C literal: hexadecimal after `0x`, decimal otherwise. -/
def readUnsignedLiteral : Text → Option Nat
  | '0' :: 'x' :: rest => readDigits 16 rest
  | cs => readDigits 10 cs

/-- A C integer literal with an optional minus sign. -/
def readCLiteral : Text → Option Int
  | '-' :: rest =>
    match readUnsignedLiteral rest with
    | some n => some (-(Int.ofNat n))
    | none => none
  | cs =>
    match readUnsignedLiteral cs with
    | some n => some (Int.ofNat n)
    | none => none

/-- Conversion of an integer to an unsigned integer of `bits` bits. -/
def storeUnsigned (bits : Nat) (i : Int) : Nat := (i % (2 : Int) ^ bits).toNat

/-! ## Data escaper -/

/-- The function `isReadable`: visible ASCII, tab, CR or newline. -/
def isReadable (v : Nat) : Bool :=
  (decide (v ≥ 0x20) && decide (v < 0x7f)) || v == 9 || v == 13 || v == 10

/-- The function `toHex`, in byte arithmetic. -/
def toHex (v : Nat) : Nat :=
  if v < 10 then (48 + v) % 256
  else ((97 + v) % 256 + 256 - 10) % 256

/-- The readability scan of `toCString`, from index `i` on: it stops with `false` at the
first byte that is not readable, a zero in the last position excepted. -/
def scanReadable (len : Nat) : Nat → List Nat → Bool
  | _, [] => true
  | i, v :: rest =>
    if !isReadable v && (i != len - 1 || v != 0) then false
    else scanReadable len (i + 1) rest

/-- The hexadecimal rendering of `toCString`: backslash, `x`, high and low nibble. -/
def hexEscape : List Nat → List Nat
  | [] => []
  | v :: rest => [92, 120, toHex (v / 16), toHex ((v * 16) % 256 / 16)] ++ hexEscape rest

/-- The escaping loop of `toCString`; `none` is the panic
`unexpected char during data serialization`. -/
def escapeReadable : List Nat → Option (List Nat)
  | [] => some []
  | v :: rest =>
    let piece : Option (List Nat) :=
      if v = 9 then some [92, 116]
      else if v = 13 then some [92, 114]
      else if v = 10 then some [92, 110]
      else if v = 92 then some [92, 92]
      else if v = 34 then some [92, 34]
      else if v < 0x20 ∨ v ≥ 0x7f then none
      else some [v]
    match piece, escapeReadable rest with
    | some p, some r => some (p ++ r)
    | _, _ => none

/-- The function `toCString` on a block of bytes. -/
def toCString (data : List Nat) : Option (List Nat) :=
  if data.length = 0 then some []
  else if !scanReadable data.length 0 data then some (hexEscape data)
  else
    let data := if data.getLast? = some 0 then data.dropLast else data
    escapeReadable data

/-! ## Reading a C string literal back (specification side) -/

/-- Unescaping by the C string-literal rules: the five two-character escapes map back to one
byte, every other byte is itself. -/
def unescapeC : List Nat → List Nat
  | [] => []
  | [c] => [c]
  | c :: d :: r =>
    if c = 92 ∧ d = 116 then 9 :: unescapeC r
    else if c = 92 ∧ d = 114 then 13 :: unescapeC r
    else if c = 92 ∧ d = 110 then 10 :: unescapeC r
    else if c = 92 ∧ d = 92 then 92 :: unescapeC r
    else if c = 92 ∧ d = 34 then 34 :: unescapeC r
    else c :: unescapeC (d :: r)

/-! ## Call emitter -/

/-- The loop over the chunks of one checksum, from chunk index `i` on; `none` is the panic
`unknown checksum chunk kind`. -/
def csumChunks (csumSeq : Nat) : Nat → List ExecCsumChunk → Option Text
  | _, [] => some []
  | i, chunk :: rest =>
    let piece : Option Text :=
      if chunk.Kind = ExecArgCsumChunkData then
        some ("\tNONFAILING(csum_inet_update(&csum_".toList ++ fmtDec csumSeq ++
          ", (const uint8_t*)0x".toList ++ fmtHex chunk.Value ++ ", ".toList ++
          fmtDec chunk.Size ++ "));\n".toList)
      else if chunk.Kind = ExecArgCsumChunkConst then
        some ("\tuint".toList ++ fmtDec (mul64 chunk.Size 8) ++ "_t csum_".toList ++
          fmtDec csumSeq ++ "_chunk_".toList ++ fmtDec i ++ " = 0x".toList ++
          fmtHex chunk.Value ++ ";\n".toList ++
          "\tcsum_inet_update(&csum_".toList ++ fmtDec csumSeq ++
          ", (const uint8_t*)&csum_".toList ++ fmtDec csumSeq ++ "_chunk_".toList ++
          fmtDec i ++ ", ".toList ++ fmtDec chunk.Size ++ ");\n".toList)
      else none
    match piece, csumChunks csumSeq (i + 1) rest with
    | some p, some r => some (p ++ r)
    | _, _ => none

/-- One iteration of the copy-in loop of `generateCalls`: the text appended to the fragment
and the new value of the counter `csumSeq`; `none` is a panic. -/
def copyinStep (opts : Options) (csumSeq : Nat) (copyin : ExecCopyin) : Option (Text × Nat) :=
  match copyin.Arg with
  | ExecArg.const arg =>
    if arg.BitfieldOffset = 0 ∧ arg.BitfieldLength = 0 then
      some ("\tNONFAILING(*(uint".toList ++ fmtDec (mul64 arg.Size 8) ++ "_t*)0x".toList ++
        fmtHex copyin.Addr ++ " = ".toList ++ constArgToStr opts arg ++ ");\n".toList, csumSeq)
    else
      some ("\tNONFAILING(STORE_BY_BITMASK(uint".toList ++ fmtDec (mul64 arg.Size 8) ++
        "_t, 0x".toList ++ fmtHex copyin.Addr ++ ", ".toList ++ constArgToStr opts arg ++
        ", ".toList ++ fmtDec arg.BitfieldOffset ++ ", ".toList ++
        fmtDec arg.BitfieldLength ++ "));\n".toList, csumSeq)
  | ExecArg.result arg =>
    some ("\tNONFAILING(*(uint".toList ++ fmtDec (mul64 arg.Size 8) ++ "_t*)0x".toList ++
      fmtHex copyin.Addr ++ " = ".toList ++ resultArgToStr arg ++ ");\n".toList, csumSeq)
  | ExecArg.data Data =>
    match toCString Data with
    | some str =>
      some ("\tNONFAILING(memcpy((void*)0x".toList ++ fmtHex copyin.Addr ++ ", \"".toList ++
        str.map Char.ofNat ++ "\", ".toList ++ fmtDec Data.length ++ "));\n".toList, csumSeq)
    | none => none
  | ExecArg.csum arg =>
    if arg.Kind = ExecArgCsumInet then
      let csumSeq := csumSeq + 1
      match csumChunks csumSeq 0 arg.Chunks with
      | some chunks =>
        some ("\tstruct csum_inet csum_".toList ++ fmtDec csumSeq ++ ";\n".toList ++
          "\tcsum_inet_init(&csum_".toList ++ fmtDec csumSeq ++ ");\n".toList ++
          chunks ++
          "\tNONFAILING(*(uint16_t*)0x".toList ++ fmtHex copyin.Addr ++
          " = csum_inet_digest(&csum_".toList ++ fmtDec csumSeq ++ "));\n".toList, csumSeq)
      | none => none
    else none

/-- The copy-in loop of `generateCalls`: the buffer `w` and the counter `csumSeq` are
threaded through the copy-ins in order. -/
def copyinLoop (opts : Options) : Text → Nat → List ExecCopyin → Option (Text × Nat)
  | w, csumSeq, [] => some (w, csumSeq)
  | w, csumSeq, copyin :: rest =>
    match copyinStep opts csumSeq copyin with
    | some (t, csumSeq1) => copyinLoop opts (w ++ t) csumSeq1 rest
    | none => none

/-- The loop over the direct arguments of a call, from argument index `ai` on; `none` is the
panic `unknown arg type`. -/
def callArgs (opts : Options) (native : Bool) : Nat → List ExecArg → Option Text
  | _, [] => some []
  | ai, arg :: rest =>
    let sep : Text := if native ∨ ai > 0 then ", ".toList else []
    let piece : Option Text :=
      match arg with
      | ExecArg.const a => some (constArgToStr opts a)
      | ExecArg.result a => some (resultArgToStr a)
      | _ => none
    match piece, callArgs opts native (ai + 1) rest with
    | some p, some r => some (sep ++ p ++ r)
    | _, _ => none

/-- The fault-injection statements emitted before the call with ordinal `ci`. -/
def faultText (opts : Options) (ci : Nat) : Text :=
  if opts.Fault ∧ opts.FaultCall = (ci : Int) then
    "\twrite_file(\"/sys/kernel/debug/failslab/ignore-gfp-wait\", \"N\");\n".toList ++
    "\twrite_file(\"/sys/kernel/debug/fail_futex/ignore-private\", \"N\");\n".toList ++
    "\tinject_fault(".toList ++ fmtInt opts.FaultNth ++ ");\n".toList
  else []

/-- Whether the invocation of a call is emitted. -/
def emitCall (opts : Options) (callName : Text) : Bool :=
  opts.EnableTun || (callName != "syz_emit_ethernet".toList &&
    callName != "syz_extract_tcp_res".toList)

/-- The invocation statement of a call (the branch `if emitCall`). -/
def invocationText (opts : Options) (sysTarget : SysTarget) (call : ExecCall) : Option Text :=
  let callName := call.CallName
  let resCopyout := call.Index ≠ ExecNoCopyout
  let argCopyout := call.Copyout.length ≠ 0
  if emitCall opts callName then
    let native := !("syz_".toList.isPrefixOf callName)
    match callArgs opts native 0 call.Args with
    | some args =>
      some ("\t".toList ++
        (if resCopyout ∨ argCopyout then "res = ".toList else []) ++
        (if native then "syscall(".toList ++ sysTarget.SyscallPrefix ++ callName
         else callName ++ "(".toList) ++
        args ++ ");\n".toList)
    | none => none
  else some []

/-- One line of the copy-out loop. -/
def copyoutLine (copyout : ExecCopyout) : Text :=
  "\t\tNONFAILING(r[".toList ++ fmtDec copyout.Index ++ "] = *(uint".toList ++
    fmtDec (mul64 copyout.Size 8) ++ "_t*)0x".toList ++ fmtHex copyout.Addr ++ ");\n".toList

/-- The copy-out statements of a call. -/
def copyoutText (call : ExecCall) : Text :=
  let resCopyout := call.Index ≠ ExecNoCopyout
  let argCopyout := call.Copyout.length ≠ 0
  if resCopyout ∨ argCopyout then
    let copyoutMultiple := call.Copyout.length > 1 ∨ (resCopyout ∧ call.Copyout.length > 0)
    "\tif (res != -1)".toList ++
      (if copyoutMultiple then " \x7b".toList else []) ++
      "\n".toList ++
      (if resCopyout then "\t\tr[".toList ++ fmtDec call.Index ++ "] = res;\n".toList else []) ++
      (call.Copyout.map copyoutLine).flatten ++
      (if copyoutMultiple then "\t\x7d\n".toList else [])
  else []

/-- The body of the loop over calls in `generateCalls`: the fragment of the call with
ordinal `ci` and the new value of `csumSeq`. -/
def generateCall (opts : Options) (sysTarget : SysTarget) (ci csumSeq : Nat) (call : ExecCall) :
    Option (Text × Nat) :=
  match copyinLoop opts [] csumSeq call.Copyin with
  | some (w, csumSeq1) =>
    let w := w ++ faultText opts ci
    match invocationText opts sysTarget call with
    | some inv => some (w ++ inv ++ copyoutText call, csumSeq1)
    | none => none
  | none => none

/-- The loop over calls in `generateCalls`: `calls` is the list built so far. -/
def generateCallsLoop (opts : Options) (sysTarget : SysTarget) :
    Nat → Nat → List Text → List ExecCall → Option (List Text)
  | _, _, calls, [] => some calls
  | ci, csumSeq, calls, call :: rest =>
    match generateCall opts sysTarget ci csumSeq call with
    | some (w, csumSeq1) => generateCallsLoop opts sysTarget (ci + 1) csumSeq1 (calls ++ [w]) rest
    | none => none

/-- The method `generateCalls`; `none` is a panic. -/
def generateCalls (opts : Options) (sysTarget : SysTarget) (p : ExecProg) :
    Option (List Text × List Nat) :=
  match generateCallsLoop opts sysTarget 0 0 [] p.Calls with
  | some calls => some (calls, p.Vars)
  | none => none

/-! ## Decoder contract and positional description of the checksum counter -/

/-- A checksum chunk of a known kind. -/
def knownChunk (chunk : ExecCsumChunk) : Bool :=
  chunk.Kind == ExecArgCsumChunkData || chunk.Kind == ExecArgCsumChunkConst

/-- A copy-in whose checksum, if it is one, has a known kind and chunks of known kinds. -/
def knownCopyin (copyin : ExecCopyin) : Bool :=
  match copyin.Arg with
  | ExecArg.csum arg => arg.Kind == ExecArgCsumInet && arg.Chunks.all knownChunk
  | _ => true

/-- A direct argument is a constant or a result reference. -/
def knownArg : ExecArg → Bool
  | ExecArg.const _ => true
  | ExecArg.result _ => true
  | _ => false

/-- A call as the decoder emits it: known variants only. -/
def knownCall (call : ExecCall) : Bool :=
  call.Copyin.all knownCopyin && call.Args.all knownArg

/-- Whether a copy-in is a checksum. -/
def isCsum (copyin : ExecCopyin) : Bool :=
  match copyin.Arg with
  | ExecArg.csum _ => true
  | _ => false

/-- Number of checksum copy-ins of a call. -/
def csumCount (call : ExecCall) : Nat := (call.Copyin.filter isCsum).length

/-- Number of checksum copy-ins in the calls before position `i`. -/
def csumBefore (calls : List ExecCall) (i : Nat) : Nat :=
  ((calls.take i).map csumCount).sum

/-! ## Text replacement (packages `strings`, `bytes`, `regexp`) -/

/-- The loop of `strings.Replace` and `bytes.Replace` with a non-empty `old` and count `-1`:
occurrences of `old` are replaced by `new` from left to right without overlap.  The first
argument counts the bytes of the occurrence just replaced that are still to be skipped. -/
def replaceAux (old new : Text) : Nat → Text → Text
  | _, [] => []
  | skip + 1, _ :: t => replaceAux old new skip t
  | 0, c :: t =>
    if old <+: c :: t then new ++ replaceAux old new (old.length - 1) t
    else c :: replaceAux old new 0 t

/-- The functions `strings.Replace(s, old, new, -1)` and `bytes.Replace(s, old, new, -1)`. -/
def replaceAll (old new : Text) (s : Text) : Text := replaceAux old new 0 s

/-- A match, at the very start of `t`, of the regular expression
`\t*KW(.*)\);\n`, where `KW` is the literal text `kw` (it ends with the opening bracket):
the tabs, the keyword, then the rest of the line, which must end with `);`.  The result is
the captured group and the number of bytes matched. -/
def stmtMatch (kw : Text) (t : Text) : Option (Text × Nat) :=
  let tabs := t.takeWhile (· == '\t')
  let t1 := t.dropWhile (· == '\t')
  if kw <+: t1 then
    let t2 := t1.drop kw.length
    let line := t2.takeWhile (· != '\n')
    match t2.dropWhile (· != '\n') with
    | [] => none
    | _ :: _ =>
      if ");".toList <:+ line then
        some (line.take (line.length - 2), tabs.length + kw.length + line.length + 1)
      else none
  else none

/-- The loop of `Regexp.ReplaceAll` for the expression `\t*KW(.*)\);\n`: leftmost matches,
without overlap, are replaced by `repl` applied to the captured group.  The first argument
counts the bytes of the match just replaced that are still to be skipped. -/
def stmtReplaceAux (kw : Text) (repl : Text → Text) : Nat → Text → Text
  | _, [] => []
  | skip + 1, _ :: t => stmtReplaceAux kw repl skip t
  | 0, c :: t =>
    match stmtMatch kw (c :: t) with
    | some (group, len) => repl group ++ stmtReplaceAux kw repl (len - 1) t
    | none => c :: stmtReplaceAux kw repl 0 t

/-- The method `ReplaceAll` of the compiled expression `\t*KW(.*)\);\n`. -/
def stmtReplaceAll (kw : Text) (repl : Text → Text) (s : Text) : Text :=
  stmtReplaceAux kw repl 0 s

/-! ## Execution skeleton builder -/

/-- The loop over the fragments in the indexed dispatch routine of `generateTestFunc`. -/
def caseLoop : Nat → List Text → Text
  | _, [] => []
  | i, c :: rest =>
    "\tcase ".toList ++ fmtDec i ++ ":\n".toList ++
      replaceAll "\t".toList "\t\t".toList c ++
      "\t\tbreak;\n".toList ++ caseLoop (i + 1) rest

/-- The method `generateTestFunc`. -/
def generateTestFunc (opts : Options) (calls : List Text) (hasVars : Bool) (name : Text) :
    Text :=
  if !opts.Threaded && !opts.Collide then
    "void ".toList ++ name ++ "()\n\x7b\n".toList ++
    (if hasVars then "\tlong res;".toList else []) ++
    (if opts.Debug then "\tdebug(\"".toList ++ name ++ "\\n\");\n".toList else []) ++
    (if opts.Repro then
      "\tsyscall(SYS_write, 1, \"executing program\\n\", strlen(\"executing program\\n\"));\n".toList
     else []) ++
    calls.flatten ++
    "\x7d\n\n".toList
  else
    "void execute_call(int call)\n\x7b\n".toList ++
    (if hasVars then "\tlong res;".toList else []) ++
    "\tswitch (call) \x7b\n".toList ++
    caseLoop 0 calls ++
    "\t\x7d\n".toList ++
    "\x7d\n\n".toList ++
    "void ".toList ++ name ++ "()\n\x7b\n".toList ++
    (if opts.Debug then "\tdebug(\"".toList ++ name ++ "\\n\");\n".toList else []) ++
    (if opts.Repro then
      "\tsyscall(SYS_write, 1, \"executing program\\n\", strlen(\"executing program\\n\"));\n".toList
     else []) ++
    "\texecute(".toList ++ fmtDec calls.length ++ ");\n".toList ++
    (if opts.Collide then
      "\tcollide = 1;\n".toList ++
      "\texecute(".toList ++ fmtDec calls.length ++ ");\n".toList
     else []) ++
    "\x7d\n\n".toList

/-- The loop of `generateSyscallDefines` over the entries of the map `ctx.calls`, in the
order `entries` in which the map happens to be iterated. -/
def syscallDefineLoop (sysTarget : SysTarget) : List (Text × Nat) → Text
  | [] => []
  | (name, nr) :: rest =>
    (if "syz_".toList.isPrefixOf name || !sysTarget.NeedSyscallDefine nr then []
     else
      "#ifndef ".toList ++ sysTarget.SyscallPrefix ++ name ++ "\n".toList ++
      "#define ".toList ++ sysTarget.SyscallPrefix ++ name ++ " ".toList ++ fmtDec nr ++
        "\n".toList ++
      "#endif\n".toList) ++
    syscallDefineLoop sysTarget rest

/-- The method `generateSyscallDefines`. -/
def generateSyscallDefines (target : Target) (sysTarget : SysTarget)
    (entries : List (Text × Nat)) : Text :=
  syscallDefineLoop sysTarget entries ++
  (if target.OS = "linux".toList ∧ target.PtrSize = 4 then
    "#undef __NR_mmap\n".toList ++ "#define __NR_mmap __NR_mmap2\n".toList
   else []) ++
  "\n".toList

/-- The loop over the result variables in `Write`, from index `i` on. -/
def resultInits : Nat → List Nat → Text
  | _, [] => []
  | i, v :: rest =>
    (if i ≠ 0 then ", ".toList else []) ++ ("0x".toList ++ fmtHex v) ++
      resultInits (i + 1) rest

/-- The declaration of the result table in `Write`. -/
def resultTable (vars : List Nat) : Text :=
  if vars.length ≠ 0 then
    "uint64_t r[".toList ++ fmtDec vars.length ++ "] = \x7b".toList ++
      resultInits 0 vars ++
      "\x7d;\n".toList
  else []

/-- The sandbox or direct invocation of the test function, at indentation `ind`. -/
def runLoop (opts : Options) (ind : Text) : Text :=
  if opts.Sandbox ≠ [] then
    ind ++ "int pid = do_sandbox_".toList ++ opts.Sandbox ++ "();\n".toList ++
    ind ++ "int status = 0;\n".toList ++
    ind ++ "while (waitpid(pid, &status, __WALL) != pid) \x7b\x7d\n".toList
  else
    (if opts.EnableTun then
      ind ++ "initialize_tun();\n".toList ++
      ind ++ "initialize_netdevices();\n".toList
     else []) ++
    ind ++ "loop();\n".toList

/-- The function `main` for the run-once shape. -/
def mainOnce (opts : Options) (mmapCalls : List Text) : Text :=
  "int main()\n\x7b\n".toList ++
  mmapCalls.flatten ++
  (if opts.HandleSegv then "\tinstall_segv_handler();\n".toList else []) ++
  (if opts.UseTmpDir then "\tuse_temporary_dir();\n".toList else []) ++
  runLoop opts "\t".toList ++
  "\treturn 0;\n\x7d\n".toList

/-- The function `main` for the single-process loop. -/
def mainLoop (opts : Options) (mmapCalls : List Text) : Text :=
  "int main()\n\x7b\n".toList ++
  mmapCalls.flatten ++
  (if opts.HandleSegv then "\tinstall_segv_handler();\n".toList else []) ++
  (if opts.UseTmpDir then "\tchar *cwd = get_current_dir_name();\n".toList else []) ++
  "\tfor (;;) \x7b\n".toList ++
  (if opts.UseTmpDir then
    "\t\tif (chdir(cwd))\n".toList ++
    "\t\t\tfail(\"failed to chdir\");\n".toList ++
    "\t\tuse_temporary_dir();\n".toList
   else []) ++
  runLoop opts "\t\t".toList ++
  "\t\x7d\n\x7d\n".toList

/-- The body of the forked child in the multi-process shape: the text between the line
`if (fork() == 0) {` and its closing bracket. -/
def forkChild (opts : Options) : Text :=
  (if opts.HandleSegv then "\t\t\tinstall_segv_handler();\n".toList else []) ++
  "\t\t\tfor (;;) \x7b\n".toList ++
  (if opts.UseTmpDir then
    "\t\t\t\tif (chdir(cwd))\n".toList ++
    "\t\t\t\t\tfail(\"failed to chdir\");\n".toList ++
    "\t\t\t\tuse_temporary_dir();\n".toList
   else []) ++
  runLoop opts "\t\t\t\t".toList ++
  "\t\t\t\x7d\n".toList

/-- The function `main` for the multi-process shape. -/
def mainFork (opts : Options) (mmapCalls : List Text) : Text :=
  "int main()\n\x7b\n".toList ++
  mmapCalls.flatten ++
  (if opts.UseTmpDir then "\tchar *cwd = get_current_dir_name();\n".toList else []) ++
  "\tfor (procid = 0; procid < ".toList ++ fmtInt opts.Procs ++ "; procid++) \x7b\n".toList ++
  "\t\tif (fork() == 0) \x7b\n".toList ++
  forkChild opts ++
  "\t\t\x7d\n".toList ++
  "\t\x7d\n".toList ++
  "\tsleep(1000000);\n".toList ++
  "\treturn 0;\n\x7d\n".toList

/-- The function `main` emitted by `Write`. -/
def mainText (opts : Options) (mmapCalls : List Text) : Text :=
  if !opts.Repeat then mainOnce opts mmapCalls
  else if opts.Procs ≤ 1 then mainLoop opts mmapCalls
  else mainFork opts mmapCalls

/-- The test function and `main`: the part of `Write` that depends on the repeat flag. -/
def writeSkeleton (opts : Options) (calls : List Text) (vars : List Nat)
    (mmapCalls : List Text) : Text :=
  generateTestFunc opts calls (decide (vars.length ≠ 0))
    (if !opts.Repeat then "loop".toList else "execute_one".toList) ++
  mainText opts mmapCalls

/-- Everything `Write` prints after the common header and its newline. -/
def writeBody (opts : Options) (target : Target) (sysTarget : SysTarget)
    (entries : List (Text × Nat)) (calls : List Text) (vars : List Nat)
    (mmapCalls : List Text) : Text :=
  generateSyscallDefines target sysTarget entries ++
  resultTable vars ++
  (if opts.Procs > 1 ∨ opts.EnableCgroups then "unsigned long long procid;\n".toList else []) ++
  writeSkeleton opts calls vars mmapCalls

/-- The banner that opens the output. -/
def banner : Text :=
  "// autogenerated by syzkaller (http://github.com/google/syzkaller)\n\n".toList

/-! ## Post-processor -/

/-- The loop that removes duplicate new lines; `fuel` bounds the number of iterations. -/
def collapseLoop : Nat → Text → Text
  | 0, result => result
  | fuel + 1, result =>
    let result1 := replaceAll "\n\n\n".toList "\n\n".toList result
    let result1 := replaceAll "\n\n#include".toList "\n#include".toList result1
    if result1.length = result.length then result
    else collapseLoop fuel result1

/-- The removal of the `NONFAILING` wrappers, when the segfault handler is off. -/
def unwrapPass (opts : Options) (result : Text) : Text :=
  if !opts.HandleSegv then
    stmtReplaceAll "NONFAILING(".toList (fun group => group ++ ";\n".toList) result
  else result

/-- The removal of the debug statements, when debugging is off. -/
def debugPass (opts : Options) (result : Text) : Text :=
  if !opts.Debug then
    stmtReplaceAll "debug_dump_data(".toList (fun _ => [])
      (stmtReplaceAll "debug(".toList (fun _ => []) result)
  else result

/-- The removal of the two marker tokens and of duplicate new lines. -/
def tidyPass (result : Text) : Text :=
  let result := replaceAll "NORETURN".toList [] result
  let result := replaceAll "PRINTF".toList [] result
  collapseLoop (result.length + 1) result

/-- The post-processing at the end of `Write`. -/
def postProcess (opts : Options) (result : Text) : Text :=
  tidyPass (debugPass opts (unwrapPass opts result))

/-- The function `Write`, on the decoded main program and the decoded memory-mapping
program; `check` is `Options.Check`, `hdr` the result of `createCommonHeader`, `entries`
the map `ctx.calls` in iteration order.  The result `none` is an error return or a panic. -/
def Write (check : Options → Bool) (opts : Options) (target : Target) (sysTarget : SysTarget)
    (decoded mmapDecoded : ExecProg) (entries : List (Text × Nat)) (hdr : Option Text) :
    Option Text :=
  if !check opts then none
  else
    match generateCalls opts sysTarget decoded with
    | none => none
    | some (calls, vars) =>
      match generateCalls opts sysTarget mmapDecoded with
      | none => none
      | some (mmapCalls, _) =>
        match hdr with
        | none => none
        | some hdr =>
          some (postProcess opts
            (banner ++ hdr ++ "\n".toList ++
              writeBody opts target sysTarget entries calls vars mmapCalls))

/-! ## Occurrences of a marker in emitted text (specification side) -/

/-- Number of positions of a text at which the marker `pat` occurs. -/
def occ (pat : Text) : Text → Nat
  | [] => 0
  | c :: t => (if pat <+: c :: t then 1 else 0) + occ pat t

/-- A block of complete lines: empty, or ending with a newline. -/
def LineBlock (a : Text) : Prop := a = [] ∨ a.getLast? = some '\n'

/-- A marker that lies within one line: a newline can only be its last character. -/
def LineMarker (pat : Text) : Prop := pat ≠ [] ∧ '\n' ∉ pat.dropLast

/-- A count of statements that adds up over blocks of complete lines. -/
def Additive (c : Text → Nat) : Prop :=
  ∀ a b : Text, LineBlock a → c (a ++ b) = c a + c b

/-- Number of lines of a text that begin with `pat`. -/
def lineStarts (pat : Text) (t : Text) : Nat :=
  (if pat <+: t then 1 else 0) + occ ('\n' :: pat) t

instance (a : Text) : Decidable (LineBlock a) := by unfold LineBlock; infer_instance

instance (pat : Text) : Decidable (LineMarker pat) := by unfold LineMarker; infer_instance

/-- An inserted text (a fragment) that is made of complete lines and contains none of the
given markers. -/
def Inert (markers : List Text) (f : Text) : Prop :=
  LineBlock f ∧ ∀ m ∈ markers, ¬ m <:+: f

instance (markers : List Text) (f : Text) : Decidable (Inert markers f) := by
  unfold Inert; infer_instance

/-! ## Sample inputs -/

/-- A Linux-like system target. -/
def sampleSysTarget : SysTarget :=
  { SyscallPrefix := "__NR_".toList, NeedSyscallDefine := fun _ => true }

/-- A decoded program of two calls: a native call with a data copy-in and a checksum
copy-in, and a pseudo-call whose invocation is suppressed without network bring-up. -/
def sampleProg : ExecProg :=
  { Calls :=
      [ { CallName := "write".toList, NR := 1, Index := 0,
          Args := [ExecArg.const { Size := 4, Value := 7 }],
          Copyin :=
            [ { Addr := 0x20000000, Arg := ExecArg.data [104, 105, 0] },
              { Addr := 0x20000010,
                Arg := ExecArg.csum
                  { Size := 2, Kind := ExecArgCsumInet,
                    Chunks := [{ Kind := ExecArgCsumChunkConst, Value := 0x1234, Size := 4 }] } } ] },
        { CallName := "syz_emit_ethernet".toList, Index := ExecNoCopyout,
          Args := [ExecArg.result { Size := 8, Index := 0 }] } ],
    Vars := [0xffffffffffffffff] }

/-! ## Top-level shapes (specification side) -/

/-- The run-once shape: no unconditional loop and no fork. -/
def RunOnceShape (t : Text) : Prop :=
  occ "\tfor (;;) \x7b\n".toList t = 0 ∧ occ "\tif (fork() == 0) \x7b\n".toList t = 0

/-- The single-process loop: one unconditional loop and no fork. -/
def SingleLoopShape (t : Text) : Prop :=
  occ "\tfor (;;) \x7b\n".toList t = 1 ∧ occ "\tif (fork() == 0) \x7b\n".toList t = 0

/-- The multi-process fork loop: one fork, with one unconditional loop (in the child). -/
def ForkLoopShape (t : Text) : Prop :=
  occ "\tfor (;;) \x7b\n".toList t = 1 ∧ occ "\tif (fork() == 0) \x7b\n".toList t = 1

instance (t : Text) : Decidable (RunOnceShape t) := by unfold RunOnceShape; infer_instance

instance (t : Text) : Decidable (SingleLoopShape t) := by unfold SingleLoopShape; infer_instance

instance (t : Text) : Decidable (ForkLoopShape t) := by unfold ForkLoopShape; infer_instance

/-- The header of the loop over the process identifiers in the multi-process `main`. -/
def procLoopHeader (n : Int) : Text :=
  "\tfor (procid = 0; procid < ".toList ++ (fmtInt n ++ "; procid++) \x7b\n".toList)

/-- The block of the multi-process `main` that only a forked child runs. -/
def forkBlock (opts : Options) : Text :=
  "\t\tif (fork() == 0) \x7b\n".toList ++ forkChild opts ++ "\t\t\x7d\n".toList

/-- The text of the multi-process `main` before the fork block. -/
def forkParentHead (opts : Options) (mmapCalls : List Text) : Text :=
  "int main()\n\x7b\n".toList ++ mmapCalls.flatten ++
  (if opts.UseTmpDir then "\tchar *cwd = get_current_dir_name();\n".toList else []) ++
  procLoopHeader opts.Procs

/-- The text of the multi-process `main` after the fork block. -/
def forkParentTail : Text :=
  "\t\x7d\n".toList ++ "\tsleep(1000000);\n".toList ++ "\treturn 0;\n\x7d\n".toList

/-- A fragment made of complete lines that all begin with a tab. -/
inductive TabLines : Text → Prop where
  | nil : TabLines []
  | line (body rest : Text) : '\n' ∉ body → TabLines rest →
      TabLines ('\t' :: (body ++ '\n' :: rest))

/-- A block of data whose elements are bytes. -/
def byteData (copyin : ExecCopyin) : Bool :=
  match copyin.Arg with
  | ExecArg.data Data => Data.all fun b => decide (b < 256)
  | _ => true

/-- A name without a newline and without a tab. -/
def PlainName (name : Text) : Prop := '\n' ∉ name ∧ '\t' ∉ name

instance (name : Text) : Decidable (PlainName name) := by unfold PlainName; infer_instance

/-- A call as the decoder and the call table give it: known variants, data made of bytes,
a plain name. -/
def WellFormedCall (call : ExecCall) : Prop :=
  knownCall call = true ∧ call.Copyin.all byteData = true ∧ PlainName call.CallName

instance (call : ExecCall) : Decidable (WellFormedCall call) := by
  unfold WellFormedCall; infer_instance

/-- The scan behind `LinesFrom`: `atStart` tells whether the scan stands at the start of a
line; the text must end at the start of a line. -/
def linesOK (S : List Char) : Bool → Text → Bool
  | atStart, [] => atStart
  | atStart, c :: t =>
    if c = '\n' then linesOK S true t
    else (if atStart then decide (c ∈ S) else true) && linesOK S false t

/-- A text made of complete lines, each of them empty or beginning with a character of `S`. -/
def LinesFrom (S : List Char) (f : Text) : Prop := linesOK S true f = true

instance (S : List Char) (f : Text) : Decidable (LinesFrom S f) := by
  unfold LinesFrom; infer_instance

/-- The first characters of the lines that `Write` prints outside the result table and the
declaration of `procid`. -/
def ownLineStarts : List Char := ['\t', 'v', '\x7b', '\x7d', '#', 'i']

/-- A decoded memory-mapping program of one call. -/
def sampleMmapProg : ExecProg :=
  { Calls :=
      [ { CallName := "mmap".toList, NR := 9, Index := ExecNoCopyout,
          Args := [ExecArg.const { Size := 8, Value := 0x20000000 },
                   ExecArg.const { Size := 8, Value := 0x1000 }] } ],
    Vars := [] }

/-- A target for which the 32-bit substitution does not apply. -/
def sampleTarget : Target := { OS := "linux".toList, PtrSize := 8 }

/-! ## Checksum accumulators (specification side) -/

/-- All copy-ins of a program, in program order. -/
def programCopyins (calls : List ExecCall) : List ExecCopyin :=
  (calls.map fun c => c.Copyin).flatten

/-- Index in `programCopyins` of the copy-in `j` of the call `i`. -/
def copyinOffset (calls : List ExecCall) (i j : Nat) : Nat :=
  ((calls.take i).map fun c => c.Copyin.length).sum + j

/-- Modelled from the spec: the 1-based position of the copy-in `j` of the call `i` among
all checksum copy-ins of the program, that is the number of checksum copy-ins up to and
including it. -/
def csumPosition (calls : List ExecCall) (i j : Nat) : Nat :=
  (((programCopyins calls).take (copyinOffset calls i j + 1)).filter isCsum).length

/-- Modelled from the spec: what a checksum copy-in with accumulator number `K` stored at
`addr` contributes, given the texts of its chunks: the declaration of the accumulator, its
initialisation, the chunks in order, and the store of the digest. -/
def csumBlock (K addr : Nat) (pieces : List Text) : Text :=
  "\tstruct csum_inet csum_".toList ++ fmtDec K ++ ";\n".toList ++
  "\tcsum_inet_init(&csum_".toList ++ fmtDec K ++ ");\n".toList ++
  pieces.flatten ++
  "\tNONFAILING(*(uint16_t*)0x".toList ++ fmtHex addr ++
  " = csum_inet_digest(&csum_".toList ++ fmtDec K ++ "));\n".toList

/-- The name of the accumulator number `K`. -/
def accumulatorName (K : Nat) : Text := "csum_".toList ++ fmtDec K

/-- A program with two calls that carry three checksum copy-ins in all. -/
def sampleCsumProg : ExecProg :=
  { Calls :=
      [ { CallName := "write".toList, NR := 1, Index := ExecNoCopyout,
          Args := [ExecArg.const { Size := 4, Value := 7 }],
          Copyin :=
            [ { Addr := 0x20000010,
                Arg := ExecArg.csum
                  { Size := 2, Kind := ExecArgCsumInet,
                    Chunks := [{ Kind := ExecArgCsumChunkConst, Value := 0x1234, Size := 4 }] } },
              { Addr := 0x20000000, Arg := ExecArg.data [104, 105, 0] },
              { Addr := 0x20000020,
                Arg := ExecArg.csum
                  { Size := 2, Kind := ExecArgCsumInet,
                    Chunks := [{ Kind := ExecArgCsumChunkData, Value := 0x20000000, Size := 3 },
                               { Kind := ExecArgCsumChunkConst, Value := 0x11, Size := 2 }] } } ] },
        { CallName := "syz_emit_ethernet".toList, Index := ExecNoCopyout,
          Args := [ExecArg.const { Size := 8, Value := 0x20000000 }],
          Copyin :=
            [ { Addr := 0x20000030,
                Arg := ExecArg.csum { Size := 2, Kind := ExecArgCsumInet, Chunks := [] } } ] } ],
    Vars := [] }

/-! ## Debug statements (specification side) -/

/-- Modelled from the spec: the text holds a statement of the keyword `kw` (which ends with
the opening bracket) within a single line: the keyword, then text without newline, then
the closing bracket, the semicolon and the newline. -/
def Stmt (kw t : Text) : Prop :=
  ∃ pre body post, t = pre ++ kw ++ body ++ ");\n".toList ++ post ∧ '\n' ∉ body

/-- The line `l` (given without its newline) holds a statement of the keyword `kw`: at some
position the keyword occurs and what follows it on the line ends with `);`. -/
def StmtIn (kw l : Text) : Prop :=
  ∃ s ∈ l.tails, kw <+: s ∧ ");".toList <:+ s.drop kw.length

/-- The line `l` (given without its newline) is, as a whole, a statement of the keyword
`kw`: tabs, the keyword, and a rest that ends with `);`. -/
def StmtLine (kw l : Text) : Prop :=
  kw <+: l.dropWhile (· == '\t') ∧
    ");".toList <:+ (l.dropWhile (· == '\t')).drop kw.length

instance (kw l : Text) : Decidable (StmtIn kw l) := by unfold StmtIn; infer_instance

instance (kw l : Text) : Decidable (StmtLine kw l) := by unfold StmtLine; infer_instance

/-- A text made of complete lines, each of which (taken without its newline) satisfies
`P`. -/
inductive Lines (P : Text → Prop) : Text → Prop where
  | nil : Lines P []
  | line (l rest : Text) : '\n' ∉ l → P l → Lines P rest → Lines P (l ++ '\n' :: rest)

/-- A line that holds no debug statement and that, if it mentions one of the tokens
`NORETURN` and `PRINTF`, holds no semicolon. -/
def PlainLine (l : Text) : Prop :=
  ¬ StmtIn "debug(".toList l ∧ ¬ StmtIn "debug_dump_data(".toList l ∧
    ("NORETURN".toList <:+: l ∨ "PRINTF".toList <:+: l → ';' ∉ l)

/-- A line on which the removal of the debug statements acts as on a whole line: a whole
debug-trace statement, a whole debug-dump statement that holds no debug-trace statement, or
a plain line. -/
def DebugSafeLine (l : Text) : Prop :=
  StmtLine "debug(".toList l ∨
    (StmtLine "debug_dump_data(".toList l ∧ ¬ StmtIn "debug(".toList l) ∨ PlainLine l

instance (l : Text) : Decidable (PlainLine l) := by unfold PlainLine; infer_instance

instance (l : Text) : Decidable (DebugSafeLine l) := by unfold DebugSafeLine; infer_instance

/-- The text `b` is the text `a` without some of its newlines, each of which is directly
followed by a newline in `a`. -/
inductive NlDel : Text → Text → Prop where
  | nil : NlDel [] []
  | keep (c : Char) (a b : Text) : NlDel a b → NlDel (c :: a) (c :: b)
  | drop (a b : Text) : NlDel ('\n' :: a) b → NlDel ('\n' :: '\n' :: a) b

/-! ## Hexadecimal escapes (specification side) -/

/-- Modelled from the spec: the code of the lower-case hexadecimal digit of value `d`. -/
def hexDigitCode (d : Nat) : Nat := ("0123456789abcdef".toList.getD d '0').toNat

/-- Modelled from the spec: the escape of one byte, backslash, `x`, high nibble, low
nibble. -/
def hexEscapeByte (v : Nat) : List Nat := [92, 120, hexDigitCode (v / 16), hexDigitCode (v % 16)]

/-! ## Invocation (specification side) -/

/-- Modelled from the spec: the formatted text of a direct argument, a constant or a
result reference. -/
def argText (opts : Options) : ExecArg → Text
  | ExecArg.const a => constArgToStr opts a
  | ExecArg.result a => resultArgToStr a
  | _ => []

/-- A native call with one 4-byte constant argument 7, no captured result, no copy-out. -/
def sampleNativeCall : ExecCall :=
  { CallName := "close".toList, NR := 3, Index := ExecNoCopyout,
    Args := [ExecArg.const { Size := 4, Value := 7 }] }

/-- A pseudo call with two arguments and a captured result. -/
def samplePseudoCall : ExecCall :=
  { CallName := "syz_open_dev".toList, Index := 2,
    Args := [ExecArg.const { Size := 8, Value := 0x20000000 },
             ExecArg.result { Size := 8, Index := 1, DivOp := 2 }] }

/-- The call `syz_extract_tcp_res` with its two copy-outs. -/
def sampleExtractCall : ExecCall :=
  { CallName := "syz_extract_tcp_res".toList, Index := ExecNoCopyout,
    Args := [ExecArg.const { Size := 8, Value := 0x20000000 },
             ExecArg.const { Size := 4, Value := 1 },
             ExecArg.const { Size := 4, Value := 0 }],
    Copyout := [{ Index := 0, Addr := 0x20000000, Size := 4 },
                { Index := 1, Addr := 0x20000004, Size := 4 }] }

/-- A native call with one raw-data copy-in whose six bytes are the text `debug(`. -/
def sampleDebugDataCall : ExecCall :=
  { CallName := "close".toList, NR := 3, Index := ExecNoCopyout,
    Args := [ExecArg.const { Size := 4, Value := 7 }],
    Copyin := [{ Addr := 0x20000000, Arg := ExecArg.data [100, 101, 98, 117, 103, 40] }] }

/-- The program made of the call `sampleDebugDataCall`. -/
def sampleDebugProg : ExecProg := { Calls := [sampleDebugDataCall], Vars := [] }

/-- The body of the loop that removes duplicate new lines: one pass of the two
replacements. -/
def collapseStep (result : Text) : Text :=
  replaceAll "\n\n#include".toList "\n#include".toList
    (replaceAll "\n\n\n".toList "\n\n".toList result)

/-! ## Statement openers (specification side) -/

/-- The line `l` begins with one of the texts of `ps`. -/
def OpensWith (ps : List Text) (l : Text) : Prop := ∃ p ∈ ps, p <+: l

instance (ps : List Text) (l : Text) : Decidable (OpensWith ps l) := by
  unfold OpensWith; infer_instance

/-- The ways in which a line of a fragment can begin when the call has neither a captured
result nor a copy-out: the copy-in statements, the fault injection, and the invocation
without assignment. -/
def plainOpeners : List Text :=
  ["\tNONFAILING(*(uint".toList, "\tNONFAILING(STORE_BY_BITMASK(".toList,
   "\tNONFAILING(memcpy(".toList, "\tNONFAILING(csum_inet_update(".toList,
   "\tstruct csum_inet ".toList, "\tcsum_inet_init(".toList, "\tcsum_inet_update(".toList,
   "\tuint".toList, "\twrite_file(".toList, "\tinject_fault(".toList,
   "\tsyscall(".toList, "\tsyz_".toList]

/-- A text with a debug-trace statement, a debug-dump statement, the header line of the
debug routine, a wrapped store and an invocation. -/
def sampleDebugText : Text :=
  ("PRINTF static void debug(const char* msg)\n" ++
   "\tdebug(\"start\");\n" ++
   "\tNONFAILING(*(uint32_t*)0x20000000 = 7);\n" ++
   "\t\tdebug_dump_data(p, 8);\n" ++
   "\tsyscall(__NR_close, 7);\n").toList

/-! ## Lines of a fragment (specification side) -/

/-- The line `l` (given without its newline) begins with one of the openers `os`, holds no
tab after that opener, and ends with one of the closers `cs`. -/
def FragLine (os cs : List Text) (l : Text) : Prop :=
  (∃ o ∈ os, o <+: l ∧ l.count '\t' = o.count '\t') ∧ ∃ c ∈ cs, c <:+ l

instance (os cs : List Text) (l : Text) : Decidable (FragLine os cs l) := by
  unfold FragLine; infer_instance

/-- The ways in which a line of a fragment of `generateCalls` can begin. -/
def fragOpeners : List Text :=
  plainOpeners ++
    ["\tres = ".toList, "\tif (res != -1)".toList, "\t\tr[".toList,
     "\t\tNONFAILING(r[".toList, "\t\x7d".toList]

/-- The ways in which a line of a fragment of `generateCalls` can end. -/
def fragClosers : List Text := [";".toList, "\x7b".toList, "\x7d".toList, "1)".toList]

/-- The openers of the lines of a fragment whose tabs have been doubled. -/
def tabbedOpeners : List Text := fragOpeners.map (replaceAll "\t".toList "\t\t".toList)

/-- A program of one call whose raw-data copy-ins hold the texts `execute(` and
`fork()`. -/
def sampleTextProg : ExecProg :=
  { Calls :=
      [ { CallName := "write".toList, NR := 1, Index := 0,
          Args := [ExecArg.const { Size := 4, Value := 7 }],
          Copyin :=
            [ { Addr := 0x20000000,
                Arg := ExecArg.data [101, 120, 101, 99, 117, 116, 101, 40] },
              { Addr := 0x20000010, Arg := ExecArg.data [102, 111, 114, 107, 40, 41] } ] } ],
    Vars := [0] }

/-! # Theorems -/

/-! ## Argument formatter: constants -/

theorem digitVal_digitChar (d : Nat) (h : d < 16) : digitVal (Nat.digitChar d) = some d := by
  interval_cases d <;> decide

theorem readDigitsAux_toDigitsCore (b : Nat) (hb : 2 ≤ b) (hb16 : b ≤ 16) :
    ∀ (fuel n : Nat) (rest : Text), n < fuel →
      readDigitsAux b 0 (Nat.toDigitsCore b fuel n rest) = readDigitsAux b n rest := by
  intro fuel
  induction fuel with
  | zero => intro n rest h; omega
  | succ f ih =>
    intro n rest h
    have hmod : n % b < b := Nat.mod_lt _ (by omega)
    have hd : digitVal (Nat.digitChar (n % b)) = some (n % b) :=
      digitVal_digitChar _ (by omega)
    simp only [Nat.toDigitsCore]
    by_cases h0 : n / b = 0
    · simp only [h0, if_true, readDigitsAux, hd, hmod, Nat.zero_mul, Nat.zero_add]
      have : n % b = n := by
        rw [Nat.mod_eq_of_lt]
        exact (Nat.div_eq_zero_iff (by omega)).1 h0
      rw [this]
    · simp only [h0, if_false]
      have hlt : n / b < f := by
        have : n / b < n := Nat.div_lt_self (by
          rcases Nat.eq_zero_or_pos n with h1 | h1
          · subst h1; simp at h0
          · exact h1) hb
        omega
      rw [ih (n / b) _ hlt]
      simp only [readDigitsAux, hd, hmod, if_true]
      rw [Nat.div_add_mod']

theorem toDigitsCore_ne_nil (b : Nat) : ∀ (fuel n : Nat) (rest : Text),
    0 < fuel → Nat.toDigitsCore b fuel n rest ≠ [] := by
  intro fuel
  induction fuel with
  | zero => intro n rest h; omega
  | succ f ih =>
    intro n rest _
    simp only [Nat.toDigitsCore]
    split
    · simp
    · rcases Nat.eq_zero_or_pos f with h1 | h1
      · subst h1; simp [Nat.toDigitsCore]
      · exact ih _ _ h1

theorem readDigits_toDigits (b : Nat) (hb : 2 ≤ b) (hb16 : b ≤ 16) (n : Nat) :
    readDigits b (Nat.toDigits b n) = some n := by
  unfold readDigits Nat.toDigits
  rw [if_neg (toDigitsCore_ne_nil b _ _ _ (by omega))]
  rw [readDigitsAux_toDigitsCore b hb hb16 _ _ _ (by omega)]
  rfl

theorem constMask_eq (size : Nat) (hW : size = 1 ∨ size = 2 ∨ size = 4 ∨ size = 8) :
    sub64 (shl64 1 (mul64 size 8)) 1 = 2 ^ (8 * size) - 1 ∧
      not64 0 &&& (2 ^ (8 * size) - 1) = 2 ^ (8 * size) - 1 := by
  rcases hW with h | h | h | h <;> subst h <;> decide

/-- The literal chosen for a masked value `v`, as in the first part of `constArgToStr`. -/
theorem constArgToStr_plain (opts : Options) (arg : ExecArgConst)
    (hW : arg.Size = 1 ∨ arg.Size = 2 ∨ arg.Size = 4 ∨ arg.Size = 8)
    (hs : arg.PidStride = 0) (hb : arg.BigEndian = false) :
    constArgToStr opts arg =
      if arg.Value % 2 ^ (8 * arg.Size) = 2 ^ (8 * arg.Size) - 1 then "-1".toList
      else if arg.Value % 2 ^ (8 * arg.Size) ≥ 10 then
        "0x".toList ++ fmtHex (arg.Value % 2 ^ (8 * arg.Size))
      else fmtDec (arg.Value % 2 ^ (8 * arg.Size)) := by
  obtain ⟨hm, hn⟩ := constMask_eq arg.Size hW
  unfold constArgToStr
  simp only [hm, hn, hs, hb, Nat.and_pow_two_sub_one_eq_mod, ne_eq, not_true_eq_false,
    and_false, if_false, Bool.false_eq_true]

theorem readCLiteral_small (v : Nat) (h : v < 10) : readCLiteral (fmtDec v) = some (v : Int) := by
  interval_cases v <;> decide

theorem fmtDec_small_ne (v : Nat) (h : v < 10) : fmtDec v ≠ "-1".toList := by
  interval_cases v <;> decide

theorem readCLiteral_hex (v : Nat) :
    readCLiteral ("0x".toList ++ fmtHex v) = some (v : Int) := by
  have h : ∀ rest : Text, readCLiteral ('0' :: 'x' :: rest) =
      match readDigits 16 rest with
      | some n => some (Int.ofNat n)
      | none => none := fun _ => rfl
  show readCLiteral ('0' :: 'x' :: fmtHex v) = some (v : Int)
  rw [h, fmtHex, readDigits_toDigits 16 (by omega) (by omega)]
  rfl

theorem storeUnsigned_natCast (bits v : Nat) (h : v < 2 ^ bits) :
    storeUnsigned bits (v : Int) = v := by
  unfold storeUnsigned
  have : ((v : Int) % (2 : Int) ^ bits) = ((v % 2 ^ bits : Nat) : Int) := by
    push_cast; rfl
  rw [this, Nat.mod_eq_of_lt h]
  simp

theorem storeUnsigned_neg_one (bits : Nat) : storeUnsigned bits (-1) = 2 ^ bits - 1 := by
  unfold storeUnsigned
  have hpos : (0 : Int) < (2 : Int) ^ bits := by positivity
  have h1 : (-1 : Int) % (2 : Int) ^ bits = (2 : Int) ^ bits - 1 := by
    have h2 : (-1 : Int) = ((2 : Int) ^ bits - 1) + (-1) * (2 : Int) ^ bits := by ring
    rw [h2, Int.add_mul_emod_self, Int.emod_eq_of_lt (by omega) (by omega)]
  rw [h1]
  have h2 : (1 : Nat) ≤ 2 ^ bits := Nat.one_le_two_pow
  zify [h2]
  rw [Int.toNat_of_nonneg (by omega)]

/-- C1: for a constant of byte width 1, 2, 4 or 8 without stride and without byte-order flip,
the text returned by `constArgToStr` is a well-formed C integer literal (hexadecimal after
`0x`, decimal otherwise) which, stored into an unsigned integer of `8 * Size` bits, is the
value reduced modulo `2 ^ (8 * Size)`. -/
theorem constArgToStr_denotes (opts : Options) (arg : ExecArgConst)
    (hW : arg.Size = 1 ∨ arg.Size = 2 ∨ arg.Size = 4 ∨ arg.Size = 8)
    (hs : arg.PidStride = 0) (hb : arg.BigEndian = false) :
    (readCLiteral (constArgToStr opts arg)).map (storeUnsigned (8 * arg.Size)) =
      some (arg.Value % 2 ^ (8 * arg.Size)) := by
  rw [constArgToStr_plain opts arg hW hs hb]
  have hlt : arg.Value % 2 ^ (8 * arg.Size) < 2 ^ (8 * arg.Size) :=
    Nat.mod_lt _ (by positivity)
  generalize arg.Value % 2 ^ (8 * arg.Size) = v at hlt ⊢
  split
  · rename_i h
    have : readCLiteral "-1".toList = some (-1 : Int) := by decide
    rw [this, Option.map_some', storeUnsigned_neg_one, h]
  · split
    · rw [readCLiteral_hex, Option.map_some', storeUnsigned_natCast _ _ hlt]
    · rw [readCLiteral_small v (by omega), Option.map_some', storeUnsigned_natCast _ _ hlt]

theorem constArgToStr_denotes_witness :
    (readCLiteral (constArgToStr {} { Size := 2, Value := 0x12345 })).map
        (storeUnsigned (8 * 2)) = some (0x12345 % 2 ^ (8 * 2)) :=
  constArgToStr_denotes {} { Size := 2, Value := 0x12345 } (by decide) rfl rfl

/-- C2: for a constant of byte width 1, 2, 4 or 8 without stride and without byte-order flip,
`constArgToStr` returns exactly `-1` when the low `8 * Size` bits of the value are all ones
(whatever the higher bits), and never returns `-1` otherwise. -/
theorem constArgToStr_minus_one_iff (opts : Options) (arg : ExecArgConst)
    (hW : arg.Size = 1 ∨ arg.Size = 2 ∨ arg.Size = 4 ∨ arg.Size = 8)
    (hs : arg.PidStride = 0) (hb : arg.BigEndian = false) :
    constArgToStr opts arg = "-1".toList ↔
      arg.Value % 2 ^ (8 * arg.Size) = 2 ^ (8 * arg.Size) - 1 := by
  rw [constArgToStr_plain opts arg hW hs hb]
  generalize arg.Value % 2 ^ (8 * arg.Size) = v
  constructor
  · intro h
    by_contra hne
    rw [if_neg hne] at h
    split at h
    · exact absurd h (by intro h'; have := congrArg List.head? h'; simp at this)
    · exact fmtDec_small_ne v (by omega) h
  · intro h
    rw [if_pos h]

theorem constArgToStr_minus_one_iff_witness :
    constArgToStr {} { Size := 1, Value := 0xabcff } = "-1".toList ↔
      0xabcff % 2 ^ (8 * 1) = 2 ^ (8 * 1) - 1 :=
  constArgToStr_minus_one_iff {} { Size := 1, Value := 0xabcff } (by decide) rfl rfl

/-! ## Data escaper -/

theorem scanReadable_of_all (len : Nat) : ∀ (data : List Nat) (i : Nat),
    (∀ b ∈ data, isReadable b = true) → scanReadable len i data = true := by
  intro data
  induction data with
  | nil => intro i _; rfl
  | cons v rest ih =>
    intro i h
    have hv : isReadable v = true := h v (List.mem_cons_self _ _)
    simp only [scanReadable, hv, Bool.not_true, Bool.false_and, Bool.false_eq_true, if_false]
    exact ih _ fun b hb => h b (List.mem_cons_of_mem _ hb)

theorem scanReadable_trailing_zero (len : Nat) : ∀ (data : List Nat) (i : Nat),
    (∀ b ∈ data, isReadable b = true) → i + data.length = len - 1 →
      scanReadable len i (data ++ [0]) = true := by
  intro data
  induction data with
  | nil =>
    intro i _ hi
    simp only [List.length_nil, Nat.add_zero] at hi
    simp [scanReadable, hi]
  | cons v rest ih =>
    intro i h hi
    have hv : isReadable v = true := h v (List.mem_cons_self _ _)
    simp only [List.cons_append, scanReadable, hv, Bool.not_true, Bool.false_and,
      Bool.false_eq_true, if_false]
    refine ih _ (fun b hb => h b (List.mem_cons_of_mem _ hb)) ?_
    simp only [List.length_cons] at hi
    omega

theorem unescapeC_cons_plain (c : Nat) (r : List Nat) (h : c ≠ 92) :
    unescapeC (c :: r) = c :: unescapeC r := by
  cases r with
  | nil => rfl
  | cons d r => simp [unescapeC, h]

theorem isReadable_cases (v : Nat) (h : isReadable v = true) :
    v = 9 ∨ v = 13 ∨ v = 10 ∨ (0x20 ≤ v ∧ v < 0x7f) := by
  simp only [isReadable, Bool.or_eq_true, Bool.and_eq_true, decide_eq_true_eq,
    beq_iff_eq] at h
  omega

theorem escapeReadable_roundtrip : ∀ data : List Nat, (∀ b ∈ data, isReadable b = true) →
    ∃ s, escapeReadable data = some s ∧ unescapeC s = data := by
  intro data
  induction data with
  | nil => intro _; exact ⟨[], rfl, rfl⟩
  | cons v rest ih =>
    intro h
    obtain ⟨r, hr, hu⟩ := ih fun b hb => h b (List.mem_cons_of_mem _ hb)
    have hv := isReadable_cases v (h v (List.mem_cons_self _ _))
    simp only [escapeReadable, hr]
    by_cases h9 : v = 9
    · subst h9; exact ⟨92 :: 116 :: r, rfl, by simp [unescapeC, hu]⟩
    by_cases h13 : v = 13
    · subst h13; exact ⟨92 :: 114 :: r, rfl, by simp [unescapeC, hu]⟩
    by_cases h10 : v = 10
    · subst h10; exact ⟨92 :: 110 :: r, rfl, by simp [unescapeC, hu]⟩
    by_cases h92 : v = 92
    · subst h92; exact ⟨92 :: 92 :: r, rfl, by simp [unescapeC, hu]⟩
    by_cases h34 : v = 34
    · subst h34; exact ⟨92 :: 34 :: r, rfl, by simp [unescapeC, hu]⟩
    have hrange : ¬ (v < 0x20 ∨ v ≥ 0x7f) := by omega
    refine ⟨v :: r, ?_, ?_⟩
    · simp only [h9, h13, h10, h92, h34, hrange, if_false]
      rfl
    · rw [unescapeC_cons_plain v r h92, hu]

theorem getLast?_ne_zero_of_readable (data : List Nat)
    (h : ∀ b ∈ data, isReadable b = true) : data.getLast? ≠ some 0 := by
  intro h0
  have hm : (0 : Nat) ∈ data := List.mem_of_getLast?_eq_some h0
  have := h 0 hm
  simp [isReadable] at this

/-- C3: a non-empty block of readable bytes (visible ASCII, tab, CR, newline) is escaped by
`toCString` to a text that the C string-literal rules unescape to the block itself; the same
block followed by one zero byte gives the same text, so that unescaping and appending the
terminating zero restores it. -/
theorem toCString_roundtrip (data : List Nat) (hne : data ≠ [])
    (hr : ∀ b ∈ data, isReadable b = true) :
    ∃ s, toCString data = some s ∧ unescapeC s = data ∧
      toCString (data ++ [0]) = some s ∧ unescapeC s ++ [0] = data ++ [0] := by
  obtain ⟨s, hs, hu⟩ := escapeReadable_roundtrip data hr
  have hlen : data.length ≠ 0 := by
    intro h; exact hne (List.length_eq_zero.1 h)
  refine ⟨s, ?_, hu, ?_, by rw [hu]⟩
  · unfold toCString
    rw [if_neg hlen, scanReadable_of_all _ _ _ hr]
    simp only [Bool.not_true, Bool.false_eq_true, if_false,
      if_neg (getLast?_ne_zero_of_readable data hr)]
    exact hs
  · unfold toCString
    have h1 : (data ++ [0]).length ≠ 0 := by simp
    rw [if_neg h1, scanReadable_trailing_zero _ _ _ hr (by simp)]
    have h2 : (data ++ [0]).getLast? = some 0 := by simp
    simp only [Bool.not_true, Bool.false_eq_true, if_false, h2, if_true, List.dropLast_concat]
    exact hs

theorem toCString_roundtrip_witness :
    ∃ s, toCString [104, 105, 9, 34, 92, 10] = some s ∧
      unescapeC s = [104, 105, 9, 34, 92, 10] ∧
      toCString ([104, 105, 9, 34, 92, 10] ++ [0]) = some s ∧
      unescapeC s ++ [0] = [104, 105, 9, 34, 92, 10] ++ [0] :=
  toCString_roundtrip [104, 105, 9, 34, 92, 10] (by decide) (by decide)

/-! ## Call emitter: one fragment per call -/

theorem scanReadable_spec (len : Nat) : ∀ (data : List Nat) (i : Nat),
    i + data.length = len → scanReadable len i data = true →
      (∀ b ∈ data.dropLast, isReadable b = true) ∧
      (∀ l, data.getLast? = some l → isReadable l = true ∨ l = 0) := by
  intro data
  induction data with
  | nil => intro i _ _; simp
  | cons v rest ih =>
    intro i hi hs
    simp only [List.length_cons] at hi
    simp only [scanReadable] at hs
    split at hs
    · exact absurd hs (by simp)
    · rename_i hcond
      simp only [Bool.and_eq_true, Bool.not_eq_true', Bool.or_eq_true, bne_iff_ne, ne_eq,
        not_and, not_or, Decidable.not_not] at hcond
      cases rest with
      | nil =>
        refine ⟨by simp, ?_⟩
        intro l hl
        simp only [List.getLast?_singleton, Option.some.injEq] at hl
        subst hl
        by_cases hv : isReadable v = true
        · exact Or.inl hv
        · right
          have := hcond (by simpa using hv)
          exact this.2
      | cons w rest' =>
        have ih' := ih (i + 1) (by simp only [List.length_cons] at hi ⊢; omega) hs
        have hv : isReadable v = true := by
          by_contra hv
          have := hcond (by simpa using hv)
          simp only [List.length_cons] at hi
          omega
        refine ⟨?_, ?_⟩
        · intro b hb
          simp only [List.dropLast_cons₂, List.mem_cons] at hb
          rcases hb with hb | hb
          · subst hb; exact hv
          · exact ih'.1 b hb
        · intro l hl
          exact ih'.2 l (by simpa [List.getLast?_cons_cons] using hl)

theorem escapeReadable_isSome (data : List Nat) (h : ∀ b ∈ data, isReadable b = true) :
    ∃ s, escapeReadable data = some s := by
  obtain ⟨s, hs, _⟩ := escapeReadable_roundtrip data h
  exact ⟨s, hs⟩

theorem toCString_isSome (data : List Nat) : ∃ s, toCString data = some s := by
  unfold toCString
  by_cases h0 : data.length = 0
  · exact ⟨[], by rw [if_pos h0]⟩
  rw [if_neg h0]
  by_cases hs : scanReadable data.length 0 data = true
  · simp only [hs, Bool.not_true, Bool.false_eq_true, if_false]
    obtain ⟨hinit, hlast⟩ := scanReadable_spec data.length data 0 (by simp) hs
    by_cases hl : data.getLast? = some 0
    · rw [if_pos hl]
      exact escapeReadable_isSome _ hinit
    · rw [if_neg hl]
      apply escapeReadable_isSome
      intro b hb
      have hne : data ≠ [] := List.ne_nil_of_mem hb
      rw [← List.dropLast_append_getLast hne] at hb
      simp only [List.mem_append, List.mem_singleton] at hb
      rcases hb with hb | hb
      · exact hinit b hb
      · have hg : data.getLast? = some (data.getLast hne) := List.getLast?_eq_getLast _ hne
        rcases hlast _ hg with h1 | h1
        · rw [hb]; exact h1
        · rw [h1] at hg; exact absurd hg hl
  · simp only [hs, Bool.not_false, if_true]
    exact ⟨_, rfl⟩

theorem csumChunks_isSome (csumSeq : Nat) : ∀ (chunks : List ExecCsumChunk) (i : Nat),
    chunks.all knownChunk = true → ∃ t, csumChunks csumSeq i chunks = some t := by
  intro chunks
  induction chunks with
  | nil => intro i _; exact ⟨[], rfl⟩
  | cons c rest ih =>
    intro i h
    simp only [List.all_cons, Bool.and_eq_true] at h
    obtain ⟨t, ht⟩ := ih (i + 1) h.2
    have hc := h.1
    simp only [knownChunk, Bool.or_eq_true, beq_iff_eq] at hc
    simp only [csumChunks, ht]
    rcases hc with hc | hc
    · rw [if_pos hc]; exact ⟨_, rfl⟩
    · by_cases hd : c.Kind = ExecArgCsumChunkData
      · rw [if_pos hd]; exact ⟨_, rfl⟩
      · rw [if_neg hd, if_pos hc]; exact ⟨_, rfl⟩

theorem copyinStep_isSome (opts : Options) (csumSeq : Nat) (copyin : ExecCopyin)
    (h : knownCopyin copyin = true) :
    ∃ t, copyinStep opts csumSeq copyin =
      some (t, csumSeq + if isCsum copyin = true then 1 else 0) := by
  obtain ⟨addr, arg⟩ := copyin
  cases arg with
  | const a =>
    simp only [copyinStep, isCsum]
    split <;> exact ⟨_, rfl⟩
  | result a => exact ⟨_, rfl⟩
  | data d =>
    obtain ⟨s, hs⟩ := toCString_isSome d
    simp only [copyinStep, isCsum, hs]
    exact ⟨_, rfl⟩
  | csum a =>
    simp only [knownCopyin, Bool.and_eq_true, beq_iff_eq] at h
    obtain ⟨t, ht⟩ := csumChunks_isSome (csumSeq + 1) a.Chunks 0 h.2
    simp only [copyinStep, isCsum, h.1, if_true, ht]
    exact ⟨_, rfl⟩

theorem copyinLoop_isSome (opts : Options) : ∀ (copyins : List ExecCopyin) (w : Text)
    (csumSeq : Nat), copyins.all knownCopyin = true →
      ∃ w1, copyinLoop opts w csumSeq copyins =
        some (w1, csumSeq + (copyins.filter isCsum).length) := by
  intro copyins
  induction copyins with
  | nil => intro w n _; exact ⟨w, rfl⟩
  | cons c rest ih =>
    intro w n h
    simp only [List.all_cons, Bool.and_eq_true] at h
    obtain ⟨t, ht⟩ := copyinStep_isSome opts n c h.1
    obtain ⟨w1, hw1⟩ := ih (w ++ t) (n + if isCsum c = true then 1 else 0) h.2
    refine ⟨w1, ?_⟩
    simp only [copyinLoop, ht, hw1, List.filter_cons]
    by_cases hc : isCsum c = true
    · simp only [hc, if_true, List.length_cons]
      congr 2; omega
    · simp only [hc, if_false, Bool.false_eq_true, Nat.add_zero]

theorem callArgs_isSome (opts : Options) (native : Bool) : ∀ (args : List ExecArg) (ai : Nat),
    args.all knownArg = true → ∃ t, callArgs opts native ai args = some t := by
  intro args
  induction args with
  | nil => intro ai _; exact ⟨[], rfl⟩
  | cons a rest ih =>
    intro ai h
    simp only [List.all_cons, Bool.and_eq_true] at h
    obtain ⟨t, ht⟩ := ih (ai + 1) h.2
    cases a with
    | const c => simp only [callArgs, ht]; exact ⟨_, rfl⟩
    | result c => simp only [callArgs, ht]; exact ⟨_, rfl⟩
    | data d => exact absurd h.1 (by simp [knownArg])
    | csum c => exact absurd h.1 (by simp [knownArg])

theorem generateCall_isSome (opts : Options) (sysTarget : SysTarget) (ci csumSeq : Nat)
    (call : ExecCall) (h : knownCall call = true) :
    ∃ w, generateCall opts sysTarget ci csumSeq call = some (w, csumSeq + csumCount call) := by
  simp only [knownCall, Bool.and_eq_true] at h
  obtain ⟨w1, hw1⟩ := copyinLoop_isSome opts call.Copyin [] csumSeq h.1
  have hinv : ∃ inv, invocationText opts sysTarget call = some inv := by
    unfold invocationText
    by_cases he : emitCall opts call.CallName = true
    · obtain ⟨t, ht⟩ := callArgs_isSome opts
        (!("syz_".toList.isPrefixOf call.CallName)) call.Args 0 h.2
      simp only [he, if_true, ht]
      exact ⟨_, rfl⟩
    · simp only [he, if_false, Bool.false_eq_true]
      exact ⟨_, rfl⟩
  obtain ⟨inv, hinv⟩ := hinv
  simp only [generateCall, hw1, hinv, csumCount]
  exact ⟨_, rfl⟩

theorem csumBefore_zero (calls : List ExecCall) : csumBefore calls 0 = 0 := by
  simp [csumBefore]

theorem csumBefore_succ (call : ExecCall) (rest : List ExecCall) (i : Nat) :
    csumBefore (call :: rest) (i + 1) = csumCount call + csumBefore rest i := by
  simp [csumBefore]

theorem generateCallsLoop_spec (opts : Options) (sysTarget : SysTarget) :
    ∀ (calls : List ExecCall) (ci csumSeq : Nat) (acc : List Text),
      calls.all knownCall = true →
      ∃ frags, generateCallsLoop opts sysTarget ci csumSeq acc calls = some (acc ++ frags) ∧
        frags.length = calls.length ∧
        ∀ i call, calls[i]? = some call →
          ∃ w, generateCall opts sysTarget (ci + i) (csumSeq + csumBefore calls i) call =
              some (w, csumSeq + csumBefore calls (i + 1)) ∧
            frags[i]? = some w := by
  intro calls
  induction calls with
  | nil =>
    intro ci n acc _
    exact ⟨[], by simp [generateCallsLoop], rfl, by simp⟩
  | cons c rest ih =>
    intro ci n acc h
    simp only [List.all_cons, Bool.and_eq_true] at h
    obtain ⟨w, hw⟩ := generateCall_isSome opts sysTarget ci n c h.1
    obtain ⟨frags, hf, hlen, hall⟩ := ih (ci + 1) (n + csumCount c) (acc ++ [w]) h.2
    refine ⟨w :: frags, ?_, by simp [hlen], ?_⟩
    · simp only [generateCallsLoop, hw, hf, List.append_assoc, List.singleton_append]
    · intro i call hi
      cases i with
      | zero =>
        simp only [List.getElem?_cons_zero, Option.some.injEq] at hi
        subst hi
        refine ⟨w, ?_, by simp⟩
        rw [csumBefore_zero, csumBefore_succ, csumBefore_zero]
        simpa using hw
      | succ j =>
        simp only [List.getElem?_cons_succ] at hi
        obtain ⟨w', hw', hget⟩ := hall j call hi
        refine ⟨w', ?_, by simpa using hget⟩
        rw [csumBefore_succ, csumBefore_succ]
        have e1 : ci + (j + 1) = ci + 1 + j := by omega
        rw [e1, ← Nat.add_assoc, ← Nat.add_assoc]
        exact hw'

/-- C4: for a decoded program of known variants, `generateCalls` returns one fragment per
call in call order (the `i`-th fragment is the one `generateCall` builds from the `i`-th
call, at its ordinal and at the checksum counter reached before it, whether or not its
invocation is emitted), together with the program's own `Vars`. -/
theorem generateCalls_one_fragment_per_call (opts : Options) (sysTarget : SysTarget)
    (p : ExecProg) (hk : p.Calls.all knownCall = true) :
    ∃ frags, generateCalls opts sysTarget p = some (frags, p.Vars) ∧
      frags.length = p.Calls.length ∧
      ∀ i call, p.Calls[i]? = some call →
        ∃ w n, generateCall opts sysTarget i (csumBefore p.Calls i) call = some (w, n) ∧
          frags[i]? = some w := by
  obtain ⟨frags, hf, hlen, hall⟩ := generateCallsLoop_spec opts sysTarget p.Calls 0 0 [] hk
  refine ⟨frags, ?_, hlen, ?_⟩
  · simp only [generateCalls, hf, List.nil_append]
  · intro i call hi
    obtain ⟨w, hw, hget⟩ := hall i call hi
    exact ⟨w, _, by simpa using hw, hget⟩

theorem generateCalls_one_fragment_per_call_witness :
    ∃ frags, generateCalls {} sampleSysTarget sampleProg = some (frags, sampleProg.Vars) ∧
      frags.length = sampleProg.Calls.length ∧
      ∀ i call, sampleProg.Calls[i]? = some call →
        ∃ w n, generateCall {} sampleSysTarget i (csumBefore sampleProg.Calls i) call =
            some (w, n) ∧
          frags[i]? = some w :=
  generateCalls_one_fragment_per_call {} sampleSysTarget sampleProg (by decide)

/-! ## Text occurrences -/

theorem occ_nil (pat : Text) : occ pat [] = 0 := rfl

theorem occ_cons (pat : Text) (c : Char) (t : Text) :
    occ pat (c :: t) = (if pat <+: c :: t then 1 else 0) + occ pat t := rfl

theorem prefix_append_block {pat a : Text} (b : Text) (hp : LineMarker pat)
    (ha : a.getLast? = some '\n') : pat <+: a ++ b ↔ pat <+: a := by
  constructor
  · intro h
    rcases List.prefix_or_prefix_of_prefix h (List.prefix_append a b) with h1 | h1
    · exact h1
    · -- `a` is a proper prefix of `pat` unless they are equal
      obtain ⟨r, hr⟩ := h1
      cases r with
      | nil => rw [List.append_nil] at hr; rw [hr]
      | cons x r =>
        exfalso
        apply hp.2
        have hane : a ≠ [] := by intro h0; rw [h0] at ha; simp at ha
        have hmem : '\n' ∈ a := List.mem_of_getLast?_eq_some ha
        rw [← hr]
        have : (a ++ x :: r).dropLast = a ++ (x :: r).dropLast := by
          rw [List.dropLast_append_of_ne_nil _ (by simp)]
        rw [this]
        exact List.mem_append_left _ hmem
  · intro h
    exact h.trans (List.prefix_append a b)

theorem occ_append_block (pat : Text) (hp : LineMarker pat) :
    ∀ (a b : Text), LineBlock a → occ pat (a ++ b) = occ pat a + occ pat b := by
  intro a
  induction a with
  | nil => intro b _; simp [occ_nil]
  | cons x a ih =>
    intro b hab
    have hlast : (x :: a).getLast? = some '\n' := by
      rcases hab with h | h
      · exact absurd h (by simp)
      · exact h
    have hpre : (pat <+: (x :: a) ++ b) ↔ (pat <+: x :: a) := prefix_append_block b hp hlast
    cases a with
    | nil =>
      -- the block is the single newline
      simp only [List.getLast?_singleton, Option.some.injEq] at hlast
      subst hlast
      simp only [List.singleton_append] at hpre ⊢
      rw [occ_cons, occ_cons, occ_nil]
      simp only [hpre, Nat.add_zero]
    | cons y a =>
      have hblock : LineBlock (y :: a) := Or.inr (by simpa [List.getLast?_cons_cons] using hlast)
      have := ih b hblock
      rw [List.cons_append, occ_cons, this, occ_cons pat x (y :: a)]
      simp only [List.cons_append] at hpre ⊢
      simp only [hpre]
      omega

theorem lineBlock_nil : LineBlock [] := Or.inl rfl

theorem lineBlock_append {a b : Text} (ha : LineBlock a) (hb : LineBlock b) :
    LineBlock (a ++ b) := by
  rcases hb with hb | hb
  · subst hb; simpa using ha
  · right
    have hne : b ≠ [] := by intro h0; rw [h0] at hb; simp at hb
    rw [List.getLast?_append_of_ne_nil _ hne]
    exact hb

theorem lineBlock_append_right (a : Text) {b : Text} (hb : b.getLast? = some '\n') :
    LineBlock (a ++ b) := by
  right
  have hne : b ≠ [] := by intro h0; rw [h0] at hb; simp at hb
  rw [List.getLast?_append_of_ne_nil _ hne]
  exact hb

theorem lineBlock_ite (c : Prop) [Decidable c] {a b : Text} (ha : LineBlock a)
    (hb : LineBlock b) : LineBlock (if c then a else b) := by
  split <;> assumption

theorem lineBlock_flatten : ∀ (frags : List Text), (∀ f ∈ frags, LineBlock f) →
    LineBlock frags.flatten := by
  intro frags
  induction frags with
  | nil => intro _; exact lineBlock_nil
  | cons f rest ih =>
    intro h
    rw [List.flatten_cons]
    exact lineBlock_append (h f (List.mem_cons_self _ _))
      (ih fun g hg => h g (List.mem_cons_of_mem _ hg))

theorem occ_flatten_zero (pat : Text) (hp : LineMarker pat) : ∀ (frags : List Text),
    (∀ f ∈ frags, LineBlock f) → (∀ f ∈ frags, occ pat f = 0) → occ pat frags.flatten = 0 := by
  intro frags
  induction frags with
  | nil => intro _ _; rfl
  | cons f rest ih =>
    intro hb h0
    rw [List.flatten_cons, occ_append_block pat hp _ _ (hb f (List.mem_cons_self _ _)),
      h0 f (List.mem_cons_self _ _),
      ih (fun g hg => hb g (List.mem_cons_of_mem _ hg))
        (fun g hg => h0 g (List.mem_cons_of_mem _ hg))]

theorem occ_skip (p : Char) (ps : Text) : ∀ (h t : Text), p ∉ h →
    occ (p :: ps) (h ++ t) = occ (p :: ps) t := by
  intro h
  induction h with
  | nil => intro t _; rfl
  | cons x h ih =>
    intro t hx
    simp only [List.mem_cons, not_or] at hx
    rw [List.cons_append, occ_cons, ih t hx.2]
    have : ¬ (p :: ps <+: x :: (h ++ t)) := by
      intro hpre
      rw [List.cons_prefix_cons] at hpre
      exact hx.1 hpre.1
    rw [if_neg this, Nat.zero_add]

theorem occ_skip_all (p : Char) (ps : Text) (h : Text) (hp : p ∉ h) : occ (p :: ps) h = 0 := by
  have := occ_skip p ps h [] hp
  rwa [List.append_nil, occ_nil] at this

theorem occ_cons_zero {pat : Text} {x : Char} {t : Text} (h : occ pat (x :: t) = 0) :
    ¬ pat <+: x :: t ∧ occ pat t = 0 := by
  rw [occ_cons] at h
  by_cases hp : pat <+: x :: t
  · rw [if_pos hp] at h; omega
  · rw [if_neg hp] at h; exact ⟨hp, by omega⟩

theorem occ_cons_pat_le (c : Char) (q : Text) : ∀ t : Text, occ q t = 0 → occ (c :: q) t = 0 := by
  intro t
  induction t with
  | nil => intro _; rfl
  | cons x t ih =>
    intro h
    obtain ⟨_, h2⟩ := occ_cons_zero h
    rw [occ_cons, ih h2]
    have : ¬ (c :: q <+: x :: t) := by
      intro hpre
      rw [List.cons_prefix_cons] at hpre
      cases t with
      | nil =>
        have hq : q = [] := List.prefix_nil.1 hpre.2
        subst hq
        rw [occ_cons] at h
        simp at h
      | cons y t =>
        obtain ⟨h3, _⟩ := occ_cons_zero h2
        exact h3 hpre.2
    rw [if_neg this]

/-! ## Doubling of tabs in the indexed dispatch routine -/

/-- The replacement of every tab by two tabs, character by character. -/
theorem replaceAll_tab (c : Text) :
    replaceAll "\t".toList "\t\t".toList c =
      c.flatMap fun x => if x = '\t' then ['\t', '\t'] else [x] := by
  unfold replaceAll
  induction c with
  | nil => rfl
  | cons x c ih =>
    by_cases hx : x = '\t'
    · subst hx
      have hpre : "\t".toList <+: '\t' :: c := by
        show ['\t'] <+: '\t' :: c
        rw [List.cons_prefix_cons]; exact ⟨rfl, List.nil_prefix⟩
      simp only [replaceAux, hpre, if_true, List.flatMap_cons]
      show "\t\t".toList ++ replaceAux "\t".toList "\t\t".toList 0 c = _
      rw [ih]
      rfl
    · have hpre : ¬ "\t".toList <+: x :: c := by
        show ¬ ['\t'] <+: x :: c
        rw [List.cons_prefix_cons]
        intro h; exact hx h.1.symm
      simp only [replaceAux, hpre, if_false, List.flatMap_cons, hx]
      rw [ih]
      rfl

theorem prefix_of_prefix_tabbed (q : Text) (hq : '\t' ∉ q) : ∀ c : Text,
    q <+: replaceAll "\t".toList "\t\t".toList c → q <+: c := by
  induction q with
  | nil => intro c _; exact List.nil_prefix
  | cons a q ih =>
    intro c h
    simp only [List.mem_cons, not_or] at hq
    rw [replaceAll_tab] at h
    cases c with
    | nil => simp at h
    | cons x c =>
      rw [List.flatMap_cons] at h
      by_cases hx : x = '\t'
      · subst hx
        simp only [if_true, List.cons_append, List.nil_append, List.cons_prefix_cons] at h
        exact absurd h.1.symm hq.1
      · simp only [hx, if_false, List.cons_append, List.nil_append,
          List.cons_prefix_cons] at h
        rw [List.cons_prefix_cons]
        refine ⟨h.1, ih hq.2 c ?_⟩
        rw [replaceAll_tab]
        exact h.2

theorem occ_tabbed_zero (a : Char) (q : Text) (hq : '\t' ∉ a :: q) : ∀ c : Text,
    occ (a :: q) c = 0 → occ (a :: q) (replaceAll "\t".toList "\t\t".toList c) = 0 := by
  intro c
  induction c with
  | nil => intro _; rfl
  | cons x c ih =>
    intro h
    obtain ⟨h1, h2⟩ := occ_cons_zero h
    have ih' := ih h2
    rw [replaceAll_tab] at ih' ⊢
    rw [List.flatMap_cons]
    have ha : a ≠ '\t' := by
      intro h0; apply hq; rw [h0]; exact List.mem_cons_self _ _
    by_cases hx : x = '\t'
    · subst hx
      simp only [if_true, List.cons_append, List.nil_append]
      rw [occ_cons, occ_cons, ih']
      have n1 : ∀ t : Text, ¬ (a :: q <+: '\t' :: t) := by
        intro t hpre
        rw [List.cons_prefix_cons] at hpre
        exact ha hpre.1
      rw [if_neg (n1 _), if_neg (n1 _)]
    · simp only [hx, if_false, List.cons_append, List.nil_append]
      rw [occ_cons, ih']
      have : ¬ (a :: q <+: x :: c.flatMap fun x => if x = '\t' then ['\t', '\t'] else [x]) := by
        intro hpre
        apply h1
        have h3 : a :: q <+: replaceAll "\t".toList "\t\t".toList (x :: c) := by
          rw [replaceAll_tab, List.flatMap_cons]
          simpa [hx] using hpre
        exact prefix_of_prefix_tabbed (a :: q) hq (x :: c) h3
      rw [if_neg this]

theorem lineBlock_tabbed (c : Text) (h : LineBlock c) :
    LineBlock (replaceAll "\t".toList "\t\t".toList c) := by
  rcases h with h | h
  · subst h; exact Or.inl rfl
  · right
    have hne : c ≠ [] := by intro h0; rw [h0] at h; simp at h
    have hc : c = c.dropLast ++ ['\n'] := by
      have := List.dropLast_append_getLast hne
      rw [List.getLast?_eq_getLast _ hne, Option.some.injEq] at h
      rw [h] at this
      exact this.symm
    rw [replaceAll_tab, hc, List.flatMap_append]
    simp

theorem occ_zero_of_prefix_marker {q pat : Text} (hq : q <+: pat) : ∀ t : Text,
    occ q t = 0 → occ pat t = 0 := by
  intro t
  induction t with
  | nil => intro _; rfl
  | cons x t ih =>
    intro h
    obtain ⟨h1, h2⟩ := occ_cons_zero h
    rw [occ_cons, ih h2, if_neg fun hp => h1 (hq.trans hp)]

theorem occ_eq_zero_iff (pat : Text) (hp : pat ≠ []) : ∀ t : Text,
    occ pat t = 0 ↔ ¬ pat <:+: t := by
  intro t
  induction t with
  | nil =>
    simp only [occ_nil, true_iff]
    intro h
    exact hp (List.infix_nil.1 h)
  | cons x t ih =>
    rw [occ_cons, List.infix_cons_iff, not_or, ← ih]
    by_cases h : pat <+: x :: t
    · simp [h]
    · simp [h]

theorem occ_zero_of_infix_marker {q pat : Text} (hp : pat ≠ []) (hqp : q <:+: pat)
    (t : Text) (h : ¬ q <:+: t) : occ pat t = 0 := by
  rw [occ_eq_zero_iff pat hp]
  intro h1
  exact h (hqp.trans h1)

theorem occ_ite_block (pat : Text) (hp : LineMarker pat) (c : Prop) [Decidable c]
    (s t : Text) (hs : LineBlock s) :
    occ pat ((if c then s else []) ++ t) = (if c then occ pat s else 0) + occ pat t := by
  by_cases h : c
  · rw [if_pos h, if_pos h, occ_append_block pat hp _ _ hs]
  · rw [if_neg h, if_neg h, List.nil_append, Nat.zero_add]

theorem not_prefix_hole (pre post : Text) (c : Char) (a t : Text) (ha : a ≠ []) (hc : c ∉ a)
    (ht : ∀ j, 1 ≤ j → j ≤ pre.length → ¬ (pre ++ c :: post).drop j <+: t) :
    ¬ (pre ++ c :: post) <+: a ++ t := by
  intro h
  by_cases hk : pre.length < a.length
  · -- the separator would be a character of the hole
    have h1 : pre ++ [c] <+: a ++ t :=
      (List.prefix_append_right_inj pre |>.2 (by simp : [c] <+: c :: post)).trans h
    have h2 : pre ++ [c] <+: a :=
      List.prefix_of_prefix_length_le h1 (List.prefix_append a t) (by simp; omega)
    exact hc (h2.mem (by simp))
  · -- the hole is a prefix of the marker and the rest of the marker starts the tail
    have hlen : a.length ≤ (pre ++ c :: post).length := by simp; omega
    have h2 : a <+: pre ++ c :: post :=
      List.prefix_of_prefix_length_le (List.prefix_append a t) h hlen
    obtain ⟨r, hr⟩ := h2
    have h3 : r <+: t := by
      rw [← hr] at h
      exact (List.prefix_append_right_inj a).1 h
    have h4 : (pre ++ c :: post).drop a.length = r := by
      rw [← hr, List.drop_left]
    have hpos : 1 ≤ a.length := by
      cases a with
      | nil => exact absurd rfl ha
      | cons _ _ => simp
    exact ht a.length hpos (by omega) (h4 ▸ h3)

theorem occ_skip_sep (pre post : Text) (c : Char) : ∀ (h t : Text), c ∉ h →
    (∀ j, 1 ≤ j → j ≤ pre.length → ¬ (pre ++ c :: post).drop j <+: t) →
    occ (pre ++ c :: post) (h ++ t) = occ (pre ++ c :: post) t := by
  intro h
  induction h with
  | nil => intro t _ _; rfl
  | cons x h ih =>
    intro t hc ht
    have hc' : c ∉ h := fun hm => hc (List.mem_cons_of_mem _ hm)
    rw [List.cons_append, occ_cons, ih t hc' ht]
    have := not_prefix_hole pre post c (x :: h) t (by simp) hc ht
    rw [List.cons_append] at this
    rw [if_neg this, Nat.zero_add]

theorem occ_skip_head (pat h t : Text) (hh : ∃ p ps, pat = p :: ps ∧ p ∉ h) :
    occ pat (h ++ t) = occ pat t := by
  obtain ⟨p, ps, rfl, hp⟩ := hh
  exact occ_skip p ps h t hp

theorem occ_skip_at (pat h t : Text) (pre post : Text) (c : Char)
    (hpat : pat = pre ++ c :: post) (hc : c ∉ h)
    (ht : ∀ j, 1 ≤ j → j ≤ pre.length → ¬ pat.drop j <+: t) :
    occ pat (h ++ t) = occ pat t := by
  subst hpat
  exact occ_skip_sep pre post c h t hc ht

/-! ## Additive counts -/

theorem additive_occ (pat : Text) (hp : LineMarker pat) : Additive (occ pat) :=
  fun a b ha => occ_append_block pat hp a b ha

theorem additive_ite (c : Text → Nat) (hc : Additive c) (p : Prop) [Decidable p]
    (s t : Text) (hs : LineBlock s) :
    c ((if p then s else []) ++ t) = (if p then c s else 0) + c t := by
  by_cases h : p
  · rw [if_pos h, if_pos h, hc _ _ hs]
  · rw [if_neg h, if_neg h, List.nil_append, Nat.zero_add]

theorem getLast?_append_right (b : Text) {c : Text} {x : Char} (hc : c.getLast? = some x) :
    (b ++ c).getLast? = some x := by
  have hne : c ≠ [] := by intro h0; rw [h0] at hc; simp at hc
  rw [List.getLast?_append_of_ne_nil _ hne]
  exact hc

theorem lineBlock3 (a b : Text) {c : Text} (hc : c.getLast? = some '\n') :
    LineBlock (a ++ (b ++ c)) :=
  Or.inr (getLast?_append_right a (getLast?_append_right b hc))

theorem additive_block3 (c : Text → Nat) (hc : Additive c) (a b d t : Text)
    (hd : d.getLast? = some '\n') :
    c (a ++ (b ++ (d ++ t))) = c (a ++ (b ++ d)) + c t := by
  rw [← List.append_assoc b, ← List.append_assoc a, hc _ _ (lineBlock3 a b hd)]

theorem additive_flatten_zero (c : Text → Nat) (hc : Additive c) (h0 : c [] = 0) :
    ∀ frags : List Text, (∀ f ∈ frags, LineBlock f) → (∀ f ∈ frags, c f = 0) →
      c frags.flatten = 0 := by
  intro frags
  induction frags with
  | nil => intro _ _; exact h0
  | cons f rest ih =>
    intro hb hz
    rw [List.flatten_cons, hc _ _ (hb f (List.mem_cons_self _ _)),
      hz f (List.mem_cons_self _ _),
      ih (fun g hg => hb g (List.mem_cons_of_mem _ hg))
        (fun g hg => hz g (List.mem_cons_of_mem _ hg))]

/-! ## Characters produced by the formatting verbs -/

theorem toDigitsCore_chars (b : Nat) (hb : 0 < b) : ∀ (fuel n : Nat) (acc : Text) (c : Char),
    c ∈ Nat.toDigitsCore b fuel n acc → c ∈ acc ∨ ∃ d, d < b ∧ c = Nat.digitChar d := by
  intro fuel
  induction fuel with
  | zero => intro n acc c h; exact Or.inl h
  | succ f ih =>
    intro n acc c h
    simp only [Nat.toDigitsCore] at h
    split at h
    · simp only [List.mem_cons] at h
      rcases h with h | h
      · exact Or.inr ⟨n % b, Nat.mod_lt _ hb, h⟩
      · exact Or.inl h
    · rcases ih _ _ _ h with h1 | h1
      · simp only [List.mem_cons] at h1
        rcases h1 with h1 | h1
        · exact Or.inr ⟨n % b, Nat.mod_lt _ hb, h1⟩
        · exact Or.inl h1
      · exact Or.inr h1

theorem fmtDec_chars (n : Nat) (c : Char) (h : c ∈ fmtDec n) : c ∈ "0123456789".toList := by
  rcases toDigitsCore_chars 10 (by omega) _ _ _ c h with h1 | ⟨d, hd, rfl⟩
  · simp at h1
  · interval_cases d <;> decide

theorem fmtHex_chars (n : Nat) (c : Char) (h : c ∈ fmtHex n) :
    c ∈ "0123456789abcdef".toList := by
  rcases toDigitsCore_chars 16 (by omega) _ _ _ c h with h1 | ⟨d, hd, rfl⟩
  · simp at h1
  · interval_cases d <;> decide

theorem fmtInt_chars (i : Int) (c : Char) (h : c ∈ fmtInt i) : c ∈ "-0123456789".toList := by
  cases i with
  | ofNat n =>
    have := fmtDec_chars n c h
    revert this
    generalize c = x
    simp only [String.toList, List.mem_cons]
    tauto
  | negSucc n =>
    simp only [fmtInt, List.mem_cons] at h
    rcases h with h | h
    · subst h; decide
    · have := fmtDec_chars _ c h
      revert this
      simp only [String.toList, List.mem_cons]
      tauto

theorem not_mem_fmtDec {p : Char} (hp : p ∉ "0123456789".toList) (n : Nat) : p ∉ fmtDec n :=
  fun h => hp (fmtDec_chars n p h)

theorem not_mem_fmtHex {p : Char} (hp : p ∉ "0123456789abcdef".toList) (n : Nat) :
    p ∉ fmtHex n :=
  fun h => hp (fmtHex_chars n p h)

theorem not_mem_fmtInt {p : Char} (hp : p ∉ "-0123456789".toList) (i : Int) : p ∉ fmtInt i :=
  fun h => hp (fmtInt_chars i p h)

theorem fmtDec_ne_nil (n : Nat) : fmtDec n ≠ [] :=
  toDigitsCore_ne_nil 10 _ _ _ (by omega)

theorem fmtHex_ne_nil (n : Nat) : fmtHex n ≠ [] :=
  toDigitsCore_ne_nil 16 _ _ _ (by omega)

/-! ## Dispatch shape -/

theorem occ_flatten_skip (pat : Text) (hp : LineMarker pat) (frags : List Text)
    (hb : ∀ f ∈ frags, LineBlock f) (h0 : ∀ f ∈ frags, occ pat f = 0) (t : Text) :
    occ pat (frags.flatten ++ t) = occ pat t := by
  rw [occ_append_block pat hp _ _ (lineBlock_flatten frags hb),
    occ_flatten_zero pat hp frags hb h0, Nat.zero_add]

theorem lineBlock_caseLoop : ∀ (calls : List Text) (i : Nat), (∀ f ∈ calls, LineBlock f) →
    LineBlock (caseLoop i calls) := by
  intro calls
  induction calls with
  | nil => intro i _; exact lineBlock_nil
  | cons c rest ih =>
    intro i hb
    simp only [caseLoop]
    exact lineBlock_append (lineBlock_append_right _ (by decide))
      (ih (i + 1) fun f hf => hb f (List.mem_cons_of_mem _ hf))

theorem occ_caseLoop_skip (a : Char) (q : Text) (hp : LineMarker ('\t' :: a :: q))
    (hq : '\t' ∉ a :: q)
    (hcase : ∀ (i : Nat) (t : Text),
      occ ('\t' :: a :: q) ("\tcase ".toList ++ (fmtDec i ++ (":\n".toList ++ t))) =
        occ ('\t' :: a :: q) t)
    (hbreak : ∀ t : Text,
      occ ('\t' :: a :: q) ("\t\tbreak;\n".toList ++ t) = occ ('\t' :: a :: q) t) :
    ∀ (calls : List Text) (i : Nat) (t : Text), (∀ f ∈ calls, LineBlock f) →
      (∀ f ∈ calls, occ (a :: q) f = 0) →
      occ ('\t' :: a :: q) (caseLoop i calls ++ t) = occ ('\t' :: a :: q) t := by
  intro calls
  induction calls with
  | nil => intro i t _ _; rfl
  | cons c rest ih =>
    intro i t hb h0
    have hc0 : occ ('\t' :: a :: q) (replaceAll "\t".toList "\t\t".toList c) = 0 :=
      occ_cons_pat_le _ _ _ (occ_tabbed_zero a q hq c (h0 c (List.mem_cons_self _ _)))
    simp only [caseLoop, List.append_assoc]
    rw [hcase, occ_append_block _ hp _ _ (lineBlock_tabbed c (hb c (List.mem_cons_self _ _))),
      hc0, Nat.zero_add, hbreak]
    exact ih (i + 1) t (fun f hf => hb f (List.mem_cons_of_mem _ hf))
      (fun f hf => h0 f (List.mem_cons_of_mem _ hf))

theorem suffix_append_of_suffix {s a b : Text} (h : s <:+ b) : s <:+ a ++ b :=
  h.trans (List.suffix_append a b)

theorem occ_execute_hdr (t : Text) :
    occ "\texecute(".toList ("void execute_call(int call)\n\x7b\n".toList ++ t) = occ "\texecute(".toList t := by
  rw [occ_append_block _ (by decide) _ _ (by decide)]
  have : occ "\texecute(".toList "void execute_call(int call)\n\x7b\n".toList = 0 := by decide
  omega

theorem occ_execute_switch (t : Text) :
    occ "\texecute(".toList ("\tswitch (call) \x7b\n".toList ++ t) = occ "\texecute(".toList t := by
  rw [occ_append_block _ (by decide) _ _ (by decide)]
  have : occ "\texecute(".toList "\tswitch (call) \x7b\n".toList = 0 := by decide
  omega

theorem occ_execute_close (t : Text) :
    occ "\texecute(".toList ("\t\x7d\n".toList ++ t) = occ "\texecute(".toList t := by
  rw [occ_append_block _ (by decide) _ _ (by decide)]
  have : occ "\texecute(".toList "\t\x7d\n".toList = 0 := by decide
  omega

theorem occ_execute_end (t : Text) :
    occ "\texecute(".toList ("\x7d\n\n".toList ++ t) = occ "\texecute(".toList t := by
  rw [occ_append_block _ (by decide) _ _ (by decide)]
  have : occ "\texecute(".toList "\x7d\n\n".toList = 0 := by decide
  omega

theorem occ_execute_res (hasVars : Bool) (t : Text) :
    occ "\texecute(".toList ((if hasVars = true then "\tlong res;".toList else []) ++ t) =
      occ "\texecute(".toList t := by
  cases hasVars <;> simp [occ_cons]

theorem occ_execute_void (name t : Text) (hn : '\t' ∉ name) :
    occ "\texecute(".toList ("void ".toList ++ (name ++ ("()\n\x7b\n".toList ++ t))) =
      occ "\texecute(".toList t := by
  simp [occ_cons, occ_skip, hn]

theorem occ_execute_debug (b : Bool) (name t : Text) (hn : '\t' ∉ name) :
    occ "\texecute(".toList
        ((if b = true then "\tdebug(\"".toList ++ (name ++ "\\n\");\n".toList) else []) ++ t) =
      occ "\texecute(".toList t := by
  cases b <;> simp [occ_cons, occ_skip, hn]

theorem occ_execute_repro (b : Bool) (t : Text) :
    occ "\texecute(".toList
        ((if b = true then
          "\tsyscall(SYS_write, 1, \"executing program\\n\", strlen(\"executing program\\n\"));\n".toList
         else []) ++ t) =
      occ "\texecute(".toList t := by
  cases b
  · simp
  · rw [if_pos rfl, occ_append_block _ (by decide) _ _ (by decide)]
    have : occ "\texecute(".toList
        "\tsyscall(SYS_write, 1, \"executing program\\n\", strlen(\"executing program\\n\"));\n".toList
        = 0 := by decide
    omega

theorem occ_collide_hdr (t : Text) :
    occ "\tcollide = 1;\n".toList ("void execute_call(int call)\n\x7b\n".toList ++ t) = occ "\tcollide = 1;\n".toList t := by
  rw [occ_append_block _ (by decide) _ _ (by decide)]
  have : occ "\tcollide = 1;\n".toList "void execute_call(int call)\n\x7b\n".toList = 0 := by decide
  omega

theorem occ_collide_switch (t : Text) :
    occ "\tcollide = 1;\n".toList ("\tswitch (call) \x7b\n".toList ++ t) = occ "\tcollide = 1;\n".toList t := by
  rw [occ_append_block _ (by decide) _ _ (by decide)]
  have : occ "\tcollide = 1;\n".toList "\tswitch (call) \x7b\n".toList = 0 := by decide
  omega

theorem occ_collide_close (t : Text) :
    occ "\tcollide = 1;\n".toList ("\t\x7d\n".toList ++ t) = occ "\tcollide = 1;\n".toList t := by
  rw [occ_append_block _ (by decide) _ _ (by decide)]
  have : occ "\tcollide = 1;\n".toList "\t\x7d\n".toList = 0 := by decide
  omega

theorem occ_collide_end (t : Text) :
    occ "\tcollide = 1;\n".toList ("\x7d\n\n".toList ++ t) = occ "\tcollide = 1;\n".toList t := by
  rw [occ_append_block _ (by decide) _ _ (by decide)]
  have : occ "\tcollide = 1;\n".toList "\x7d\n\n".toList = 0 := by decide
  omega

theorem occ_collide_res (hasVars : Bool) (t : Text) :
    occ "\tcollide = 1;\n".toList ((if hasVars = true then "\tlong res;".toList else []) ++ t) =
      occ "\tcollide = 1;\n".toList t := by
  cases hasVars <;> simp [occ_cons]

theorem occ_collide_void (name t : Text) (hn : '\t' ∉ name) :
    occ "\tcollide = 1;\n".toList ("void ".toList ++ (name ++ ("()\n\x7b\n".toList ++ t))) =
      occ "\tcollide = 1;\n".toList t := by
  simp [occ_cons, occ_skip, hn]

theorem occ_collide_debug (b : Bool) (name t : Text) (hn : '\t' ∉ name) :
    occ "\tcollide = 1;\n".toList
        ((if b = true then "\tdebug(\"".toList ++ (name ++ "\\n\");\n".toList) else []) ++ t) =
      occ "\tcollide = 1;\n".toList t := by
  cases b <;> simp [occ_cons, occ_skip, hn]

theorem occ_collide_repro (b : Bool) (t : Text) :
    occ "\tcollide = 1;\n".toList
        ((if b = true then
          "\tsyscall(SYS_write, 1, \"executing program\\n\", strlen(\"executing program\\n\"));\n".toList
         else []) ++ t) =
      occ "\tcollide = 1;\n".toList t := by
  cases b
  · simp
  · rw [if_pos rfl, occ_append_block _ (by decide) _ _ (by decide)]
    have : occ "\tcollide = 1;\n".toList
        "\tsyscall(SYS_write, 1, \"executing program\\n\", strlen(\"executing program\\n\"));\n".toList
        = 0 := by decide
    omega

theorem occ_execute_call (n : Nat) (t : Text) :
    occ "\texecute(".toList ("\texecute(".toList ++ (fmtDec n ++ (");\n".toList ++ t))) =
      1 + occ "\texecute(".toList t := by
  have hd : '\t' ∉ fmtDec n := not_mem_fmtDec (by decide) n
  simp [occ_cons, occ_skip, hd]

theorem occ_collide_call (n : Nat) (t : Text) :
    occ "\tcollide = 1;\n".toList ("\texecute(".toList ++ (fmtDec n ++ (");\n".toList ++ t))) =
      occ "\tcollide = 1;\n".toList t := by
  have hd : '\t' ∉ fmtDec n := not_mem_fmtDec (by decide) n
  simp [occ_cons, occ_skip, hd]

theorem occ_execute_toggle (t : Text) :
    occ "\texecute(".toList ("\tcollide = 1;\n".toList ++ t) = occ "\texecute(".toList t := by
  simp [occ_cons]

theorem occ_collide_toggle (t : Text) :
    occ "\tcollide = 1;\n".toList ("\tcollide = 1;\n".toList ++ t) = 1 + occ "\tcollide = 1;\n".toList t := by
  simp [occ_cons]

/-- The text of one invocation of the dispatch wrapper for `n` fragments. -/
theorem generateTestFunc_suffix (opts : Options) (calls : List Text) (hasVars : Bool)
    (name : Text) (hm : opts.Threaded = true ∨ opts.Collide = true) :
    (if opts.Collide then
        "\texecute(".toList ++ fmtDec calls.length ++ ");\n".toList ++
          "\tcollide = 1;\n".toList ++
          "\texecute(".toList ++ fmtDec calls.length ++ ");\n".toList ++ "\x7d\n\n".toList
      else "\texecute(".toList ++ fmtDec calls.length ++ ");\n".toList ++ "\x7d\n\n".toList)
      <:+ generateTestFunc opts calls hasVars name := by
  have hmode : (!opts.Threaded && !opts.Collide) = false := by
    rcases hm with h | h <;> simp [h]
  simp only [generateTestFunc, hmode, Bool.false_eq_true, if_false]
  cases hC : opts.Collide <;>
    simp only [List.append_assoc, Bool.false_eq_true, if_false, if_true, List.nil_append] <;>
    repeat (first | exact List.suffix_rfl | apply suffix_append_of_suffix)

/-! ## Occurrences of a marker in the test function and in `main`, block by block -/

theorem occ_flatten_inert (pat core : Text) (hp : LineMarker pat) (hin : core <:+: pat)
    (frags : List Text) (hb : ∀ f ∈ frags, LineBlock f) (h0 : ∀ f ∈ frags, ¬ core <:+: f) :
    occ pat frags.flatten = 0 :=
  occ_flatten_zero pat hp frags hb fun f hf => occ_zero_of_infix_marker hp.1 hin f (h0 f hf)

theorem additive_caseLoop_zero (c : Text → Nat) (hc : Additive c) (hnil : c [] = 0)
    (hcase : ∀ i : Nat, c ("\tcase ".toList ++ fmtDec i ++ ":\n".toList) = 0)
    (hbreak : c "\t\tbreak;\n".toList = 0) :
    ∀ (calls : List Text) (i : Nat), (∀ f ∈ calls, LineBlock f) →
      (∀ f ∈ calls, c (replaceAll "\t".toList "\t\t".toList f) = 0) →
      c (caseLoop i calls) = 0 := by
  intro calls
  induction calls with
  | nil => intro i _ _; exact hnil
  | cons f rest ih =>
    intro i hb hz
    have hrest := ih (i + 1) (fun g hg => hb g (List.mem_cons_of_mem _ hg))
      (fun g hg => hz g (List.mem_cons_of_mem _ hg))
    simp only [caseLoop]
    rw [hc _ _
        (lineBlock_append (lineBlock_append (lineBlock_append_right _ (by decide))
          (lineBlock_tabbed f (hb f (List.mem_cons_self _ _)))) (Or.inr (by decide))),
      hc _ _
        (lineBlock_append (lineBlock_append_right _ (by decide))
          (lineBlock_tabbed f (hb f (List.mem_cons_self _ _)))),
      hc _ _ (lineBlock_append_right _ (by decide)),
      hcase, hz f (List.mem_cons_self _ _), hbreak, hrest]

/-- An additive count over the text of `generateTestFunc` is the sum over its own lines,
when the fragments count for nothing. -/
theorem occ_generateTestFunc_blocks (c : Text → Nat) (hc : Additive c) (opts : Options)
    (calls : List Text) (hasVars : Bool) (name : Text)
    (hres : ∀ t : Text, c ("\tlong res;".toList ++ t) = c t)
    (hfb : LineBlock calls.flatten) (hflat : c calls.flatten = 0)
    (hcb : LineBlock (caseLoop 0 calls)) (hcase : c (caseLoop 0 calls) = 0) :
    c (generateTestFunc opts calls hasVars name) =
      if (!opts.Threaded && !opts.Collide) = true then
        c ("void ".toList ++ (name ++ "()\n\x7b\n".toList)) +
        (if opts.Debug = true then
          c ("\tdebug(\"".toList ++ (name ++ "\\n\");\n".toList)) else 0) +
        (if opts.Repro = true then
          c "\tsyscall(SYS_write, 1, \"executing program\\n\", strlen(\"executing program\\n\"));\n".toList
         else 0) +
        c "\x7d\n\n".toList
      else
        c "void execute_call(int call)\n\x7b\n".toList +
        c "\tswitch (call) \x7b\n".toList +
        c "\t\x7d\n".toList +
        c "\x7d\n\n".toList +
        c ("void ".toList ++ (name ++ "()\n\x7b\n".toList)) +
        (if opts.Debug = true then
          c ("\tdebug(\"".toList ++ (name ++ "\\n\");\n".toList)) else 0) +
        (if opts.Repro = true then
          c "\tsyscall(SYS_write, 1, \"executing program\\n\", strlen(\"executing program\\n\"));\n".toList
         else 0) +
        c ("\texecute(".toList ++ (fmtDec calls.length ++ ");\n".toList)) +
        (if opts.Collide = true then
          c "\tcollide = 1;\n".toList +
          c ("\texecute(".toList ++ (fmtDec calls.length ++ ");\n".toList))
         else 0) +
        c "\x7d\n\n".toList := by
  have hres' : ∀ t : Text,
      c ((if hasVars = true then "\tlong res;".toList else []) ++ t) = c t := by
    intro t
    cases hasVars
    · rfl
    · exact hres t
  have hdbg : LineBlock ("\tdebug(\"".toList ++ (name ++ "\\n\");\n".toList)) :=
    lineBlock3 _ _ (by decide)
  unfold generateTestFunc
  split
  · simp only [List.append_assoc]
    rw [additive_block3 c hc _ _ _ _ (by decide), hres',
      additive_ite c hc _ _ _ hdbg, additive_ite c hc _ _ _ (by decide),
      hc _ _ hfb, hflat]
    omega
  · simp only [List.append_assoc]
    rw [hc _ _ (by decide), hres',
      hc _ _ (by decide), hc _ _ hcb, hcase,
      hc _ _ (by decide), hc _ _ (by decide),
      additive_block3 c hc _ _ _ _ (by decide),
      additive_ite c hc _ _ _ hdbg, additive_ite c hc _ _ _ (by decide),
      additive_block3 c hc _ _ _ _ (by decide)]
    cases hC : opts.Collide
    · simp only [Bool.false_eq_true, if_false, List.nil_append]
      omega
    · simp only [if_true, List.append_assoc]
      rw [hc "\tcollide = 1;\n".toList _ (by decide),
        additive_block3 c hc "\texecute(".toList (fmtDec calls.length) ");\n".toList
          "\x7d\n\n".toList (by decide)]
      omega

theorem lineBlock_runLoop (opts : Options) (ind : Text) : LineBlock (runLoop opts ind) := by
  unfold runLoop
  split
  · exact lineBlock_append_right _ (by decide)
  · exact lineBlock_append_right _ (by decide)

theorem occ_mainOnce_blocks (c : Text → Nat) (hc : Additive c) (opts : Options)
    (mmapCalls : List Text) (hmb : LineBlock mmapCalls.flatten)
    (hm0 : c mmapCalls.flatten = 0) :
    c (mainOnce opts mmapCalls) =
      c "int main()\n\x7b\n".toList +
      (if opts.HandleSegv = true then c "\tinstall_segv_handler();\n".toList else 0) +
      (if opts.UseTmpDir = true then c "\tuse_temporary_dir();\n".toList else 0) +
      c (runLoop opts "\t".toList) +
      c "\treturn 0;\n\x7d\n".toList := by
  unfold mainOnce
  simp only [List.append_assoc]
  rw [hc _ _ (by decide), hc _ _ hmb, hm0,
    additive_ite c hc _ _ _ (by decide), additive_ite c hc _ _ _ (by decide),
    hc (runLoop opts "\t".toList) _ (lineBlock_runLoop _ _)]
  omega

theorem occ_mainLoop_blocks (c : Text → Nat) (hc : Additive c) (opts : Options)
    (mmapCalls : List Text) (hmb : LineBlock mmapCalls.flatten)
    (hm0 : c mmapCalls.flatten = 0) :
    c (mainLoop opts mmapCalls) =
      c "int main()\n\x7b\n".toList +
      (if opts.HandleSegv = true then c "\tinstall_segv_handler();\n".toList else 0) +
      (if opts.UseTmpDir = true then
        c "\tchar *cwd = get_current_dir_name();\n".toList else 0) +
      c "\tfor (;;) \x7b\n".toList +
      (if opts.UseTmpDir = true then
        c ("\t\tif (chdir(cwd))\n".toList ++
          ("\t\t\tfail(\"failed to chdir\");\n".toList ++
            "\t\tuse_temporary_dir();\n".toList)) else 0) +
      c (runLoop opts "\t\t".toList) +
      c "\t\x7d\n\x7d\n".toList := by
  unfold mainLoop
  simp only [List.append_assoc]
  rw [hc _ _ (by decide), hc _ _ hmb, hm0,
    additive_ite c hc _ _ _ (by decide), additive_ite c hc _ _ _ (by decide),
    hc "\tfor (;;) \x7b\n".toList _ (by decide),
    additive_ite c hc _ _ _ (by decide),
    hc (runLoop opts "\t\t".toList) _ (lineBlock_runLoop _ _)]
  omega

theorem lineBlock_forkChild (opts : Options) : LineBlock (forkChild opts) := by
  unfold forkChild
  exact lineBlock_append_right _ (by decide)

theorem occ_forkChild_blocks (c : Text → Nat) (hc : Additive c) (opts : Options) :
    c (forkChild opts) =
      (if opts.HandleSegv = true then
        c "\t\t\tinstall_segv_handler();\n".toList else 0) +
      c "\t\t\tfor (;;) \x7b\n".toList +
      (if opts.UseTmpDir = true then
        c ("\t\t\t\tif (chdir(cwd))\n".toList ++
          ("\t\t\t\t\tfail(\"failed to chdir\");\n".toList ++
            "\t\t\t\tuse_temporary_dir();\n".toList)) else 0) +
      c (runLoop opts "\t\t\t\t".toList) +
      c "\t\t\t\x7d\n".toList := by
  unfold forkChild
  simp only [List.append_assoc]
  rw [additive_ite c hc _ _ _ (by decide),
    hc "\t\t\tfor (;;) \x7b\n".toList _ (by decide),
    additive_ite c hc _ _ _ (by decide),
    hc (runLoop opts "\t\t\t\t".toList) _ (lineBlock_runLoop _ _)]
  omega

theorem occ_mainFork_blocks (c : Text → Nat) (hc : Additive c) (opts : Options)
    (mmapCalls : List Text) (hmb : LineBlock mmapCalls.flatten)
    (hm0 : c mmapCalls.flatten = 0) :
    c (mainFork opts mmapCalls) =
      c "int main()\n\x7b\n".toList +
      (if opts.UseTmpDir = true then
        c "\tchar *cwd = get_current_dir_name();\n".toList else 0) +
      c ("\tfor (procid = 0; procid < ".toList ++
        (fmtInt opts.Procs ++ "; procid++) \x7b\n".toList)) +
      c "\t\tif (fork() == 0) \x7b\n".toList +
      c (forkChild opts) +
      c "\t\t\x7d\n".toList +
      c "\t\x7d\n".toList +
      c "\tsleep(1000000);\n".toList +
      c "\treturn 0;\n\x7d\n".toList := by
  unfold mainFork
  simp only [List.append_assoc]
  rw [hc _ _ (by decide), hc _ _ hmb, hm0,
    additive_ite c hc _ _ _ (by decide),
    additive_block3 c hc "\tfor (procid = 0; procid < ".toList _ _ _ (by decide),
    hc "\t\tif (fork() == 0) \x7b\n".toList _ (by decide),
    hc (forkChild opts) _ (lineBlock_forkChild opts),
    hc "\t\t\x7d\n".toList _ (by decide),
    hc "\t\x7d\n".toList _ (by decide),
    hc "\tsleep(1000000);\n".toList _ (by decide)]
  omega

/-! ## Top-level shape: the three markers, line by line -/

theorem occ_main_runLoop1 (opts : Options) (hS : ' ' ∉ opts.Sandbox) :
    occ "int main()\n".toList (runLoop opts "\t".toList) = 0 := by
  have hpeel : ∀ t : Text,
      occ "int main()\n".toList ("\t".toList ++ ("int pid = do_sandbox_".toList ++ t)) =
        occ "int main()\n".toList t := by
    intro t
    simp [occ_cons]
  have hhole : ∀ t : Text, occ "int main()\n".toList (opts.Sandbox ++ ("();\n".toList ++ t)) =
      occ "int main()\n".toList ("();\n".toList ++ t) := by
    intro t
    refine occ_skip_at _ _ _ "int".toList "main()\n".toList ' ' rfl hS ?_
    intro j h1 h2
    have h3 : j ≤ 3 := h2
    interval_cases j <;> simp [List.drop]
  unfold runLoop
  split
  · simp only [List.append_assoc]
    rw [hpeel, hhole]
    decide
  · cases opts.EnableTun <;> decide

theorem occ_main_runLoop2 (opts : Options) (hS : ' ' ∉ opts.Sandbox) :
    occ "int main()\n".toList (runLoop opts "\t\t".toList) = 0 := by
  have hpeel : ∀ t : Text,
      occ "int main()\n".toList ("\t\t".toList ++ ("int pid = do_sandbox_".toList ++ t)) =
        occ "int main()\n".toList t := by
    intro t
    simp [occ_cons]
  have hhole : ∀ t : Text, occ "int main()\n".toList (opts.Sandbox ++ ("();\n".toList ++ t)) =
      occ "int main()\n".toList ("();\n".toList ++ t) := by
    intro t
    refine occ_skip_at _ _ _ "int".toList "main()\n".toList ' ' rfl hS ?_
    intro j h1 h2
    have h3 : j ≤ 3 := h2
    interval_cases j <;> simp [List.drop]
  unfold runLoop
  split
  · simp only [List.append_assoc]
    rw [hpeel, hhole]
    decide
  · cases opts.EnableTun <;> decide

theorem occ_main_runLoop4 (opts : Options) (hS : ' ' ∉ opts.Sandbox) :
    occ "int main()\n".toList (runLoop opts "\t\t\t\t".toList) = 0 := by
  have hpeel : ∀ t : Text,
      occ "int main()\n".toList ("\t\t\t\t".toList ++ ("int pid = do_sandbox_".toList ++ t)) =
        occ "int main()\n".toList t := by
    intro t
    simp [occ_cons]
  have hhole : ∀ t : Text, occ "int main()\n".toList (opts.Sandbox ++ ("();\n".toList ++ t)) =
      occ "int main()\n".toList ("();\n".toList ++ t) := by
    intro t
    refine occ_skip_at _ _ _ "int".toList "main()\n".toList ' ' rfl hS ?_
    intro j h1 h2
    have h3 : j ≤ 3 := h2
    interval_cases j <;> simp [List.drop]
  unfold runLoop
  split
  · simp only [List.append_assoc]
    rw [hpeel, hhole]
    decide
  · cases opts.EnableTun <;> decide

theorem occ_main_res (t : Text) :
    occ "int main()\n".toList ("\tlong res;".toList ++ t) = occ "int main()\n".toList t := by
  simp [occ_cons]

theorem occ_main_case (i : Nat) :
    occ "int main()\n".toList ("\tcase ".toList ++ fmtDec i ++ ":\n".toList) = 0 := by
  have hd : '\t' ∉ fmtDec i := not_mem_fmtDec (by decide) i
  have hi : 'i' ∉ fmtDec i := not_mem_fmtDec (by decide) i
  simp [occ_cons, occ_nil, occ_skip, hd, hi]

theorem occ_main_call (n : Nat) :
    occ "int main()\n".toList ("\texecute(".toList ++ (fmtDec n ++ ");\n".toList)) = 0 := by
  have hd : '\t' ∉ fmtDec n := not_mem_fmtDec (by decide) n
  have hi : 'i' ∉ fmtDec n := not_mem_fmtDec (by decide) n
  simp [occ_cons, occ_nil, occ_skip, hd, hi]

theorem occ_main_procs (n : Int) :
    occ "int main()\n".toList ("\tfor (procid = 0; procid < ".toList ++ (fmtInt n ++ "; procid++) \x7b\n".toList))
      = 0 := by
  have hd : '\t' ∉ fmtInt n := not_mem_fmtInt (by decide) n
  have hi : 'i' ∉ fmtInt n := not_mem_fmtInt (by decide) n
  simp [occ_cons, occ_nil, occ_skip, hd, hi]

theorem occ_loop_runLoop1 (opts : Options) (hS : '\t' ∉ opts.Sandbox) :
    occ "\tfor (;;) \x7b\n".toList (runLoop opts "\t".toList) = 0 := by
  have hpeel : ∀ t : Text,
      occ "\tfor (;;) \x7b\n".toList ("\t".toList ++ ("int pid = do_sandbox_".toList ++ t)) =
        occ "\tfor (;;) \x7b\n".toList t := by
    intro t
    simp [occ_cons]
  have hhole : ∀ t : Text, occ "\tfor (;;) \x7b\n".toList (opts.Sandbox ++ ("();\n".toList ++ t)) =
      occ "\tfor (;;) \x7b\n".toList ("();\n".toList ++ t) := by
    intro t
    exact occ_skip_head _ _ _ ⟨'\t', _, rfl, hS⟩
  unfold runLoop
  split
  · simp only [List.append_assoc]
    rw [hpeel, hhole]
    decide
  · cases opts.EnableTun <;> decide

theorem occ_loop_runLoop2 (opts : Options) (hS : '\t' ∉ opts.Sandbox) :
    occ "\tfor (;;) \x7b\n".toList (runLoop opts "\t\t".toList) = 0 := by
  have hpeel : ∀ t : Text,
      occ "\tfor (;;) \x7b\n".toList ("\t\t".toList ++ ("int pid = do_sandbox_".toList ++ t)) =
        occ "\tfor (;;) \x7b\n".toList t := by
    intro t
    simp [occ_cons]
  have hhole : ∀ t : Text, occ "\tfor (;;) \x7b\n".toList (opts.Sandbox ++ ("();\n".toList ++ t)) =
      occ "\tfor (;;) \x7b\n".toList ("();\n".toList ++ t) := by
    intro t
    exact occ_skip_head _ _ _ ⟨'\t', _, rfl, hS⟩
  unfold runLoop
  split
  · simp only [List.append_assoc]
    rw [hpeel, hhole]
    decide
  · cases opts.EnableTun <;> decide

theorem occ_loop_runLoop4 (opts : Options) (hS : '\t' ∉ opts.Sandbox) :
    occ "\tfor (;;) \x7b\n".toList (runLoop opts "\t\t\t\t".toList) = 0 := by
  have hpeel : ∀ t : Text,
      occ "\tfor (;;) \x7b\n".toList ("\t\t\t\t".toList ++ ("int pid = do_sandbox_".toList ++ t)) =
        occ "\tfor (;;) \x7b\n".toList t := by
    intro t
    simp [occ_cons]
  have hhole : ∀ t : Text, occ "\tfor (;;) \x7b\n".toList (opts.Sandbox ++ ("();\n".toList ++ t)) =
      occ "\tfor (;;) \x7b\n".toList ("();\n".toList ++ t) := by
    intro t
    exact occ_skip_head _ _ _ ⟨'\t', _, rfl, hS⟩
  unfold runLoop
  split
  · simp only [List.append_assoc]
    rw [hpeel, hhole]
    decide
  · cases opts.EnableTun <;> decide

theorem occ_loop_res (t : Text) :
    occ "\tfor (;;) \x7b\n".toList ("\tlong res;".toList ++ t) = occ "\tfor (;;) \x7b\n".toList t := by
  simp [occ_cons]

theorem occ_loop_case (i : Nat) :
    occ "\tfor (;;) \x7b\n".toList ("\tcase ".toList ++ fmtDec i ++ ":\n".toList) = 0 := by
  have hd : '\t' ∉ fmtDec i := not_mem_fmtDec (by decide) i
  have hi : 'i' ∉ fmtDec i := not_mem_fmtDec (by decide) i
  simp [occ_cons, occ_nil, occ_skip, hd, hi]

theorem occ_loop_call (n : Nat) :
    occ "\tfor (;;) \x7b\n".toList ("\texecute(".toList ++ (fmtDec n ++ ");\n".toList)) = 0 := by
  have hd : '\t' ∉ fmtDec n := not_mem_fmtDec (by decide) n
  have hi : 'i' ∉ fmtDec n := not_mem_fmtDec (by decide) n
  simp [occ_cons, occ_nil, occ_skip, hd, hi]

theorem occ_loop_procs (n : Int) :
    occ "\tfor (;;) \x7b\n".toList ("\tfor (procid = 0; procid < ".toList ++ (fmtInt n ++ "; procid++) \x7b\n".toList))
      = 0 := by
  have hd : '\t' ∉ fmtInt n := not_mem_fmtInt (by decide) n
  have hi : 'i' ∉ fmtInt n := not_mem_fmtInt (by decide) n
  simp [occ_cons, occ_nil, occ_skip, hd, hi]

theorem occ_fork_runLoop1 (opts : Options) (hS : '\t' ∉ opts.Sandbox) :
    occ "\tif (fork() == 0) \x7b\n".toList (runLoop opts "\t".toList) = 0 := by
  have hpeel : ∀ t : Text,
      occ "\tif (fork() == 0) \x7b\n".toList ("\t".toList ++ ("int pid = do_sandbox_".toList ++ t)) =
        occ "\tif (fork() == 0) \x7b\n".toList t := by
    intro t
    simp [occ_cons]
  have hhole : ∀ t : Text, occ "\tif (fork() == 0) \x7b\n".toList (opts.Sandbox ++ ("();\n".toList ++ t)) =
      occ "\tif (fork() == 0) \x7b\n".toList ("();\n".toList ++ t) := by
    intro t
    exact occ_skip_head _ _ _ ⟨'\t', _, rfl, hS⟩
  unfold runLoop
  split
  · simp only [List.append_assoc]
    rw [hpeel, hhole]
    decide
  · cases opts.EnableTun <;> decide

theorem occ_fork_runLoop2 (opts : Options) (hS : '\t' ∉ opts.Sandbox) :
    occ "\tif (fork() == 0) \x7b\n".toList (runLoop opts "\t\t".toList) = 0 := by
  have hpeel : ∀ t : Text,
      occ "\tif (fork() == 0) \x7b\n".toList ("\t\t".toList ++ ("int pid = do_sandbox_".toList ++ t)) =
        occ "\tif (fork() == 0) \x7b\n".toList t := by
    intro t
    simp [occ_cons]
  have hhole : ∀ t : Text, occ "\tif (fork() == 0) \x7b\n".toList (opts.Sandbox ++ ("();\n".toList ++ t)) =
      occ "\tif (fork() == 0) \x7b\n".toList ("();\n".toList ++ t) := by
    intro t
    exact occ_skip_head _ _ _ ⟨'\t', _, rfl, hS⟩
  unfold runLoop
  split
  · simp only [List.append_assoc]
    rw [hpeel, hhole]
    decide
  · cases opts.EnableTun <;> decide

theorem occ_fork_runLoop4 (opts : Options) (hS : '\t' ∉ opts.Sandbox) :
    occ "\tif (fork() == 0) \x7b\n".toList (runLoop opts "\t\t\t\t".toList) = 0 := by
  have hpeel : ∀ t : Text,
      occ "\tif (fork() == 0) \x7b\n".toList ("\t\t\t\t".toList ++ ("int pid = do_sandbox_".toList ++ t)) =
        occ "\tif (fork() == 0) \x7b\n".toList t := by
    intro t
    simp [occ_cons]
  have hhole : ∀ t : Text, occ "\tif (fork() == 0) \x7b\n".toList (opts.Sandbox ++ ("();\n".toList ++ t)) =
      occ "\tif (fork() == 0) \x7b\n".toList ("();\n".toList ++ t) := by
    intro t
    exact occ_skip_head _ _ _ ⟨'\t', _, rfl, hS⟩
  unfold runLoop
  split
  · simp only [List.append_assoc]
    rw [hpeel, hhole]
    decide
  · cases opts.EnableTun <;> decide

theorem occ_fork_res (t : Text) :
    occ "\tif (fork() == 0) \x7b\n".toList ("\tlong res;".toList ++ t) = occ "\tif (fork() == 0) \x7b\n".toList t := by
  simp [occ_cons]

theorem occ_fork_case (i : Nat) :
    occ "\tif (fork() == 0) \x7b\n".toList ("\tcase ".toList ++ fmtDec i ++ ":\n".toList) = 0 := by
  have hd : '\t' ∉ fmtDec i := not_mem_fmtDec (by decide) i
  have hi : 'i' ∉ fmtDec i := not_mem_fmtDec (by decide) i
  simp [occ_cons, occ_nil, occ_skip, hd, hi]

theorem occ_fork_call (n : Nat) :
    occ "\tif (fork() == 0) \x7b\n".toList ("\texecute(".toList ++ (fmtDec n ++ ");\n".toList)) = 0 := by
  have hd : '\t' ∉ fmtDec n := not_mem_fmtDec (by decide) n
  have hi : 'i' ∉ fmtDec n := not_mem_fmtDec (by decide) n
  simp [occ_cons, occ_nil, occ_skip, hd, hi]

theorem occ_fork_procs (n : Int) :
    occ "\tif (fork() == 0) \x7b\n".toList ("\tfor (procid = 0; procid < ".toList ++ (fmtInt n ++ "; procid++) \x7b\n".toList))
      = 0 := by
  have hd : '\t' ∉ fmtInt n := not_mem_fmtInt (by decide) n
  have hi : 'i' ∉ fmtInt n := not_mem_fmtInt (by decide) n
  simp [occ_cons, occ_nil, occ_skip, hd, hi]

/-! ## Top-level shape: counting the markers in the skeleton -/

theorem lineBlock_generateTestFunc (opts : Options) (calls : List Text) (hasVars : Bool)
    (name : Text) : LineBlock (generateTestFunc opts calls hasVars name) := by
  unfold generateTestFunc
  split
  · exact lineBlock_append_right _ (by decide)
  · exact lineBlock_append_right _ (by decide)

theorem testFunc_name_cases (opts : Options) :
    (if (!opts.Repeat) = true then "loop".toList else "execute_one".toList) = "loop".toList ∨
    (if (!opts.Repeat) = true then "loop".toList else "execute_one".toList) =
      "execute_one".toList := by
  cases opts.Repeat <;> simp

/-- An additive count over the skeleton is the count over `main`, once the test function is
known to count for nothing. -/
theorem additive_writeSkeleton (c : Text → Nat) (hc : Additive c) (opts : Options)
    (calls : List Text) (vars : List Nat) (mmapCalls : List Text)
    (h0 : ∀ name, name = "loop".toList ∨ name = "execute_one".toList →
      c (generateTestFunc opts calls (decide (vars.length ≠ 0)) name) = 0) :
    c (writeSkeleton opts calls vars mmapCalls) = c (mainText opts mmapCalls) := by
  unfold writeSkeleton
  rw [hc _ _ (lineBlock_generateTestFunc _ _ _ _),
    h0 _ (testFunc_name_cases opts), Nat.zero_add]

theorem occ_fork_mainText (opts : Options) (mmapCalls : List Text)
    (hb : ∀ f ∈ mmapCalls, LineBlock f) (h0 : ∀ f ∈ mmapCalls, ¬ "fork()".toList <:+: f)
    (hS : '\t' ∉ opts.Sandbox) :
    occ "\tif (fork() == 0) \x7b\n".toList (mainText opts mmapCalls) =
      if opts.Repeat = true ∧ opts.Procs > 1 then 1 else 0 := by
  have hmb := lineBlock_flatten mmapCalls hb
  have hm0 := occ_flatten_inert "\tif (fork() == 0) \x7b\n".toList "fork()".toList (by decide)
    (by decide) mmapCalls hb h0
  unfold mainText
  cases hR : opts.Repeat
  · simp only [Bool.not_false, if_true, Bool.false_eq_true, false_and, if_false]
    rw [occ_mainOnce_blocks _ (additive_occ _ (by decide)) opts mmapCalls hmb hm0, occ_fork_runLoop1 opts hS]
    cases opts.HandleSegv <;> cases opts.UseTmpDir <;> decide
  · simp only [Bool.not_true, Bool.false_eq_true, if_false, true_and]
    by_cases hP : opts.Procs ≤ 1
    · rw [if_pos hP, if_neg (by omega),
        occ_mainLoop_blocks _ (additive_occ _ (by decide)) opts mmapCalls hmb hm0, occ_fork_runLoop2 opts hS]
      cases opts.HandleSegv <;> cases opts.UseTmpDir <;> decide
    · rw [if_neg hP, if_pos (by omega),
        occ_mainFork_blocks _ (additive_occ _ (by decide)) opts mmapCalls hmb hm0,
        occ_forkChild_blocks _ (additive_occ _ (by decide)) opts, occ_fork_runLoop4 opts hS, occ_fork_procs]
      cases opts.HandleSegv <;> cases opts.UseTmpDir <;> decide


/-! ## Multi-process shape: the parent's path -/

theorem readUnsignedLiteral_fmtDec (n : Nat) : readUnsignedLiteral (fmtDec n) = some n := by
  unfold readUnsignedLiteral
  split
  · rename_i rest heq
    have hx : 'x' ∈ fmtDec n := by rw [heq]; simp
    exact absurd (fmtDec_chars n 'x' hx) (by decide)
  · exact readDigits_toDigits 10 (by omega) (by omega) n

theorem readCLiteral_fmtDec (n : Nat) : readCLiteral (fmtDec n) = some (Int.ofNat n) := by
  unfold readCLiteral
  split
  · rename_i rest heq
    have hx : '-' ∈ fmtDec n := by rw [heq]; simp
    exact absurd (fmtDec_chars n '-' hx) (by decide)
  · rw [readUnsignedLiteral_fmtDec]

theorem readCLiteral_fmtInt (i : Int) (h : 0 ≤ i) : readCLiteral (fmtInt i) = some i := by
  cases i with
  | ofNat n => exact readCLiteral_fmtDec n
  | negSucc n => exact absurd h (by simp)

theorem occ_wait_procs (n : Int) : occ "wait".toList (procLoopHeader n) = 0 := by
  have hw : 'w' ∉ fmtInt n := not_mem_fmtInt (by decide) n
  simp [procLoopHeader, occ_cons, occ_nil, occ_skip, hw]

theorem mainText_fork (opts : Options) (mmapCalls : List Text) (hR : opts.Repeat = true)
    (hP : opts.Procs > 1) :
    mainText opts mmapCalls =
      forkParentHead opts mmapCalls ++ forkBlock opts ++ forkParentTail := by
  have hP' : ¬ opts.Procs ≤ 1 := by omega
  simp only [mainText, hR, Bool.not_true, Bool.false_eq_true, if_false, hP', mainFork,
    forkParentHead, forkBlock, forkParentTail, procLoopHeader, List.append_assoc]

theorem occ_fork_call_procs (n : Int) : occ "fork()".toList (procLoopHeader n) = 0 := by
  have hw : 'f' ∉ fmtInt n := not_mem_fmtInt (by decide) n
  simp [procLoopHeader, occ_cons, occ_nil, occ_skip, hw]

/-- A marker that occurs in none of the parent's own lines and in no memory-mapping
fragment does not occur in the parent's path. -/
theorem occ_parent_path (pat : Text) (hp : LineMarker pat) (opts : Options)
    (mmapCalls : List Text) (hb : ∀ f ∈ mmapCalls, LineBlock f)
    (h0 : ∀ f ∈ mmapCalls, ¬ pat <:+: f)
    (h1 : occ pat "int main()\n\x7b\n".toList = 0)
    (h2 : occ pat "\tchar *cwd = get_current_dir_name();\n".toList = 0)
    (h3 : occ pat (procLoopHeader opts.Procs) = 0)
    (h4 : occ pat forkParentTail = 0) :
    occ pat (forkParentHead opts mmapCalls ++ forkParentTail) = 0 := by
  have hc := additive_occ pat hp
  have hmb := lineBlock_flatten mmapCalls hb
  have hm0 := occ_flatten_inert pat pat hp List.infix_rfl mmapCalls hb h0
  have hpl : LineBlock (procLoopHeader opts.Procs) := lineBlock3 _ _ (by decide)
  unfold forkParentHead
  simp only [List.append_assoc]
  rw [hc _ _ (by decide), hc _ _ hmb, hm0, additive_ite _ hc _ _ _ (by decide),
    hc _ _ hpl, h1, h2, h3, h4]
  cases opts.UseTmpDir <;> rfl

/-- C8: with repeat on and a process count `N` above 1, `main` is the parent's head, the
block `if (fork() == 0) { ... }`, and the parent's tail; the head ends with the loop
header `for (procid = 0; procid < N; procid++)`, whose printed bound reads back as `N`;
the fork line occurs exactly once in `main`; the parent's path (head and tail) contains no
`fork()` and no `wait`, and ends with `sleep(1000000);` followed by `return 0;`. -/
theorem mainText_fork_parent (opts : Options) (mmapCalls : List Text)
    (hR : opts.Repeat = true) (hP : opts.Procs > 1)
    (hm : ∀ f ∈ mmapCalls, Inert ["fork()".toList, "wait".toList] f)
    (hS : '\t' ∉ opts.Sandbox) :
    mainText opts mmapCalls =
      forkParentHead opts mmapCalls ++ forkBlock opts ++ forkParentTail ∧
    procLoopHeader opts.Procs <:+ forkParentHead opts mmapCalls ∧
    readCLiteral (fmtInt opts.Procs) = some opts.Procs ∧
    occ "\tif (fork() == 0) \x7b\n".toList (mainText opts mmapCalls) = 1 ∧
    occ "fork()".toList (forkParentHead opts mmapCalls ++ forkParentTail) = 0 ∧
    occ "wait".toList (forkParentHead opts mmapCalls ++ forkParentTail) = 0 ∧
    ("\tsleep(1000000);\n".toList ++ "\treturn 0;\n\x7d\n".toList) <:+
      (forkParentHead opts mmapCalls ++ forkParentTail) := by
  have hb : ∀ f ∈ mmapCalls, LineBlock f := fun f h => (hm f h).1
  have hf : ∀ f ∈ mmapCalls, ¬ "fork()".toList <:+: f := fun f h => (hm f h).2 _ (by simp)
  have hw : ∀ f ∈ mmapCalls, ¬ "wait".toList <:+: f := fun f h => (hm f h).2 _ (by simp)
  refine ⟨mainText_fork opts mmapCalls hR hP, ?_, readCLiteral_fmtInt _ (by omega), ?_,
    ?_, ?_, ?_⟩
  · unfold forkParentHead
    exact List.suffix_append _ _
  · rw [occ_fork_mainText opts mmapCalls hb hf hS, if_pos ⟨hR, hP⟩]
  · exact occ_parent_path _ (by decide) opts mmapCalls hb hf (by decide) (by decide)
      (occ_fork_call_procs _) (by decide)
  · exact occ_parent_path _ (by decide) opts mmapCalls hb hw (by decide) (by decide)
      (occ_wait_procs _) (by decide)
  · apply suffix_append_of_suffix
    unfold forkParentTail
    rw [List.append_assoc]
    exact List.suffix_append _ _

theorem mainText_fork_parent_witness :
    mainText { Repeat := true, Procs := 3, Sandbox := "none".toList }
        ["\tsyscall(SYS_mmap, 0, 1);\n".toList] =
      forkParentHead { Repeat := true, Procs := 3, Sandbox := "none".toList }
          ["\tsyscall(SYS_mmap, 0, 1);\n".toList] ++
        forkBlock { Repeat := true, Procs := 3, Sandbox := "none".toList } ++
        forkParentTail ∧
    procLoopHeader ({ Repeat := true, Procs := 3, Sandbox := "none".toList } : Options).Procs
      <:+ forkParentHead { Repeat := true, Procs := 3, Sandbox := "none".toList }
        ["\tsyscall(SYS_mmap, 0, 1);\n".toList] ∧
    readCLiteral (fmtInt ({ Repeat := true, Procs := 3, Sandbox := "none".toList } :
        Options).Procs) =
      some ({ Repeat := true, Procs := 3, Sandbox := "none".toList } : Options).Procs ∧
    occ "\tif (fork() == 0) \x7b\n".toList
        (mainText { Repeat := true, Procs := 3, Sandbox := "none".toList }
          ["\tsyscall(SYS_mmap, 0, 1);\n".toList]) = 1 ∧
    occ "fork()".toList
        (forkParentHead { Repeat := true, Procs := 3, Sandbox := "none".toList }
          ["\tsyscall(SYS_mmap, 0, 1);\n".toList] ++ forkParentTail) = 0 ∧
    occ "wait".toList
        (forkParentHead { Repeat := true, Procs := 3, Sandbox := "none".toList }
          ["\tsyscall(SYS_mmap, 0, 1);\n".toList] ++ forkParentTail) = 0 ∧
    ("\tsleep(1000000);\n".toList ++ "\treturn 0;\n\x7d\n".toList) <:+
      (forkParentHead { Repeat := true, Procs := 3, Sandbox := "none".toList }
        ["\tsyscall(SYS_mmap, 0, 1);\n".toList] ++ forkParentTail) :=
  mainText_fork_parent { Repeat := true, Procs := 3, Sandbox := "none".toList }
    ["\tsyscall(SYS_mmap, 0, 1);\n".toList] rfl (by decide) (by decide) (by decide)

/-! ## Lines that begin with a given text -/

theorem occ_append_block_nl (pat : Text) (hp : pat ≠ []) (hn : '\n' ∉ pat) :
    ∀ (a b : Text), a ≠ [] → LineBlock a →
      occ ('\n' :: pat) (a ++ b) =
        occ ('\n' :: pat) a + (if pat <+: b then 1 else 0) + occ ('\n' :: pat) b := by
  have hmark : LineMarker pat := by
    refine ⟨hp, fun h => hn (List.mem_of_mem_dropLast h)⟩
  intro a
  induction a with
  | nil => intro b h; exact absurd rfl h
  | cons x a ih =>
    intro b _ hab
    have hlast : (x :: a).getLast? = some '\n' := by
      rcases hab with h | h
      · exact absurd h (by simp)
      · exact h
    cases a with
    | nil =>
      simp only [List.getLast?_singleton, Option.some.injEq] at hlast
      subst hlast
      simp only [List.singleton_append]
      rw [occ_cons, occ_cons, occ_nil]
      have h1 : ¬ pat <+: [] := fun h => hp (List.prefix_nil.1 h)
      simp [List.cons_prefix_cons, h1]
    | cons y a =>
      have hblock : LineBlock (y :: a) :=
        Or.inr (by simpa [List.getLast?_cons_cons] using hlast)
      have hrec := ih b (by simp) hblock
      have hlast' : (y :: a).getLast? = some '\n' := by
        simpa [List.getLast?_cons_cons] using hlast
      rw [List.cons_append, occ_cons, hrec, occ_cons ('\n' :: pat) x (y :: a)]
      have hpre : ('\n' :: pat <+: x :: ((y :: a) ++ b)) ↔ ('\n' :: pat <+: x :: (y :: a)) := by
        rw [List.cons_prefix_cons, List.cons_prefix_cons,
          prefix_append_block b hmark hlast']
      by_cases h : '\n' :: pat <+: x :: (y :: a)
      · rw [if_pos (hpre.2 h), if_pos h]; omega
      · rw [if_neg (fun h' => h (hpre.1 h')), if_neg h]; omega

theorem lineStarts_nil (pat : Text) (hp : pat ≠ []) : lineStarts pat [] = 0 := by
  unfold lineStarts
  rw [occ_nil, if_neg (fun h => hp (List.prefix_nil.1 h))]

theorem additive_lineStarts (pat : Text) (hp : pat ≠ []) (hn : '\n' ∉ pat) :
    Additive (lineStarts pat) := by
  have hmark : LineMarker pat := by
    refine ⟨hp, fun h => hn (List.mem_of_mem_dropLast h)⟩
  intro a b ha
  by_cases hnil : a = []
  · subst hnil
    rw [List.nil_append, lineStarts_nil pat hp, Nat.zero_add]
  · have hlast : a.getLast? = some '\n' := by
      rcases ha with h | h
      · exact absurd h hnil
      · exact h
    unfold lineStarts
    rw [occ_append_block_nl pat hp hn a b hnil ha]
    have hpre : (pat <+: a ++ b) ↔ (pat <+: a) := prefix_append_block b hmark hlast
    by_cases h : pat <+: a
    · rw [if_pos (hpre.2 h), if_pos h]; omega
    · rw [if_neg (fun h' => h (hpre.1 h')), if_neg h]; omega

/-- A single line that begins with a tab begins with no text that has another first
character. -/
theorem lineStarts_tab_line (pat body : Text) (hp : pat ≠ []) (hh : pat.head? ≠ some '\t')
    (hb : '\n' ∉ body) : lineStarts pat ('\t' :: (body ++ ['\n'])) = 0 := by
  unfold lineStarts
  have h1 : ¬ pat <+: '\t' :: (body ++ ['\n']) := by
    intro h
    cases pat with
    | nil => exact hp rfl
    | cons p ps =>
      rw [List.cons_prefix_cons] at h
      exact hh (by simp [h.1])
  have h2 : occ ('\n' :: pat) ('\t' :: (body ++ ['\n'])) = 0 := by
    have hmem : '\n' ∉ '\t' :: body := by
      simp only [List.mem_cons, not_or]
      exact ⟨by decide, hb⟩
    have := occ_skip '\n' pat ('\t' :: body) ['\n'] hmem
    rw [List.cons_append] at this
    rw [this, occ_cons, occ_nil]
    have h3 : ¬ pat <+: [] := fun h => hp (List.prefix_nil.1 h)
    simp [List.cons_prefix_cons, h3]
  rw [if_neg h1, h2]

theorem tabLines_nil : TabLines [] := TabLines.nil

theorem tabLines_line (body : Text) (hb : '\n' ∉ body) : TabLines ('\t' :: (body ++ ['\n'])) :=
  TabLines.line body [] hb TabLines.nil

theorem tabLines_append {a b : Text} (ha : TabLines a) (hb : TabLines b) :
    TabLines (a ++ b) := by
  induction ha with
  | nil => exact hb
  | line body rest hbody _ ih =>
    have : '\t' :: (body ++ '\n' :: rest) ++ b = '\t' :: (body ++ '\n' :: (rest ++ b)) := by
      simp
    rw [this]
    exact TabLines.line body (rest ++ b) hbody ih

theorem tabLines_lineBlock {f : Text} (h : TabLines f) : LineBlock f := by
  induction h with
  | nil => exact lineBlock_nil
  | line body rest _ _ ih =>
    rcases ih with h0 | h0
    · subst h0
      right
      rw [← List.cons_append]
      exact getLast?_append_right _ rfl
    · right
      rw [← List.cons_append]
      have h1 : ('\n' :: rest).getLast? = some '\n' := by
        have := getLast?_append_right ['\n'] h0
        simpa using this
      exact getLast?_append_right _ h1

/-- No line of such a fragment begins with a text whose first character is not a tab. -/
theorem tabLines_lineStarts {f : Text} (h : TabLines f) (pat : Text) (hp : pat ≠ [])
    (hh : pat.head? ≠ some '\t') (hn : '\n' ∉ pat) : lineStarts pat f = 0 := by
  induction h with
  | nil => exact lineStarts_nil pat hp
  | line body rest hbody _ ih =>
    have hsplit : '\t' :: (body ++ '\n' :: rest) = ('\t' :: (body ++ ['\n'])) ++ rest := by
      simp
    rw [hsplit, additive_lineStarts pat hp hn _ _ (Or.inr (by
        rw [← List.cons_append]; exact getLast?_append_right _ rfl)),
      lineStarts_tab_line pat body hp hh hbody, ih]

theorem tabLines_flatten : ∀ frags : List Text, (∀ f ∈ frags, TabLines f) →
    TabLines frags.flatten := by
  intro frags
  induction frags with
  | nil => intro _; exact tabLines_nil
  | cons f rest ih =>
    intro h
    rw [List.flatten_cons]
    exact tabLines_append (h f (List.mem_cons_self _ _))
      (ih fun g hg => h g (List.mem_cons_of_mem _ hg))

theorem tabLines_tabbed {f : Text} (h : TabLines f) :
    TabLines (replaceAll "\t".toList "\t\t".toList f) := by
  induction h with
  | nil => exact tabLines_nil
  | line body rest hbody _ ih =>
    rw [replaceAll_tab] at ih ⊢
    simp only [List.flatMap_cons, List.flatMap_append, if_true, List.cons_append,
      List.nil_append, Char.reduceEq, if_false, List.singleton_append]
    have hb : '\n' ∉ '\t' :: body.flatMap fun x => if x = '\t' then ['\t', '\t'] else [x] := by
      intro hm
      rw [List.mem_cons] at hm
      rcases hm with hm | hm
      · exact absurd hm (by decide)
      · rw [List.mem_flatMap] at hm
        obtain ⟨x, hx, hxm⟩ := hm
        by_cases hxt : x = '\t'
        · rw [if_pos hxt] at hxm
          simp at hxm
        · rw [if_neg hxt] at hxm
          simp only [List.mem_singleton] at hxm
          exact hbody (hxm ▸ hx)
    exact TabLines.line _ _ hb ih

/-! ## The fragments of `generateCalls` are lines that begin with a tab -/

theorem tabLines_of_count (l : Text) (hh : l.head? = some '\t')
    (hl : l.getLast? = some '\n') (hc : l.count '\n' = 1) : TabLines l := by
  have hne : l ≠ [] := by intro h; rw [h] at hh; simp at hh
  have hsplit : l = l.dropLast ++ ['\n'] := by
    have := List.dropLast_append_getLast hne
    rw [List.getLast?_eq_getLast _ hne, Option.some.injEq] at hl
    rw [hl] at this
    exact this.symm
  have hcount : l.dropLast.count '\n' = 0 := by
    rw [hsplit, List.count_append] at hc
    simp at hc
    exact hc
  have hnot : '\n' ∉ l.dropLast := List.count_eq_zero.1 hcount
  cases hd : l.dropLast with
  | nil =>
    rw [hd, List.nil_append] at hsplit
    rw [hsplit] at hh
    simp at hh
  | cons x body =>
    rw [hd] at hsplit hnot
    have hx : x = '\t' := by
      rw [hsplit] at hh
      simpa using hh
    subst hx
    rw [hsplit, List.cons_append]
    exact tabLines_line body fun h => hnot (List.mem_cons_of_mem _ h)

theorem count_nl_fmtDec (n : Nat) : (fmtDec n).count '\n' = 0 :=
  List.count_eq_zero.2 (not_mem_fmtDec (by decide) n)

theorem count_nl_fmtHex (n : Nat) : (fmtHex n).count '\n' = 0 :=
  List.count_eq_zero.2 (not_mem_fmtHex (by decide) n)

theorem count_nl_fmtInt (i : Int) : (fmtInt i).count '\n' = 0 :=
  List.count_eq_zero.2 (not_mem_fmtInt (by decide) i)

theorem count_nl_constArgToStr (opts : Options) (arg : ExecArgConst) :
    (constArgToStr opts arg).count '\n' = 0 := by
  unfold constArgToStr
  simp only []
  split_ifs <;>
    simp [List.count_append, count_nl_fmtDec, count_nl_fmtHex, List.count_cons]

theorem count_nl_resultArgToStr (arg : ExecArgResult) :
    (resultArgToStr arg).count '\n' = 0 := by
  unfold resultArgToStr
  simp only []
  split_ifs <;>
    simp [List.count_append, count_nl_fmtDec, List.count_cons]

theorem toHex_range (v : Nat) (h : v < 16) : 32 ≤ toHex v ∧ toHex v < 127 := by
  interval_cases v <;> decide

theorem hexEscape_range : ∀ data : List Nat, (∀ b ∈ data, b < 256) →
    ∀ b ∈ hexEscape data, 32 ≤ b ∧ b < 127 := by
  intro data
  induction data with
  | nil => intro _ b hb; simp [hexEscape] at hb
  | cons v rest ih =>
    intro h b hb
    have hv : v < 256 := h v (List.mem_cons_self _ _)
    simp only [hexEscape, List.cons_append, List.nil_append, List.mem_cons] at hb
    rcases hb with hb | hb | hb | hb | hb
    · subst hb; decide
    · subst hb; decide
    · subst hb; exact toHex_range _ (by omega)
    · subst hb; exact toHex_range _ (by omega)
    · exact ih (fun c hc => h c (List.mem_cons_of_mem _ hc)) b hb

theorem escapeReadable_range : ∀ (data s : List Nat), escapeReadable data = some s →
    ∀ b ∈ s, 32 ≤ b ∧ b < 127 := by
  intro data
  induction data with
  | nil =>
    intro s hs b hb
    simp only [escapeReadable, Option.some.injEq] at hs
    subst hs
    simp at hb
  | cons v rest ih =>
    intro s hs b hb
    simp only [escapeReadable] at hs
    split at hs
    · rename_i p r hp hr
      simp only [Option.some.injEq] at hs
      subst hs
      rw [List.mem_append] at hb
      rcases hb with hb | hb
      · split_ifs at hp <;> simp only [Option.some.injEq] at hp <;> subst hp <;>
          simp only [List.mem_cons, List.mem_singleton, List.not_mem_nil, or_false] at hb
        · rcases hb with hb | hb <;> subst hb <;> decide
        · rcases hb with hb | hb <;> subst hb <;> decide
        · rcases hb with hb | hb <;> subst hb <;> decide
        · rcases hb with hb | hb <;> subst hb <;> decide
        · rcases hb with hb | hb <;> subst hb <;> decide
        · subst hb; omega
      · exact ih r hr b hb
    · exact absurd hs (by simp)

theorem toCString_range (data s : List Nat) (hd : ∀ b ∈ data, b < 256)
    (hs : toCString data = some s) : ∀ b ∈ s, 32 ≤ b ∧ b < 127 := by
  unfold toCString at hs
  split_ifs at hs
  · simp only [Option.some.injEq] at hs; subst hs; intro b hb; simp at hb
  · simp only [Option.some.injEq] at hs; subst hs; exact hexEscape_range data hd
  · exact escapeReadable_range _ s hs
  · exact escapeReadable_range _ s hs

theorem ofNat_ne_of_range (b : Nat) (h : 32 ≤ b ∧ b < 127) :
    Char.ofNat b ≠ '\n' ∧ Char.ofNat b ≠ '\t' := by
  obtain ⟨h1, h2⟩ := h
  interval_cases b <;> decide

theorem count_nl_toCString (data s : List Nat) (hd : ∀ b ∈ data, b < 256)
    (hs : toCString data = some s) : (s.map Char.ofNat).count '\n' = 0 := by
  apply List.count_eq_zero.2
  intro h
  rw [List.mem_map] at h
  obtain ⟨b, hb, he⟩ := h
  exact (ofNat_ne_of_range b (toCString_range data s hd hs b hb)).1 he

theorem head?_append_left {a : Text} (b : Text) {c : Char} (h : a.head? = some c) :
    (a ++ b).head? = some c := by
  cases a with
  | nil => simp at h
  | cons x a => simpa using h

theorem tabLines_csumChunks (csumSeq : Nat) : ∀ (chunks : List ExecCsumChunk) (i : Nat)
    (t : Text), csumChunks csumSeq i chunks = some t → TabLines t := by
  intro chunks
  induction chunks with
  | nil =>
    intro i t h
    simp only [csumChunks, Option.some.injEq] at h
    subst h
    exact tabLines_nil
  | cons c rest ih =>
    intro i t h
    simp only [csumChunks] at h
    split at h
    · rename_i p r hp hr
      simp only [Option.some.injEq] at h
      subst h
      refine tabLines_append ?_ (ih (i + 1) r hr)
      split_ifs at hp
      · simp only [Option.some.injEq] at hp
        subst hp
        refine tabLines_of_count _ ?_ ?_ ?_
        · repeat apply head?_append_left
          decide
        · repeat (first | decide | apply getLast?_append_right)
        · simp only [List.count_append, count_nl_fmtDec, count_nl_fmtHex]
          decide
      · simp only [Option.some.injEq] at hp
        subst hp
        have h1 : TabLines ("\tuint".toList ++ fmtDec (mul64 c.Size 8) ++ "_t csum_".toList ++
            fmtDec csumSeq ++ "_chunk_".toList ++ fmtDec i ++ " = 0x".toList ++
            fmtHex c.Value ++ ";\n".toList) := by
          refine tabLines_of_count _ ?_ ?_ ?_
          · repeat apply head?_append_left
            decide
          · repeat (first | decide | apply getLast?_append_right)
          · simp only [List.count_append, count_nl_fmtDec, count_nl_fmtHex]
            decide
        have h2 : TabLines ("\tcsum_inet_update(&csum_".toList ++ fmtDec csumSeq ++
            ", (const uint8_t*)&csum_".toList ++ fmtDec csumSeq ++ "_chunk_".toList ++
            fmtDec i ++ ", ".toList ++ fmtDec c.Size ++ ");\n".toList) := by
          refine tabLines_of_count _ ?_ ?_ ?_
          · repeat apply head?_append_left
            decide
          · repeat (first | decide | apply getLast?_append_right)
          · simp only [List.count_append, count_nl_fmtDec, count_nl_fmtHex]
            decide
        have h3 := tabLines_append h1 h2
        simp only [List.append_assoc] at h3 ⊢
        exact h3
    · exact absurd h (by simp)

theorem tabLines_copyinStep (opts : Options) (csumSeq : Nat) (copyin : ExecCopyin)
    (hd : byteData copyin = true) (t : Text) (n : Nat)
    (h : copyinStep opts csumSeq copyin = some (t, n)) : TabLines t := by
  obtain ⟨addr, arg⟩ := copyin
  cases arg with
  | const a =>
    simp only [copyinStep] at h
    split_ifs at h <;> simp only [Option.some.injEq, Prod.mk.injEq] at h <;>
      obtain ⟨h, _⟩ := h <;> subst h <;> refine tabLines_of_count _ ?_ ?_ ?_
    · repeat apply head?_append_left
      decide
    · repeat (first | decide | apply getLast?_append_right)
    · simp only [List.count_append, count_nl_fmtDec, count_nl_fmtHex, count_nl_constArgToStr]
      decide
    · repeat apply head?_append_left
      decide
    · repeat (first | decide | apply getLast?_append_right)
    · simp only [List.count_append, count_nl_fmtDec, count_nl_fmtHex, count_nl_constArgToStr]
      decide
  | result a =>
    simp only [copyinStep, Option.some.injEq, Prod.mk.injEq] at h
    obtain ⟨h, _⟩ := h
    subst h
    refine tabLines_of_count _ ?_ ?_ ?_
    · repeat apply head?_append_left
      decide
    · repeat (first | decide | apply getLast?_append_right)
    · simp only [List.count_append, count_nl_fmtDec, count_nl_fmtHex, count_nl_resultArgToStr]
      decide
  | data d =>
    simp only [copyinStep] at h
    split at h
    · rename_i str hstr
      simp only [Option.some.injEq, Prod.mk.injEq] at h
      obtain ⟨h, _⟩ := h
      subst h
      have hbytes : ∀ b ∈ d, b < 256 := by
        simp only [byteData, List.all_eq_true, decide_eq_true_eq] at hd
        exact hd
      refine tabLines_of_count _ ?_ ?_ ?_
      · repeat apply head?_append_left
        decide
      · repeat (first | decide | apply getLast?_append_right)
      · simp only [List.count_append, count_nl_fmtDec, count_nl_fmtHex,
          count_nl_toCString d str hbytes hstr]
        decide
    · exact absurd h (by simp)
  | csum a =>
    simp only [copyinStep] at h
    split_ifs at h
    split at h
    · rename_i chunks hchunks
      simp only [Option.some.injEq, Prod.mk.injEq] at h
      obtain ⟨h, _⟩ := h
      subst h
      have hc := tabLines_csumChunks (csumSeq + 1) a.Chunks 0 chunks hchunks
      have h1 : TabLines ("\tstruct csum_inet csum_".toList ++ fmtDec (csumSeq + 1) ++
          ";\n".toList) := by
        refine tabLines_of_count _ ?_ ?_ ?_
        · repeat apply head?_append_left
          decide
        · repeat (first | decide | apply getLast?_append_right)
        · simp only [List.count_append, count_nl_fmtDec]
          decide
      have h2 : TabLines ("\tcsum_inet_init(&csum_".toList ++ fmtDec (csumSeq + 1) ++
          ");\n".toList) := by
        refine tabLines_of_count _ ?_ ?_ ?_
        · repeat apply head?_append_left
          decide
        · repeat (first | decide | apply getLast?_append_right)
        · simp only [List.count_append, count_nl_fmtDec]
          decide
      have h3 : TabLines ("\tNONFAILING(*(uint16_t*)0x".toList ++ fmtHex addr ++
          " = csum_inet_digest(&csum_".toList ++ fmtDec (csumSeq + 1) ++ "));\n".toList) := by
        refine tabLines_of_count _ ?_ ?_ ?_
        · repeat apply head?_append_left
          decide
        · repeat (first | decide | apply getLast?_append_right)
        · simp only [List.count_append, count_nl_fmtDec, count_nl_fmtHex]
          decide
      have h4 := tabLines_append (tabLines_append (tabLines_append h1 h2) hc) h3
      simp only [List.append_assoc] at h4 ⊢
      exact h4
    · exact absurd h (by simp)

theorem tabLines_copyinLoop (opts : Options) : ∀ (copyins : List ExecCopyin) (w : Text)
    (csumSeq : Nat) (w1 : Text) (n : Nat), copyins.all byteData = true → TabLines w →
      copyinLoop opts w csumSeq copyins = some (w1, n) → TabLines w1 := by
  intro copyins
  induction copyins with
  | nil =>
    intro w csumSeq w1 n _ hw h
    simp only [copyinLoop, Option.some.injEq, Prod.mk.injEq] at h
    rw [← h.1]
    exact hw
  | cons c rest ih =>
    intro w csumSeq w1 n hd hw h
    simp only [List.all_cons, Bool.and_eq_true] at hd
    simp only [copyinLoop] at h
    split at h
    · rename_i t csumSeq1 hstep
      exact ih (w ++ t) csumSeq1 w1 n hd.2
        (tabLines_append hw (tabLines_copyinStep opts csumSeq c hd.1 t csumSeq1 hstep)) h
    · exact absurd h (by simp)

theorem count_nl_callArgs (opts : Options) (native : Bool) : ∀ (args : List ExecArg) (ai : Nat)
    (t : Text), callArgs opts native ai args = some t → t.count '\n' = 0 := by
  intro args
  induction args with
  | nil =>
    intro ai t h
    simp only [callArgs, Option.some.injEq] at h
    subst h
    rfl
  | cons a rest ih =>
    intro ai t h
    simp only [callArgs] at h
    split at h
    · rename_i p r hp hr
      simp only [Option.some.injEq] at h
      subst h
      have hr0 := ih (ai + 1) r hr
      have hp0 : p.count '\n' = 0 := by
        cases a with
        | const c =>
          simp only [Option.some.injEq] at hp
          subst hp
          exact count_nl_constArgToStr opts c
        | result c =>
          simp only [Option.some.injEq] at hp
          subst hp
          exact count_nl_resultArgToStr c
        | data d => exact absurd hp (by simp)
        | csum c => exact absurd hp (by simp)
      simp only [List.count_append, hp0, hr0]
      split_ifs <;> decide
    · exact absurd h (by simp)

theorem tabLines_faultText (opts : Options) (ci : Nat) : TabLines (faultText opts ci) := by
  unfold faultText
  split_ifs
  · have h1 : TabLines
        ("\twrite_file(\"/sys/kernel/debug/failslab/ignore-gfp-wait\", \"N\");\n".toList ++
          "\twrite_file(\"/sys/kernel/debug/fail_futex/ignore-private\", \"N\");\n".toList) :=
      tabLines_append (tabLines_of_count _ (by decide) (by decide) (by decide))
        (tabLines_of_count _ (by decide) (by decide) (by decide))
    have h2 : TabLines ("\tinject_fault(".toList ++ fmtInt opts.FaultNth ++ ");\n".toList) := by
      refine tabLines_of_count _ ?_ ?_ ?_
      · repeat apply head?_append_left
        decide
      · repeat (first | decide | apply getLast?_append_right)
      · simp only [List.count_append, count_nl_fmtInt]
        decide
    have h3 := tabLines_append h1 h2
    simp only [List.append_assoc] at h3 ⊢
    exact h3
  · exact tabLines_nil

theorem tabLines_invocationText (opts : Options) (sysTarget : SysTarget) (call : ExecCall)
    (hp : '\n' ∉ sysTarget.SyscallPrefix) (hn : '\n' ∉ call.CallName) (inv : Text)
    (h : invocationText opts sysTarget call = some inv) : TabLines inv := by
  have hp0 : sysTarget.SyscallPrefix.count '\n' = 0 := List.count_eq_zero.2 hp
  have hn0 : call.CallName.count '\n' = 0 := List.count_eq_zero.2 hn
  have hA : ∀ c : Prop, ∀ _ : Decidable c,
      (if c then "res = ".toList else ([] : Text)).count '\n' = 0 := by
    intro c _
    split_ifs <;> decide
  have hB : ∀ native : Bool,
      (if native = true then "syscall(".toList ++ sysTarget.SyscallPrefix ++ call.CallName
        else call.CallName ++ "(".toList).count '\n' = 0 := by
    intro native
    split_ifs
    · simp only [List.count_append, hp0, hn0]
      decide
    · simp only [List.count_append, hn0]
      decide
  unfold invocationText at h
  simp only [] at h
  by_cases he : emitCall opts call.CallName = true
  · rw [if_pos he] at h
    cases hargs : callArgs opts (!"syz_".toList.isPrefixOf call.CallName) 0 call.Args with
    | none => rw [hargs] at h; exact absurd h (by simp)
    | some args =>
      rw [hargs] at h
      simp only [Option.some.injEq] at h
      subst h
      have ha0 := count_nl_callArgs opts _ call.Args 0 args hargs
      refine tabLines_of_count _ ?_ ?_ ?_
      · repeat apply head?_append_left
        decide
      · repeat (first | decide | apply getLast?_append_right)
      · simp only [List.count_append, ha0, hA, hB]
        decide
  · rw [if_neg he] at h
    simp only [Option.some.injEq] at h
    subst h
    exact tabLines_nil

theorem tabLines_copyoutLines : ∀ copyouts : List ExecCopyout,
    TabLines (copyouts.map copyoutLine).flatten := by
  intro copyouts
  apply tabLines_flatten
  intro f hf
  rw [List.mem_map] at hf
  obtain ⟨c, _, rfl⟩ := hf
  unfold copyoutLine
  refine tabLines_of_count _ ?_ ?_ ?_
  · repeat apply head?_append_left
    decide
  · repeat (first | decide | apply getLast?_append_right)
  · simp only [List.count_append, count_nl_fmtDec, count_nl_fmtHex]
    decide

theorem tabLines_ite (c : Prop) [Decidable c] {a b : Text} (ha : TabLines a)
    (hb : TabLines b) : TabLines (if c then a else b) := by
  split <;> assumption

theorem tabLines_copyoutText (call : ExecCall) : TabLines (copyoutText call) := by
  unfold copyoutText
  simp only []
  by_cases hc : (call.Index ≠ ExecNoCopyout ∨ call.Copyout.length ≠ 0)
  · rw [if_pos hc]
    have h1 : TabLines ("\tif (res != -1)".toList ++
        (if call.Copyout.length > 1 ∨ (call.Index ≠ ExecNoCopyout ∧ call.Copyout.length > 0)
          then " \x7b".toList else []) ++ "\n".toList) := by
      by_cases hm : (call.Copyout.length > 1 ∨
          (call.Index ≠ ExecNoCopyout ∧ call.Copyout.length > 0))
      · rw [if_pos hm]
        exact tabLines_of_count _ (by decide) (by decide) (by decide)
      · rw [if_neg hm]
        exact tabLines_of_count _ (by decide) (by decide) (by decide)
    have h2 : TabLines (if call.Index ≠ ExecNoCopyout then
        "\t\tr[".toList ++ fmtDec call.Index ++ "] = res;\n".toList else []) := by
      refine tabLines_ite _ ?_ tabLines_nil
      refine tabLines_of_count _ ?_ ?_ ?_
      · repeat apply head?_append_left
        decide
      · repeat (first | decide | apply getLast?_append_right)
      · simp only [List.count_append, count_nl_fmtDec]
        decide
    have h3 : TabLines (if call.Copyout.length > 1 ∨
        (call.Index ≠ ExecNoCopyout ∧ call.Copyout.length > 0)
          then "\t\x7d\n".toList else []) :=
      tabLines_ite _ (tabLines_of_count _ (by decide) (by decide) (by decide)) tabLines_nil
    exact tabLines_append (tabLines_append (tabLines_append h1 h2)
      (tabLines_copyoutLines call.Copyout)) h3
  · rw [if_neg hc]
    exact tabLines_nil

theorem tabLines_generateCall (opts : Options) (sysTarget : SysTarget) (ci csumSeq : Nat)
    (call : ExecCall) (hp : '\n' ∉ sysTarget.SyscallPrefix) (hw : WellFormedCall call)
    (w : Text) (n : Nat) (h : generateCall opts sysTarget ci csumSeq call = some (w, n)) :
    TabLines w := by
  unfold generateCall at h
  split at h
  · rename_i w0 csumSeq1 hloop
    simp only [] at h
    split at h
    · rename_i inv hinv
      simp only [Option.some.injEq, Prod.mk.injEq] at h
      rw [← h.1]
      exact tabLines_append
        (tabLines_append
          (tabLines_append
            (tabLines_copyinLoop opts call.Copyin [] csumSeq w0 csumSeq1 hw.2.1 tabLines_nil
              hloop)
            (tabLines_faultText opts ci))
          (tabLines_invocationText opts sysTarget call hp hw.2.2.1 inv hinv))
        (tabLines_copyoutText call)
    · exact absurd h (by simp)
  · exact absurd h (by simp)

theorem tabLines_generateCallsLoop (opts : Options) (sysTarget : SysTarget)
    (hp : '\n' ∉ sysTarget.SyscallPrefix) :
    ∀ (calls : List ExecCall) (ci csumSeq : Nat) (acc frags : List Text),
      (∀ c ∈ calls, WellFormedCall c) → (∀ f ∈ acc, TabLines f) →
      generateCallsLoop opts sysTarget ci csumSeq acc calls = some frags →
      ∀ f ∈ frags, TabLines f := by
  intro calls
  induction calls with
  | nil =>
    intro ci n acc frags _ hacc h
    simp only [generateCallsLoop, Option.some.injEq] at h
    rw [← h]
    exact hacc
  | cons c rest ih =>
    intro ci n acc frags hw hacc h
    simp only [generateCallsLoop] at h
    split at h
    · rename_i w n1 hgen
      refine ih (ci + 1) n1 (acc ++ [w]) frags
        (fun d hd => hw d (List.mem_cons_of_mem _ hd)) ?_ h
      intro f hf
      rw [List.mem_append, List.mem_singleton] at hf
      rcases hf with hf | hf
      · exact hacc f hf
      · rw [hf]
        exact tabLines_generateCall opts sysTarget ci n c hp (hw c (List.mem_cons_self _ _))
          w n1 hgen
    · exact absurd h (by simp)

/-- Every fragment that `generateCalls` returns for a well-formed program is made of
complete lines that begin with a tab. -/
theorem tabLines_generateCalls (opts : Options) (sysTarget : SysTarget) (p : ExecProg)
    (hp : '\n' ∉ sysTarget.SyscallPrefix) (hw : ∀ c ∈ p.Calls, WellFormedCall c)
    (frags : List Text) (vars : List Nat)
    (h : generateCalls opts sysTarget p = some (frags, vars)) : ∀ f ∈ frags, TabLines f := by
  unfold generateCalls at h
  split at h
  · rename_i calls hcalls
    simp only [Option.some.injEq, Prod.mk.injEq] at h
    rw [← h.1]
    exact tabLines_generateCallsLoop opts sysTarget hp p.Calls 0 0 [] calls hw
      (fun f hf => absurd hf (by simp)) hcalls
  · exact absurd h (by simp)

/-! ## Texts whose lines begin with given characters -/

theorem linesOK_append (S : List Char) : ∀ (a c : Text) (b : Bool),
    linesOK S b a = true → linesOK S true c = true → linesOK S b (a ++ c) = true := by
  intro a
  induction a with
  | nil =>
    intro c b ha hc
    simp only [linesOK] at ha
    subst ha
    exact hc
  | cons x a ih =>
    intro c b ha hc
    simp only [List.cons_append, linesOK] at ha ⊢
    by_cases hx : x = '\n'
    · rw [if_pos hx] at ha ⊢
      exact ih c true ha hc
    · rw [if_neg hx] at ha ⊢
      simp only [Bool.and_eq_true] at ha ⊢
      exact ⟨ha.1, ih c false ha.2 hc⟩

theorem linesFrom_append {S : List Char} {a c : Text} (ha : LinesFrom S a)
    (hc : LinesFrom S c) : LinesFrom S (a ++ c) :=
  linesOK_append S a c true ha hc

theorem linesFrom_nil (S : List Char) : LinesFrom S [] := rfl

theorem linesFrom_ite {S : List Char} (c : Prop) [Decidable c] {a b : Text}
    (ha : LinesFrom S a) (hb : LinesFrom S b) : LinesFrom S (if c then a else b) := by
  split <;> assumption

theorem linesOK_inside (S : List Char) : ∀ body : Text, '\n' ∉ body →
    linesOK S false (body ++ ['\n']) = true := by
  intro body
  induction body with
  | nil => intro _; rfl
  | cons x body ih =>
    intro h
    simp only [List.mem_cons, not_or] at h
    simp only [List.cons_append, linesOK]
    rw [if_neg (fun hx => h.1 hx.symm)]
    simp only [Bool.false_eq_true, if_false, Bool.true_and]
    exact ih h.2

/-- A single line that begins with a character of `S`. -/
theorem linesFrom_of_count (S : List Char) (l : Text) (x : Char) (hx : x ∈ S)
    (hh : l.head? = some x) (hl : l.getLast? = some '\n') (hc : l.count '\n' = 1) :
    LinesFrom S l := by
  have hne : l ≠ [] := by intro h; rw [h] at hh; simp at hh
  have hsplit : l = l.dropLast ++ ['\n'] := by
    have := List.dropLast_append_getLast hne
    rw [List.getLast?_eq_getLast _ hne, Option.some.injEq] at hl
    rw [hl] at this
    exact this.symm
  have hcount : l.dropLast.count '\n' = 0 := by
    rw [hsplit, List.count_append] at hc
    simp at hc
    exact hc
  have hnot : '\n' ∉ l.dropLast := List.count_eq_zero.1 hcount
  cases hd : l.dropLast with
  | nil =>
    rw [hd, List.nil_append] at hsplit
    rw [hsplit]
    rfl
  | cons y body =>
    rw [hd] at hsplit hnot
    have hy : y = x := by
      rw [hsplit] at hh
      simpa using hh
    subst hy
    rw [hsplit]
    unfold LinesFrom
    simp only [List.mem_cons, not_or] at hnot
    simp only [List.cons_append, linesOK]
    rw [if_neg (fun h => hnot.1 h.symm)]
    simp only [if_true, Bool.and_eq_true, decide_eq_true_eq]
    exact ⟨hx, linesOK_inside S body hnot.2⟩

theorem linesFrom_of_tabLines (S : List Char) (hS : '\t' ∈ S) {f : Text} (h : TabLines f) :
    LinesFrom S f := by
  induction h with
  | nil => rfl
  | line body rest hbody _ ih =>
    have hsplit : '\t' :: (body ++ '\n' :: rest) = ('\t' :: (body ++ ['\n'])) ++ rest := by
      simp
    rw [hsplit]
    refine linesFrom_append ?_ ih
    unfold LinesFrom
    simp only [linesOK]
    rw [if_neg (by decide)]
    simp only [if_true, Bool.and_eq_true, decide_eq_true_eq]
    exact ⟨hS, linesOK_inside S body hbody⟩

theorem linesFrom_flatten (S : List Char) : ∀ frags : List Text,
    (∀ f ∈ frags, LinesFrom S f) → LinesFrom S frags.flatten := by
  intro frags
  induction frags with
  | nil => intro _; rfl
  | cons f rest ih =>
    intro h
    rw [List.flatten_cons]
    exact linesFrom_append (h f (List.mem_cons_self _ _))
      (ih fun g hg => h g (List.mem_cons_of_mem _ hg))

theorem linesOK_lineBlock (S : List Char) : ∀ (f : Text) (b : Bool),
    linesOK S b f = true → f ≠ [] → f.getLast? = some '\n' := by
  intro f
  induction f with
  | nil => intro b _ h; exact absurd rfl h
  | cons x f ih =>
    intro b h _
    simp only [linesOK] at h
    by_cases hx : x = '\n'
    · rw [if_pos hx] at h
      cases f with
      | nil => rw [hx]; rfl
      | cons y f =>
        rw [List.getLast?_cons_cons]
        exact ih true h (by simp)
    · rw [if_neg hx] at h
      simp only [Bool.and_eq_true] at h
      cases f with
      | nil => exact absurd h.2 (by simp [linesOK])
      | cons y f =>
        rw [List.getLast?_cons_cons]
        exact ih false h.2 (by simp)

theorem linesFrom_lineBlock {S : List Char} {f : Text} (h : LinesFrom S f) : LineBlock f := by
  by_cases hf : f = []
  · exact Or.inl hf
  · exact Or.inr (linesOK_lineBlock S f true h hf)

theorem linesOK_starts (S : List Char) (pat : Text) (hp : pat ≠ [])
    (hh : ∀ x, pat.head? = some x → x ∉ S) (hn : '\n' ∉ pat) : ∀ (f : Text) (b : Bool),
    linesOK S b f = true → occ ('\n' :: pat) f = 0 ∧ (b = true → ¬ pat <+: f) := by
  intro f
  induction f with
  | nil =>
    intro b _
    exact ⟨rfl, fun _ h => hp (List.prefix_nil.1 h)⟩
  | cons x f ih =>
    intro b h
    simp only [linesOK] at h
    obtain ⟨p, ps, rfl⟩ : ∃ p ps, pat = p :: ps := by
      cases pat with
      | nil => exact absurd rfl hp
      | cons p ps => exact ⟨p, ps, rfl⟩
    have hpn : p ≠ '\n' := fun h0 => hn (by rw [h0]; exact List.mem_cons_self _ _)
    by_cases hx : x = '\n'
    · rw [if_pos hx] at h
      obtain ⟨h1, h2⟩ := ih true h
      subst hx
      refine ⟨?_, fun _ hpre => ?_⟩
      · have hno : ¬ ('\n' :: p :: ps <+: '\n' :: f) := by
          rw [List.cons_prefix_cons]
          exact fun hc => h2 rfl hc.2
        rw [occ_cons, h1, if_neg hno]
      · rw [List.cons_prefix_cons] at hpre
        exact hpn hpre.1
    · rw [if_neg hx] at h
      simp only [Bool.and_eq_true] at h
      obtain ⟨h1, _⟩ := ih false h.2
      refine ⟨?_, fun hb hpre => ?_⟩
      · have hno : ¬ ('\n' :: p :: ps <+: x :: f) := by
          rw [List.cons_prefix_cons]
          exact fun hc => hx hc.1.symm
        rw [occ_cons, h1, if_neg hno]
      · subst hb
        simp only [if_true, decide_eq_true_eq] at h
        rw [List.cons_prefix_cons] at hpre
        exact hh p rfl (hpre.1 ▸ h.1)

/-- No line of such a text begins with a text whose first character is outside `S`. -/
theorem linesFrom_lineStarts {S : List Char} {f : Text} (h : LinesFrom S f) (pat : Text)
    (hp : pat ≠ []) (hh : ∀ x, pat.head? = some x → x ∉ S) (hn : '\n' ∉ pat) :
    lineStarts pat f = 0 := by
  obtain ⟨h1, h2⟩ := linesOK_starts S pat hp hh hn f true h
  unfold lineStarts
  rw [h1, if_neg (h2 rfl)]

theorem linesOK_false_of_true (S : List Char) (f : Text) (h : linesOK S true f = true)
    (hne : f ≠ []) : linesOK S false f = true := by
  cases f with
  | nil => exact absurd rfl hne
  | cons x f =>
    simp only [linesOK] at h ⊢
    by_cases hx : x = '\n'
    · rw [if_pos hx] at h ⊢; exact h
    · rw [if_neg hx] at h ⊢
      simp only [Bool.and_eq_true] at h ⊢
      exact ⟨by simp, h.2⟩

theorem linesFrom_res (S : List Char) (hS : '\t' ∈ S) (hasVars : Bool) (z : Text)
    (hz : LinesFrom S z) (hne : z ≠ []) :
    LinesFrom S ((if hasVars = true then "\tlong res;".toList else []) ++ z) := by
  cases hasVars
  · exact hz
  · have := linesOK_false_of_true S z hz hne
    unfold LinesFrom
    simp [linesOK, hS, this]

theorem linesFrom_void (name : Text) (hn : '\n' ∉ name) :
    LinesFrom ownLineStarts ("void ".toList ++ (name ++ "()\n\x7b\n".toList)) := by
  have h1 : LinesFrom ownLineStarts ("void ".toList ++ (name ++ "()\n".toList)) := by
    refine linesFrom_of_count _ _ 'v' (by decide) ?_ ?_ ?_
    · repeat apply head?_append_left
      decide
    · repeat (first | decide | apply getLast?_append_right)
    · simp only [List.count_append, List.count_eq_zero.2 hn]
      decide
  have h2 : LinesFrom ownLineStarts "\x7b\n".toList := by decide
  have h3 := linesFrom_append h1 h2
  have e : "()\n\x7b\n".toList = "()\n".toList ++ "\x7b\n".toList := by decide
  rw [e]
  simp only [List.append_assoc] at h3 ⊢
  exact h3

theorem linesFrom_debug (b : Bool) (name : Text) (hn : '\n' ∉ name) :
    LinesFrom ownLineStarts
      (if b = true then "\tdebug(\"".toList ++ (name ++ "\\n\");\n".toList) else []) := by
  refine linesFrom_ite _ ?_ (linesFrom_nil _)
  refine linesFrom_of_count _ _ '\t' (by decide) ?_ ?_ ?_
  · repeat apply head?_append_left
    decide
  · repeat (first | decide | apply getLast?_append_right)
  · simp only [List.count_append, List.count_eq_zero.2 hn]
    decide

theorem linesFrom_execute (n : Nat) :
    LinesFrom ownLineStarts ("\texecute(".toList ++ (fmtDec n ++ ");\n".toList)) := by
  refine linesFrom_of_count _ _ '\t' (by decide) ?_ ?_ ?_
  · repeat apply head?_append_left
    decide
  · repeat (first | decide | apply getLast?_append_right)
  · simp only [List.count_append, count_nl_fmtDec]
    decide

theorem linesFrom_caseLoop : ∀ (calls : List Text) (i : Nat), (∀ f ∈ calls, TabLines f) →
    LinesFrom ownLineStarts (caseLoop i calls) := by
  intro calls
  induction calls with
  | nil => intro i _; rfl
  | cons f rest ih =>
    intro i h
    simp only [caseLoop]
    have h1 : LinesFrom ownLineStarts ("\tcase ".toList ++ fmtDec i ++ ":\n".toList) := by
      refine linesFrom_of_count _ _ '\t' (by decide) ?_ ?_ ?_
      · repeat apply head?_append_left
        decide
      · repeat (first | decide | apply getLast?_append_right)
      · simp only [List.count_append, count_nl_fmtDec]
        decide
    have h2 : LinesFrom ownLineStarts (replaceAll "\t".toList "\t\t".toList f) :=
      linesFrom_of_tabLines _ (by decide) (tabLines_tabbed (h f (List.mem_cons_self _ _)))
    have h3 : LinesFrom ownLineStarts "\t\tbreak;\n".toList := by decide
    exact linesFrom_append (linesFrom_append (linesFrom_append h1 h2) h3)
      (ih (i + 1) fun g hg => h g (List.mem_cons_of_mem _ hg))

theorem linesFrom_generateTestFunc (opts : Options) (calls : List Text) (hasVars : Bool)
    (name : Text) (hn : '\n' ∉ name) (hc : ∀ f ∈ calls, TabLines f) :
    LinesFrom ownLineStarts (generateTestFunc opts calls hasVars name) := by
  have hrep : LinesFrom ownLineStarts
      (if opts.Repro = true then
        "\tsyscall(SYS_write, 1, \"executing program\\n\", strlen(\"executing program\\n\"));\n".toList
       else []) := linesFrom_ite _ (by decide) (linesFrom_nil _)
  have hflat : LinesFrom ownLineStarts calls.flatten :=
    linesFrom_flatten _ calls fun f hf => linesFrom_of_tabLines _ (by decide) (hc f hf)
  have hend : LinesFrom ownLineStarts "\x7d\n\n".toList := by decide
  unfold generateTestFunc
  split
  · simp only [List.append_assoc]
    rw [← List.append_assoc name, ← List.append_assoc "void ".toList]
    refine linesFrom_append (linesFrom_void name hn) ?_
    refine linesFrom_res _ (by decide) hasVars _ ?_ ?_
    · exact linesFrom_append (linesFrom_debug _ name hn)
        (linesFrom_append hrep (linesFrom_append hflat hend))
    · intro h0
      have := congrArg List.getLast? h0
      rw [getLast?_append_right _ (getLast?_append_right _ (getLast?_append_right _
        (by decide : "\x7d\n\n".toList.getLast? = some '\n')))] at this
      simp at this
  · simp only [List.append_assoc]
    refine linesFrom_append (by decide) ?_
    refine linesFrom_res _ (by decide) hasVars _ ?_ (by
      intro h0
      have := congrArg List.length h0
      simp at this)
    refine linesFrom_append (by decide) ?_
    refine linesFrom_append (linesFrom_caseLoop calls 0 hc) ?_
    refine linesFrom_append (by decide) ?_
    refine linesFrom_append (by decide) ?_
    rw [← List.append_assoc name, ← List.append_assoc "void ".toList]
    refine linesFrom_append (linesFrom_void name hn) ?_
    refine linesFrom_append (linesFrom_debug _ name hn) ?_
    refine linesFrom_append hrep ?_
    rw [← List.append_assoc (fmtDec calls.length), ← List.append_assoc "\texecute(".toList]
    refine linesFrom_append (linesFrom_execute _) ?_
    refine linesFrom_append ?_ (by decide)
    refine linesFrom_ite _ ?_ (linesFrom_nil _)
    refine linesFrom_append (by decide) ?_
    exact linesFrom_execute _

theorem linesFrom_runLoop (opts : Options) (ind : Text)
    (hind : ind = "\t".toList ∨ ind = "\t\t".toList ∨ ind = "\t\t\t\t".toList)
    (hS : '\n' ∉ opts.Sandbox) : LinesFrom ownLineStarts (runLoop opts ind) := by
  have hi0 : ind.count '\n' = 0 := by rcases hind with h | h | h <;> subst h <;> decide
  have hih : ind.head? = some '\t' := by rcases hind with h | h | h <;> subst h <;> decide
  have hline : ∀ lit : Text, lit.getLast? = some '\n' → lit.count '\n' = 1 →
      LinesFrom ownLineStarts (ind ++ lit) := by
    intro lit h1 h2
    refine linesFrom_of_count _ _ '\t' (by decide) (head?_append_left _ hih)
      (getLast?_append_right _ h1) ?_
    rw [List.count_append, hi0, h2]
  unfold runLoop
  split
  · have h1 : LinesFrom ownLineStarts
        (ind ++ "int pid = do_sandbox_".toList ++ opts.Sandbox ++ "();\n".toList) := by
      refine linesFrom_of_count _ _ '\t' (by decide) ?_ ?_ ?_
      · repeat apply head?_append_left
        exact hih
      · repeat (first | decide | apply getLast?_append_right)
      · simp only [List.count_append, hi0, List.count_eq_zero.2 hS]
        decide
    have h2 := hline "int status = 0;\n".toList (by decide) (by decide)
    have h3 := hline "while (waitpid(pid, &status, __WALL) != pid) \x7b\x7d\n".toList
      (by decide) (by decide)
    have h4 := linesFrom_append (linesFrom_append h1 h2) h3
    simp only [List.append_assoc] at h4 ⊢
    exact h4
  · have h1 : LinesFrom ownLineStarts
        (if opts.EnableTun = true then
          ind ++ "initialize_tun();\n".toList ++ ind ++ "initialize_netdevices();\n".toList
         else []) := by
      refine linesFrom_ite _ ?_ (linesFrom_nil _)
      have := linesFrom_append (hline "initialize_tun();\n".toList (by decide) (by decide))
        (hline "initialize_netdevices();\n".toList (by decide) (by decide))
      simp only [List.append_assoc] at this ⊢
      exact this
    have h2 := hline "loop();\n".toList (by decide) (by decide)
    have h3 := linesFrom_append h1 h2
    simp only [List.append_assoc] at h3 ⊢
    exact h3

theorem linesFrom_procLoopHeader (n : Int) : LinesFrom ownLineStarts (procLoopHeader n) := by
  unfold procLoopHeader
  refine linesFrom_of_count _ _ '\t' (by decide) ?_ ?_ ?_
  · repeat apply head?_append_left
    decide
  · repeat (first | decide | apply getLast?_append_right)
  · simp only [List.count_append, count_nl_fmtInt]
    decide

theorem linesFrom_mainText (opts : Options) (mmapCalls : List Text)
    (hm : ∀ f ∈ mmapCalls, TabLines f) (hS : '\n' ∉ opts.Sandbox) :
    LinesFrom ownLineStarts (mainText opts mmapCalls) := by
  have hflat : LinesFrom ownLineStarts mmapCalls.flatten :=
    linesFrom_flatten _ mmapCalls fun f hf => linesFrom_of_tabLines _ (by decide) (hm f hf)
  have hmain : LinesFrom ownLineStarts "int main()\n\x7b\n".toList := by decide
  unfold mainText
  split
  · unfold mainOnce
    exact linesFrom_append (linesFrom_append (linesFrom_append (linesFrom_append
      (linesFrom_append hmain hflat)
      (linesFrom_ite _ (by decide) (linesFrom_nil _)))
      (linesFrom_ite _ (by decide) (linesFrom_nil _)))
      (linesFrom_runLoop opts _ (Or.inl rfl) hS)) (by decide)
  · split
    · unfold mainLoop
      exact linesFrom_append (linesFrom_append (linesFrom_append (linesFrom_append
        (linesFrom_append (linesFrom_append (linesFrom_append hmain hflat)
        (linesFrom_ite _ (by decide) (linesFrom_nil _)))
        (linesFrom_ite _ (by decide) (linesFrom_nil _)))
        (by decide))
        (linesFrom_ite _ (by decide) (linesFrom_nil _)))
        (linesFrom_runLoop opts _ (Or.inr (Or.inl rfl)) hS)) (by decide)
    · have hchild : LinesFrom ownLineStarts (forkChild opts) := by
        unfold forkChild
        exact linesFrom_append (linesFrom_append (linesFrom_append (linesFrom_append
          (linesFrom_ite _ (by decide) (linesFrom_nil _))
          (by decide))
          (linesFrom_ite _ (by decide) (linesFrom_nil _)))
          (linesFrom_runLoop opts _ (Or.inr (Or.inr rfl)) hS)) (by decide)
      have hhead := linesFrom_procLoopHeader opts.Procs
      unfold procLoopHeader at hhead
      unfold mainFork
      have := linesFrom_append (linesFrom_append (linesFrom_append (linesFrom_append
        (linesFrom_append (linesFrom_append (linesFrom_append (linesFrom_append
        (linesFrom_append hmain hflat)
        (linesFrom_ite (opts.UseTmpDir = true)
          (by decide : LinesFrom ownLineStarts
            "\tchar *cwd = get_current_dir_name();\n".toList) (linesFrom_nil _)))
        hhead)
        (by decide : LinesFrom ownLineStarts "\t\tif (fork() == 0) \x7b\n".toList))
        hchild)
        (by decide : LinesFrom ownLineStarts "\t\t\x7d\n".toList))
        (by decide : LinesFrom ownLineStarts "\t\x7d\n".toList))
        (by decide : LinesFrom ownLineStarts "\tsleep(1000000);\n".toList))
        (by decide : LinesFrom ownLineStarts "\treturn 0;\n\x7d\n".toList)
      simp only [List.append_assoc] at this ⊢
      exact this

theorem linesFrom_writeSkeleton (opts : Options) (calls : List Text) (vars : List Nat)
    (mmapCalls : List Text) (hc : ∀ f ∈ calls, TabLines f) (hm : ∀ f ∈ mmapCalls, TabLines f)
    (hS : '\n' ∉ opts.Sandbox) :
    LinesFrom ownLineStarts (writeSkeleton opts calls vars mmapCalls) := by
  unfold writeSkeleton
  refine linesFrom_append (linesFrom_generateTestFunc opts calls _ _ ?_ hc)
    (linesFrom_mainText opts mmapCalls hm hS)
  cases opts.Repeat <;> decide

/-! ## Result table -/

theorem linesFrom_syscallDefineLoop (sysTarget : SysTarget)
    (hp : '\n' ∉ sysTarget.SyscallPrefix) : ∀ entries : List (Text × Nat),
    (∀ e ∈ entries, '\n' ∉ e.1) → LinesFrom ownLineStarts (syscallDefineLoop sysTarget entries) := by
  have hp0 := List.count_eq_zero.2 hp
  intro entries
  induction entries with
  | nil => intro _; rfl
  | cons e rest ih =>
    intro h
    obtain ⟨name, nr⟩ := e
    have hn0 := List.count_eq_zero.2 (h (name, nr) (List.mem_cons_self _ _))
    simp only [syscallDefineLoop]
    refine linesFrom_append ?_ (ih fun e he => h e (List.mem_cons_of_mem _ he))
    refine linesFrom_ite _ (linesFrom_nil _) ?_
    have h1 : LinesFrom ownLineStarts
        ("#ifndef ".toList ++ sysTarget.SyscallPrefix ++ name ++ "\n".toList) := by
      refine linesFrom_of_count _ _ '#' (by decide) ?_ ?_ ?_
      · repeat apply head?_append_left
        decide
      · repeat (first | decide | apply getLast?_append_right)
      · simp only [List.count_append, hp0, hn0]
        decide
    have h2 : LinesFrom ownLineStarts
        ("#define ".toList ++ sysTarget.SyscallPrefix ++ name ++ " ".toList ++ fmtDec nr ++
          "\n".toList) := by
      refine linesFrom_of_count _ _ '#' (by decide) ?_ ?_ ?_
      · repeat apply head?_append_left
        decide
      · repeat (first | decide | apply getLast?_append_right)
      · simp only [List.count_append, hp0, hn0, count_nl_fmtDec]
        decide
    have h3 : LinesFrom ownLineStarts "#endif\n".toList := by decide
    have h4 := linesFrom_append (linesFrom_append h1 h2) h3
    simp only [List.append_assoc] at h4 ⊢
    exact h4

theorem linesFrom_generateSyscallDefines (target : Target) (sysTarget : SysTarget)
    (entries : List (Text × Nat)) (hp : '\n' ∉ sysTarget.SyscallPrefix)
    (he : ∀ e ∈ entries, '\n' ∉ e.1) :
    LinesFrom ownLineStarts (generateSyscallDefines target sysTarget entries) := by
  unfold generateSyscallDefines
  exact linesFrom_append (linesFrom_append (linesFrom_syscallDefineLoop sysTarget hp entries he)
    (linesFrom_ite _ (by decide) (linesFrom_nil _))) (by decide)

theorem count_nl_resultInits : ∀ (vars : List Nat) (i : Nat),
    (resultInits i vars).count '\n' = 0 := by
  intro vars
  induction vars with
  | nil => intro i; rfl
  | cons v rest ih =>
    intro i
    simp only [resultInits, List.count_append, ih, count_nl_fmtHex]
    split_ifs <;> decide

/-- The initialisers printed by the loop are the values in order, in hexadecimal, separated
by a comma and a blank. -/
theorem resultInits_eq : ∀ (vars : List Nat) (i : Nat),
    resultInits i vars =
      (if i ≠ 0 ∧ vars ≠ [] then ", ".toList else []) ++
        ", ".toList.intercalate (vars.map fun v => "0x".toList ++ fmtHex v) := by
  intro vars
  induction vars with
  | nil => intro i; simp [resultInits, List.intercalate]
  | cons v rest ih =>
    intro i
    rw [resultInits, ih (i + 1)]
    cases rest with
    | nil =>
      by_cases hi : i = 0 <;> simp [hi, List.intercalate]
    | cons w rest =>
      by_cases hi : i = 0 <;> simp [hi, List.intercalate, List.intersperse]

theorem lineStarts_single (pat l : Text) (hp : pat ≠ []) (hl : l.getLast? = some '\n')
    (hc : l.count '\n' = 1) : lineStarts pat l = if pat <+: l then 1 else 0 := by
  have hne : l ≠ [] := by intro h; rw [h] at hl; simp at hl
  have hsplit : l = l.dropLast ++ ['\n'] := by
    have := List.dropLast_append_getLast hne
    rw [List.getLast?_eq_getLast _ hne, Option.some.injEq] at hl
    rw [hl] at this
    exact this.symm
  have hcount : l.dropLast.count '\n' = 0 := by
    rw [hsplit, List.count_append] at hc
    simp at hc
    exact hc
  have hnot : '\n' ∉ l.dropLast := List.count_eq_zero.1 hcount
  have h1 : occ ('\n' :: pat) l = 0 := by
    rw [hsplit, occ_skip '\n' pat _ _ hnot, occ_cons, occ_nil]
    have h3 : ¬ ('\n' :: pat <+: ['\n']) := by
      rw [List.cons_prefix_cons]
      exact fun h => hp (List.prefix_nil.1 h.2)
    rw [if_neg h3]
  unfold lineStarts
  rw [h1, Nat.add_zero]

theorem lineStarts_resultTable (vars : List Nat) :
    lineStarts "uint64_t r[".toList (resultTable vars) = if vars.length ≠ 0 then 1 else 0 := by
  unfold resultTable
  by_cases hv : vars.length ≠ 0
  · rw [if_pos hv, if_pos hv, lineStarts_single _ _ (by decide)
      (by repeat (first | decide | apply getLast?_append_right))
      (by simp only [List.count_append, count_nl_fmtDec, count_nl_resultInits]; decide)]
    rw [if_pos]
    rw [List.append_assoc, List.append_assoc, List.append_assoc]
    exact List.prefix_append _ _
  · rw [if_neg hv, if_neg hv]
    rfl

theorem lineBlock_resultTable (vars : List Nat) : LineBlock (resultTable vars) := by
  unfold resultTable
  split
  · exact lineBlock_append_right _ (by decide)
  · exact lineBlock_nil

/-- The lines of the body that begin with `uint64_t r[`: one if there are result variables,
none otherwise. -/
theorem lineStarts_writeBody (opts : Options) (target : Target) (sysTarget : SysTarget)
    (entries : List (Text × Nat)) (calls : List Text) (vars : List Nat)
    (mmapCalls : List Text) (hc : ∀ f ∈ calls, TabLines f) (hm : ∀ f ∈ mmapCalls, TabLines f)
    (hp : '\n' ∉ sysTarget.SyscallPrefix) (he : ∀ e ∈ entries, '\n' ∉ e.1)
    (hS : '\n' ∉ opts.Sandbox) :
    lineStarts "uint64_t r[".toList
        (writeBody opts target sysTarget entries calls vars mmapCalls) =
      if vars.length ≠ 0 then 1 else 0 := by
  have hadd := additive_lineStarts "uint64_t r[".toList (by decide) (by decide)
  have hdef := linesFrom_generateSyscallDefines target sysTarget entries hp he
  have hsk := linesFrom_writeSkeleton opts calls vars mmapCalls hc hm hS
  have hz : ∀ f : Text, LinesFrom ownLineStarts f → lineStarts "uint64_t r[".toList f = 0 :=
    fun f hf => linesFrom_lineStarts hf _ (by decide)
      (by
        intro x hx
        have h2 : "uint64_t r[".toList.head? = some 'u' := rfl
        rw [h2, Option.some.injEq] at hx
        subst hx
        decide)
      (by decide)
  unfold writeBody
  simp only [List.append_assoc]
  rw [hadd _ _ (linesFrom_lineBlock hdef), hz _ hdef, hadd _ _ (lineBlock_resultTable vars),
    lineStarts_resultTable, additive_ite _ hadd _ _ _ (by decide), hz _ hsk]
  split_ifs <;> decide

/-! ## Result table: the claim -/

theorem generateCalls_isSome (opts : Options) (sysTarget : SysTarget) (p : ExecProg)
    (hw : ∀ c ∈ p.Calls, WellFormedCall c) :
    ∃ frags, generateCalls opts sysTarget p = some (frags, p.Vars) := by
  have hk : p.Calls.all knownCall = true := by
    rw [List.all_eq_true]
    exact fun c hc => (hw c hc).1
  obtain ⟨frags, hf, _, _⟩ := generateCallsLoop_spec opts sysTarget p.Calls 0 0 [] hk
  exact ⟨frags, by simp only [generateCalls, hf, List.nil_append]⟩

theorem resultTable_infix_writeBody (opts : Options) (target : Target) (sysTarget : SysTarget)
    (entries : List (Text × Nat)) (calls : List Text) (vars : List Nat)
    (mmapCalls : List Text) :
    resultTable vars <:+: writeBody opts target sysTarget entries calls vars mmapCalls := by
  unfold writeBody
  exact ⟨generateSyscallDefines target sysTarget entries,
    (if opts.Procs > 1 ∨ opts.EnableCgroups then "unsigned long long procid;\n".toList else []) ++
      writeSkeleton opts calls vars mmapCalls, by simp only [List.append_assoc]⟩

/-- C9: for a well-formed program and memory-mapping program (names of calls, syscall prefix
and sandbox without newline), `generateCalls` succeeds on both, `Write` returns the
post-processed buffer made of the banner, the common header, a newline and the body, and in
what `Write` itself prints (banner and body) a line begins with `uint64_t r[` iff the list
of result variables is not empty: then there is exactly one such line, the result table,
which declares the length of the list and lists its values in order, in hexadecimal. -/
theorem Write_result_table (check : Options → Bool) (opts : Options) (target : Target)
    (sysTarget : SysTarget) (decoded mmapDecoded : ExecProg) (entries : List (Text × Nat))
    (hdr : Text) (hcheck : check opts = true)
    (hw : ∀ c ∈ decoded.Calls, WellFormedCall c)
    (hwm : ∀ c ∈ mmapDecoded.Calls, WellFormedCall c)
    (hp : '\n' ∉ sysTarget.SyscallPrefix) (he : ∀ e ∈ entries, '\n' ∉ e.1)
    (hS : '\n' ∉ opts.Sandbox) :
    ∃ calls mmapCalls,
      generateCalls opts sysTarget decoded = some (calls, decoded.Vars) ∧
      generateCalls opts sysTarget mmapDecoded = some (mmapCalls, mmapDecoded.Vars) ∧
      Write check opts target sysTarget decoded mmapDecoded entries (some hdr) =
        some (postProcess opts (banner ++ hdr ++ "\n".toList ++
          writeBody opts target sysTarget entries calls decoded.Vars mmapCalls)) ∧
      lineStarts "uint64_t r[".toList banner = 0 ∧
      lineStarts "uint64_t r[".toList
          (writeBody opts target sysTarget entries calls decoded.Vars mmapCalls) =
        (if decoded.Vars.length ≠ 0 then 1 else 0) ∧
      (decoded.Vars.length ≠ 0 →
        resultTable decoded.Vars <:+:
          writeBody opts target sysTarget entries calls decoded.Vars mmapCalls ∧
        resultTable decoded.Vars =
          "uint64_t r[".toList ++ fmtDec decoded.Vars.length ++ "] = \x7b".toList ++
            ", ".toList.intercalate (decoded.Vars.map fun v => "0x".toList ++ fmtHex v) ++
            "\x7d;\n".toList) := by
  obtain ⟨calls, hcalls⟩ := generateCalls_isSome opts sysTarget decoded hw
  obtain ⟨mmapCalls, hmm⟩ := generateCalls_isSome opts sysTarget mmapDecoded hwm
  have hc := tabLines_generateCalls opts sysTarget decoded hp hw calls _ hcalls
  have hm := tabLines_generateCalls opts sysTarget mmapDecoded hp hwm mmapCalls _ hmm
  refine ⟨calls, mmapCalls, hcalls, hmm, ?_, by decide, ?_, ?_⟩
  · simp only [Write, hcheck, hcalls, hmm, Bool.not_true, Bool.false_eq_true, if_false]
  · exact lineStarts_writeBody opts target sysTarget entries calls decoded.Vars mmapCalls
      hc hm hp he hS
  · intro hv
    refine ⟨resultTable_infix_writeBody _ _ _ _ _ _ _, ?_⟩
    unfold resultTable
    rw [if_pos hv, resultInits_eq]
    simp

theorem Write_result_table_witness :
    ∃ calls mmapCalls,
      Write (fun _ => true) {} sampleTarget sampleSysTarget sampleProg sampleMmapProg
          [("write".toList, 1)] (some "#include <stdint.h>\n".toList) =
        some (postProcess {} (banner ++ "#include <stdint.h>\n".toList ++ "\n".toList ++
          writeBody {} sampleTarget sampleSysTarget [("write".toList, 1)] calls
            sampleProg.Vars mmapCalls)) ∧
      lineStarts "uint64_t r[".toList
          (writeBody {} sampleTarget sampleSysTarget [("write".toList, 1)] calls
            sampleProg.Vars mmapCalls) = 1 ∧
      resultTable sampleProg.Vars = "uint64_t r[1] = \x7b0xffffffffffffffff\x7d;\n".toList := by
  obtain ⟨calls, mmapCalls, _, _, hW, _, hb, _⟩ :=
    Write_result_table (fun _ => true) {} sampleTarget sampleSysTarget sampleProg sampleMmapProg
      [("write".toList, 1)] "#include <stdint.h>\n".toList rfl (by decide) (by decide)
      (by decide) (by decide) (by decide)
  exact ⟨calls, mmapCalls, hW, hb, by decide⟩

/-! ## Checksum accumulators: structure of the copy-in loop -/

theorem copyinLoop_acc (opts : Options) : ∀ (l : List ExecCopyin) (w : Text) (n : Nat),
    copyinLoop opts w n l = (copyinLoop opts [] n l).map fun r => (w ++ r.1, r.2) := by
  intro l
  induction l with
  | nil => intro w n; simp [copyinLoop]
  | cons c rest ih =>
    intro w n
    simp only [copyinLoop]
    cases hs : copyinStep opts n c with
    | none => rfl
    | some r =>
      obtain ⟨t, n1⟩ := r
      simp only [List.nil_append]
      rw [ih (w ++ t) n1, ih t n1]
      cases copyinLoop opts [] n1 rest with
      | none => rfl
      | some r => simp [List.append_assoc]

theorem copyinLoop_append (opts : Options) : ∀ (a b : List ExecCopyin) (w : Text) (n : Nat),
    copyinLoop opts w n (a ++ b) =
      (copyinLoop opts w n a).bind fun r => copyinLoop opts r.1 r.2 b := by
  intro a
  induction a with
  | nil => intro b w n; simp [copyinLoop]
  | cons c rest ih =>
    intro b w n
    simp only [List.cons_append, copyinLoop]
    cases hs : copyinStep opts n c with
    | none => rfl
    | some r =>
      obtain ⟨t, n1⟩ := r
      exact ih b (w ++ t) n1

theorem csumChunks_pieces (K : Nat) : ∀ (chunks : List ExecCsumChunk) (i : Nat),
    chunks.all knownChunk = true →
    ∃ pieces : List Text, csumChunks K i chunks = some pieces.flatten ∧
      pieces.length = chunks.length ∧
      ∀ n chunk, chunks[n]? = some chunk →
        ∃ piece, pieces[n]? = some piece ∧ csumChunks K (i + n) [chunk] = some piece := by
  intro chunks
  induction chunks with
  | nil => intro i _; exact ⟨[], rfl, rfl, by simp⟩
  | cons c rest ih =>
    intro i h
    have h1 : [c].all knownChunk = true := by
      simp only [List.all_cons, Bool.and_eq_true] at h
      simp [h.1]
    have h2 : rest.all knownChunk = true := by
      simp only [List.all_cons, Bool.and_eq_true] at h
      exact h.2
    obtain ⟨piece, hpiece⟩ := csumChunks_isSome K [c] i h1
    obtain ⟨pieces, hp, hlen, hall⟩ := ih (i + 1) h2
    have hstep : csumChunks K i (c :: rest) = some (piece ++ pieces.flatten) := by
      simp only [csumChunks] at hpiece ⊢
      rw [hp]
      split at hpiece
      · rename_i p r hp1 hr1
        simp only [Option.some.injEq] at hr1
        subst hr1
        simp only [List.append_nil, Option.some.injEq] at hpiece
        rw [hp1, hpiece]
      · exact absurd hpiece (by simp)
    refine ⟨piece :: pieces, by rw [hstep, List.flatten_cons], by simp [hlen], ?_⟩
    intro n chunk hn
    cases n with
    | zero =>
      simp only [List.getElem?_cons_zero, Option.some.injEq] at hn
      subst hn
      exact ⟨piece, by simp, by simpa using hpiece⟩
    | succ m =>
      simp only [List.getElem?_cons_succ] at hn
      obtain ⟨q, hq1, hq2⟩ := hall m chunk hn
      refine ⟨q, by simpa using hq1, ?_⟩
      have e : i + (m + 1) = i + 1 + m := by omega
      rw [e]
      exact hq2

theorem filter_take_succ (l : List ExecCopyin) (j : Nat) (c : ExecCopyin)
    (hj : l[j]? = some c) (hc : isCsum c = true) :
    ((l.take (j + 1)).filter isCsum).length = ((l.take j).filter isCsum).length + 1 := by
  rw [List.take_succ, hj]
  simp [List.filter_append, hc]

theorem filter_take_le (l : List ExecCopyin) (a b : Nat) (h : a ≤ b) :
    ((l.take a).filter isCsum).length ≤ ((l.take b).filter isCsum).length := by
  have h1 : (l.take a).Sublist (l.take b) := by
    have : l.take a = (l.take b).take a := by
      rw [List.take_take, Nat.min_eq_left h]
    rw [this]
    exact List.take_sublist _ _
  exact (h1.filter _).length_le

theorem filter_take_le_all (l : List ExecCopyin) (a : Nat) :
    ((l.take a).filter isCsum).length ≤ (l.filter isCsum).length :=
  ((List.take_sublist a l).filter _).length_le

theorem copyinLoop_csum (opts : Options) (l : List ExecCopyin) (n j : Nat)
    (copyin : ExecCopyin) (arg : ExecArgCsum) (hk : l.all knownCopyin = true)
    (hj : l[j]? = some copyin) (ha : copyin.Arg = ExecArg.csum arg) :
    ∃ pre pieces rest,
      copyinLoop opts [] n (l.take j) =
        some (pre, n + ((l.take j).filter isCsum).length) ∧
      copyinLoop opts [] (n + ((l.take (j + 1)).filter isCsum).length) (l.drop (j + 1)) =
        some (rest, n + (l.filter isCsum).length) ∧
      pieces.length = arg.Chunks.length ∧
      (∀ m chunk, arg.Chunks[m]? = some chunk →
        ∃ piece, pieces[m]? = some piece ∧
          csumChunks (n + ((l.take (j + 1)).filter isCsum).length) m [chunk] = some piece) ∧
      copyinLoop opts [] n l =
        some (pre ++ csumBlock (n + ((l.take (j + 1)).filter isCsum).length) copyin.Addr pieces ++
          rest, n + (l.filter isCsum).length) := by
  have hjl : j < l.length := by
    rcases Nat.lt_or_ge j l.length with h | h
    · exact h
    · rw [List.getElem?_eq_none h] at hj; exact absurd hj (by simp)
  have hsplit : l = l.take j ++ copyin :: l.drop (j + 1) := by
    have h1 : l.drop j = copyin :: l.drop (j + 1) := by
      rw [List.drop_eq_getElem_cons hjl]
      congr 1
      have := List.getElem?_eq_getElem hjl
      rw [this] at hj
      exact Option.some.inj hj
    conv_lhs => rw [← List.take_append_drop j l, h1]
  have hall : ∀ c ∈ l, knownCopyin c = true := by
    rw [List.all_eq_true] at hk; exact hk
  have hk1 : (l.take j).all knownCopyin = true := by
    rw [List.all_eq_true]
    exact fun c hc => hall c (List.mem_of_mem_take hc)
  have hk2 : (l.drop (j + 1)).all knownCopyin = true := by
    rw [List.all_eq_true]
    exact fun c hc => hall c (List.mem_of_mem_drop hc)
  have hkc : knownCopyin copyin = true := hall copyin (by
    rw [List.getElem?_eq_getElem hjl, Option.some.injEq] at hj
    rw [← hj]; exact List.getElem_mem hjl)
  have hcs : isCsum copyin = true := by simp [isCsum, ha]
  have hK := filter_take_succ l j copyin hj hcs
  obtain ⟨pre, hpre⟩ := copyinLoop_isSome opts (l.take j) [] n hk1
  obtain ⟨rest, hrest⟩ := copyinLoop_isSome opts (l.drop (j + 1)) []
    (n + ((l.take (j + 1)).filter isCsum).length) hk2
  have hkc' := hkc
  simp only [knownCopyin, ha, Bool.and_eq_true, beq_iff_eq] at hkc'
  obtain ⟨pieces, hp, hlen, hpieces⟩ :=
    csumChunks_pieces (n + ((l.take (j + 1)).filter isCsum).length) arg.Chunks 0 hkc'.2
  have htotal : n + ((l.take (j + 1)).filter isCsum).length +
      ((l.drop (j + 1)).filter isCsum).length = n + (l.filter isCsum).length := by
    conv_rhs => rw [← List.take_append_drop (j + 1) l]
    rw [List.filter_append, List.length_append]
    omega
  rw [htotal] at hrest
  have hstep : copyinStep opts (n + ((l.take j).filter isCsum).length) copyin =
      some (csumBlock (n + ((l.take (j + 1)).filter isCsum).length) copyin.Addr pieces,
        n + ((l.take (j + 1)).filter isCsum).length) := by
    have e : n + ((l.take j).filter isCsum).length + 1 =
        n + ((l.take (j + 1)).filter isCsum).length := by omega
    simp only [copyinStep, ha, hkc'.1, if_true, e, hp, csumBlock]
  refine ⟨pre, pieces, rest, hpre, hrest, hlen, ?_, ?_⟩
  · intro m chunk hm
    obtain ⟨piece, h1, h2⟩ := hpieces m chunk hm
    exact ⟨piece, h1, by simpa using h2⟩
  · conv_lhs => rw [hsplit]
    rw [copyinLoop_append, hpre]
    simp only [Option.some_bind, copyinLoop, hstep]
    rw [copyinLoop_acc, hrest]
    simp [List.append_assoc]

/-! ## Checksum accumulators: counting the statements of one block -/

theorem occ_cons_le_tail (x : Char) (q : Text) (hq : q ≠ []) : ∀ (t : Text) (c : Char),
    occ (x :: q) (c :: t) ≤ occ q t := by
  intro t
  induction t with
  | nil =>
    intro c
    rw [occ_cons, occ_nil, occ_nil]
    have : ¬ (x :: q <+: [c]) := by
      intro h
      have := h.length_le
      cases q with
      | nil => exact hq rfl
      | cons _ _ => simp at this
    rw [if_neg this]
  | cons d t ih =>
    intro c
    rw [occ_cons, occ_cons q d t]
    have h1 := ih d
    have h2 : (if x :: q <+: c :: d :: t then 1 else 0) ≤ (if q <+: d :: t then 1 else 0) := by
      by_cases h : x :: q <+: c :: d :: t
      · rw [if_pos h, if_pos (List.cons_prefix_cons.1 h).2]
      · rw [if_neg h]; exact Nat.zero_le _
    omega

theorem occ_cons_le (x : Char) (q : Text) (hq : q ≠ []) (t : Text) :
    occ (x :: q) t ≤ occ q t := by
  cases t with
  | nil => rw [occ_nil]; exact Nat.zero_le _
  | cons c t =>
    have := occ_cons_le_tail x q hq t c
    rw [occ_cons q c t]
    omega

theorem occ_append_le (a pat : Text) (hp : pat ≠ []) (t : Text) :
    occ (a ++ pat) t ≤ occ pat t := by
  induction a with
  | nil => exact Nat.le_refl _
  | cons x a ih =>
    exact (occ_cons_le x (a ++ pat) (by simp [hp]) t).trans ih

theorem occ_eq_one_of_le (pat t : Text) (hp : pat ≠ []) (hi : pat <:+: t)
    (hle : occ pat t ≤ 1) : occ pat t = 1 := by
  have : occ pat t ≠ 0 := by
    rw [Ne, occ_eq_zero_iff pat hp]
    exact fun h => h hi
  omega

/-- The declaration line of an accumulator. -/
theorem occ_decl_line (K : Nat) :
    occ "struct csum_inet csum_".toList
        ("\tstruct csum_inet csum_".toList ++ (fmtDec K ++ ";\n".toList)) = 1 ∧
    occ "inet_init(&csum_".toList
        ("\tstruct csum_inet csum_".toList ++ (fmtDec K ++ ";\n".toList)) = 0 ∧
    occ "inet_update(&csum_".toList
        ("\tstruct csum_inet csum_".toList ++ (fmtDec K ++ ";\n".toList)) = 0 ∧
    occ "inet_digest(&csum_".toList
        ("\tstruct csum_inet csum_".toList ++ (fmtDec K ++ ";\n".toList)) = 0 := by
  have hs : 's' ∉ fmtDec K := not_mem_fmtDec (by decide) K
  have hi : 'i' ∉ fmtDec K := not_mem_fmtDec (by decide) K
  refine ⟨?_, ?_, ?_, ?_⟩ <;> simp [occ_cons, occ_nil, occ_skip, hs, hi]

/-- The initialisation line of an accumulator. -/
theorem occ_init_line (K : Nat) :
    occ "struct csum_inet csum_".toList
        ("\tcsum_inet_init(&csum_".toList ++ (fmtDec K ++ ");\n".toList)) = 0 ∧
    occ "inet_init(&csum_".toList
        ("\tcsum_inet_init(&csum_".toList ++ (fmtDec K ++ ");\n".toList)) = 1 ∧
    occ "inet_update(&csum_".toList
        ("\tcsum_inet_init(&csum_".toList ++ (fmtDec K ++ ");\n".toList)) = 0 ∧
    occ "inet_digest(&csum_".toList
        ("\tcsum_inet_init(&csum_".toList ++ (fmtDec K ++ ");\n".toList)) = 0 := by
  have hs : 's' ∉ fmtDec K := not_mem_fmtDec (by decide) K
  have hi : 'i' ∉ fmtDec K := not_mem_fmtDec (by decide) K
  refine ⟨?_, ?_, ?_, ?_⟩ <;> simp [occ_cons, occ_nil, occ_skip, hs, hi]

/-- The line that stores the digest. -/
theorem occ_digest_line (K addr : Nat) :
    occ "struct csum_inet csum_".toList
        ("\tNONFAILING(*(uint16_t*)0x".toList ++ (fmtHex addr ++
          (" = csum_inet_digest(&csum_".toList ++ (fmtDec K ++ "));\n".toList)))) = 0 ∧
    occ "inet_init(&csum_".toList
        ("\tNONFAILING(*(uint16_t*)0x".toList ++ (fmtHex addr ++
          (" = csum_inet_digest(&csum_".toList ++ (fmtDec K ++ "));\n".toList)))) = 0 ∧
    occ "inet_update(&csum_".toList
        ("\tNONFAILING(*(uint16_t*)0x".toList ++ (fmtHex addr ++
          (" = csum_inet_digest(&csum_".toList ++ (fmtDec K ++ "));\n".toList)))) = 0 ∧
    occ "inet_digest(&csum_".toList
        ("\tNONFAILING(*(uint16_t*)0x".toList ++ (fmtHex addr ++
          (" = csum_inet_digest(&csum_".toList ++ (fmtDec K ++ "));\n".toList)))) = 1 := by
  have hs : 's' ∉ fmtDec K := not_mem_fmtDec (by decide) K
  have hi : 'i' ∉ fmtDec K := not_mem_fmtDec (by decide) K
  have hs1 : 's' ∉ fmtHex addr := not_mem_fmtHex (by decide) addr
  have hi1 : 'i' ∉ fmtHex addr := not_mem_fmtHex (by decide) addr
  refine ⟨?_, ?_, ?_, ?_⟩ <;> simp [occ_cons, occ_nil, occ_skip, hs, hi, hs1, hi1]

/-- The text of a chunk that is a range of memory. -/
theorem occ_data_piece (K v s : Nat) :
    occ "struct csum_inet csum_".toList
        ("\tNONFAILING(csum_inet_update(&csum_".toList ++ (fmtDec K ++
          (", (const uint8_t*)0x".toList ++ (fmtHex v ++ (", ".toList ++
            (fmtDec s ++ "));\n".toList)))))) = 0 ∧
    occ "inet_init(&csum_".toList
        ("\tNONFAILING(csum_inet_update(&csum_".toList ++ (fmtDec K ++
          (", (const uint8_t*)0x".toList ++ (fmtHex v ++ (", ".toList ++
            (fmtDec s ++ "));\n".toList)))))) = 0 ∧
    occ "inet_update(&csum_".toList
        ("\tNONFAILING(csum_inet_update(&csum_".toList ++ (fmtDec K ++
          (", (const uint8_t*)0x".toList ++ (fmtHex v ++ (", ".toList ++
            (fmtDec s ++ "));\n".toList)))))) = 1 ∧
    occ "inet_digest(&csum_".toList
        ("\tNONFAILING(csum_inet_update(&csum_".toList ++ (fmtDec K ++
          (", (const uint8_t*)0x".toList ++ (fmtHex v ++ (", ".toList ++
            (fmtDec s ++ "));\n".toList)))))) = 0 := by
  have hs : 's' ∉ fmtDec K := not_mem_fmtDec (by decide) K
  have hi : 'i' ∉ fmtDec K := not_mem_fmtDec (by decide) K
  have hs1 : 's' ∉ fmtHex v := not_mem_fmtHex (by decide) v
  have hi1 : 'i' ∉ fmtHex v := not_mem_fmtHex (by decide) v
  have hs2 : 's' ∉ fmtDec s := not_mem_fmtDec (by decide) s
  have hi2 : 'i' ∉ fmtDec s := not_mem_fmtDec (by decide) s
  refine ⟨?_, ?_, ?_, ?_⟩ <;>
    simp [occ_cons, occ_nil, occ_skip, hs, hi, hs1, hi1, hs2, hi2]

/-- The text of a chunk that is a constant. -/
theorem occ_const_piece (K v s b m : Nat) :
    occ "struct csum_inet csum_".toList
        ("\tuint".toList ++ (fmtDec b ++ ("_t csum_".toList ++ (fmtDec K ++
          ("_chunk_".toList ++ (fmtDec m ++ (" = 0x".toList ++ (fmtHex v ++ (";\n".toList ++
          ("\tcsum_inet_update(&csum_".toList ++ (fmtDec K ++
          (", (const uint8_t*)&csum_".toList ++ (fmtDec K ++ ("_chunk_".toList ++
          (fmtDec m ++ (", ".toList ++ (fmtDec s ++ ");\n".toList))))))))))))))))) = 0 ∧
    occ "inet_init(&csum_".toList
        ("\tuint".toList ++ (fmtDec b ++ ("_t csum_".toList ++ (fmtDec K ++
          ("_chunk_".toList ++ (fmtDec m ++ (" = 0x".toList ++ (fmtHex v ++ (";\n".toList ++
          ("\tcsum_inet_update(&csum_".toList ++ (fmtDec K ++
          (", (const uint8_t*)&csum_".toList ++ (fmtDec K ++ ("_chunk_".toList ++
          (fmtDec m ++ (", ".toList ++ (fmtDec s ++ ");\n".toList))))))))))))))))) = 0 ∧
    occ "inet_update(&csum_".toList
        ("\tuint".toList ++ (fmtDec b ++ ("_t csum_".toList ++ (fmtDec K ++
          ("_chunk_".toList ++ (fmtDec m ++ (" = 0x".toList ++ (fmtHex v ++ (";\n".toList ++
          ("\tcsum_inet_update(&csum_".toList ++ (fmtDec K ++
          (", (const uint8_t*)&csum_".toList ++ (fmtDec K ++ ("_chunk_".toList ++
          (fmtDec m ++ (", ".toList ++ (fmtDec s ++ ");\n".toList))))))))))))))))) = 1 ∧
    occ "inet_digest(&csum_".toList
        ("\tuint".toList ++ (fmtDec b ++ ("_t csum_".toList ++ (fmtDec K ++
          ("_chunk_".toList ++ (fmtDec m ++ (" = 0x".toList ++ (fmtHex v ++ (";\n".toList ++
          ("\tcsum_inet_update(&csum_".toList ++ (fmtDec K ++
          (", (const uint8_t*)&csum_".toList ++ (fmtDec K ++ ("_chunk_".toList ++
          (fmtDec m ++ (", ".toList ++ (fmtDec s ++ ");\n".toList))))))))))))))))) = 0 := by
  have hs : 's' ∉ fmtDec K := not_mem_fmtDec (by decide) K
  have hi : 'i' ∉ fmtDec K := not_mem_fmtDec (by decide) K
  have hs1 : 's' ∉ fmtHex v := not_mem_fmtHex (by decide) v
  have hi1 : 'i' ∉ fmtHex v := not_mem_fmtHex (by decide) v
  have hs2 : 's' ∉ fmtDec s := not_mem_fmtDec (by decide) s
  have hi2 : 'i' ∉ fmtDec s := not_mem_fmtDec (by decide) s
  have hs3 : 's' ∉ fmtDec b := not_mem_fmtDec (by decide) b
  have hi3 : 'i' ∉ fmtDec b := not_mem_fmtDec (by decide) b
  have hs4 : 's' ∉ fmtDec m := not_mem_fmtDec (by decide) m
  have hi4 : 'i' ∉ fmtDec m := not_mem_fmtDec (by decide) m
  refine ⟨?_, ?_, ?_, ?_⟩ <;>
    simp [occ_cons, occ_nil, occ_skip, hs, hi, hs1, hi1, hs2, hi2, hs3, hi3, hs4, hi4]

/-! ## Checksum accumulators: the statements of one block, by name -/

theorem occ_named_zero (u t : Text) (hu : u ≠ []) (h : occ u t = 0) :
    occ ("csum_".toList ++ u) t = 0 := by
  have := occ_append_le "csum_".toList u hu t
  omega

theorem occ_named_one (u t : Text) (hu : u ≠ []) (h : occ u t = 1)
    (hi : "csum_".toList ++ u <:+: t) : occ ("csum_".toList ++ u) t = 1 := by
  have h1 := occ_append_le "csum_".toList u hu t
  exact occ_eq_one_of_le _ _ (by simp) hi (by omega)

theorem csumChunks_single (K m : Nat) (chunk : ExecCsumChunk) (piece : Text)
    (h : csumChunks K m [chunk] = some piece) :
    piece = "\tNONFAILING(csum_inet_update(&csum_".toList ++ (fmtDec K ++
          (", (const uint8_t*)0x".toList ++ (fmtHex chunk.Value ++ (", ".toList ++
            (fmtDec chunk.Size ++ "));\n".toList))))) ∨
    piece = "\tuint".toList ++ (fmtDec (mul64 chunk.Size 8) ++ ("_t csum_".toList ++ (fmtDec K ++
          ("_chunk_".toList ++ (fmtDec m ++ (" = 0x".toList ++ (fmtHex chunk.Value ++
          (";\n".toList ++ ("\tcsum_inet_update(&csum_".toList ++ (fmtDec K ++
          (", (const uint8_t*)&csum_".toList ++ (fmtDec K ++ ("_chunk_".toList ++
          (fmtDec m ++ (", ".toList ++ (fmtDec chunk.Size ++ ");\n".toList)))))))))))))))) := by
  simp only [csumChunks] at h
  by_cases hd : chunk.Kind = ExecArgCsumChunkData
  · left
    rw [if_pos hd] at h
    simp only [List.append_nil, Option.some.injEq] at h
    rw [← h]
    simp only [List.append_assoc]
  · rw [if_neg hd] at h
    by_cases hc : chunk.Kind = ExecArgCsumChunkConst
    · right
      rw [if_pos hc] at h
      simp only [List.append_nil, Option.some.injEq] at h
      rw [← h]
      simp only [List.append_assoc]
    · rw [if_neg hc] at h
      exact absurd h (by simp)

/-- Every chunk of a checksum is rendered as complete lines with one update call and no
other statement of the accumulator. -/
theorem occ_piece (K m : Nat) (chunk : ExecCsumChunk) (piece : Text)
    (h : csumChunks K m [chunk] = some piece) :
    LineBlock piece ∧
    occ "struct csum_inet csum_".toList piece = 0 ∧
    occ "csum_inet_init(&csum_".toList piece = 0 ∧
    occ "csum_inet_update(&csum_".toList piece = 1 ∧
    occ "csum_inet_digest(&csum_".toList piece = 0 := by
  rcases csumChunks_single K m chunk piece h with hp | hp
  · obtain ⟨h1, h2, h3, h4⟩ := occ_data_piece K chunk.Value chunk.Size
    rw [hp]
    refine ⟨Or.inr ?_, h1, occ_named_zero "inet_init(&csum_".toList _ (by simp) h2,
      occ_named_one "inet_update(&csum_".toList _ (by simp) h3
        ⟨"\tNONFAILING(".toList, _, by simp only [List.append_assoc]; rfl⟩,
      occ_named_zero "inet_digest(&csum_".toList _ (by simp) h4⟩
    repeat (first | decide | apply getLast?_append_right)
  · obtain ⟨h1, h2, h3, h4⟩ := occ_const_piece K chunk.Value chunk.Size (mul64 chunk.Size 8) m
    rw [hp]
    refine ⟨Or.inr ?_, h1, occ_named_zero "inet_init(&csum_".toList _ (by simp) h2,
      occ_named_one "inet_update(&csum_".toList _ (by simp) h3
        ⟨"\tuint".toList ++ (fmtDec (mul64 chunk.Size 8) ++ ("_t csum_".toList ++ (fmtDec K ++
          ("_chunk_".toList ++ (fmtDec m ++ (" = 0x".toList ++ (fmtHex chunk.Value ++
          (";\n".toList ++ "\t".toList)))))))), _, by simp only [List.append_assoc]; rfl⟩,
      occ_named_zero "inet_digest(&csum_".toList _ (by simp) h4⟩
    repeat (first | decide | apply getLast?_append_right)

theorem additive_flatten_sum (c : Text → Nat) (hc : Additive c) (h0 : c [] = 0) (k : Nat) :
    ∀ frags : List Text, (∀ f ∈ frags, LineBlock f) → (∀ f ∈ frags, c f = k) →
      c frags.flatten = k * frags.length := by
  intro frags
  induction frags with
  | nil => intro _ _; simpa using h0
  | cons f rest ih =>
    intro hb hz
    rw [List.flatten_cons, hc _ _ (hb f (List.mem_cons_self _ _)),
      hz f (List.mem_cons_self _ _),
      ih (fun g hg => hb g (List.mem_cons_of_mem _ hg))
        (fun g hg => hz g (List.mem_cons_of_mem _ hg)), List.length_cons]
    ring

theorem additive_csumBlock (c : Text → Nat) (hc : Additive c) (K addr : Nat)
    (pieces : List Text) (hb : ∀ f ∈ pieces, LineBlock f) :
    c (csumBlock K addr pieces) =
      c ("\tstruct csum_inet csum_".toList ++ (fmtDec K ++ ";\n".toList)) +
      c ("\tcsum_inet_init(&csum_".toList ++ (fmtDec K ++ ");\n".toList)) +
      c pieces.flatten +
      c ("\tNONFAILING(*(uint16_t*)0x".toList ++ (fmtHex addr ++
          (" = csum_inet_digest(&csum_".toList ++ (fmtDec K ++ "));\n".toList)))) := by
  unfold csumBlock
  simp only [List.append_assoc]
  rw [additive_block3 c hc _ _ _ _ (by decide : ";\n".toList.getLast? = some '\n'),
    additive_block3 c hc _ _ _ _ (by decide : ");\n".toList.getLast? = some '\n'),
    hc _ _ (lineBlock_flatten pieces hb)]
  omega

/-- One block of a checksum copy-in holds one declaration, one initialisation, one update
per chunk text and one digest. -/
theorem occ_csumBlock (K addr : Nat) (pieces : List Text)
    (hp : ∀ f ∈ pieces, LineBlock f ∧
      occ "struct csum_inet csum_".toList f = 0 ∧
      occ "csum_inet_init(&csum_".toList f = 0 ∧
      occ "csum_inet_update(&csum_".toList f = 1 ∧
      occ "csum_inet_digest(&csum_".toList f = 0) :
    occ "struct csum_inet csum_".toList (csumBlock K addr pieces) = 1 ∧
    occ "csum_inet_init(&csum_".toList (csumBlock K addr pieces) = 1 ∧
    occ "csum_inet_update(&csum_".toList (csumBlock K addr pieces) = pieces.length ∧
    occ "csum_inet_digest(&csum_".toList (csumBlock K addr pieces) = 1 := by
  have hb : ∀ f ∈ pieces, LineBlock f := fun f hf => (hp f hf).1
  obtain ⟨d1, d2, d3, d4⟩ := occ_decl_line K
  obtain ⟨i1, i2, i3, i4⟩ := occ_init_line K
  obtain ⟨g1, g2, g3, g4⟩ := occ_digest_line K addr
  have D2 : occ "csum_inet_init(&csum_".toList
      ("\tstruct csum_inet csum_".toList ++ (fmtDec K ++ ";\n".toList)) = 0 :=
    occ_named_zero "inet_init(&csum_".toList _ (by simp) d2
  have D3 : occ "csum_inet_update(&csum_".toList
      ("\tstruct csum_inet csum_".toList ++ (fmtDec K ++ ";\n".toList)) = 0 :=
    occ_named_zero "inet_update(&csum_".toList _ (by simp) d3
  have D4 : occ "csum_inet_digest(&csum_".toList
      ("\tstruct csum_inet csum_".toList ++ (fmtDec K ++ ";\n".toList)) = 0 :=
    occ_named_zero "inet_digest(&csum_".toList _ (by simp) d4
  have I2 : occ "csum_inet_init(&csum_".toList
      ("\tcsum_inet_init(&csum_".toList ++ (fmtDec K ++ ");\n".toList)) = 1 :=
    occ_named_one "inet_init(&csum_".toList _ (by simp) i2 ⟨"\t".toList, _, rfl⟩
  have I3 : occ "csum_inet_update(&csum_".toList
      ("\tcsum_inet_init(&csum_".toList ++ (fmtDec K ++ ");\n".toList)) = 0 :=
    occ_named_zero "inet_update(&csum_".toList _ (by simp) i3
  have I4 : occ "csum_inet_digest(&csum_".toList
      ("\tcsum_inet_init(&csum_".toList ++ (fmtDec K ++ ");\n".toList)) = 0 :=
    occ_named_zero "inet_digest(&csum_".toList _ (by simp) i4
  have G2 : occ "csum_inet_init(&csum_".toList
      ("\tNONFAILING(*(uint16_t*)0x".toList ++ (fmtHex addr ++
        (" = csum_inet_digest(&csum_".toList ++ (fmtDec K ++ "));\n".toList)))) = 0 :=
    occ_named_zero "inet_init(&csum_".toList _ (by simp) g2
  have G3 : occ "csum_inet_update(&csum_".toList
      ("\tNONFAILING(*(uint16_t*)0x".toList ++ (fmtHex addr ++
        (" = csum_inet_digest(&csum_".toList ++ (fmtDec K ++ "));\n".toList)))) = 0 :=
    occ_named_zero "inet_update(&csum_".toList _ (by simp) g3
  have G4 : occ "csum_inet_digest(&csum_".toList
      ("\tNONFAILING(*(uint16_t*)0x".toList ++ (fmtHex addr ++
        (" = csum_inet_digest(&csum_".toList ++ (fmtDec K ++ "));\n".toList)))) = 1 :=
    occ_named_one "inet_digest(&csum_".toList _ (by simp) g4
      ⟨"\tNONFAILING(*(uint16_t*)0x".toList ++ (fmtHex addr ++ " = ".toList), _,
        by simp only [List.append_assoc]; rfl⟩
  refine ⟨?_, ?_, ?_, ?_⟩
  · rw [additive_csumBlock _ (additive_occ _ (by decide)) K addr pieces hb, d1, i1, g1,
      additive_flatten_zero _ (additive_occ _ (by decide)) rfl pieces hb
        (fun f hf => (hp f hf).2.1)]
  · rw [additive_csumBlock _ (additive_occ _ (by decide)) K addr pieces hb, D2, I2, G2,
      additive_flatten_zero _ (additive_occ _ (by decide)) rfl pieces hb
        (fun f hf => (hp f hf).2.2.1)]
  · rw [additive_csumBlock _ (additive_occ _ (by decide)) K addr pieces hb, D3, I3, G3,
      additive_flatten_sum _ (additive_occ _ (by decide)) rfl 1 pieces hb
        (fun f hf => (hp f hf).2.2.2.1)]
    omega
  · rw [additive_csumBlock _ (additive_occ _ (by decide)) K addr pieces hb, D4, I4, G4,
      additive_flatten_zero _ (additive_occ _ (by decide)) rfl pieces hb
        (fun f hf => (hp f hf).2.2.2.2)]

/-! ## Checksum accumulators: numbering -/

theorem programCopyins_cons (c : ExecCall) (rest : List ExecCall) :
    programCopyins (c :: rest) = c.Copyin ++ programCopyins rest := by
  simp [programCopyins]

theorem csumPosition_eq : ∀ (calls : List ExecCall) (i j : Nat) (call : ExecCall),
    calls[i]? = some call → j < call.Copyin.length →
    csumPosition calls i j =
      csumBefore calls i + ((call.Copyin.take (j + 1)).filter isCsum).length := by
  intro calls
  induction calls with
  | nil => intro i j call hi; simp at hi
  | cons c rest ih =>
    intro i j call hi hj
    cases i with
    | zero =>
      simp only [List.getElem?_cons_zero, Option.some.injEq] at hi
      subst hi
      rw [csumBefore_zero, Nat.zero_add]
      unfold csumPosition copyinOffset
      rw [programCopyins_cons]
      simp only [List.take_zero, List.map_nil, List.sum_nil, Nat.zero_add]
      rw [List.take_append_of_le_length (by omega)]
    | succ k =>
      simp only [List.getElem?_cons_succ] at hi
      rw [csumBefore_succ, Nat.add_assoc, ← ih k j call hi hj]
      unfold csumPosition copyinOffset
      rw [programCopyins_cons]
      simp only [List.take_succ_cons, List.map_cons, List.sum_cons]
      have e : c.Copyin.length + (List.map (fun c => c.Copyin.length) (List.take k rest)).sum +
          j + 1 = c.Copyin.length +
            ((List.map (fun c => c.Copyin.length) (List.take k rest)).sum + j + 1) := by omega
      rw [e, List.take_append, List.filter_append, List.length_append]
      rfl

theorem csumBefore_step (calls : List ExecCall) (i : Nat) (call : ExecCall)
    (hi : calls[i]? = some call) :
    csumBefore calls (i + 1) = csumBefore calls i + csumCount call := by
  unfold csumBefore
  rw [List.take_succ, hi]
  simp

theorem csumBefore_mono (calls : List ExecCall) (a b : Nat) (h : a ≤ b) :
    csumBefore calls a ≤ csumBefore calls b := by
  induction b with
  | zero =>
    have : a = 0 := by omega
    rw [this]
  | succ b ih =>
    rcases Nat.lt_or_ge a (b + 1) with h1 | h1
    · have h2 := ih (by omega)
      have h3 : csumBefore calls b ≤ csumBefore calls (b + 1) := by
        unfold csumBefore
        rw [List.take_succ]
        simp
      omega
    · have : a = b + 1 := by omega
      rw [this]

theorem csumPosition_bounds (calls : List ExecCall) (i j : Nat) (call : ExecCall)
    (copyin : ExecCopyin) (hi : calls[i]? = some call) (hj : call.Copyin[j]? = some copyin)
    (hc : isCsum copyin = true) :
    csumPosition calls i j =
        csumBefore calls i + ((call.Copyin.take j).filter isCsum).length + 1 ∧
      csumPosition calls i j ≤ csumBefore calls (i + 1) := by
  have hjl : j < call.Copyin.length := by
    rcases Nat.lt_or_ge j call.Copyin.length with h | h
    · exact h
    · rw [List.getElem?_eq_none h] at hj; exact absurd hj (by simp)
  rw [csumPosition_eq calls i j call hi hjl, filter_take_succ _ j copyin hj hc,
    csumBefore_step calls i call hi]
  have := filter_take_le_all call.Copyin j
  have h2 := filter_take_le_all call.Copyin (j + 1)
  rw [filter_take_succ _ j copyin hj hc] at h2
  unfold csumCount
  omega

theorem csumPosition_inj (calls : List ExecCall) (i j i' j' : Nat) (call call' : ExecCall)
    (copyin copyin' : ExecCopyin)
    (hi : calls[i]? = some call) (hj : call.Copyin[j]? = some copyin)
    (hc : isCsum copyin = true)
    (hi' : calls[i']? = some call') (hj' : call'.Copyin[j']? = some copyin')
    (hc' : isCsum copyin' = true)
    (h : csumPosition calls i j = csumPosition calls i' j') : i = i' ∧ j = j' := by
  obtain ⟨e1, b1⟩ := csumPosition_bounds calls i j call copyin hi hj hc
  obtain ⟨e2, b2⟩ := csumPosition_bounds calls i' j' call' copyin' hi' hj' hc'
  have hii : i = i' := by
    rcases Nat.lt_trichotomy i i' with h1 | h1 | h1
    · have := csumBefore_mono calls (i + 1) i' (by omega)
      omega
    · exact h1
    · have := csumBefore_mono calls (i' + 1) i (by omega)
      omega
  subst hii
  rw [hi] at hi'
  have hcall : call = call' := Option.some.inj hi'
  subst hcall
  refine ⟨rfl, ?_⟩
  rcases Nat.lt_trichotomy j j' with h1 | h1 | h1
  · have := filter_take_le call.Copyin (j + 1) j' (by omega)
    rw [filter_take_succ _ j copyin hj hc] at this
    omega
  · exact h1
  · have := filter_take_le call.Copyin (j' + 1) j (by omega)
    rw [filter_take_succ _ j' copyin' hj' hc'] at this
    omega

theorem fmtDec_injective (a b : Nat) (h : fmtDec a = fmtDec b) : a = b := by
  have h1 := readUnsignedLiteral_fmtDec a
  rw [h, readUnsignedLiteral_fmtDec b] at h1
  exact (Option.some.inj h1).symm

theorem accumulatorName_injective (a b : Nat) (h : accumulatorName a = accumulatorName b) :
    a = b :=
  fmtDec_injective a b (List.append_cancel_left h)

/-! ## Checksum accumulators: the claim -/

theorem update_infix_piece (K m : Nat) (chunk : ExecCsumChunk) (piece : Text)
    (h : csumChunks K m [chunk] = some piece) :
    "csum_inet_update(&".toList ++ accumulatorName K ++ ", ".toList <:+: piece := by
  rcases csumChunks_single K m chunk piece h with hp | hp
  · rw [hp]
    exact ⟨"\tNONFAILING(".toList,
      "(const uint8_t*)0x".toList ++ (fmtHex chunk.Value ++ (", ".toList ++
        (fmtDec chunk.Size ++ "));\n".toList))),
      by simp only [accumulatorName, List.append_assoc]; rfl⟩
  · rw [hp]
    exact ⟨"\tuint".toList ++ (fmtDec (mul64 chunk.Size 8) ++ ("_t csum_".toList ++
        (fmtDec K ++ ("_chunk_".toList ++ (fmtDec m ++ (" = 0x".toList ++
        (fmtHex chunk.Value ++ (";\n".toList ++ "\t".toList)))))))),
      "(const uint8_t*)&csum_".toList ++ (fmtDec K ++ ("_chunk_".toList ++
        (fmtDec m ++ (", ".toList ++ (fmtDec chunk.Size ++ ");\n".toList))))),
      by simp only [accumulatorName, List.append_assoc]; rfl⟩

theorem generateCall_csum (opts : Options) (sysTarget : SysTarget) (ci n n1 j : Nat)
    (call : ExecCall) (w : Text) (copyin : ExecCopyin) (arg : ExecArgCsum)
    (hk : knownCall call = true)
    (hw : generateCall opts sysTarget ci n call = some (w, n1))
    (hj : call.Copyin[j]? = some copyin) (ha : copyin.Arg = ExecArg.csum arg) :
    ∃ pre pieces rest inv,
      w = pre ++ csumBlock (n + ((call.Copyin.take (j + 1)).filter isCsum).length)
          copyin.Addr pieces ++ rest ++ faultText opts ci ++ inv ++ copyoutText call ∧
      invocationText opts sysTarget call = some inv ∧
      copyinLoop opts [] n (call.Copyin.take j) =
        some (pre, n + ((call.Copyin.take j).filter isCsum).length) ∧
      copyinLoop opts [] (n + ((call.Copyin.take (j + 1)).filter isCsum).length)
          (call.Copyin.drop (j + 1)) = some (rest, n + csumCount call) ∧
      pieces.length = arg.Chunks.length ∧
      (∀ m chunk, arg.Chunks[m]? = some chunk →
        ∃ piece, pieces[m]? = some piece ∧
          csumChunks (n + ((call.Copyin.take (j + 1)).filter isCsum).length) m [chunk] =
            some piece) := by
  simp only [knownCall, Bool.and_eq_true] at hk
  obtain ⟨pre, pieces, rest, hpre, hrest, hlen, hpieces, hloop⟩ :=
    copyinLoop_csum opts call.Copyin n j copyin arg hk.1 hj ha
  simp only [generateCall, hloop] at hw
  cases hinv : invocationText opts sysTarget call with
  | none => rw [hinv] at hw; exact absurd hw (by simp)
  | some inv =>
    rw [hinv] at hw
    simp only [Option.some.injEq, Prod.mk.injEq] at hw
    exact ⟨pre, pieces, rest, inv, hw.1.symm, rfl, hpre, hrest, hlen, hpieces⟩

/-- C10: for a decoded program of known variants `generateCalls` returns its fragments, and
every checksum copy-in (copy-in `j` of call `i`) contributes to the fragment of its call one
block, placed after the text of the earlier copy-ins and before the text of the later ones,
the fault injection and the invocation: the declaration `struct csum_inet csum_K;`, the
call `csum_inet_init(&csum_K)`, the texts of its chunks in chunk order, each with exactly
one `csum_inet_update(&csum_K, ` call, and the store of `csum_inet_digest(&csum_K)`; the
block holds exactly one declaration, one initialisation, as many updates as chunks and one
digest.  The number `K` is the position of the copy-in among all checksum copy-ins of the
program, counted from 1, and two different checksum copy-ins of the program have different
accumulator names. -/
theorem generateCalls_checksum_accumulators (opts : Options) (sysTarget : SysTarget)
    (p : ExecProg) (hk : p.Calls.all knownCall = true) :
    ∃ frags, generateCalls opts sysTarget p = some (frags, p.Vars) ∧
      (∀ i j call copyin arg, p.Calls[i]? = some call → call.Copyin[j]? = some copyin →
        copyin.Arg = ExecArg.csum arg →
        ∃ pre pieces rest inv,
          frags[i]? = some (pre ++
            csumBlock (csumPosition p.Calls i j) copyin.Addr pieces ++ rest ++
            faultText opts i ++ inv ++ copyoutText call) ∧
          invocationText opts sysTarget call = some inv ∧
          1 ≤ csumPosition p.Calls i j ∧
          copyinLoop opts [] (csumBefore p.Calls i) (call.Copyin.take j) =
            some (pre, csumPosition p.Calls i j - 1) ∧
          copyinLoop opts [] (csumPosition p.Calls i j) (call.Copyin.drop (j + 1)) =
            some (rest, csumBefore p.Calls (i + 1)) ∧
          pieces.length = arg.Chunks.length ∧
          (∀ m chunk, arg.Chunks[m]? = some chunk →
            ∃ piece, pieces[m]? = some piece ∧
              csumChunks (csumPosition p.Calls i j) m [chunk] = some piece ∧
              "csum_inet_update(&".toList ++ accumulatorName (csumPosition p.Calls i j) ++
                ", ".toList <:+: piece ∧
              occ "csum_inet_update(&csum_".toList piece = 1) ∧
          occ "struct csum_inet csum_".toList
            (csumBlock (csumPosition p.Calls i j) copyin.Addr pieces) = 1 ∧
          occ "csum_inet_init(&csum_".toList
            (csumBlock (csumPosition p.Calls i j) copyin.Addr pieces) = 1 ∧
          occ "csum_inet_update(&csum_".toList
            (csumBlock (csumPosition p.Calls i j) copyin.Addr pieces) = arg.Chunks.length ∧
          occ "csum_inet_digest(&csum_".toList
            (csumBlock (csumPosition p.Calls i j) copyin.Addr pieces) = 1) ∧
      (∀ i j call copyin i' j' call' copyin',
        p.Calls[i]? = some call → call.Copyin[j]? = some copyin → isCsum copyin = true →
        p.Calls[i']? = some call' → call'.Copyin[j']? = some copyin' →
        isCsum copyin' = true →
        accumulatorName (csumPosition p.Calls i j) =
          accumulatorName (csumPosition p.Calls i' j') → i = i' ∧ j = j') := by
  obtain ⟨frags, hf, _, hall⟩ := generateCallsLoop_spec opts sysTarget p.Calls 0 0 [] hk
  refine ⟨frags, by simp only [generateCalls, hf, List.nil_append], ?_, ?_⟩
  · intro i j call copyin arg hi hj ha
    obtain ⟨w, hw, hget⟩ := hall i call hi
    simp only [Nat.zero_add] at hw
    have hkc : knownCall call = true := by
      rw [List.all_eq_true] at hk
      apply hk
      have hil : i < p.Calls.length := by
        rcases Nat.lt_or_ge i p.Calls.length with h | h
        · exact h
        · rw [List.getElem?_eq_none h] at hi; exact absurd hi (by simp)
      rw [List.getElem?_eq_getElem hil, Option.some.injEq] at hi
      rw [← hi]; exact List.getElem_mem hil
    have hcs : isCsum copyin = true := by simp [isCsum, ha]
    obtain ⟨e1, _⟩ := csumPosition_bounds p.Calls i j call copyin hi hj hcs
    have e2 := filter_take_succ call.Copyin j copyin hj hcs
    have eK : csumBefore p.Calls i + ((call.Copyin.take (j + 1)).filter isCsum).length =
        csumPosition p.Calls i j := by omega
    have eP : csumBefore p.Calls i + ((call.Copyin.take j).filter isCsum).length =
        csumPosition p.Calls i j - 1 := by omega
    obtain ⟨pre, pieces, rest, inv, hwe, hinv, hpre, hrest, hlen, hpieces⟩ :=
      generateCall_csum opts sysTarget i _ _ j call w copyin arg hkc hw hj ha
    rw [eK] at hwe hrest hpieces
    rw [eP] at hpre
    rw [← csumBefore_step p.Calls i call hi] at hrest
    have hp : ∀ f ∈ pieces, LineBlock f ∧
        occ "struct csum_inet csum_".toList f = 0 ∧
        occ "csum_inet_init(&csum_".toList f = 0 ∧
        occ "csum_inet_update(&csum_".toList f = 1 ∧
        occ "csum_inet_digest(&csum_".toList f = 0 := by
      intro f hfm
      obtain ⟨m, hm, hfm⟩ := List.getElem_of_mem hfm
      have hm2 : m < arg.Chunks.length := by omega
      obtain ⟨piece, h1, h2⟩ := hpieces m arg.Chunks[m] (List.getElem?_eq_getElem hm2)
      rw [List.getElem?_eq_getElem hm, Option.some.injEq] at h1
      rw [← hfm, h1]
      exact occ_piece _ m _ piece h2
    obtain ⟨c1, c2, c3, c4⟩ := occ_csumBlock (csumPosition p.Calls i j) copyin.Addr pieces hp
    refine ⟨pre, pieces, rest, inv, by rw [hget, hwe], hinv, by omega, hpre, hrest, hlen, ?_,
      c1, c2, by rw [c3, hlen], c4⟩
    intro m chunk hm
    obtain ⟨piece, h1, h2⟩ := hpieces m chunk hm
    exact ⟨piece, h1, h2, update_infix_piece _ m chunk piece h2,
      (occ_piece _ m chunk piece h2).2.2.2.1⟩
  · intro i j call copyin i' j' call' copyin' hi hj hc hi' hj' hc' h
    exact csumPosition_inj p.Calls i j i' j' call call' copyin copyin' hi hj hc hi' hj' hc'
      (accumulatorName_injective _ _ h)

theorem generateCalls_checksum_accumulators_witness :
    ∃ frags, generateCalls {} sampleSysTarget sampleCsumProg =
        some (frags, sampleCsumProg.Vars) ∧
      ∃ pre pieces rest inv,
        frags[0]? = some (pre ++ csumBlock 2 0x20000020 pieces ++ rest ++
          faultText {} 0 ++ inv ++ "".toList) ∧
        pieces.length = 2 ∧
        occ "csum_inet_update(&csum_".toList (csumBlock 2 0x20000020 pieces) = 2 := by
  obtain ⟨frags, hf, hall, _⟩ :=
    generateCalls_checksum_accumulators {} sampleSysTarget sampleCsumProg (by decide)
  obtain ⟨pre, pieces, rest, inv, h1, _, _, _, _, h6, _, _, _, h10, _⟩ :=
    hall 0 2 _ _ _ rfl rfl rfl
  exact ⟨frags, hf, pre, pieces, rest, inv, h1, h6, h10⟩

/-! ## Argument formatter: stride, byte order and result references -/

/-- C16: with `L` the literal of the masked value (what `constArgToStr` returns for the same
argument without stride and without byte-order flip), `constArgToStr` returns `L`, followed
by ` + procid*S` exactly when more than one process is configured and the stride `S` is not
zero, and the whole expression wrapped as `htobe<8*W>(...)` exactly when the byte-order flip
is set (the width is `8*W` in 64-bit arithmetic). -/
theorem constArgToStr_stride_endian (opts : Options) (arg : ExecArgConst) :
    constArgToStr opts arg =
      (if arg.BigEndian then "htobe".toList ++ fmtDec (mul64 arg.Size 8) ++ "(".toList else []) ++
      (constArgToStr opts { arg with PidStride := 0, BigEndian := false } ++
        (if opts.Procs > 1 ∧ arg.PidStride ≠ 0 then " + procid*".toList ++ fmtDec arg.PidStride
         else [])) ++
      (if arg.BigEndian then ")".toList else []) ∧
    mul64 arg.Size 8 = 8 * arg.Size % 2 ^ 64 := by
  constructor
  · unfold constArgToStr
    simp only [ne_eq, not_true_eq_false, and_false, if_false, Bool.false_eq_true]
    by_cases hp : opts.Procs > 1 ∧ ¬ arg.PidStride = 0
    · cases hb : arg.BigEndian <;> simp [hp]
    · cases hb : arg.BigEndian <;> simp [hp]
  · unfold mul64
    rw [Nat.mul_comm]

/-- C17: `resultArgToStr` returns `r[i]`, then `/d` exactly when the divisor `d` is not
zero, then `+a` exactly when the addend `a` is not zero, in that order; with both present
the text is `r[i]/d+a`. -/
theorem resultArgToStr_shape (arg : ExecArgResult) :
    resultArgToStr arg =
      "r[".toList ++ fmtDec arg.Index ++ "]".toList ++
      (if arg.DivOp ≠ 0 then "/".toList ++ fmtDec arg.DivOp else []) ++
      (if arg.AddOp ≠ 0 then "+".toList ++ fmtDec arg.AddOp else []) ∧
    resultArgToStr { Size := 8, Index := 3, DivOp := 2, AddOp := 5 } = "r[3]/2+5".toList := by
  constructor
  · unfold resultArgToStr
    by_cases hd : arg.DivOp ≠ 0 <;> by_cases ha : arg.AddOp ≠ 0 <;> simp [hd, ha]
  · decide

/-! ## Data escaper: totality and the hexadecimal path -/

theorem scanReadable_stripped (data : List Nat) (h : scanReadable data.length 0 data = true) :
    ∀ b ∈ (if data.getLast? = some 0 then data.dropLast else data), isReadable b = true := by
  obtain ⟨hinit, hlast⟩ := scanReadable_spec data.length data 0 (by simp) h
  by_cases hl : data.getLast? = some 0
  · rw [if_pos hl]; exact hinit
  · rw [if_neg hl]
    intro b hb
    have hne : data ≠ [] := List.ne_nil_of_mem hb
    rw [← List.dropLast_append_getLast hne] at hb
    simp only [List.mem_append, List.mem_singleton] at hb
    rcases hb with hb | hb
    · exact hinit b hb
    · have hg : data.getLast? = some (data.getLast hne) := List.getLast?_eq_getLast _ hne
      rcases hlast _ hg with h1 | h1
      · rw [hb]; exact h1
      · rw [h1] at hg; exact absurd hg hl

/-- C19: `toCString` returns for every block (the panic `unexpected char during data
serialization` is not reached), and in a block that passes the readability scan every
byte left after the optional trailing zero is dropped is readable: one of the five escaped
bytes or a byte in `0x20..0x7e`. -/
theorem toCString_total (data : List Nat) :
    (∃ s, toCString data = some s) ∧
    (scanReadable data.length 0 data = true →
      ∀ b ∈ (if data.getLast? = some 0 then data.dropLast else data),
        b = 9 ∨ b = 13 ∨ b = 10 ∨ b = 92 ∨ b = 34 ∨ (0x20 ≤ b ∧ b < 0x7f)) := by
  refine ⟨toCString_isSome data, ?_⟩
  intro h b hb
  have hr := scanReadable_stripped data h b hb
  simp only [isReadable, Bool.or_eq_true, Bool.and_eq_true, decide_eq_true_eq, beq_iff_eq] at hr
  omega

theorem toCString_total_witness :
    (∃ s, toCString [104, 10, 0] = some s) ∧
      (10 = 9 ∨ 10 = 13 ∨ 10 = 10 ∨ 10 = 92 ∨ 10 = 34 ∨ (0x20 ≤ 10 ∧ 10 < 0x7f)) :=
  ⟨(toCString_total [104, 10, 0]).1,
    (toCString_total [104, 10, 0]).2 (by decide) 10 (by decide)⟩

theorem scanReadable_false (len : Nat) : ∀ (data : List Nat) (i : Nat),
    (∃ k b, data[k]? = some b ∧ isReadable b = false ∧ ¬ (i + k = len - 1 ∧ b = 0)) →
    scanReadable len i data = false := by
  intro data
  induction data with
  | nil => intro i ⟨k, b, hk, _⟩; simp at hk
  | cons v rest ih =>
    intro i ⟨k, b, hk, hb, hn⟩
    simp only [scanReadable]
    cases k with
    | zero =>
      simp only [List.getElem?_cons_zero, Option.some.injEq] at hk
      subst hk
      have : (!isReadable v && (i != len - 1 || v != 0)) = true := by
        simp only [hb, Bool.not_false, Bool.true_and, Bool.or_eq_true, bne_iff_ne, ne_eq]
        simp only [Nat.add_zero, not_and] at hn
        by_cases hi : i = len - 1
        · exact Or.inr (hn hi)
        · exact Or.inl hi
      rw [if_pos this]
    | succ k =>
      simp only [List.getElem?_cons_succ] at hk
      split
      · rfl
      · exact ih (i + 1) ⟨k, b, hk, hb, by rw [Nat.add_assoc, Nat.add_comm 1 k]; exact hn⟩

theorem toHex_eq_code (d : Nat) (h : d < 16) : toHex d = hexDigitCode d := by
  interval_cases d <;> decide

theorem hexEscape_eq (data : List Nat) (hb : ∀ b ∈ data, b < 256) :
    hexEscape data = data.flatMap hexEscapeByte := by
  induction data with
  | nil => rfl
  | cons v rest ih =>
    have hv : v < 256 := hb v (List.mem_cons_self _ _)
    have e : v * 16 % 256 / 16 = v % 16 := by omega
    rw [hexEscape, ih (fun b hm => hb b (List.mem_cons_of_mem _ hm)), List.flatMap_cons,
      hexEscapeByte, e, toHex_eq_code _ (by omega), toHex_eq_code _ (by omega)]

theorem length_flatMap_hexEscapeByte (data : List Nat) :
    (data.flatMap hexEscapeByte).length = 4 * data.length := by
  induction data with
  | nil => rfl
  | cons v rest ih =>
    rw [List.flatMap_cons, List.length_append, ih, List.length_cons]
    simp only [hexEscapeByte, List.length_cons, List.length_nil]
    omega

/-- C14: for a non-empty block of bytes with a byte that is not readable (not visible
ASCII, tab, CR or newline), a zero in the last position not counted, `toCString` returns
the escapes of all bytes of the block in order, each made of backslash, `x` and the two
lower-case hexadecimal digits of the byte, high nibble first; the output is four times as
long as the block; and the empty block gives the empty text. -/
theorem toCString_hex (data : List Nat) (hb : ∀ b ∈ data, b < 256)
    (hbad : ∃ k b, data[k]? = some b ∧ isReadable b = false ∧
      ¬ (k = data.length - 1 ∧ b = 0)) :
    toCString data = some (data.flatMap hexEscapeByte) ∧
      (data.flatMap hexEscapeByte).length = 4 * data.length ∧
      toCString [] = some [] := by
  refine ⟨?_, length_flatMap_hexEscapeByte data, rfl⟩
  obtain ⟨k, b, hk, hr, hn⟩ := hbad
  have hne : data.length ≠ 0 := by
    intro h0
    rw [List.length_eq_zero] at h0
    rw [h0] at hk
    simp at hk
  have hs : scanReadable data.length 0 data = false :=
    scanReadable_false data.length data 0 ⟨k, b, hk, hr, by rw [Nat.zero_add]; exact hn⟩
  unfold toCString
  rw [if_neg hne]
  simp only [hs, Bool.not_false, if_true, hexEscape_eq data hb]

theorem toCString_hex_witness :
    toCString [1, 171, 0] = some ([1, 171, 0].flatMap hexEscapeByte) ∧
      ([1, 171, 0].flatMap hexEscapeByte).length = 4 * [1, 171, 0].length ∧
      toCString [] = some [] ∧
      ([1, 171, 0].flatMap hexEscapeByte).map Char.ofNat = "\\x01\\xab\\x00".toList :=
  ⟨(toCString_hex [1, 171, 0] (by decide) ⟨0, 1, rfl, by decide, by decide⟩).1,
    (toCString_hex [1, 171, 0] (by decide) ⟨0, 1, rfl, by decide, by decide⟩).2.1,
    (toCString_hex [1, 171, 0] (by decide) ⟨0, 1, rfl, by decide, by decide⟩).2.2,
    by decide⟩

/-! ## Invocation text and copy-out block -/

theorem callArgs_eq (opts : Options) (native : Bool) : ∀ (args : List ExecArg) (ai : Nat),
    args.all knownArg = true →
    callArgs opts native ai args =
      some ((if (native = true ∨ ai > 0) ∧ args.length ≠ 0 then ", ".toList else []) ++
        ", ".toList.intercalate (args.map (argText opts))) := by
  intro args
  induction args with
  | nil => intro ai _; simp [callArgs, List.intercalate]
  | cons a rest ih =>
    intro ai h
    simp only [List.all_cons, Bool.and_eq_true] at h
    have hstep : callArgs opts native ai (a :: rest) =
        some ((if native = true ∨ ai > 0 then ", ".toList else []) ++ argText opts a ++
          ((if (native = true ∨ ai + 1 > 0) ∧ rest.length ≠ 0 then ", ".toList else []) ++
            ", ".toList.intercalate (rest.map (argText opts)))) := by
      cases a with
      | const c => simp only [callArgs, ih (ai + 1) h.2, argText]
      | result c => simp only [callArgs, ih (ai + 1) h.2, argText]
      | data d => exact absurd h.1 (by simp [knownArg])
      | csum c => exact absurd h.1 (by simp [knownArg])
    rw [hstep]
    cases rest with
    | nil =>
      by_cases hn : native = true ∨ ai > 0 <;> simp [hn, List.intercalate]
    | cons w rest =>
      by_cases hn : native = true ∨ ai > 0 <;>
        simp [hn, List.intercalate, List.intersperse]

theorem intercalate_leading (sep : Text) : ∀ (l : List Text),
    (if l.length ≠ 0 then sep else []) ++ sep.intercalate l =
      (l.map fun x => sep ++ x).flatten := by
  intro l
  induction l with
  | nil => simp [List.intercalate]
  | cons x rest ih =>
    cases rest with
    | nil => simp [List.intercalate]
    | cons y rest =>
      simp only [List.length_cons, ne_eq, Nat.add_one_ne_zero, not_false_eq_true,
        if_true] at ih
      simp only [List.length_cons, ne_eq, Nat.add_one_ne_zero, not_false_eq_true, if_true,
        List.map_cons, List.flatten_cons] at ih ⊢
      rw [← ih]
      simp [List.intercalate, List.intersperse]

/-- The invocation line of an emitted call, written out. -/
theorem invocationText_eq (opts : Options) (sysTarget : SysTarget) (call : ExecCall)
    (he : emitCall opts call.CallName = true) (hk : call.Args.all knownArg = true) :
    invocationText opts sysTarget call =
      some ("\t".toList ++
        (if call.Index ≠ ExecNoCopyout ∨ call.Copyout.length ≠ 0 then "res = ".toList else []) ++
        (if ¬ "syz_".toList <+: call.CallName then
          "syscall(".toList ++ sysTarget.SyscallPrefix ++ call.CallName ++
            (call.Args.map fun a => ", ".toList ++ argText opts a).flatten
         else
          call.CallName ++ "(".toList ++
            ", ".toList.intercalate (call.Args.map (argText opts))) ++
        ");\n".toList) := by
  unfold invocationText
  simp only [he, if_true]
  rw [callArgs_eq opts _ call.Args 0 hk]
  by_cases hs : "syz_".toList <+: call.CallName
  · have hb : "syz_".toList.isPrefixOf call.CallName = true := List.isPrefixOf_iff_prefix.2 hs
    simp only [hb, Bool.not_true, Bool.false_eq_true, false_or, Nat.lt_irrefl, false_and,
      if_false, not_true_eq_false, hs, List.nil_append, List.append_assoc]
  · have hb : "syz_".toList.isPrefixOf call.CallName = false := by
      rw [← Bool.not_eq_true, List.isPrefixOf_iff_prefix]; exact hs
    simp only [hb, Bool.not_false, true_or, true_and, if_true, hs, not_false_eq_true]
    have e := intercalate_leading ", ".toList (call.Args.map (argText opts))
    rw [List.map_map, List.length_map] at e
    have e2 : (call.Args.map fun a => ", ".toList ++ argText opts a).flatten =
        (call.Args.map ((fun x => ", ".toList ++ x) ∘ argText opts)).flatten := rfl
    rw [e2, ← e]
    simp only [List.append_assoc]

/-- C13: for a call whose invocation is emitted and whose arguments are constants or result
references, the invocation line is a tab, `res = ` when the result is captured or there is
a copy-out, then for a name that does not start with `syz_` the text `syscall(`, the
syscall prefix of the target and the name, followed by `, ` and the formatted argument for
each argument, and for a name that starts with `syz_` the name, `(` and the formatted
arguments separated by `, `; then `);` and the newline. -/
theorem invocationText_shape (opts : Options) (sysTarget : SysTarget) (call : ExecCall)
    (he : emitCall opts call.CallName = true) (hk : call.Args.all knownArg = true) :
    invocationText opts sysTarget call =
      some ("\t".toList ++
        (if call.Index ≠ ExecNoCopyout ∨ call.Copyout.length ≠ 0 then "res = ".toList else []) ++
        (if ¬ "syz_".toList <+: call.CallName then
          "syscall(".toList ++ sysTarget.SyscallPrefix ++ call.CallName ++
            (call.Args.map fun a => ", ".toList ++ argText opts a).flatten
         else
          call.CallName ++ "(".toList ++
            ", ".toList.intercalate (call.Args.map (argText opts))) ++
        ");\n".toList) :=
  invocationText_eq opts sysTarget call he hk

theorem invocationText_shape_witness :
    invocationText {} sampleSysTarget sampleNativeCall =
        some ("\tsyscall(".toList ++ sampleSysTarget.SyscallPrefix ++ "close, 7);\n".toList) ∧
      invocationText {} sampleSysTarget samplePseudoCall =
        some "\tres = syz_open_dev(0x20000000, r[1]/2);\n".toList :=
  ⟨(invocationText_shape {} sampleSysTarget sampleNativeCall (by decide) (by decide)).trans
      (by decide),
    (invocationText_shape {} sampleSysTarget samplePseudoCall (by decide) (by decide)).trans
      (by decide)⟩

/-! ## Copy-out block, and two evaluations of the emitter -/

theorem occ_check_copyoutLine (copyout : ExecCopyout) :
    occ "\tif (res != -1)".toList (copyoutLine copyout) = 0 := by
  have h1 : '\t' ∉ fmtDec copyout.Index := not_mem_fmtDec (by decide) _
  have h2 : '\t' ∉ fmtDec (mul64 copyout.Size 8) := not_mem_fmtDec (by decide) _
  have h3 : '\t' ∉ fmtHex copyout.Addr := not_mem_fmtHex (by decide) _
  unfold copyoutLine
  simp [occ_cons, occ_nil, occ_skip, h1, h2, h3]

theorem lineBlock_copyoutLine (copyout : ExecCopyout) : LineBlock (copyoutLine copyout) := by
  unfold copyoutLine
  exact Or.inr (getLast?_append_right _ (by decide))

/-- C15: for a call with a captured result or a copy-out, the copy-out block, which ends the
fragment of the call, is the one check `if (res != -1)`, an opening brace exactly when the
number of writes to the result table (one for a captured result, one per copy-out) is at
least two, the store of the captured result if there is one, the copy-outs in list order,
and the closing brace under the same condition. -/
theorem copyoutText_block (call : ExecCall)
    (h : call.Index ≠ ExecNoCopyout ∨ call.Copyout.length ≠ 0) :
    copyoutText call =
      "\tif (res != -1)".toList ++
      (if 2 ≤ (if call.Index ≠ ExecNoCopyout then 1 else 0) + call.Copyout.length
        then " \x7b".toList else []) ++
      "\n".toList ++
      (if call.Index ≠ ExecNoCopyout
        then "\t\tr[".toList ++ fmtDec call.Index ++ "] = res;\n".toList else []) ++
      (call.Copyout.map copyoutLine).flatten ++
      (if 2 ≤ (if call.Index ≠ ExecNoCopyout then 1 else 0) + call.Copyout.length
        then "\t\x7d\n".toList else []) ∧
    occ "\tif (res != -1)".toList (copyoutText call) = 1 ∧
    ∀ (opts : Options) (sysTarget : SysTarget) (ci csumSeq csumSeq1 : Nat) (w : Text),
      generateCall opts sysTarget ci csumSeq call = some (w, csumSeq1) →
        copyoutText call <:+ w := by
  have hm : (call.Copyout.length > 1 ∨ (call.Index ≠ ExecNoCopyout ∧ call.Copyout.length > 0)) ↔
      2 ≤ (if call.Index ≠ ExecNoCopyout then 1 else 0) + call.Copyout.length := by
    by_cases hi : call.Index ≠ ExecNoCopyout
    · rw [if_pos hi]; constructor
      · rintro (h1 | ⟨_, h1⟩) <;> omega
      · intro h1; exact Or.inr ⟨hi, by omega⟩
    · rw [if_neg hi]; constructor
      · rintro (h1 | ⟨h0, _⟩)
        · omega
        · exact absurd h0 hi
      · intro h1; exact Or.inl (by omega)
  have heq : copyoutText call =
      "\tif (res != -1)".toList ++
      (if 2 ≤ (if call.Index ≠ ExecNoCopyout then 1 else 0) + call.Copyout.length
        then " \x7b".toList else []) ++
      "\n".toList ++
      (if call.Index ≠ ExecNoCopyout
        then "\t\tr[".toList ++ fmtDec call.Index ++ "] = res;\n".toList else []) ++
      (call.Copyout.map copyoutLine).flatten ++
      (if 2 ≤ (if call.Index ≠ ExecNoCopyout then 1 else 0) + call.Copyout.length
        then "\t\x7d\n".toList else []) := by
    unfold copyoutText
    simp only [if_pos h]
    by_cases h2 : 2 ≤ (if call.Index ≠ ExecNoCopyout then 1 else 0) + call.Copyout.length
    · rw [if_pos (hm.2 h2), if_pos (hm.2 h2), if_pos h2, if_pos h2]
    · rw [if_neg (fun hx => h2 (hm.1 hx)), if_neg (fun hx => h2 (hm.1 hx)), if_neg h2,
        if_neg h2]
  refine ⟨heq, ?_, ?_⟩
  · rw [heq]
    have hA := additive_occ "\tif (res != -1)".toList (by decide)
    have hflat : occ "\tif (res != -1)".toList (call.Copyout.map copyoutLine).flatten = 0 := by
      apply additive_flatten_zero _ hA rfl
      · intro f hf
        obtain ⟨c, _, rfl⟩ := List.mem_map.1 hf
        exact lineBlock_copyoutLine c
      · intro f hf
        obtain ⟨c, _, rfl⟩ := List.mem_map.1 hf
        exact occ_check_copyoutLine c
    have hres : occ "\tif (res != -1)".toList
        ("\t\tr[".toList ++ fmtDec call.Index ++ "] = res;\n".toList) = 0 := by
      have h1 : '\t' ∉ fmtDec call.Index := not_mem_fmtDec (by decide) _
      simp [occ_cons, occ_nil, occ_skip, h1]
    have hfl : LineBlock (call.Copyout.map copyoutLine).flatten :=
      lineBlock_flatten _ (fun f hf => by
        obtain ⟨c, _, rfl⟩ := List.mem_map.1 hf
        exact lineBlock_copyoutLine c)
    have hhead : ∀ b : Bool, occ "\tif (res != -1)".toList
        ("\tif (res != -1)".toList ++ (if b = true then " \x7b".toList else []) ++
          "\n".toList) = 1 := by
      intro b; cases b <;> decide
    have hlb1 : ∀ b : Bool, LineBlock ("\tif (res != -1)".toList ++
        (if b = true then " \x7b".toList else []) ++ "\n".toList) :=
      fun b => Or.inr (getLast?_append_right _ (by decide))
    have hlb2 : LineBlock (if call.Index ≠ ExecNoCopyout
        then "\t\tr[".toList ++ fmtDec call.Index ++ "] = res;\n".toList else []) := by
      split
      · exact Or.inr (getLast?_append_right _ (by decide))
      · exact lineBlock_nil
    have hres2 : occ "\tif (res != -1)".toList (if call.Index ≠ ExecNoCopyout
        then "\t\tr[".toList ++ fmtDec call.Index ++ "] = res;\n".toList else []) = 0 := by
      split
      · exact hres
      · rfl
    have htail : ∀ b : Bool, occ "\tif (res != -1)".toList
        (if b = true then "\t\x7d\n".toList else []) = 0 := by
      intro b; cases b <;> decide
    have hgen : ∀ b : Bool, occ "\tif (res != -1)".toList
        ("\tif (res != -1)".toList ++ (if b = true then " \x7b".toList else []) ++
          "\n".toList ++
          (if call.Index ≠ ExecNoCopyout
            then "\t\tr[".toList ++ fmtDec call.Index ++ "] = res;\n".toList else []) ++
          (call.Copyout.map copyoutLine).flatten ++
          (if b = true then "\t\x7d\n".toList else [])) = 1 := by
      intro b
      rw [hA _ _ (lineBlock_append (lineBlock_append (hlb1 b) hlb2) hfl),
        hA _ _ (lineBlock_append (hlb1 b) hlb2), hA _ _ (hlb1 b), hhead b, hres2, hflat,
        htail b]
    have := hgen (decide (2 ≤ (if call.Index ≠ ExecNoCopyout then 1 else 0) +
      call.Copyout.length))
    simpa only [decide_eq_true_eq] using this
  · intro opts sysTarget ci n n1 w hw
    unfold generateCall at hw
    split at hw
    · split at hw
      · simp only [Option.some.injEq, Prod.mk.injEq] at hw
        rw [← hw.1]
        exact List.suffix_append _ _
      · exact absurd hw (by simp)
    · exact absurd hw (by simp)

theorem copyoutText_block_witness :
    copyoutText sampleExtractCall =
        ("\tif (res != -1) \x7b\n\t\tNONFAILING(r[0] = *(uint32_t*)0x20000000);\n" ++
          "\t\tNONFAILING(r[1] = *(uint32_t*)0x20000004);\n\t\x7d\n").toList ∧
      copyoutText samplePseudoCall = "\tif (res != -1)\n\t\tr[2] = res;\n".toList :=
  ⟨(copyoutText_block sampleExtractCall (by decide)).1.trans (by decide),
    (copyoutText_block samplePseudoCall (by decide)).1.trans (by decide)⟩

/-- C12: the fragment of the call `syz_extract_tcp_res` with two copy-outs, generated
without network bring-up: the invocation is suppressed and the fragment is the copy-out
block alone. -/
theorem generateCall_suppressed_copyout :
    invocationText {} sampleSysTarget sampleExtractCall = some [] ∧
    generateCall {} sampleSysTarget 0 0 sampleExtractCall =
      some (("\tif (res != -1) \x7b\n\t\tNONFAILING(r[0] = *(uint32_t*)0x20000000);\n" ++
        "\t\tNONFAILING(r[1] = *(uint32_t*)0x20000004);\n\t\x7d\n").toList, 0) := by
  decide

set_option maxRecDepth 100000 in
/-- C20: a raw-data copy-in whose bytes are the text `debug(`: `generateCalls` emits the
`memcpy` statement, and the text returned by `Write` with debug disabled no longer holds
it: the removal of the debug statements has cut the line after the opening quote. -/
theorem Write_memcpy_cut :
    ∃ frags out,
      generateCalls {} sampleSysTarget sampleDebugProg = some (frags, []) ∧
      "memcpy((void*)0x20000000, \"debug(\", 6)".toList <:+: frags.flatten ∧
      Write (fun _ => true) {} sampleTarget sampleSysTarget sampleDebugProg sampleMmapProg []
        (some []) = some out ∧
      ¬ "memcpy((void*)0x20000000, \"debug(\", 6)".toList <:+: out ∧
      "memcpy((void*)0x20000000, \"\tsyscall(__NR_close, 7);\n".toList <:+: out :=
  ⟨_, _, rfl, by decide, rfl, by decide, by decide⟩

/-! ## Text replacement: general facts -/

theorem replaceAux_skip (old new : Text) : ∀ (k : Nat) (t : Text),
    replaceAux old new k t = replaceAux old new 0 (t.drop k) := by
  intro k
  induction k with
  | zero => intro t; rfl
  | succ k ih =>
    intro t
    cases t with
    | nil => rfl
    | cons c t => rw [replaceAux, ih t, List.drop_succ_cons]

theorem replaceAll_nil (old new : Text) : replaceAll old new [] = [] := rfl

theorem replaceAll_cons_neg (old new : Text) (c : Char) (t : Text) (h : ¬ old <+: c :: t) :
    replaceAll old new (c :: t) = c :: replaceAll old new t := by
  unfold replaceAll
  rw [replaceAux, if_neg h]

theorem replaceAll_match (old new rest : Text) (ho : old ≠ []) :
    replaceAll old new (old ++ rest) = new ++ replaceAll old new rest := by
  cases old with
  | nil => exact absurd rfl ho
  | cons c old' =>
    unfold replaceAll
    rw [List.cons_append, replaceAux, if_pos (by
      rw [← List.cons_append]; exact List.prefix_append _ _), replaceAux_skip]
    simp

theorem replaceAll_cons_pos (old new : Text) (c : Char) (t : Text) (h : old <+: c :: t)
    (ho : old ≠ []) :
    ∃ rest, c :: t = old ++ rest ∧ replaceAll old new (c :: t) = new ++ replaceAll old new rest := by
  obtain ⟨rest, hr⟩ := h
  exact ⟨rest, hr.symm, by rw [← hr, replaceAll_match old new rest ho]⟩

theorem replaceAll_length_le (old new : Text) (ho : old ≠ []) (hn : new.length ≤ old.length) :
    ∀ (n : Nat) (s : Text), s.length ≤ n → (replaceAll old new s).length ≤ s.length := by
  intro n
  induction n with
  | zero =>
    intro s hs
    have : s = [] := List.length_eq_zero.1 (by omega)
    rw [this]; exact Nat.le_refl _
  | succ n ih =>
    intro s hs
    cases s with
    | nil => exact Nat.le_refl _
    | cons c t =>
      by_cases hp : old <+: c :: t
      · obtain ⟨rest, h1, h2⟩ := replaceAll_cons_pos old new c t hp ho
        have hlen : (c :: t).length = old.length + rest.length := by
          rw [h1, List.length_append]
        have holen : 0 < old.length := List.length_pos.2 ho
        have := ih rest (by rw [hlen] at hs; omega)
        rw [h2, List.length_append, hlen]
        omega
      · rw [replaceAll_cons_neg old new c t hp, List.length_cons, List.length_cons]
        have := ih t (by simp only [List.length_cons] at hs; omega)
        omega

theorem replaceAll_id (old new : Text) : ∀ s : Text, ¬ old <:+: s → replaceAll old new s = s := by
  intro s
  induction s with
  | nil => intro _; rfl
  | cons c t ih =>
    intro h
    rw [List.infix_cons_iff, not_or] at h
    rw [replaceAll_cons_neg old new c t h.1, ih h.2]

theorem replaceAll_length_lt (old new : Text) (ho : old ≠ []) (hn : new.length < old.length) :
    ∀ s : Text, old <:+: s → (replaceAll old new s).length < s.length := by
  intro s
  induction s with
  | nil => intro h; exact absurd (List.infix_nil.1 h) ho
  | cons c t ih =>
    intro h
    by_cases hp : old <+: c :: t
    · obtain ⟨rest, h1, h2⟩ := replaceAll_cons_pos old new c t hp ho
      have hlen : (c :: t).length = old.length + rest.length := by
        rw [h1, List.length_append]
      have := replaceAll_length_le old new ho (Nat.le_of_lt hn) rest.length rest (Nat.le_refl _)
      rw [h2, List.length_append, hlen]
      omega
    · rw [List.infix_cons_iff] at h
      rcases h with h | h
      · exact absurd h hp
      · rw [replaceAll_cons_neg old new c t hp, List.length_cons, List.length_cons]
        have := ih h
        omega

theorem replaceAll_eq_of_length (old new : Text) (ho : old ≠ []) (hn : new.length < old.length)
    (s : Text) (h : (replaceAll old new s).length = s.length) :
    ¬ old <:+: s ∧ replaceAll old new s = s := by
  have h1 : ¬ old <:+: s := by
    intro hi
    have := replaceAll_length_lt old new ho hn s hi
    omega
  exact ⟨h1, replaceAll_id old new s h1⟩

/-! ## Post-processor: the loop that removes duplicate new lines -/

theorem collapseLoop_succ (fuel : Nat) (t : Text) :
    collapseLoop (fuel + 1) t =
      if (collapseStep t).length = t.length then t else collapseLoop fuel (collapseStep t) := rfl

theorem collapseStep_length_le (t : Text) : (collapseStep t).length ≤ t.length := by
  unfold collapseStep
  have h1 := replaceAll_length_le "\n\n\n".toList "\n\n".toList (by decide) (by decide) _ t
    (Nat.le_refl _)
  have h2 := replaceAll_length_le "\n\n#include".toList "\n#include".toList (by decide)
    (by decide) _ (replaceAll "\n\n\n".toList "\n\n".toList t) (Nat.le_refl _)
  omega

theorem collapseStep_eq_of_length (t : Text) (h : (collapseStep t).length = t.length) :
    collapseStep t = t ∧ ¬ "\n\n\n".toList <:+: t ∧ ¬ "\n\n#include".toList <:+: t := by
  have h1 := replaceAll_length_le "\n\n\n".toList "\n\n".toList (by decide) (by decide) _ t
    (Nat.le_refl _)
  have h2 := replaceAll_length_le "\n\n#include".toList "\n#include".toList (by decide)
    (by decide) _ (replaceAll "\n\n\n".toList "\n\n".toList t) (Nat.le_refl _)
  unfold collapseStep at h ⊢
  obtain ⟨hA, eA⟩ := replaceAll_eq_of_length "\n\n\n".toList "\n\n".toList (by decide)
    (by decide) t (by omega)
  rw [eA] at h ⊢
  obtain ⟨hB, eB⟩ := replaceAll_eq_of_length "\n\n#include".toList "\n#include".toList
    (by decide) (by decide) t h
  exact ⟨eB, hA, hB⟩

theorem collapseLoop_spec : ∀ (fuel : Nat) (t : Text), t.length < fuel →
    (collapseStep (collapseLoop fuel t)).length = (collapseLoop fuel t).length ∧
    ∀ k, collapseLoop (fuel + k) t = collapseLoop fuel t := by
  intro fuel
  induction fuel with
  | zero => intro t h; exact absurd h (Nat.not_lt_zero _)
  | succ fuel ih =>
    intro t h
    by_cases hl : (collapseStep t).length = t.length
    · refine ⟨?_, ?_⟩
      · rw [collapseLoop_succ, if_pos hl]; exact hl
      · intro k
        rw [Nat.add_right_comm, collapseLoop_succ, if_pos hl, collapseLoop_succ, if_pos hl]
    · have hle := collapseStep_length_le t
      obtain ⟨h1, h2⟩ := ih (collapseStep t) (by omega)
      refine ⟨?_, ?_⟩
      · rw [collapseLoop_succ, if_neg hl]; exact h1
      · intro k
        rw [Nat.add_right_comm, collapseLoop_succ, if_neg hl, collapseLoop_succ, if_neg hl]
        exact h2 k

/-- C18: the loop that removes duplicate new lines ends by its own test on every text: with
at least `length + 1` rounds allowed the result does not depend on the number of rounds.
At the result the test of the loop holds (a further pass does not change the length), the
pass returns the result unchanged, the result holds neither three newlines in a row nor an
empty line before `#include`, and the loop run again on the result returns it unchanged. -/
theorem collapseLoop_fixed_point (t : Text) :
    (∀ k, collapseLoop (t.length + 1 + k) t = collapseLoop (t.length + 1) t) ∧
    (collapseStep (collapseLoop (t.length + 1) t)).length =
      (collapseLoop (t.length + 1) t).length ∧
    collapseStep (collapseLoop (t.length + 1) t) = collapseLoop (t.length + 1) t ∧
    ¬ "\n\n\n".toList <:+: collapseLoop (t.length + 1) t ∧
    ¬ "\n\n#include".toList <:+: collapseLoop (t.length + 1) t ∧
    collapseLoop ((collapseLoop (t.length + 1) t).length + 1) (collapseLoop (t.length + 1) t) =
      collapseLoop (t.length + 1) t := by
  obtain ⟨h1, h2⟩ := collapseLoop_spec (t.length + 1) t (Nat.lt_succ_self _)
  obtain ⟨e, hA, hB⟩ := collapseStep_eq_of_length _ h1
  exact ⟨h2, h1, e, hA, hB, by rw [collapseLoop_succ, if_pos h1]⟩

/-! ## Texts made of complete lines -/

theorem lines_append {P : Text → Prop} {a b : Text} (ha : Lines P a) (hb : Lines P b) :
    Lines P (a ++ b) := by
  induction ha with
  | nil => exact hb
  | line l rest hl hp _ ih =>
    rw [List.append_assoc, List.cons_append]
    exact Lines.line l (rest ++ b) hl hp ih

theorem lines_mono {P Q : Text → Prop} (h : ∀ l, '\n' ∉ l → P l → Q l) {t : Text}
    (ht : Lines P t) : Lines Q t := by
  induction ht with
  | nil => exact Lines.nil
  | line l rest hl hp _ ih => exact Lines.line l rest hl (h l hl hp) ih

theorem lines_single {P : Text → Prop} (l : Text) (hl : '\n' ∉ l) (hp : P l) :
    Lines P (l ++ ['\n']) :=
  Lines.line l [] hl hp Lines.nil

theorem lines_flatten {P : Text → Prop} : ∀ frags : List Text, (∀ f ∈ frags, Lines P f) →
    Lines P frags.flatten := by
  intro frags
  induction frags with
  | nil => intro _; exact Lines.nil
  | cons f rest ih =>
    intro h
    rw [List.flatten_cons]
    exact lines_append (h f (List.mem_cons_self _ _))
      (ih fun g hg => h g (List.mem_cons_of_mem _ hg))

theorem lines_ite {P : Text → Prop} (c : Prop) [Decidable c] {a b : Text} (ha : Lines P a)
    (hb : Lines P b) : Lines P (if c then a else b) := by
  split <;> assumption

theorem lines_lineBlock {P : Text → Prop} {t : Text} (h : Lines P t) : LineBlock t := by
  induction h with
  | nil => exact lineBlock_nil
  | line l rest _ _ _ ih =>
    rcases ih with h0 | h1
    · subst h0
      exact Or.inr (getLast?_append_right l (by decide))
    · refine Or.inr ?_
      have : (l ++ '\n' :: rest) = (l ++ ['\n']) ++ rest := by simp
      rw [this]
      exact getLast?_append_right _ h1

theorem prefix_dropLast_line {p l : Text} (hp : p <+: l ++ ['\n']) (hn : '\n' ∉ p) : p <+: l := by
  rcases List.prefix_or_prefix_of_prefix hp (List.prefix_append l ['\n']) with h | h
  · exact h
  · obtain ⟨r, hr⟩ := h
    obtain ⟨s, hs⟩ := hp
    rw [← hr, List.append_assoc] at hs
    have h2 := List.append_cancel_left hs
    cases r with
    | nil => rw [List.append_nil] at hr; rw [hr]
    | cons x r =>
      exfalso
      have hlen := congrArg List.length h2
      simp only [List.length_append, List.length_cons, List.length_nil] at hlen
      have hr0 : r = [] := List.length_eq_zero.1 (by omega)
      have hs0 : s = [] := List.length_eq_zero.1 (by omega)
      subst hr0 hs0
      simp only [List.append_nil, List.cons.injEq, and_true] at h2
      subst h2
      apply hn
      rw [← hr]
      simp

/-- A single line that begins with one of the openers. -/
theorem lines_of_opener (ps : List Text) (p l : Text) (hm : p ∈ ps) (hn : '\n' ∉ p)
    (hp : p <+: l) (hl : l.getLast? = some '\n') (hc : l.count '\n' = 1) :
    Lines (OpensWith ps) l := by
  have hne : l ≠ [] := by intro h; rw [h] at hl; simp at hl
  have hsplit : l = l.dropLast ++ ['\n'] := by
    have := List.dropLast_append_getLast hne
    rw [List.getLast?_eq_getLast _ hne, Option.some.injEq] at hl
    rw [hl] at this
    exact this.symm
  have hcount : l.dropLast.count '\n' = 0 := by
    rw [hsplit, List.count_append] at hc
    simp at hc
    exact hc
  have hnot : '\n' ∉ l.dropLast := List.count_eq_zero.1 hcount
  rw [hsplit]
  refine lines_single _ hnot ⟨p, hm, ?_⟩
  rw [hsplit] at hp
  exact prefix_dropLast_line hp hn

theorem prefix_append_left {p a : Text} (b : Text) (h : p <+: a) : p <+: a ++ b :=
  h.trans (List.prefix_append a b)

/-- No line of a text made of lines that begin with openers begins with a text that none of
the openers is comparable with. -/
theorem lineStarts_of_openers (ps : List Text) (pat : Text) (hp : pat ≠ []) (hn : '\n' ∉ pat)
    (hi : ∀ p ∈ ps, ¬ p <+: pat ∧ ¬ pat <+: p) {t : Text} (ht : Lines (OpensWith ps) t) :
    lineStarts pat t = 0 := by
  induction ht with
  | nil => exact lineStarts_nil pat hp
  | line l rest hl hP _ ih =>
    have e : l ++ '\n' :: rest = (l ++ ['\n']) ++ rest := by simp
    rw [e, additive_lineStarts pat hp hn _ _ (Or.inr (getLast?_append_right l (by decide))), ih,
      Nat.add_zero, lineStarts_single pat _ hp (getLast?_append_right l (by decide))
        (by rw [List.count_append, List.count_eq_zero.2 hl]; rfl)]
    obtain ⟨p, hm, hpl⟩ := hP
    have : ¬ pat <+: l ++ ['\n'] := by
      intro h
      have h2 := prefix_dropLast_line h hn
      rcases List.prefix_or_prefix_of_prefix h2 hpl with h3 | h3
      · exact (hi p hm).2 h3
      · exact (hi p hm).1 h3
    rw [if_neg this]

/-! ## How the lines of a fragment begin -/

theorem openers_csumChunks (csumSeq : Nat) : ∀ (chunks : List ExecCsumChunk) (i : Nat)
    (t : Text), csumChunks csumSeq i chunks = some t → Lines (OpensWith plainOpeners) t := by
  intro chunks
  induction chunks with
  | nil =>
    intro i t h
    simp only [csumChunks, Option.some.injEq] at h
    subst h
    exact Lines.nil
  | cons c rest ih =>
    intro i t h
    simp only [csumChunks] at h
    split at h
    · rename_i p r hp hr
      simp only [Option.some.injEq] at h
      subst h
      refine lines_append ?_ (ih (i + 1) r hr)
      split_ifs at hp
      · simp only [Option.some.injEq] at hp
        subst hp
        refine lines_of_opener plainOpeners "\tNONFAILING(csum_inet_update(".toList _
          (by decide) (by decide) ?_ ?_ ?_
        · repeat (first | decide | apply prefix_append_left)
        · repeat (first | decide | apply getLast?_append_right)
        · simp only [List.count_append, count_nl_fmtDec, count_nl_fmtHex]
          decide
      · simp only [Option.some.injEq] at hp
        subst hp
        have h1 : Lines (OpensWith plainOpeners)
            ("\tuint".toList ++ fmtDec (mul64 c.Size 8) ++ "_t csum_".toList ++
            fmtDec csumSeq ++ "_chunk_".toList ++ fmtDec i ++ " = 0x".toList ++
            fmtHex c.Value ++ ";\n".toList) := by
          refine lines_of_opener plainOpeners "\tuint".toList _ (by decide) (by decide) ?_ ?_ ?_
          · repeat (first | decide | apply prefix_append_left)
          · repeat (first | decide | apply getLast?_append_right)
          · simp only [List.count_append, count_nl_fmtDec, count_nl_fmtHex]
            decide
        have h2 : Lines (OpensWith plainOpeners)
            ("\tcsum_inet_update(&csum_".toList ++ fmtDec csumSeq ++
            ", (const uint8_t*)&csum_".toList ++ fmtDec csumSeq ++ "_chunk_".toList ++
            fmtDec i ++ ", ".toList ++ fmtDec c.Size ++ ");\n".toList) := by
          refine lines_of_opener plainOpeners "\tcsum_inet_update(".toList _
            (by decide) (by decide) ?_ ?_ ?_
          · repeat (first | decide | apply prefix_append_left)
          · repeat (first | decide | apply getLast?_append_right)
          · simp only [List.count_append, count_nl_fmtDec, count_nl_fmtHex]
            decide
        have h3 := lines_append h1 h2
        simp only [List.append_assoc] at h3 ⊢
        exact h3
    · exact absurd h (by simp)

theorem openers_copyinStep (opts : Options) (csumSeq : Nat) (copyin : ExecCopyin)
    (hd : byteData copyin = true) (t : Text) (n : Nat)
    (h : copyinStep opts csumSeq copyin = some (t, n)) : Lines (OpensWith plainOpeners) t := by
  obtain ⟨addr, arg⟩ := copyin
  cases arg with
  | const a =>
    simp only [copyinStep] at h
    by_cases hb : a.BitfieldOffset = 0 ∧ a.BitfieldLength = 0
    · rw [if_pos hb] at h
      simp only [Option.some.injEq, Prod.mk.injEq] at h
      obtain ⟨h, _⟩ := h
      subst h
      refine lines_of_opener plainOpeners "\tNONFAILING(*(uint".toList _
        (by decide) (by decide) ?_ ?_ ?_
      · repeat (first | decide | apply prefix_append_left)
      · repeat (first | decide | apply getLast?_append_right)
      · simp only [List.count_append, count_nl_fmtDec, count_nl_fmtHex, count_nl_constArgToStr]
        decide
    · rw [if_neg hb] at h
      simp only [Option.some.injEq, Prod.mk.injEq] at h
      obtain ⟨h, _⟩ := h
      subst h
      refine lines_of_opener plainOpeners "\tNONFAILING(STORE_BY_BITMASK(".toList _
        (by decide) (by decide) ?_ ?_ ?_
      · repeat (first | decide | apply prefix_append_left)
      · repeat (first | decide | apply getLast?_append_right)
      · simp only [List.count_append, count_nl_fmtDec, count_nl_fmtHex, count_nl_constArgToStr]
        decide
  | result a =>
    simp only [copyinStep, Option.some.injEq, Prod.mk.injEq] at h
    obtain ⟨h, _⟩ := h
    subst h
    refine lines_of_opener plainOpeners "\tNONFAILING(*(uint".toList _
      (by decide) (by decide) ?_ ?_ ?_
    · repeat (first | decide | apply prefix_append_left)
    · repeat (first | decide | apply getLast?_append_right)
    · simp only [List.count_append, count_nl_fmtDec, count_nl_fmtHex, count_nl_resultArgToStr]
      decide
  | data d =>
    simp only [copyinStep] at h
    split at h
    · rename_i str hstr
      simp only [Option.some.injEq, Prod.mk.injEq] at h
      obtain ⟨h, _⟩ := h
      subst h
      have hbytes : ∀ b ∈ d, b < 256 := by
        simp only [byteData, List.all_eq_true, decide_eq_true_eq] at hd
        exact hd
      refine lines_of_opener plainOpeners "\tNONFAILING(memcpy(".toList _
        (by decide) (by decide) ?_ ?_ ?_
      · repeat (first | decide | apply prefix_append_left)
      · repeat (first | decide | apply getLast?_append_right)
      · simp only [List.count_append, count_nl_fmtDec, count_nl_fmtHex,
          count_nl_toCString d str hbytes hstr]
        decide
    · exact absurd h (by simp)
  | csum a =>
    simp only [copyinStep] at h
    split_ifs at h
    split at h
    · rename_i chunks hchunks
      simp only [Option.some.injEq, Prod.mk.injEq] at h
      obtain ⟨h, _⟩ := h
      subst h
      have hc := openers_csumChunks (csumSeq + 1) a.Chunks 0 chunks hchunks
      have h1 : Lines (OpensWith plainOpeners)
          ("\tstruct csum_inet csum_".toList ++ fmtDec (csumSeq + 1) ++ ";\n".toList) := by
        refine lines_of_opener plainOpeners "\tstruct csum_inet ".toList _
          (by decide) (by decide) ?_ ?_ ?_
        · repeat (first | decide | apply prefix_append_left)
        · repeat (first | decide | apply getLast?_append_right)
        · simp only [List.count_append, count_nl_fmtDec]
          decide
      have h2 : Lines (OpensWith plainOpeners)
          ("\tcsum_inet_init(&csum_".toList ++ fmtDec (csumSeq + 1) ++ ");\n".toList) := by
        refine lines_of_opener plainOpeners "\tcsum_inet_init(".toList _
          (by decide) (by decide) ?_ ?_ ?_
        · repeat (first | decide | apply prefix_append_left)
        · repeat (first | decide | apply getLast?_append_right)
        · simp only [List.count_append, count_nl_fmtDec]
          decide
      have h3 : Lines (OpensWith plainOpeners)
          ("\tNONFAILING(*(uint16_t*)0x".toList ++ fmtHex addr ++
          " = csum_inet_digest(&csum_".toList ++ fmtDec (csumSeq + 1) ++ "));\n".toList) := by
        refine lines_of_opener plainOpeners "\tNONFAILING(*(uint".toList _
          (by decide) (by decide) ?_ ?_ ?_
        · repeat (first | decide | apply prefix_append_left)
        · repeat (first | decide | apply getLast?_append_right)
        · simp only [List.count_append, count_nl_fmtDec, count_nl_fmtHex]
          decide
      have h4 := lines_append (lines_append (lines_append h1 h2) hc) h3
      simp only [List.append_assoc] at h4 ⊢
      exact h4
    · exact absurd h (by simp)

theorem openers_copyinLoop (opts : Options) : ∀ (copyins : List ExecCopyin) (w : Text)
    (csumSeq : Nat) (w1 : Text) (n : Nat), copyins.all byteData = true →
      Lines (OpensWith plainOpeners) w →
      copyinLoop opts w csumSeq copyins = some (w1, n) → Lines (OpensWith plainOpeners) w1 := by
  intro copyins
  induction copyins with
  | nil =>
    intro w csumSeq w1 n _ hw h
    simp only [copyinLoop, Option.some.injEq, Prod.mk.injEq] at h
    rw [← h.1]
    exact hw
  | cons c rest ih =>
    intro w csumSeq w1 n hd hw h
    simp only [List.all_cons, Bool.and_eq_true] at hd
    simp only [copyinLoop] at h
    split at h
    · rename_i t csumSeq1 hstep
      exact ih (w ++ t) csumSeq1 w1 n hd.2
        (lines_append hw (openers_copyinStep opts csumSeq c hd.1 t csumSeq1 hstep)) h
    · exact absurd h (by simp)

theorem openers_faultText (opts : Options) (ci : Nat) :
    Lines (OpensWith plainOpeners) (faultText opts ci) := by
  unfold faultText
  split_ifs
  · have h1 : Lines (OpensWith plainOpeners)
        ("\twrite_file(\"/sys/kernel/debug/failslab/ignore-gfp-wait\", \"N\");\n".toList ++
          "\twrite_file(\"/sys/kernel/debug/fail_futex/ignore-private\", \"N\");\n".toList) :=
      lines_append
        (lines_of_opener plainOpeners "\twrite_file(".toList _ (by decide) (by decide)
          (by decide) (by decide) (by decide))
        (lines_of_opener plainOpeners "\twrite_file(".toList _ (by decide) (by decide)
          (by decide) (by decide) (by decide))
    have h2 : Lines (OpensWith plainOpeners)
        ("\tinject_fault(".toList ++ fmtInt opts.FaultNth ++ ");\n".toList) := by
      refine lines_of_opener plainOpeners "\tinject_fault(".toList _
        (by decide) (by decide) ?_ ?_ ?_
      · repeat (first | decide | apply prefix_append_left)
      · repeat (first | decide | apply getLast?_append_right)
      · simp only [List.count_append, count_nl_fmtInt]
        decide
    have h3 := lines_append h1 h2
    simp only [List.append_assoc] at h3 ⊢
    exact h3
  · exact Lines.nil

/-! ## The assignment of the result to `res` -/

theorem generateCall_parts (opts : Options) (sysTarget : SysTarget) (ci csumSeq : Nat)
    (call : ExecCall) (hk : knownCall call = true) :
    ∃ copyins inv n1,
      generateCall opts sysTarget ci csumSeq call =
        some (copyins ++ faultText opts ci ++ inv ++ copyoutText call, n1) ∧
      copyinLoop opts [] csumSeq call.Copyin = some (copyins, n1) ∧
      invocationText opts sysTarget call = some inv := by
  obtain ⟨w, hw⟩ := generateCall_isSome opts sysTarget ci csumSeq call hk
  unfold generateCall at hw ⊢
  cases hloop : copyinLoop opts [] csumSeq call.Copyin with
  | none => rw [hloop] at hw; exact absurd hw (by simp)
  | some r =>
    obtain ⟨copyins, n1⟩ := r
    rw [hloop] at hw
    simp only at hw ⊢
    cases hinv : invocationText opts sysTarget call with
    | none => rw [hinv] at hw; exact absurd hw (by simp)
    | some inv => exact ⟨copyins, inv, n1, rfl, rfl, rfl⟩

theorem invocation_single_line (opts : Options) (sysTarget : SysTarget) (call : ExecCall)
    (hp : '\n' ∉ sysTarget.SyscallPrefix) (hn : '\n' ∉ call.CallName)
    (he : emitCall opts call.CallName = true) (inv : Text)
    (h : invocationText opts sysTarget call = some inv) :
    inv.getLast? = some '\n' ∧ inv.count '\n' = 1 := by
  have hp0 : sysTarget.SyscallPrefix.count '\n' = 0 := List.count_eq_zero.2 hp
  have hn0 : call.CallName.count '\n' = 0 := List.count_eq_zero.2 hn
  have hA : ∀ c : Prop, ∀ _ : Decidable c,
      (if c then "res = ".toList else ([] : Text)).count '\n' = 0 := by
    intro c _
    split_ifs <;> decide
  have hB : ∀ native : Bool,
      (if native = true then "syscall(".toList ++ sysTarget.SyscallPrefix ++ call.CallName
        else call.CallName ++ "(".toList).count '\n' = 0 := by
    intro native
    split_ifs
    · simp only [List.count_append, hp0, hn0]
      decide
    · simp only [List.count_append, hn0]
      decide
  unfold invocationText at h
  simp only [] at h
  rw [if_pos he] at h
  cases hargs : callArgs opts (!"syz_".toList.isPrefixOf call.CallName) 0 call.Args with
  | none => rw [hargs] at h; exact absurd h (by simp)
  | some args =>
    rw [hargs] at h
    simp only [Option.some.injEq] at h
    subst h
    have ha0 := count_nl_callArgs opts _ call.Args 0 args hargs
    refine ⟨getLast?_append_right _ (by decide), ?_⟩
    simp only [List.count_append, ha0, hA, hB]
    decide

theorem invocation_opener (opts : Options) (sysTarget : SysTarget) (call : ExecCall)
    (he : emitCall opts call.CallName = true) (inv : Text)
    (h : invocationText opts sysTarget call = some inv) :
    (if call.Index ≠ ExecNoCopyout ∨ call.Copyout.length ≠ 0 then "\tres = ".toList
      else if "syz_".toList <+: call.CallName then "\tsyz_".toList
      else "\tsyscall(".toList) <+: inv := by
  unfold invocationText at h
  simp only [] at h
  rw [if_pos he] at h
  cases hargs : callArgs opts (!"syz_".toList.isPrefixOf call.CallName) 0 call.Args with
  | none => rw [hargs] at h; exact absurd h (by simp)
  | some args =>
    rw [hargs] at h
    simp only [Option.some.injEq] at h
    subst h
    by_cases hc : call.Index ≠ ExecNoCopyout ∨ call.Copyout.length ≠ 0
    · rw [if_pos hc, if_pos hc]
      exact ⟨_, rfl⟩
    · rw [if_neg hc, if_neg hc]
      by_cases hs : "syz_".toList <+: call.CallName
      · have hb : "syz_".toList.isPrefixOf call.CallName = true :=
          List.isPrefixOf_iff_prefix.2 hs
        rw [if_pos hs]
        simp only [hb, Bool.not_true, Bool.false_eq_true, if_false, List.append_nil,
          List.append_assoc]
        obtain ⟨r, hr⟩ := hs
        rw [← hr]
        exact ⟨r ++ ("(".toList ++ (args ++ ");\n".toList)), by
          simp only [List.append_assoc]; rfl⟩
      · have hb : "syz_".toList.isPrefixOf call.CallName = false := by
          rw [← Bool.not_eq_true, List.isPrefixOf_iff_prefix]; exact hs
        rw [if_neg hs]
        simp only [hb, Bool.not_false, if_true, List.append_nil, List.append_assoc]
        exact ⟨_, rfl⟩

/-- C11: for a well-formed call whose invocation is emitted, the fragment is the copy-ins,
the fault injection, the invocation line and the copy-out block; the invocation line
begins with the assignment `res = ` exactly when the result of the call is captured or the
call has a copy-out; and for a call with neither, every line of the fragment begins with a
copy-in statement, a fault-injection statement or the invocation itself, so that no line
begins with `res = `, with an element `r[` of the result table, with a second tab or with
a wrapped store `NONFAILING(r[`. -/
theorem generateCall_res_assignment (opts : Options) (sysTarget : SysTarget)
    (ci csumSeq : Nat) (call : ExecCall) (hw : WellFormedCall call)
    (hp : '\n' ∉ sysTarget.SyscallPrefix) (he : emitCall opts call.CallName = true) :
    ∃ copyins inv n1,
      generateCall opts sysTarget ci csumSeq call =
        some (copyins ++ faultText opts ci ++ inv ++ copyoutText call, n1) ∧
      copyinLoop opts [] csumSeq call.Copyin = some (copyins, n1) ∧
      invocationText opts sysTarget call = some inv ∧
      inv.getLast? = some '\n' ∧ inv.count '\n' = 1 ∧
      ("\tres = ".toList <+: inv ↔ (call.Index ≠ ExecNoCopyout ∨ call.Copyout.length ≠ 0)) ∧
      (¬ (call.Index ≠ ExecNoCopyout ∨ call.Copyout.length ≠ 0) →
        Lines (OpensWith plainOpeners)
          (copyins ++ faultText opts ci ++ inv ++ copyoutText call) ∧
        lineStarts "\tres = ".toList
          (copyins ++ faultText opts ci ++ inv ++ copyoutText call) = 0 ∧
        lineStarts "\tr[".toList
          (copyins ++ faultText opts ci ++ inv ++ copyoutText call) = 0 ∧
        lineStarts "\t\t".toList
          (copyins ++ faultText opts ci ++ inv ++ copyoutText call) = 0 ∧
        lineStarts "\tNONFAILING(r[".toList
          (copyins ++ faultText opts ci ++ inv ++ copyoutText call) = 0) := by
  obtain ⟨hk, hd, hn, _⟩ := hw
  obtain ⟨copyins, inv, n1, hgen, hloop, hinv⟩ :=
    generateCall_parts opts sysTarget ci csumSeq call hk
  obtain ⟨hlast, hcount⟩ := invocation_single_line opts sysTarget call hp hn he inv hinv
  have hopen := invocation_opener opts sysTarget call he inv hinv
  refine ⟨copyins, inv, n1, hgen, hloop, hinv, hlast, hcount, ?_, ?_⟩
  · by_cases hc : call.Index ≠ ExecNoCopyout ∨ call.Copyout.length ≠ 0
    · rw [if_pos hc] at hopen
      exact ⟨fun _ => hc, fun _ => hopen⟩
    · rw [if_neg hc] at hopen
      refine ⟨fun h => ?_, fun h => absurd h hc⟩
      exfalso
      rcases List.prefix_or_prefix_of_prefix h hopen with h1 | h1
      · revert h1; split <;> decide
      · revert h1; split <;> decide
  · intro hc
    rw [if_neg hc] at hopen
    have h1 : Lines (OpensWith plainOpeners) copyins :=
      openers_copyinLoop opts call.Copyin [] csumSeq copyins n1 hd Lines.nil hloop
    have h2 := openers_faultText opts ci
    have h3 : Lines (OpensWith plainOpeners) inv := by
      by_cases hs : "syz_".toList <+: call.CallName
      · rw [if_pos hs] at hopen
        exact lines_of_opener plainOpeners _ inv (by decide) (by decide) hopen hlast hcount
      · rw [if_neg hs] at hopen
        exact lines_of_opener plainOpeners _ inv (by decide) (by decide) hopen hlast hcount
    have h4 : copyoutText call = [] := by
      unfold copyoutText
      simp only [if_neg hc]
    have hall : Lines (OpensWith plainOpeners)
        (copyins ++ faultText opts ci ++ inv ++ copyoutText call) := by
      rw [h4, List.append_nil]
      exact lines_append (lines_append h1 h2) h3
    exact ⟨hall,
      lineStarts_of_openers plainOpeners _ (by decide) (by decide) (by decide) hall,
      lineStarts_of_openers plainOpeners _ (by decide) (by decide) (by decide) hall,
      lineStarts_of_openers plainOpeners _ (by decide) (by decide) (by decide) hall,
      lineStarts_of_openers plainOpeners _ (by decide) (by decide) (by decide) hall⟩

theorem generateCall_res_assignment_witness :
    ∃ copyins inv n1,
      generateCall {} sampleSysTarget 0 0 sampleNativeCall =
        some (copyins ++ faultText {} 0 ++ inv ++ copyoutText sampleNativeCall, n1) ∧
      copyins = [] ∧ inv = "\tsyscall(__NR_close, 7);\n".toList ∧
      ¬ "\tres = ".toList <+: inv ∧
      lineStarts "\tr[".toList
        (copyins ++ faultText {} 0 ++ inv ++ copyoutText sampleNativeCall) = 0 := by
  obtain ⟨copyins, inv, n1, hgen, hloop, hinv, _, _, hiff, hno⟩ :=
    generateCall_res_assignment {} sampleSysTarget 0 0 sampleNativeCall (by decide)
      (by decide) (by decide)
  have hc : ¬ (sampleNativeCall.Index ≠ ExecNoCopyout ∨ sampleNativeCall.Copyout.length ≠ 0) := by
    decide
  have e1 : copyins = [] := by
    have : copyinLoop {} [] 0 sampleNativeCall.Copyin = some ([], 0) := rfl
    rw [this] at hloop
    simp only [Option.some.injEq, Prod.mk.injEq] at hloop
    exact hloop.1.symm
  have e2 : inv = "\tsyscall(__NR_close, 7);\n".toList := by
    have : invocationText {} sampleSysTarget sampleNativeCall =
        some "\tsyscall(__NR_close, 7);\n".toList := by decide
    rw [this] at hinv
    exact (Option.some.inj hinv).symm
  exact ⟨copyins, inv, n1, hgen, e1, e2, fun h => hc (hiff.1 h), (hno hc).2.2.1⟩

/-! ## The statement matcher on one line -/

theorem stmtReplaceAux_skip (kw : Text) (repl : Text → Text) : ∀ (k : Nat) (t : Text),
    stmtReplaceAux kw repl k t = stmtReplaceAux kw repl 0 (t.drop k) := by
  intro k
  induction k with
  | zero => intro t; rfl
  | succ k ih =>
    intro t
    cases t with
    | nil => rfl
    | cons c t => rw [stmtReplaceAux, ih t, List.drop_succ_cons]

theorem dropWhile_tab_line (s rest : Text) :
    (s ++ '\n' :: rest).dropWhile (· == '\t') = s.dropWhile (· == '\t') ++ '\n' :: rest := by
  induction s with
  | nil => rfl
  | cons c s ih =>
    cases hc : (c == '\t')
    · simp only [List.cons_append, List.dropWhile_cons, hc, Bool.false_eq_true, if_false]
    · simp only [List.cons_append, List.dropWhile_cons, hc, if_true, ih]

theorem takeWhile_tab_line (s rest : Text) :
    (s ++ '\n' :: rest).takeWhile (· == '\t') = s.takeWhile (· == '\t') := by
  induction s with
  | nil => rfl
  | cons c s ih =>
    cases hc : (c == '\t')
    · simp only [List.cons_append, List.takeWhile_cons, hc, Bool.false_eq_true, if_false]
    · simp only [List.cons_append, List.takeWhile_cons, hc, if_true, ih]

theorem takeWhile_line (s rest : Text) (hs : '\n' ∉ s) :
    (s ++ '\n' :: rest).takeWhile (· != '\n') = s := by
  induction s with
  | nil => rfl
  | cons c s ih =>
    simp only [List.mem_cons, not_or] at hs
    have hc : (c != '\n') = true := by
      rw [bne_iff_ne]; exact fun h => hs.1 h.symm
    simp only [List.cons_append, List.takeWhile_cons, hc, if_true, ih hs.2]

theorem dropWhile_line (s rest : Text) (hs : '\n' ∉ s) :
    (s ++ '\n' :: rest).dropWhile (· != '\n') = '\n' :: rest := by
  induction s with
  | nil => rfl
  | cons c s ih =>
    simp only [List.mem_cons, not_or] at hs
    have hc : (c != '\n') = true := by
      rw [bne_iff_ne]; exact fun h => hs.1 h.symm
    simp only [List.cons_append, List.dropWhile_cons, hc, if_true, ih hs.2]

theorem prefix_line (kw s rest : Text) (hk : '\n' ∉ kw) :
    kw <+: s ++ '\n' :: rest ↔ kw <+: s := by
  constructor
  · intro h
    rcases List.prefix_or_prefix_of_prefix h (List.prefix_append s ('\n' :: rest)) with h1 | h1
    · exact h1
    · obtain ⟨r, hr⟩ := h1
      cases r with
      | nil => rw [List.append_nil] at hr; rw [hr]
      | cons x r =>
        exfalso
        obtain ⟨u, hu⟩ := h
        rw [← hr, List.append_assoc] at hu
        have h2 := List.append_cancel_left hu
        simp only [List.cons_append, List.cons.injEq] at h2
        apply hk
        rw [← hr, h2.1]
        simp
  · intro h
    exact h.trans (List.prefix_append _ _)

theorem mem_dropWhile {s : Text} {c : Char} (p : Char → Bool) (h : c ∈ s.dropWhile p) :
    c ∈ s :=
  (List.dropWhile_suffix p).subset h

theorem length_takeWhile_dropWhile (s : Text) (p : Char → Bool) :
    (s.takeWhile p).length + (s.dropWhile p).length = s.length := by
  rw [← List.length_append, List.takeWhile_append_dropWhile]

/-- On a line that is, as a whole, a statement of the keyword, the matcher succeeds at the
start of the line and takes the line with its newline. -/
theorem stmtMatch_line (kw s rest : Text) (hk : '\n' ∉ kw) (hs : '\n' ∉ s)
    (h : StmtLine kw s) : ∃ g, stmtMatch kw (s ++ '\n' :: rest) = some (g, s.length + 1) := by
  obtain ⟨h1, h2⟩ := h
  have hs' : '\n' ∉ s.dropWhile (· == '\t') := fun hm => hs (mem_dropWhile _ hm)
  have hlen : kw.length ≤ (s.dropWhile (· == '\t')).length := h1.length_le
  have hd : '\n' ∉ (s.dropWhile (· == '\t')).drop kw.length :=
    fun hm => hs' (List.mem_of_mem_drop hm)
  unfold stmtMatch
  simp only [dropWhile_tab_line, takeWhile_tab_line]
  rw [if_pos ((prefix_line kw _ rest hk).2 h1), List.drop_append_of_le_length hlen,
    takeWhile_line _ rest hd, dropWhile_line _ rest hd]
  simp only [if_pos h2]
  have hlen2 : (s.takeWhile (· == '\t')).length + kw.length +
      ((s.dropWhile (· == '\t')).drop kw.length).length + 1 = s.length + 1 := by
    have := length_takeWhile_dropWhile s (· == '\t')
    rw [List.length_drop]
    omega
  rw [hlen2]
  exact ⟨_, rfl⟩

/-- On a line that is not, as a whole, a statement of the keyword, the matcher fails at the
start of the line. -/
theorem stmtMatch_line_none (kw s rest : Text) (hk : '\n' ∉ kw) (hs : '\n' ∉ s)
    (h : ¬ StmtLine kw s) : stmtMatch kw (s ++ '\n' :: rest) = none := by
  have hs' : '\n' ∉ s.dropWhile (· == '\t') := fun hm => hs (mem_dropWhile _ hm)
  unfold stmtMatch
  simp only [dropWhile_tab_line, takeWhile_tab_line]
  by_cases h1 : kw <+: s.dropWhile (· == '\t')
  · have hlen : kw.length ≤ (s.dropWhile (· == '\t')).length := h1.length_le
    have hd : '\n' ∉ (s.dropWhile (· == '\t')).drop kw.length :=
      fun hm => hs' (List.mem_of_mem_drop hm)
    rw [if_pos ((prefix_line kw _ rest hk).2 h1), List.drop_append_of_le_length hlen,
      takeWhile_line _ rest hd, dropWhile_line _ rest hd]
    have h2 : ¬ ");".toList <:+ (s.dropWhile (· == '\t')).drop kw.length :=
      fun h2 => h ⟨h1, h2⟩
    simp only [if_neg h2]
  · rw [if_neg (fun hp => h1 ((prefix_line kw _ rest hk).1 hp))]

/-! ## The removal of debug statements, line by line -/

theorem stmtLine_ne_nil (kw l : Text) (hk : kw ≠ []) (h : StmtLine kw l) : l ≠ [] := by
  intro h0
  subst h0
  exact hk (List.prefix_nil.1 h.1)

/-- A whole statement line of the keyword is removed together with its newline. -/
theorem stmtReplaceAll_stmtLine (kw l rest : Text) (hk : '\n' ∉ kw) (hl : '\n' ∉ l)
    (h : StmtLine kw l) :
    stmtReplaceAll kw (fun _ => []) (l ++ '\n' :: rest) =
      stmtReplaceAll kw (fun _ => []) rest := by
  obtain ⟨g, hg⟩ := stmtMatch_line kw l rest hk hl h
  unfold stmtReplaceAll
  cases hsplit : l ++ '\n' :: rest with
  | nil => simp at hsplit
  | cons c t =>
    rw [hsplit] at hg
    rw [stmtReplaceAux, hg]
    simp only [List.nil_append, Nat.add_sub_cancel]
    rw [stmtReplaceAux_skip]
    have : t = (l ++ '\n' :: rest).drop 1 := by rw [hsplit]; rfl
    rw [this, List.drop_drop]
    have e : l.length + 1 = (l ++ ['\n']).length := by simp
    have e2 : l ++ '\n' :: rest = (l ++ ['\n']) ++ rest := by simp
    rw [Nat.add_comm 1, e, e2, List.drop_left]

theorem stmtLine_stmtIn (kw s l : Text) (hs : s <:+ l) (h : StmtLine kw s) : StmtIn kw l := by
  refine ⟨s.dropWhile (· == '\t'), ?_, h.1, h.2⟩
  rw [List.mem_tails]
  exact (List.dropWhile_suffix _).trans hs

theorem not_stmtIn_tail (kw : Text) (c : Char) (s : Text) (h : ¬ StmtIn kw (c :: s)) :
    ¬ StmtIn kw s := by
  intro ⟨u, hu, h1, h2⟩
  refine h ⟨u, ?_, h1, h2⟩
  rw [List.mem_tails] at hu ⊢
  exact hu.trans (List.suffix_cons c s)

/-- A line that holds no statement of the keyword is left as it is. -/
theorem stmtReplaceAll_plain (kw : Text) (repl : Text → Text) (rest : Text) (hk : '\n' ∉ kw)
    (hne : kw ≠ []) : ∀ l : Text, '\n' ∉ l → ¬ StmtIn kw l →
    stmtReplaceAll kw repl (l ++ '\n' :: rest) = l ++ '\n' :: stmtReplaceAll kw repl rest := by
  intro l
  induction l with
  | nil =>
    intro _ _
    have hnone : stmtMatch kw ([] ++ '\n' :: rest) = none :=
      stmtMatch_line_none kw [] rest hk (by simp)
        (fun h => stmtLine_ne_nil kw [] hne h rfl)
    unfold stmtReplaceAll
    rw [List.nil_append] at hnone ⊢
    rw [stmtReplaceAux, hnone]
    rfl
  | cons c s ih =>
    intro hl hno
    have hs : '\n' ∉ s := fun h => hl (List.mem_cons_of_mem _ h)
    have hnone : stmtMatch kw ((c :: s) ++ '\n' :: rest) = none :=
      stmtMatch_line_none kw (c :: s) rest hk hl
        (fun h => hno (stmtLine_stmtIn kw _ _ (List.suffix_refl _) h))
    have := ih hs (not_stmtIn_tail kw c s hno)
    unfold stmtReplaceAll at this ⊢
    rw [List.cons_append] at hnone ⊢
    rw [stmtReplaceAux, hnone]
    simp only
    rw [this]
    rfl

/-- The removal of the statements of one keyword from a text made of lines each of which is
a whole statement line of the keyword or holds no statement of it: the statement lines go,
the other lines stay. -/
theorem stmtReplaceAll_lines (kw : Text) (hk : '\n' ∉ kw) (hne : kw ≠ [])
    (P Q : Text → Prop)
    (h : ∀ l, '\n' ∉ l → P l → StmtLine kw l ∨ (¬ StmtIn kw l ∧ Q l)) {t : Text}
    (ht : Lines P t) : Lines Q (stmtReplaceAll kw (fun _ => []) t) := by
  induction ht with
  | nil => exact Lines.nil
  | line l rest hl hp _ ih =>
    rcases h l hl hp with h1 | ⟨h1, h2⟩
    · rw [stmtReplaceAll_stmtLine kw l rest hk hl h1]
      exact ih
    · rw [stmtReplaceAll_plain kw _ rest hk hne l hl h1]
      exact Lines.line l _ hl h2 ih

/-! ## The removal of a token, line by line -/

theorem replaceAll_line (old new rest : Text) (ho : old ≠ []) (hk : '\n' ∉ old) :
    ∀ (n : Nat) (l : Text), l.length ≤ n → '\n' ∉ l →
      replaceAll old new (l ++ '\n' :: rest) =
        replaceAll old new l ++ '\n' :: replaceAll old new rest := by
  intro n
  induction n with
  | zero =>
    intro l hlen _
    have : l = [] := List.length_eq_zero.1 (by omega)
    subst this
    have hp : ¬ old <+: '\n' :: rest := by
      intro h
      cases old with
      | nil => exact ho rfl
      | cons x old' =>
        rw [List.cons_prefix_cons] at h
        exact hk (by rw [h.1]; simp)
    rw [List.nil_append, replaceAll_cons_neg old new _ _ hp, replaceAll_nil, List.nil_append]
  | succ n ih =>
    intro l hlen hl
    cases l with
    | nil => exact ih [] (by simp) hl
    | cons c l' =>
      by_cases hp : old <+: c :: l'
      · obtain ⟨r, hr⟩ := hp
        have hrl : r.length ≤ n := by
          have := congrArg List.length hr
          simp only [List.length_append, List.length_cons] at this hlen
          have : 0 < old.length := List.length_pos.2 ho
          omega
        have hrn : '\n' ∉ r := fun h => hl (by rw [← hr]; exact List.mem_append_right _ h)
        rw [← hr, List.append_assoc, replaceAll_match old new _ ho, ih r hrl hrn,
          replaceAll_match old new r ho, List.append_assoc]
      · have hp2 : ¬ old <+: c :: l' ++ '\n' :: rest :=
          fun h => hp ((prefix_line old (c :: l') rest hk).1 h)
        have hl' : '\n' ∉ l' := fun h => hl (List.mem_cons_of_mem _ h)
        rw [List.cons_append] at hp2 ⊢
        rw [replaceAll_cons_neg old new _ _ hp2, replaceAll_cons_neg old new _ _ hp,
          ih l' (by simp only [List.length_cons] at hlen; omega) hl', List.cons_append]

theorem replaceAll_sublist (old : Text) (ho : old ≠ []) :
    ∀ (n : Nat) (s : Text), s.length ≤ n → (replaceAll old [] s).Sublist s := by
  intro n
  induction n with
  | zero =>
    intro s hs
    have : s = [] := List.length_eq_zero.1 (by omega)
    subst this
    exact List.Sublist.refl _
  | succ n ih =>
    intro s hs
    cases s with
    | nil => exact List.Sublist.refl _
    | cons c t =>
      by_cases hp : old <+: c :: t
      · obtain ⟨r, hr⟩ := hp
        have hrl : r.length ≤ n := by
          have := congrArg List.length hr
          simp only [List.length_append, List.length_cons] at this hs
          have : 0 < old.length := List.length_pos.2 ho
          omega
        rw [← hr, replaceAll_match old [] r ho, List.nil_append]
        exact (ih r hrl).trans (List.sublist_append_right _ _)
      · rw [replaceAll_cons_neg old [] c t hp]
        exact (ih t (by simp only [List.length_cons] at hs; omega)).cons₂ c

theorem not_mem_replaceAll (old : Text) (ho : old ≠ []) (s : Text) (c : Char) (h : c ∉ s) :
    c ∉ replaceAll old [] s :=
  fun hm => h ((replaceAll_sublist old ho s.length s (Nat.le_refl _)).subset hm)

/-- The removal of a token from a text made of lines acts inside each line. -/
theorem replaceAll_lines (old : Text) (ho : old ≠ []) (hk : '\n' ∉ old) (P Q : Text → Prop)
    (h : ∀ l, '\n' ∉ l → P l → Q (replaceAll old [] l)) {t : Text} (ht : Lines P t) :
    Lines Q (replaceAll old [] t) := by
  induction ht with
  | nil => exact Lines.nil
  | line l rest hl hp _ ih =>
    rw [replaceAll_line old [] rest ho hk l.length l (Nat.le_refl _) hl]
    exact Lines.line _ _ (not_mem_replaceAll old ho l '\n' hl) (h l hl hp) ih

theorem stmtIn_semicolon (kw l : Text) (h : StmtIn kw l) : ';' ∈ l := by
  obtain ⟨s, hs, _, h2⟩ := h
  rw [List.mem_tails] at hs
  have h3 : ';' ∈ s.drop kw.length := h2.subset (by decide)
  exact hs.subset (List.mem_of_mem_drop h3)

/-- A plain line stays free of debug statements when the token `NORETURN` is removed. -/
theorem plainLine_noreturn (l : Text) (h : PlainLine l) :
    ¬ StmtIn "debug(".toList (replaceAll "NORETURN".toList [] l) ∧
    ¬ StmtIn "debug_dump_data(".toList (replaceAll "NORETURN".toList [] l) ∧
    ("PRINTF".toList <:+: replaceAll "NORETURN".toList [] l →
      ';' ∉ replaceAll "NORETURN".toList [] l) := by
  obtain ⟨h1, h2, h3⟩ := h
  by_cases hn : "NORETURN".toList <:+: l
  · have hs : ';' ∉ replaceAll "NORETURN".toList [] l :=
      not_mem_replaceAll _ (by decide) l ';' (h3 (Or.inl hn))
    exact ⟨fun h => hs (stmtIn_semicolon _ _ h), fun h => hs (stmtIn_semicolon _ _ h),
      fun _ => hs⟩
  · rw [replaceAll_id _ _ l hn]
    exact ⟨h1, h2, fun hp => h3 (Or.inr hp)⟩

/-- And it stays free of them when the token `PRINTF` is removed after that. -/
theorem plainLine_printf (l : Text)
    (h : ¬ StmtIn "debug(".toList l ∧ ¬ StmtIn "debug_dump_data(".toList l ∧
      ("PRINTF".toList <:+: l → ';' ∉ l)) :
    ¬ StmtIn "debug(".toList (replaceAll "PRINTF".toList [] l) ∧
    ¬ StmtIn "debug_dump_data(".toList (replaceAll "PRINTF".toList [] l) := by
  obtain ⟨h1, h2, h3⟩ := h
  by_cases hn : "PRINTF".toList <:+: l
  · have hs : ';' ∉ replaceAll "PRINTF".toList [] l :=
      not_mem_replaceAll _ (by decide) l ';' (h3 hn)
    exact ⟨fun h => hs (stmtIn_semicolon _ _ h), fun h => hs (stmtIn_semicolon _ _ h)⟩
  · rw [replaceAll_id _ _ l hn]
    exact ⟨h1, h2⟩

/-! ## Statements of a text and statements of its lines -/

theorem stmt_iff (kw t : Text) :
    Stmt kw t ↔ ∃ pre body post,
      t = pre ++ ((kw ++ (body ++ ");".toList)) ++ '\n' :: post) ∧ '\n' ∉ body := by
  constructor
  · rintro ⟨pre, body, post, h, hb⟩
    exact ⟨pre, body, post, by rw [h]; simp [List.append_assoc], hb⟩
  · rintro ⟨pre, body, post, h, hb⟩
    exact ⟨pre, body, post, by rw [h]; simp [List.append_assoc], hb⟩

theorem stmt_cons (kw : Text) (c : Char) (t : Text) (h : Stmt kw t) : Stmt kw (c :: t) := by
  obtain ⟨pre, body, post, h, hb⟩ := h
  exact ⟨c :: pre, body, post, by rw [h]; simp, hb⟩

theorem stmt_append_left (kw a t : Text) (h : Stmt kw t) : Stmt kw (a ++ t) := by
  induction a with
  | nil => exact h
  | cons c a ih => exact stmt_cons kw c _ ih

theorem not_mem_stmt_body (kw body : Text) (hk : '\n' ∉ kw) (hb : '\n' ∉ body) :
    '\n' ∉ kw ++ (body ++ ");".toList) := by
  simp only [List.mem_append, not_or]
  exact ⟨hk, hb, by decide⟩

theorem stmtIn_of_eq (kw pre body : Text) : StmtIn kw (pre ++ (kw ++ (body ++ ");".toList))) := by
  refine ⟨kw ++ (body ++ ");".toList), ?_, List.prefix_append _ _, ?_⟩
  · rw [List.mem_tails]; exact List.suffix_append _ _
  · rw [List.drop_left]; exact List.suffix_append _ _

/-- A text made of lines that hold no statement of the keyword holds no statement of it. -/
theorem not_stmt_of_lines (kw : Text) (hk : '\n' ∉ kw) (P : Text → Prop)
    (hP : ∀ l, P l → ¬ StmtIn kw l) {t : Text} (ht : Lines P t) : ¬ Stmt kw t := by
  induction ht with
  | nil =>
    rintro ⟨pre, body, post, h, _⟩
    have := congrArg List.length h
    simp at this
    omega
  | line l rest hl hp _ ih =>
    intro hst
    rw [stmt_iff] at hst
    obtain ⟨pre, body, post, h, hb⟩ := hst
    have hW := not_mem_stmt_body kw body hk hb
    rw [← List.append_assoc] at h
    rcases List.append_eq_append_iff.1 h with ⟨a, ha, hr⟩ | ⟨c, hc, hr⟩
    · -- the line ends inside or right after the statement text
      cases a with
      | nil =>
        rw [List.append_nil] at ha
        exact hP l hp (by rw [← ha]; exact stmtIn_of_eq kw pre body)
      | cons x a =>
        simp only [List.cons_append, List.cons.injEq] at hr
        obtain ⟨hx, hrest⟩ := hr
        subst hx
        -- the statement lies in the rest of the text
        have h2 : (l ++ ['\n']) ++ a = pre ++ (kw ++ (body ++ ");".toList)) := by
          rw [ha]; simp
        rcases List.append_eq_append_iff.1 h2 with ⟨d, hd, ha'⟩ | ⟨d, hd, ha'⟩
        · apply ih
          rw [stmt_iff]
          exact ⟨d, body, post, by rw [hrest, ha']; simp, hb⟩
        · cases d with
          | nil =>
            rw [List.append_nil] at hd
            rw [List.nil_append] at ha'
            apply ih
            rw [stmt_iff]
            exact ⟨[], body, post, by rw [hrest, ← ha']; simp, hb⟩
          | cons y d =>
            have hmem : '\n' ∈ y :: d := by
              have hl2 : (l ++ ['\n']).getLast? = some '\n' := by simp
              rw [hd, List.getLast?_append_of_ne_nil _ (by simp)] at hl2
              exact List.mem_of_getLast?_eq_some hl2
            exact hW (by rw [ha']; exact List.mem_append_left _ hmem)
    · cases c with
      | nil =>
        rw [List.append_nil] at hc
        exact hP l hp (by rw [hc]; exact stmtIn_of_eq kw pre body)
      | cons x c =>
        simp only [List.cons_append, List.cons.injEq] at hr
        apply hl
        rw [hc, ← hr.1]
        simp

/-! ## The removal of duplicate new lines creates no statement -/

theorem nlDel_refl : ∀ a : Text, NlDel a a := by
  intro a
  induction a with
  | nil => exact NlDel.nil
  | cons c a ih => exact NlDel.keep c a a ih

theorem nlDel_append_left (p : Text) {a b : Text} (h : NlDel a b) : NlDel (p ++ a) (p ++ b) := by
  induction p with
  | nil => exact h
  | cons c p ih => exact NlDel.keep c _ _ ih

theorem nlDel_replace_three : ∀ (n : Nat) (t : Text), t.length ≤ n →
    NlDel t (replaceAll "\n\n\n".toList "\n\n".toList t) := by
  intro n
  induction n with
  | zero =>
    intro t ht
    have : t = [] := List.length_eq_zero.1 (by omega)
    subst this
    exact NlDel.nil
  | succ n ih =>
    intro t ht
    cases t with
    | nil => exact NlDel.nil
    | cons c t =>
      by_cases hp : "\n\n\n".toList <+: c :: t
      · obtain ⟨r, hr⟩ := hp
        have hrl : r.length ≤ n := by
          have := congrArg List.length hr
          simp only [List.length_append, List.length_cons] at this ht
          have h3 : "\n\n\n".toList.length = 3 := rfl
          omega
        rw [← hr, replaceAll_match _ _ r (by decide)]
        exact NlDel.drop _ _ (nlDel_append_left "\n\n".toList (ih r hrl))
      · rw [replaceAll_cons_neg _ _ c t hp]
        exact NlDel.keep c _ _ (ih t (by simp only [List.length_cons] at ht; omega))

theorem nlDel_replace_include : ∀ (n : Nat) (t : Text), t.length ≤ n →
    NlDel t (replaceAll "\n\n#include".toList "\n#include".toList t) := by
  intro n
  induction n with
  | zero =>
    intro t ht
    have : t = [] := List.length_eq_zero.1 (by omega)
    subst this
    exact NlDel.nil
  | succ n ih =>
    intro t ht
    cases t with
    | nil => exact NlDel.nil
    | cons c t =>
      by_cases hp : "\n\n#include".toList <+: c :: t
      · obtain ⟨r, hr⟩ := hp
        have hrl : r.length ≤ n := by
          have := congrArg List.length hr
          simp only [List.length_append, List.length_cons] at this ht
          have h3 : "\n\n#include".toList.length = 10 := rfl
          omega
        rw [← hr, replaceAll_match _ _ r (by decide)]
        exact NlDel.drop _ _ (nlDel_append_left "\n#include".toList (ih r hrl))
      · rw [replaceAll_cons_neg _ _ c t hp]
        exact NlDel.keep c _ _ (ih t (by simp only [List.length_cons] at ht; omega))

theorem nlDel_line_start {a b : Text} (h : NlDel a b) : ∀ (X post : Text), '\n' ∉ X →
    b = X ++ '\n' :: post → ∃ post1, a = X ++ '\n' :: post1 := by
  induction h with
  | nil =>
    intro X post _ hb
    have := congrArg List.length hb
    simp at this
    omega
  | keep c a b _ ih =>
    intro X post hX hb
    cases X with
    | nil =>
      simp only [List.nil_append, List.cons.injEq] at hb
      exact ⟨a, by rw [hb.1]; rfl⟩
    | cons x X =>
      simp only [List.cons_append, List.cons.injEq] at hb
      obtain ⟨post1, h1⟩ := ih X post (fun hm => hX (List.mem_cons_of_mem _ hm)) hb.2
      exact ⟨post1, by rw [hb.1, h1]; rfl⟩
  | drop a b _ ih =>
    intro X post hX hb
    obtain ⟨post1, h1⟩ := ih X post hX hb
    cases X with
    | nil => exact ⟨'\n' :: a, rfl⟩
    | cons x X =>
      exfalso
      simp only [List.cons_append, List.cons.injEq] at h1
      exact hX (by rw [← h1.1]; simp)

/-- A statement of the text after the removal of newlines is a statement of the text
before it. -/
theorem stmt_of_nlDel (kw : Text) (hk : '\n' ∉ kw) {a b : Text} (h : NlDel a b) :
    Stmt kw b → Stmt kw a := by
  induction h with
  | nil => exact id
  | keep c a b hab ih =>
    intro hst
    rw [stmt_iff] at hst
    obtain ⟨pre, body, post, he, hb⟩ := hst
    cases pre with
    | nil =>
      rw [List.nil_append] at he
      obtain ⟨post1, h1⟩ := nlDel_line_start (NlDel.keep c a b hab) _ post
        (not_mem_stmt_body kw body hk hb) he
      rw [stmt_iff]
      exact ⟨[], body, post1, by rw [h1]; rfl, hb⟩
    | cons p pre =>
      simp only [List.cons_append, List.cons.injEq] at he
      apply stmt_cons
      apply ih
      rw [stmt_iff]
      exact ⟨pre, body, post, he.2, hb⟩
  | drop a b _ ih =>
    intro hst
    exact stmt_cons kw '\n' _ (ih hst)

theorem not_stmt_collapseStep (kw : Text) (hk : '\n' ∉ kw) (t : Text) (h : ¬ Stmt kw t) :
    ¬ Stmt kw (collapseStep t) := by
  unfold collapseStep
  intro hst
  have h1 := stmt_of_nlDel kw hk (nlDel_replace_include _ _ (Nat.le_refl _)) hst
  exact h (stmt_of_nlDel kw hk (nlDel_replace_three _ _ (Nat.le_refl _)) h1)

theorem not_stmt_collapseLoop (kw : Text) (hk : '\n' ∉ kw) : ∀ (fuel : Nat) (t : Text),
    ¬ Stmt kw t → ¬ Stmt kw (collapseLoop fuel t) := by
  intro fuel
  induction fuel with
  | zero => intro t h; exact h
  | succ fuel ih =>
    intro t h
    rw [collapseLoop_succ]
    split
    · exact h
    · exact ih _ (not_stmt_collapseStep kw hk t h)

/-! ## Post-processor: no debug statement is left -/

theorem debugPass_lines (opts : Options) (hD : opts.Debug = false) (u : Text)
    (hL : Lines DebugSafeLine u) : Lines PlainLine (debugPass opts u) := by
  unfold debugPass
  simp only [hD, Bool.not_false, if_true]
  have h1 : Lines (fun l => StmtLine "debug_dump_data(".toList l ∨ PlainLine l)
      (stmtReplaceAll "debug(".toList (fun _ => []) u) := by
    refine stmtReplaceAll_lines "debug(".toList (by decide) (by decide) DebugSafeLine _ ?_ hL
    intro l _ hl
    rcases hl with ha | ⟨hb1, hb2⟩ | hc
    · exact Or.inl ha
    · exact Or.inr ⟨hb2, Or.inl hb1⟩
    · exact Or.inr ⟨hc.1, Or.inr hc⟩
  refine stmtReplaceAll_lines "debug_dump_data(".toList (by decide) (by decide) _ PlainLine ?_ h1
  intro l _ hl
  rcases hl with ha | hc
  · exact Or.inl ha
  · exact Or.inr ⟨hc.2.1, hc⟩

theorem tidyPass_no_stmt (u : Text) (hL : Lines PlainLine u) :
    ¬ Stmt "debug(".toList (tidyPass u) ∧ ¬ Stmt "debug_dump_data(".toList (tidyPass u) := by
  have h1 : Lines (fun l => ¬ StmtIn "debug(".toList l ∧ ¬ StmtIn "debug_dump_data(".toList l ∧
      ("PRINTF".toList <:+: l → ';' ∉ l)) (replaceAll "NORETURN".toList [] u) :=
    replaceAll_lines "NORETURN".toList (by decide) (by decide) PlainLine _
      (fun l _ hl => plainLine_noreturn l hl) hL
  have h2 : Lines (fun l => ¬ StmtIn "debug(".toList l ∧ ¬ StmtIn "debug_dump_data(".toList l)
      (replaceAll "PRINTF".toList [] (replaceAll "NORETURN".toList [] u)) :=
    replaceAll_lines "PRINTF".toList (by decide) (by decide) _ _
      (fun l _ hl => plainLine_printf l hl) h1
  unfold tidyPass
  exact ⟨not_stmt_collapseLoop _ (by decide) _ _
      (not_stmt_of_lines "debug(".toList (by decide) _ (fun l hl => hl.1) h2),
    not_stmt_collapseLoop _ (by decide) _ _
      (not_stmt_of_lines "debug_dump_data(".toList (by decide) _ (fun l hl => hl.2) h2)⟩

/-- C5 (as amended): with debug disabled, for a text which after the removal of the
`NONFAILING` wrappers is made of complete lines, each of them a whole debug-trace
statement, a whole debug-dump statement that holds no debug-trace statement, or a line that
holds no debug statement and, if it mentions `NORETURN` or `PRINTF`, no semicolon, the text
returned by the post-processing holds no debug-trace statement and no debug-dump
statement within a single line. -/
theorem postProcess_no_debug (opts : Options) (t : Text) (hD : opts.Debug = false)
    (hL : Lines DebugSafeLine (unwrapPass opts t)) :
    ¬ Stmt "debug(".toList (postProcess opts t) ∧
      ¬ Stmt "debug_dump_data(".toList (postProcess opts t) := by
  unfold postProcess
  exact tidyPass_no_stmt _ (debugPass_lines opts hD _ hL)

theorem postProcess_no_debug_witness :
    ¬ Stmt "debug(".toList (postProcess {} sampleDebugText) ∧
      ¬ Stmt "debug_dump_data(".toList (postProcess {} sampleDebugText) := by
  have hu : unwrapPass {} sampleDebugText =
      "PRINTF static void debug(const char* msg)".toList ++ '\n' ::
      ("\tdebug(\"start\");".toList ++ '\n' ::
      ("*(uint32_t*)0x20000000 = 7;".toList ++ '\n' ::
      ("\t\tdebug_dump_data(p, 8);".toList ++ '\n' ::
      ("\tsyscall(__NR_close, 7);".toList ++ '\n' :: [])))) := by decide
  refine postProcess_no_debug {} sampleDebugText rfl ?_
  rw [hu]
  exact Lines.line _ _ (by decide) (by decide)
    (Lines.line _ _ (by decide) (by decide)
      (Lines.line _ _ (by decide) (by decide)
        (Lines.line _ _ (by decide) (by decide)
          (Lines.line _ _ (by decide) (by decide) Lines.nil))))

/-- C5 (as stated) fails: a debug-trace statement is left when the removal of one statement
joins two parts of the keyword, and when the removal of the token `NORETURN` does. -/
theorem postProcess_no_debug_counterexample :
    ({} : Options).Debug = false ∧
    Stmt "debug(".toList (postProcess {} "deb\tdebug(x);\nug(y);\n".toList) ∧
    Stmt "debug(".toList (postProcess {}
      "\tNONFAILING(memcpy((void*)0x20000000, \"deNORETURNbug(\", 14));\n".toList) :=
  ⟨rfl, ⟨[], "y".toList, [], by decide, by decide⟩,
    ⟨"memcpy((void*)0x20000000, \"".toList, "\", 14".toList, [], by decide, by decide⟩⟩

/-! ## Tabs in the formatted texts -/

theorem count_tab_fmtDec (n : Nat) : (fmtDec n).count '\t' = 0 :=
  List.count_eq_zero.2 (not_mem_fmtDec (by decide) n)

theorem count_tab_fmtHex (n : Nat) : (fmtHex n).count '\t' = 0 :=
  List.count_eq_zero.2 (not_mem_fmtHex (by decide) n)

theorem count_tab_fmtInt (i : Int) : (fmtInt i).count '\t' = 0 :=
  List.count_eq_zero.2 (not_mem_fmtInt (by decide) i)

theorem count_tab_constArgToStr (opts : Options) (arg : ExecArgConst) :
    (constArgToStr opts arg).count '\t' = 0 := by
  unfold constArgToStr
  simp only []
  split_ifs <;>
    simp [List.count_append, count_tab_fmtDec, count_tab_fmtHex, List.count_cons]

theorem count_tab_resultArgToStr (arg : ExecArgResult) :
    (resultArgToStr arg).count '\t' = 0 := by
  unfold resultArgToStr
  simp only []
  split_ifs <;>
    simp [List.count_append, count_tab_fmtDec, List.count_cons]

theorem count_tab_toCString (data s : List Nat) (hd : ∀ b ∈ data, b < 256)
    (hs : toCString data = some s) : (s.map Char.ofNat).count '\t' = 0 := by
  apply List.count_eq_zero.2
  intro h
  rw [List.mem_map] at h
  obtain ⟨b, hb, he⟩ := h
  exact (ofNat_ne_of_range b (toCString_range data s hd hs b hb)).2 he

theorem count_tab_callArgs (opts : Options) (native : Bool) : ∀ (args : List ExecArg) (ai : Nat)
    (t : Text), callArgs opts native ai args = some t → t.count '\t' = 0 := by
  intro args
  induction args with
  | nil =>
    intro ai t h
    simp only [callArgs, Option.some.injEq] at h
    subst h
    rfl
  | cons a rest ih =>
    intro ai t h
    simp only [callArgs] at h
    split at h
    · rename_i p r hp hr
      simp only [Option.some.injEq] at h
      subst h
      have hr0 := ih (ai + 1) r hr
      have hp0 : p.count '\t' = 0 := by
        cases a with
        | const c =>
          simp only [Option.some.injEq] at hp
          subst hp
          exact count_tab_constArgToStr opts c
        | result c =>
          simp only [Option.some.injEq] at hp
          subst hp
          exact count_tab_resultArgToStr c
        | data d => exact absurd hp (by simp)
        | csum c => exact absurd hp (by simp)
      simp only [List.count_append, hp0, hr0]
      split_ifs <;> decide
    · exact absurd h (by simp)

/-! ## Lines that begin with an opener and end with a closer -/

theorem suffix_of_suffix_line {c l : Text} (h : c ++ ['\n'] <:+ l ++ ['\n']) : c <:+ l := by
  rw [← List.reverse_prefix] at h ⊢
  simp only [List.reverse_append, List.reverse_cons, List.reverse_nil, List.nil_append,
    List.singleton_append, List.cons_prefix_cons, true_and] at h
  exact h

/-- A single line with its opener, its tabs counted, and its closer. -/
theorem lines_of_frag (os cs : List Text) (o c line : Text) (ho : o ∈ os) (hn : '\n' ∉ o)
    (hp : o <+: line) (ht : line.count '\t' = o.count '\t') (hc : c ∈ cs)
    (hs : c ++ ['\n'] <:+ line) (hl : line.getLast? = some '\n') (hcount : line.count '\n' = 1) :
    Lines (FragLine os cs) line := by
  have hne : line ≠ [] := by intro h; rw [h] at hl; simp at hl
  have hsplit : line = line.dropLast ++ ['\n'] := by
    have := List.dropLast_append_getLast hne
    rw [List.getLast?_eq_getLast _ hne, Option.some.injEq] at hl
    rw [hl] at this
    exact this.symm
  have hcount0 : line.dropLast.count '\n' = 0 := by
    rw [hsplit, List.count_append] at hcount
    simp at hcount
    exact hcount
  have hnot : '\n' ∉ line.dropLast := List.count_eq_zero.1 hcount0
  have htab : line.dropLast.count '\t' = o.count '\t' := by
    rw [hsplit, List.count_append] at ht
    simpa using ht
  rw [hsplit] at hp hs ⊢
  exact lines_single _ hnot
    ⟨⟨o, ho, prefix_dropLast_line hp hn, htab⟩, c, hc, suffix_of_suffix_line hs⟩

theorem fragLine_split {os cs : List Text} {l : Text} (h : FragLine os cs l) :
    ∃ o ∈ os, ∃ r, l = o ++ r ∧ '\t' ∉ r := by
  obtain ⟨⟨o, ho, ⟨r, hr⟩, hcnt⟩, _⟩ := h
  refine ⟨o, ho, r, hr.symm, ?_⟩
  rw [← hr, List.count_append] at hcnt
  exact List.count_eq_zero.1 (by omega)

/-- A marker that begins with a tab does not occur in a line whose tabs all lie in its
opener, unless it is comparable with a tail of the opener. -/
theorem not_infix_fragLine (os cs : List Text) (m : Text) (hhead : m.head? = some '\t')
    (hinc : ∀ o ∈ os, ∀ p, p < o.length → ¬ m <+: o.drop p ∧ ¬ o.drop p <+: m)
    (l : Text) (hl : FragLine os cs l) : ¬ m <:+: l ++ ['\n'] := by
  obtain ⟨o, ho, r, hr, hrt⟩ := fragLine_split hl
  rintro ⟨a, b, hab⟩
  have htm : '\t' ∈ m := by
    cases m with
    | nil => simp at hhead
    | cons x m =>
      simp only [List.head?_cons, Option.some.injEq] at hhead
      rw [hhead]; simp
  rw [hr, List.append_assoc, List.append_assoc] at hab
  rcases List.append_eq_append_iff.1 hab with ⟨a', ha', hrest⟩ | ⟨o', ho', hrest⟩
  · -- the marker starts inside the opener
    by_cases hnil : a' = []
    · subst hnil
      rw [List.append_nil] at ha'
      rw [List.nil_append] at hrest
      -- the marker starts right after the opener
      have : '\t' ∈ r ++ ['\n'] := by rw [← hrest]; exact List.mem_append_left _ htm
      simp only [List.mem_append, List.mem_singleton] at this
      rcases this with h | h
      · exact hrt h
      · exact absurd h (by decide)
    · have hlen : a.length < o.length := by
        have := congrArg List.length ha'
        simp only [List.length_append] at this
        have : 0 < a'.length := List.length_pos.2 hnil
        omega
      have hdrop : o.drop a.length = a' := by rw [ha', List.drop_left]
      obtain ⟨h1, h2⟩ := hinc o ho a.length hlen
      rw [hdrop] at h1 h2
      rcases List.prefix_or_prefix_of_prefix (List.prefix_append m b)
          (hrest ▸ List.prefix_append a' (r ++ ['\n'])) with h | h
      · exact h1 h
      · exact h2 h
  · -- the marker starts after the opener
    have : '\t' ∈ r ++ ['\n'] := by
      rw [hrest]
      exact List.mem_append_right _ (List.mem_append_left _ htm)
    simp only [List.mem_append, List.mem_singleton] at this
    rcases this with h | h
    · exact hrt h
    · exact absurd h (by decide)

/-- A marker that begins with a tab does not occur in a text made of such lines. -/
theorem occ_tabLed_lines (os cs : List Text) (m : Text) (hm : LineMarker m)
    (hhead : m.head? = some '\t')
    (hinc : ∀ o ∈ os, ∀ p, p < o.length → ¬ m <+: o.drop p ∧ ¬ o.drop p <+: m)
    {t : Text} (ht : Lines (FragLine os cs) t) : occ m t = 0 := by
  induction ht with
  | nil => rfl
  | line l rest _ hP _ ih =>
    have e : l ++ '\n' :: rest = (l ++ ['\n']) ++ rest := by simp
    rw [e, occ_append_block m hm _ _ (Or.inr (getLast?_append_right l (by decide))), ih,
      Nat.add_zero, occ_eq_zero_iff m hm.1]
    exact not_infix_fragLine os cs m hhead hinc l hP

/-- A marker that is a whole line end (a text without newline, then the newline) does not
occur in a text made of lines whose closers are not comparable with it. -/
theorem occ_lineEnd_lines (os cs : List Text) (q : Text) (hq : '\n' ∉ q)
    (hinc : ∀ c ∈ cs, ¬ q <:+ c ∧ ¬ c <:+ q)
    {t : Text} (ht : Lines (FragLine os cs) t) : occ (q ++ ['\n']) t = 0 := by
  have hm : LineMarker (q ++ ['\n']) := by
    refine ⟨by simp, ?_⟩
    rw [List.dropLast_concat]
    exact hq
  induction ht with
  | nil => rfl
  | line l rest hl hP _ ih =>
    have e : l ++ '\n' :: rest = (l ++ ['\n']) ++ rest := by simp
    rw [e, occ_append_block _ hm _ _ (Or.inr (getLast?_append_right l (by decide))), ih,
      Nat.add_zero, occ_eq_zero_iff _ hm.1]
    rintro ⟨a, b, hab⟩
    obtain ⟨_, c, hc, hcl⟩ := hP
    have hab2 : l ++ ['\n'] = (a ++ q) ++ ('\n' :: b) := by rw [← hab]; simp
    have hlq : l = a ++ q := by
      rcases List.append_eq_append_iff.1 hab2 with ⟨a', ha', hr⟩ | ⟨c', hc', hr⟩
      · have hlen := congrArg List.length hr
        simp only [List.length_append, List.length_cons, List.length_nil] at hlen
        have ha0 : a' = [] := List.length_eq_zero.1 (by omega)
        subst ha0
        rw [List.append_nil] at ha'
        exact ha'.symm
      · cases c' with
        | nil => rw [List.append_nil] at hc'; exact hc'
        | cons x c' =>
          exfalso
          simp only [List.cons_append, List.cons.injEq] at hr
          apply hl
          rw [hc', ← hr.1]
          simp
    have hql : q <:+ l := by rw [hlq]; exact List.suffix_append _ _
    rcases List.suffix_or_suffix_of_suffix hql hcl with h | h
    · exact (hinc c hc).1 h
    · exact (hinc c hc).2 h

/-! ## Doubling the tabs of such lines -/

theorem tabbed_append (a b : Text) :
    replaceAll "\t".toList "\t\t".toList (a ++ b) =
      replaceAll "\t".toList "\t\t".toList a ++ replaceAll "\t".toList "\t\t".toList b := by
  rw [replaceAll_tab, replaceAll_tab, replaceAll_tab, List.flatMap_append]

theorem tabbed_id (r : Text) (h : '\t' ∉ r) : replaceAll "\t".toList "\t\t".toList r = r := by
  apply replaceAll_id
  rintro ⟨a, b, hab⟩
  apply h
  rw [← hab]
  simp

theorem not_mem_tabbed (l : Text) (c : Char) (hc : c ≠ '\t') (h : c ∉ l) :
    c ∉ replaceAll "\t".toList "\t\t".toList l := by
  rw [replaceAll_tab]
  intro hm
  rw [List.mem_flatMap] at hm
  obtain ⟨x, hx, hcx⟩ := hm
  split at hcx
  · simp only [List.mem_cons, List.mem_singleton, List.not_mem_nil, or_false, or_self] at hcx
    exact hc hcx
  · simp only [List.mem_singleton] at hcx
    exact h (hcx ▸ hx)

theorem fragLine_tabbed (os cs : List Text) (hcs : ∀ c ∈ cs, '\t' ∉ c) (l : Text)
    (h : FragLine os cs l) :
    FragLine (os.map (replaceAll "\t".toList "\t\t".toList)) cs
      (replaceAll "\t".toList "\t\t".toList l) := by
  obtain ⟨o, ho, r, hr, hrt⟩ := fragLine_split h
  obtain ⟨_, c, hc, a, hac⟩ := h
  refine ⟨⟨replaceAll "\t".toList "\t\t".toList o, List.mem_map_of_mem _ ho, ?_, ?_⟩, c, hc, ?_⟩
  · rw [hr, tabbed_append]
    exact List.prefix_append _ _
  · rw [hr, tabbed_append, tabbed_id r hrt, List.count_append, List.count_eq_zero.2 hrt,
      Nat.add_zero]
  · rw [← hac, tabbed_append, tabbed_id c (hcs c hc)]
    exact List.suffix_append _ _

theorem lines_tabbed (os cs : List Text) (hcs : ∀ c ∈ cs, '\t' ∉ c) {t : Text}
    (ht : Lines (FragLine os cs) t) :
    Lines (FragLine (os.map (replaceAll "\t".toList "\t\t".toList)) cs)
      (replaceAll "\t".toList "\t\t".toList t) := by
  induction ht with
  | nil => exact Lines.nil
  | line l rest hl hP _ ih =>
    rw [replaceAll_line _ _ rest (by decide) (by decide) l.length l (Nat.le_refl _) hl]
    exact Lines.line _ _ (not_mem_tabbed l '\n' (by decide) hl)
      (fragLine_tabbed os cs hcs l hP) ih

/-! ## The lines of a fragment: opener, tabs, closer -/

theorem fragLines_csumChunks (csumSeq : Nat) : ∀ (chunks : List ExecCsumChunk) (i : Nat)
    (t : Text), csumChunks csumSeq i chunks = some t → Lines (FragLine fragOpeners fragClosers) t := by
  intro chunks
  induction chunks with
  | nil =>
    intro i t h
    simp only [csumChunks, Option.some.injEq] at h
    subst h
    exact Lines.nil
  | cons c rest ih =>
    intro i t h
    simp only [csumChunks] at h
    split at h
    · rename_i p r hp hr
      simp only [Option.some.injEq] at h
      subst h
      refine lines_append ?_ (ih (i + 1) r hr)
      split_ifs at hp
      · simp only [Option.some.injEq] at hp
        subst hp
        refine lines_of_frag fragOpeners fragClosers "\tNONFAILING(csum_inet_update(".toList ";".toList _
          (by decide) (by decide) ?_ ?_ (by decide) ?_ ?_ ?_
        · repeat (first | decide | apply prefix_append_left)
        · simp only [List.count_append, count_tab_fmtDec, count_tab_fmtHex]
          decide
        · exact suffix_append_of_suffix (by decide)
        · repeat (first | decide | apply getLast?_append_right)
        · simp only [List.count_append, count_nl_fmtDec, count_nl_fmtHex]
          decide
      · simp only [Option.some.injEq] at hp
        subst hp
        have h1 : Lines (FragLine fragOpeners fragClosers)
            ("\tuint".toList ++ fmtDec (mul64 c.Size 8) ++ "_t csum_".toList ++
            fmtDec csumSeq ++ "_chunk_".toList ++ fmtDec i ++ " = 0x".toList ++
            fmtHex c.Value ++ ";\n".toList) := by
          refine lines_of_frag fragOpeners fragClosers "\tuint".toList ";".toList _
            (by decide) (by decide) ?_ ?_ (by decide) ?_ ?_ ?_
          · repeat (first | decide | apply prefix_append_left)
          · simp only [List.count_append, count_tab_fmtDec, count_tab_fmtHex]
            decide
          · exact suffix_append_of_suffix (by decide)
          · repeat (first | decide | apply getLast?_append_right)
          · simp only [List.count_append, count_nl_fmtDec, count_nl_fmtHex]
            decide
        have h2 : Lines (FragLine fragOpeners fragClosers)
            ("\tcsum_inet_update(&csum_".toList ++ fmtDec csumSeq ++
            ", (const uint8_t*)&csum_".toList ++ fmtDec csumSeq ++ "_chunk_".toList ++
            fmtDec i ++ ", ".toList ++ fmtDec c.Size ++ ");\n".toList) := by
          refine lines_of_frag fragOpeners fragClosers "\tcsum_inet_update(".toList ";".toList _
            (by decide) (by decide) ?_ ?_ (by decide) ?_ ?_ ?_
          · repeat (first | decide | apply prefix_append_left)
          · simp only [List.count_append, count_tab_fmtDec, count_tab_fmtHex]
            decide
          · exact suffix_append_of_suffix (by decide)
          · repeat (first | decide | apply getLast?_append_right)
          · simp only [List.count_append, count_nl_fmtDec, count_nl_fmtHex]
            decide
        have h3 := lines_append h1 h2
        simp only [List.append_assoc] at h3 ⊢
        exact h3
    · exact absurd h (by simp)

theorem fragLines_copyinStep (opts : Options) (csumSeq : Nat) (copyin : ExecCopyin)
    (hd : byteData copyin = true) (t : Text) (n : Nat)
    (h : copyinStep opts csumSeq copyin = some (t, n)) : Lines (FragLine fragOpeners fragClosers) t := by
  obtain ⟨addr, arg⟩ := copyin
  cases arg with
  | const a =>
    simp only [copyinStep] at h
    by_cases hb : a.BitfieldOffset = 0 ∧ a.BitfieldLength = 0
    · rw [if_pos hb] at h
      simp only [Option.some.injEq, Prod.mk.injEq] at h
      obtain ⟨h, _⟩ := h
      subst h
      refine lines_of_frag fragOpeners fragClosers "\tNONFAILING(*(uint".toList ";".toList _
        (by decide) (by decide) ?_ ?_ (by decide) ?_ ?_ ?_
      · repeat (first | decide | apply prefix_append_left)
      · simp only [List.count_append, count_tab_fmtDec, count_tab_fmtHex, count_tab_constArgToStr]
        decide
      · exact suffix_append_of_suffix (by decide)
      · repeat (first | decide | apply getLast?_append_right)
      · simp only [List.count_append, count_nl_fmtDec, count_nl_fmtHex, count_nl_constArgToStr]
        decide
    · rw [if_neg hb] at h
      simp only [Option.some.injEq, Prod.mk.injEq] at h
      obtain ⟨h, _⟩ := h
      subst h
      refine lines_of_frag fragOpeners fragClosers "\tNONFAILING(STORE_BY_BITMASK(".toList ";".toList _
        (by decide) (by decide) ?_ ?_ (by decide) ?_ ?_ ?_
      · repeat (first | decide | apply prefix_append_left)
      · simp only [List.count_append, count_tab_fmtDec, count_tab_fmtHex, count_tab_constArgToStr]
        decide
      · exact suffix_append_of_suffix (by decide)
      · repeat (first | decide | apply getLast?_append_right)
      · simp only [List.count_append, count_nl_fmtDec, count_nl_fmtHex, count_nl_constArgToStr]
        decide
  | result a =>
    simp only [copyinStep, Option.some.injEq, Prod.mk.injEq] at h
    obtain ⟨h, _⟩ := h
    subst h
    refine lines_of_frag fragOpeners fragClosers "\tNONFAILING(*(uint".toList ";".toList _
      (by decide) (by decide) ?_ ?_ (by decide) ?_ ?_ ?_
    · repeat (first | decide | apply prefix_append_left)
    · simp only [List.count_append, count_tab_fmtDec, count_tab_fmtHex, count_tab_resultArgToStr]
      decide
    · exact suffix_append_of_suffix (by decide)
    · repeat (first | decide | apply getLast?_append_right)
    · simp only [List.count_append, count_nl_fmtDec, count_nl_fmtHex, count_nl_resultArgToStr]
      decide
  | data d =>
    simp only [copyinStep] at h
    split at h
    · rename_i str hstr
      simp only [Option.some.injEq, Prod.mk.injEq] at h
      obtain ⟨h, _⟩ := h
      subst h
      have hbytes : ∀ b ∈ d, b < 256 := by
        simp only [byteData, List.all_eq_true, decide_eq_true_eq] at hd
        exact hd
      refine lines_of_frag fragOpeners fragClosers "\tNONFAILING(memcpy(".toList ";".toList _
        (by decide) (by decide) ?_ ?_ (by decide) ?_ ?_ ?_
      · repeat (first | decide | apply prefix_append_left)
      · simp only [List.count_append, count_tab_fmtDec, count_tab_fmtHex,
          count_tab_toCString d str hbytes hstr]
        decide
      · exact suffix_append_of_suffix (by decide)
      · repeat (first | decide | apply getLast?_append_right)
      · simp only [List.count_append, count_nl_fmtDec, count_nl_fmtHex,
          count_nl_toCString d str hbytes hstr]
        decide
    · exact absurd h (by simp)
  | csum a =>
    simp only [copyinStep] at h
    split_ifs at h
    split at h
    · rename_i chunks hchunks
      simp only [Option.some.injEq, Prod.mk.injEq] at h
      obtain ⟨h, _⟩ := h
      subst h
      have hc := fragLines_csumChunks (csumSeq + 1) a.Chunks 0 chunks hchunks
      have h1 : Lines (FragLine fragOpeners fragClosers)
          ("\tstruct csum_inet csum_".toList ++ fmtDec (csumSeq + 1) ++ ";\n".toList) := by
        refine lines_of_frag fragOpeners fragClosers "\tstruct csum_inet ".toList ";".toList _
          (by decide) (by decide) ?_ ?_ (by decide) ?_ ?_ ?_
        · repeat (first | decide | apply prefix_append_left)
        · simp only [List.count_append, count_tab_fmtDec]
          decide
        · exact suffix_append_of_suffix (by decide)
        · repeat (first | decide | apply getLast?_append_right)
        · simp only [List.count_append, count_nl_fmtDec]
          decide
      have h2 : Lines (FragLine fragOpeners fragClosers)
          ("\tcsum_inet_init(&csum_".toList ++ fmtDec (csumSeq + 1) ++ ");\n".toList) := by
        refine lines_of_frag fragOpeners fragClosers "\tcsum_inet_init(".toList ";".toList _
          (by decide) (by decide) ?_ ?_ (by decide) ?_ ?_ ?_
        · repeat (first | decide | apply prefix_append_left)
        · simp only [List.count_append, count_tab_fmtDec]
          decide
        · exact suffix_append_of_suffix (by decide)
        · repeat (first | decide | apply getLast?_append_right)
        · simp only [List.count_append, count_nl_fmtDec]
          decide
      have h3 : Lines (FragLine fragOpeners fragClosers)
          ("\tNONFAILING(*(uint16_t*)0x".toList ++ fmtHex addr ++
          " = csum_inet_digest(&csum_".toList ++ fmtDec (csumSeq + 1) ++ "));\n".toList) := by
        refine lines_of_frag fragOpeners fragClosers "\tNONFAILING(*(uint".toList ";".toList _
          (by decide) (by decide) ?_ ?_ (by decide) ?_ ?_ ?_
        · repeat (first | decide | apply prefix_append_left)
        · simp only [List.count_append, count_tab_fmtDec, count_tab_fmtHex]
          decide
        · exact suffix_append_of_suffix (by decide)
        · repeat (first | decide | apply getLast?_append_right)
        · simp only [List.count_append, count_nl_fmtDec, count_nl_fmtHex]
          decide
      have h4 := lines_append (lines_append (lines_append h1 h2) hc) h3
      simp only [List.append_assoc] at h4 ⊢
      exact h4
    · exact absurd h (by simp)

theorem fragLines_copyinLoop (opts : Options) : ∀ (copyins : List ExecCopyin) (w : Text)
    (csumSeq : Nat) (w1 : Text) (n : Nat), copyins.all byteData = true →
      Lines (FragLine fragOpeners fragClosers) w →
      copyinLoop opts w csumSeq copyins = some (w1, n) → Lines (FragLine fragOpeners fragClosers) w1 := by
  intro copyins
  induction copyins with
  | nil =>
    intro w csumSeq w1 n _ hw h
    simp only [copyinLoop, Option.some.injEq, Prod.mk.injEq] at h
    rw [← h.1]
    exact hw
  | cons c rest ih =>
    intro w csumSeq w1 n hd hw h
    simp only [List.all_cons, Bool.and_eq_true] at hd
    simp only [copyinLoop] at h
    split at h
    · rename_i t csumSeq1 hstep
      exact ih (w ++ t) csumSeq1 w1 n hd.2
        (lines_append hw (fragLines_copyinStep opts csumSeq c hd.1 t csumSeq1 hstep)) h
    · exact absurd h (by simp)

theorem fragLines_faultText (opts : Options) (ci : Nat) :
    Lines (FragLine fragOpeners fragClosers) (faultText opts ci) := by
  unfold faultText
  split_ifs
  · have h1 : Lines (FragLine fragOpeners fragClosers)
        ("\twrite_file(\"/sys/kernel/debug/failslab/ignore-gfp-wait\", \"N\");\n".toList ++
          "\twrite_file(\"/sys/kernel/debug/fail_futex/ignore-private\", \"N\");\n".toList) :=
      lines_append
        (lines_of_frag fragOpeners fragClosers "\twrite_file(".toList ";".toList _
          (by decide) (by decide) (by decide) (by decide) (by decide) (by decide) (by decide)
          (by decide))
        (lines_of_frag fragOpeners fragClosers "\twrite_file(".toList ";".toList _
          (by decide) (by decide) (by decide) (by decide) (by decide) (by decide) (by decide)
          (by decide))
    have h2 : Lines (FragLine fragOpeners fragClosers)
        ("\tinject_fault(".toList ++ fmtInt opts.FaultNth ++ ");\n".toList) := by
      refine lines_of_frag fragOpeners fragClosers "\tinject_fault(".toList ";".toList _
        (by decide) (by decide) ?_ ?_ (by decide) ?_ ?_ ?_
      · repeat (first | decide | apply prefix_append_left)
      · simp only [List.count_append, count_tab_fmtInt]
        decide
      · exact suffix_append_of_suffix (by decide)
      · repeat (first | decide | apply getLast?_append_right)
      · simp only [List.count_append, count_nl_fmtInt]
        decide
    have h3 := lines_append h1 h2
    simp only [List.append_assoc] at h3 ⊢
    exact h3
  · exact Lines.nil

theorem invocation_tabs (opts : Options) (sysTarget : SysTarget) (call : ExecCall)
    (hp : '\t' ∉ sysTarget.SyscallPrefix) (hn : '\t' ∉ call.CallName)
    (he : emitCall opts call.CallName = true) (inv : Text)
    (h : invocationText opts sysTarget call = some inv) :
    inv.count '\t' = 1 ∧ ";\n".toList <:+ inv := by
  have hp0 : sysTarget.SyscallPrefix.count '\t' = 0 := List.count_eq_zero.2 hp
  have hn0 : call.CallName.count '\t' = 0 := List.count_eq_zero.2 hn
  have hA : ∀ c : Prop, ∀ _ : Decidable c,
      (if c then "res = ".toList else ([] : Text)).count '\t' = 0 := by
    intro c _
    split_ifs <;> decide
  have hB : ∀ native : Bool,
      (if native = true then "syscall(".toList ++ sysTarget.SyscallPrefix ++ call.CallName
        else call.CallName ++ "(".toList).count '\t' = 0 := by
    intro native
    split_ifs
    · simp only [List.count_append, hp0, hn0]
      decide
    · simp only [List.count_append, hn0]
      decide
  unfold invocationText at h
  simp only [] at h
  rw [if_pos he] at h
  cases hargs : callArgs opts (!"syz_".toList.isPrefixOf call.CallName) 0 call.Args with
  | none => rw [hargs] at h; exact absurd h (by simp)
  | some args =>
    rw [hargs] at h
    simp only [Option.some.injEq] at h
    subst h
    have ha0 := count_tab_callArgs opts _ call.Args 0 args hargs
    refine ⟨?_, suffix_append_of_suffix (by decide)⟩
    simp only [List.count_append, ha0, hA, hB]
    decide

theorem fragLines_invocationText (opts : Options) (sysTarget : SysTarget) (call : ExecCall)
    (hp : '\n' ∉ sysTarget.SyscallPrefix) (hpt : '\t' ∉ sysTarget.SyscallPrefix)
    (hn : PlainName call.CallName) (inv : Text)
    (h : invocationText opts sysTarget call = some inv) :
    Lines (FragLine fragOpeners fragClosers) inv := by
  by_cases he : emitCall opts call.CallName = true
  · obtain ⟨hlast, hcount⟩ := invocation_single_line opts sysTarget call hp hn.1 he inv h
    obtain ⟨htab, hclose⟩ := invocation_tabs opts sysTarget call hpt hn.2 he inv h
    have hopen := invocation_opener opts sysTarget call he inv h
    by_cases hc : call.Index ≠ ExecNoCopyout ∨ call.Copyout.length ≠ 0
    · rw [if_pos hc] at hopen
      exact lines_of_frag fragOpeners fragClosers _ ";".toList inv (by decide) (by decide)
        hopen (by rw [htab]; rfl) (by decide) hclose hlast hcount
    · rw [if_neg hc] at hopen
      by_cases hs : "syz_".toList <+: call.CallName
      · rw [if_pos hs] at hopen
        exact lines_of_frag fragOpeners fragClosers _ ";".toList inv (by decide) (by decide)
          hopen (by rw [htab]; rfl) (by decide) hclose hlast hcount
      · rw [if_neg hs] at hopen
        exact lines_of_frag fragOpeners fragClosers _ ";".toList inv (by decide) (by decide)
          hopen (by rw [htab]; rfl) (by decide) hclose hlast hcount
  · unfold invocationText at h
    simp only [] at h
    rw [if_neg he] at h
    simp only [Option.some.injEq] at h
    subst h
    exact Lines.nil

theorem fragLines_copyoutLines : ∀ copyouts : List ExecCopyout,
    Lines (FragLine fragOpeners fragClosers) (copyouts.map copyoutLine).flatten := by
  intro copyouts
  apply lines_flatten
  intro f hf
  rw [List.mem_map] at hf
  obtain ⟨c, _, rfl⟩ := hf
  unfold copyoutLine
  refine lines_of_frag fragOpeners fragClosers "\t\tNONFAILING(r[".toList ";".toList _
    (by decide) (by decide) ?_ ?_ (by decide) ?_ ?_ ?_
  · repeat (first | decide | apply prefix_append_left)
  · simp only [List.count_append, count_tab_fmtDec, count_tab_fmtHex]
    decide
  · exact suffix_append_of_suffix (by decide)
  · repeat (first | decide | apply getLast?_append_right)
  · simp only [List.count_append, count_nl_fmtDec, count_nl_fmtHex]
    decide

theorem fragLines_copyoutText (call : ExecCall) :
    Lines (FragLine fragOpeners fragClosers) (copyoutText call) := by
  unfold copyoutText
  simp only []
  by_cases hc : (call.Index ≠ ExecNoCopyout ∨ call.Copyout.length ≠ 0)
  · rw [if_pos hc]
    have h1 : Lines (FragLine fragOpeners fragClosers) ("\tif (res != -1)".toList ++
        (if call.Copyout.length > 1 ∨ (call.Index ≠ ExecNoCopyout ∧ call.Copyout.length > 0)
          then " \x7b".toList else []) ++ "\n".toList) := by
      by_cases hm : (call.Copyout.length > 1 ∨
          (call.Index ≠ ExecNoCopyout ∧ call.Copyout.length > 0))
      · rw [if_pos hm]
        exact lines_of_frag fragOpeners fragClosers "\tif (res != -1)".toList "\x7b".toList _
          (by decide) (by decide) (by decide) (by decide) (by decide) (by decide) (by decide)
          (by decide)
      · rw [if_neg hm]
        exact lines_of_frag fragOpeners fragClosers "\tif (res != -1)".toList "1)".toList _
          (by decide) (by decide) (by decide) (by decide) (by decide) (by decide) (by decide)
          (by decide)
    have h2 : Lines (FragLine fragOpeners fragClosers) (if call.Index ≠ ExecNoCopyout then
        "\t\tr[".toList ++ fmtDec call.Index ++ "] = res;\n".toList else []) := by
      refine lines_ite _ ?_ Lines.nil
      refine lines_of_frag fragOpeners fragClosers "\t\tr[".toList ";".toList _
        (by decide) (by decide) ?_ ?_ (by decide) ?_ ?_ ?_
      · repeat (first | decide | apply prefix_append_left)
      · simp only [List.count_append, count_tab_fmtDec]
        decide
      · exact suffix_append_of_suffix (by decide)
      · repeat (first | decide | apply getLast?_append_right)
      · simp only [List.count_append, count_nl_fmtDec]
        decide
    have h3 : Lines (FragLine fragOpeners fragClosers) (if call.Copyout.length > 1 ∨
        (call.Index ≠ ExecNoCopyout ∧ call.Copyout.length > 0)
          then "\t\x7d\n".toList else []) :=
      lines_ite _ (lines_of_frag fragOpeners fragClosers "\t\x7d".toList "\x7d".toList _
        (by decide) (by decide) (by decide) (by decide) (by decide) (by decide) (by decide)
        (by decide)) Lines.nil
    exact lines_append (lines_append (lines_append h1 h2)
      (fragLines_copyoutLines call.Copyout)) h3
  · rw [if_neg hc]
    exact Lines.nil

theorem fragLines_generateCall (opts : Options) (sysTarget : SysTarget) (ci csumSeq : Nat)
    (call : ExecCall) (hp : '\n' ∉ sysTarget.SyscallPrefix)
    (hpt : '\t' ∉ sysTarget.SyscallPrefix) (hw : WellFormedCall call)
    (w : Text) (n : Nat) (h : generateCall opts sysTarget ci csumSeq call = some (w, n)) :
    Lines (FragLine fragOpeners fragClosers) w := by
  unfold generateCall at h
  split at h
  · rename_i w0 csumSeq1 hloop
    simp only [] at h
    split at h
    · rename_i inv hinv
      simp only [Option.some.injEq, Prod.mk.injEq] at h
      rw [← h.1]
      exact lines_append
        (lines_append
          (lines_append
            (fragLines_copyinLoop opts call.Copyin [] csumSeq w0 csumSeq1 hw.2.1 Lines.nil
              hloop)
            (fragLines_faultText opts ci))
          (fragLines_invocationText opts sysTarget call hp hpt hw.2.2 inv hinv))
        (fragLines_copyoutText call)
    · exact absurd h (by simp)
  · exact absurd h (by simp)

theorem fragLines_generateCallsLoop (opts : Options) (sysTarget : SysTarget)
    (hp : '\n' ∉ sysTarget.SyscallPrefix) (hpt : '\t' ∉ sysTarget.SyscallPrefix) :
    ∀ (calls : List ExecCall) (ci csumSeq : Nat) (acc frags : List Text),
      (∀ c ∈ calls, WellFormedCall c) →
      (∀ f ∈ acc, Lines (FragLine fragOpeners fragClosers) f) →
      generateCallsLoop opts sysTarget ci csumSeq acc calls = some frags →
      ∀ f ∈ frags, Lines (FragLine fragOpeners fragClosers) f := by
  intro calls
  induction calls with
  | nil =>
    intro ci n acc frags _ hacc h
    simp only [generateCallsLoop, Option.some.injEq] at h
    rw [← h]
    exact hacc
  | cons c rest ih =>
    intro ci n acc frags hw hacc h
    simp only [generateCallsLoop] at h
    split at h
    · rename_i w n1 hgen
      refine ih (ci + 1) n1 (acc ++ [w]) frags
        (fun d hd => hw d (List.mem_cons_of_mem _ hd)) ?_ h
      intro f hf
      rw [List.mem_append, List.mem_singleton] at hf
      rcases hf with hf | hf
      · exact hacc f hf
      · rw [hf]
        exact fragLines_generateCall opts sysTarget ci n c hp hpt
          (hw c (List.mem_cons_self _ _)) w n1 hgen
    · exact absurd h (by simp)

/-- Every fragment that `generateCalls` returns for a well-formed program is made of
complete lines each of which begins with a statement opener, holds no tab after it, and
ends as a statement, a brace or the result check. -/
theorem fragLines_generateCalls (opts : Options) (sysTarget : SysTarget) (p : ExecProg)
    (hp : '\n' ∉ sysTarget.SyscallPrefix) (hpt : '\t' ∉ sysTarget.SyscallPrefix)
    (hw : ∀ c ∈ p.Calls, WellFormedCall c)
    (frags : List Text) (vars : List Nat)
    (h : generateCalls opts sysTarget p = some (frags, vars)) :
    ∀ f ∈ frags, Lines (FragLine fragOpeners fragClosers) f := by
  unfold generateCalls at h
  split at h
  · rename_i calls hcalls
    simp only [Option.some.injEq, Prod.mk.injEq] at h
    rw [← h.1]
    exact fragLines_generateCallsLoop opts sysTarget hp hpt p.Calls 0 0 [] calls hw
      (fun f hf => absurd hf (by simp)) hcalls
  · exact absurd h (by simp)

/-! ## The markers of the skeleton do not occur in the fragments of `generateCalls` -/

theorem lineBlock_of_fragLines {f : Text} (h : Lines (FragLine fragOpeners fragClosers) f) :
    LineBlock f := lines_lineBlock h

theorem tabbed_fragLines {f : Text} (h : Lines (FragLine fragOpeners fragClosers) f) :
    Lines (FragLine tabbedOpeners fragClosers) (replaceAll "\t".toList "\t\t".toList f) :=
  lines_tabbed fragOpeners fragClosers (by decide) h

theorem occ_execute_frag {f : Text} (h : Lines (FragLine fragOpeners fragClosers) f) :
    occ "\texecute(".toList f = 0 ∧
      occ "\texecute(".toList (replaceAll "\t".toList "\t\t".toList f) = 0 :=
  ⟨occ_tabLed_lines fragOpeners fragClosers _ (by decide) (by decide) (by decide) h,
    occ_tabLed_lines tabbedOpeners fragClosers _ (by decide) (by decide) (by decide)
      (tabbed_fragLines h)⟩

theorem occ_collide_frag {f : Text} (h : Lines (FragLine fragOpeners fragClosers) f) :
    occ "\tcollide = 1;\n".toList f = 0 ∧
      occ "\tcollide = 1;\n".toList (replaceAll "\t".toList "\t\t".toList f) = 0 :=
  ⟨occ_tabLed_lines fragOpeners fragClosers _ (by decide) (by decide) (by decide) h,
    occ_tabLed_lines tabbedOpeners fragClosers _ (by decide) (by decide) (by decide)
      (tabbed_fragLines h)⟩

theorem occ_loop_frag {f : Text} (h : Lines (FragLine fragOpeners fragClosers) f) :
    occ "\tfor (;;) \x7b\n".toList f = 0 ∧
      occ "\tfor (;;) \x7b\n".toList (replaceAll "\t".toList "\t\t".toList f) = 0 :=
  ⟨occ_tabLed_lines fragOpeners fragClosers _ (by decide) (by decide) (by decide) h,
    occ_tabLed_lines tabbedOpeners fragClosers _ (by decide) (by decide) (by decide)
      (tabbed_fragLines h)⟩

theorem occ_fork_frag {f : Text} (h : Lines (FragLine fragOpeners fragClosers) f) :
    occ "\tif (fork() == 0) \x7b\n".toList f = 0 ∧
      occ "\tif (fork() == 0) \x7b\n".toList (replaceAll "\t".toList "\t\t".toList f) = 0 :=
  ⟨occ_tabLed_lines fragOpeners fragClosers _ (by decide) (by decide) (by decide) h,
    occ_tabLed_lines tabbedOpeners fragClosers _ (by decide) (by decide) (by decide)
      (tabbed_fragLines h)⟩

theorem occ_main_frag {f : Text} (h : Lines (FragLine fragOpeners fragClosers) f) :
    occ "int main()\n".toList f = 0 ∧
      occ "int main()\n".toList (replaceAll "\t".toList "\t\t".toList f) = 0 :=
  ⟨occ_lineEnd_lines fragOpeners fragClosers "int main()".toList (by decide) (by decide) h,
    occ_lineEnd_lines tabbedOpeners fragClosers "int main()".toList (by decide) (by decide)
      (tabbed_fragLines h)⟩

/-! ## Dispatch shape for the fragments of `generateCalls` -/

theorem occ_caseLoop_quiet (pat : Text) (hp : LineMarker pat)
    (hcase : ∀ i : Nat, occ pat ("\tcase ".toList ++ fmtDec i ++ ":\n".toList) = 0)
    (hbreak : occ pat "\t\tbreak;\n".toList = 0)
    (calls : List Text) (hb : ∀ f ∈ calls, LineBlock f)
    (h0 : ∀ f ∈ calls, occ pat (replaceAll "\t".toList "\t\t".toList f) = 0) (t : Text) :
    occ pat (caseLoop 0 calls ++ t) = occ pat t := by
  rw [occ_append_block pat hp _ _ (lineBlock_caseLoop calls 0 hb),
    additive_caseLoop_zero (occ pat) (additive_occ pat hp) rfl hcase hbreak calls 0 hb h0,
    Nat.zero_add]

theorem occ_execute_case (i : Nat) :
    occ "\texecute(".toList ("\tcase ".toList ++ fmtDec i ++ ":\n".toList) = 0 := by
  have hd : '\t' ∉ fmtDec i := not_mem_fmtDec (by decide) i
  simp [occ_cons, occ_nil, occ_skip, hd]

theorem occ_collide_case (i : Nat) :
    occ "\tcollide = 1;\n".toList ("\tcase ".toList ++ fmtDec i ++ ":\n".toList) = 0 := by
  have hd : '\t' ∉ fmtDec i := not_mem_fmtDec (by decide) i
  simp [occ_cons, occ_nil, occ_skip, hd]

/-- The dispatch statements of `generateTestFunc`, for fragments in which the two
statements do not occur, with single or with doubled tabs. -/
theorem dispatch_counts_quiet (opts : Options) (calls : List Text) (hasVars : Bool)
    (name : Text) (hb : ∀ f ∈ calls, LineBlock f)
    (he : ∀ f ∈ calls, occ "\texecute(".toList f = 0 ∧
      occ "\texecute(".toList (replaceAll "\t".toList "\t\t".toList f) = 0)
    (hc : ∀ f ∈ calls, occ "\tcollide = 1;\n".toList f = 0 ∧
      occ "\tcollide = 1;\n".toList (replaceAll "\t".toList "\t\t".toList f) = 0)
    (hn : '\t' ∉ name) :
    occ "\texecute(".toList (generateTestFunc opts calls hasVars name) =
        (if opts.Collide then 2 else if opts.Threaded then 1 else 0) ∧
      occ "\tcollide = 1;\n".toList (generateTestFunc opts calls hasVars name) =
        (if opts.Collide then 1 else 0) := by
  have e1 := fun t => occ_caseLoop_quiet "\texecute(".toList (by decide) occ_execute_case
    (by decide) calls hb (fun f hf => (he f hf).2) t
  have e2 := fun t => occ_caseLoop_quiet "\tcollide = 1;\n".toList (by decide) occ_collide_case
    (by decide) calls hb (fun f hf => (hc f hf).2) t
  have e3 := fun t => occ_flatten_skip "\texecute(".toList (by decide) calls hb
    (fun f hf => (he f hf).1) t
  have e4 := fun t => occ_flatten_skip "\tcollide = 1;\n".toList (by decide) calls hb
    (fun f hf => (hc f hf).1) t
  have flat : opts.Threaded = false → opts.Collide = false →
      occ "\texecute(".toList (generateTestFunc opts calls hasVars name) = 0 ∧
        occ "\tcollide = 1;\n".toList (generateTestFunc opts calls hasVars name) = 0 := by
    intro hT hC
    simp only [generateTestFunc, hT, hC, List.append_assoc, Bool.not_false, Bool.and_self,
      if_true]
    rw [occ_execute_void _ _ hn, occ_execute_res, occ_execute_debug _ _ _ hn,
      occ_execute_repro, e3, occ_collide_void _ _ hn, occ_collide_res,
      occ_collide_debug _ _ _ hn, occ_collide_repro, e4]
    exact ⟨by decide, by decide⟩
  have indexed : (opts.Threaded = true ∨ opts.Collide = true) →
      occ "\texecute(".toList (generateTestFunc opts calls hasVars name) =
          (if opts.Collide then 2 else 1) ∧
        occ "\tcollide = 1;\n".toList (generateTestFunc opts calls hasVars name) =
          (if opts.Collide then 1 else 0) := by
    intro hm
    have hmode : (!opts.Threaded && !opts.Collide) = false := by
      rcases hm with h | h <;> simp [h]
    simp only [generateTestFunc, hmode, List.append_assoc, Bool.false_eq_true, if_false]
    rw [occ_execute_hdr, occ_execute_res, occ_execute_switch, e1, occ_execute_close,
      occ_execute_end, occ_execute_void _ _ hn, occ_execute_debug _ _ _ hn, occ_execute_repro,
      occ_execute_call, occ_collide_hdr, occ_collide_res, occ_collide_switch, e2,
      occ_collide_close, occ_collide_end, occ_collide_void _ _ hn, occ_collide_debug _ _ _ hn,
      occ_collide_repro, occ_collide_call]
    cases hC : opts.Collide
    · simp only [Bool.false_eq_true, if_false, List.nil_append]
      exact ⟨by decide, by decide⟩
    · simp only [if_true, List.append_assoc]
      rw [occ_execute_toggle, occ_execute_call, occ_collide_toggle, occ_collide_call]
      exact ⟨by decide, by decide⟩
  cases hT : opts.Threaded <;> cases hC : opts.Collide
  · simpa [hT, hC] using flat hT hC
  · simpa [hT, hC] using indexed (Or.inr hC)
  · simpa [hT, hC] using indexed (Or.inl hT)
  · simpa [hT, hC] using indexed (Or.inr hC)

/-- C6: for the fragments that `generateCalls` returns for a well-formed program (one
per call) and a dispatch name without a tab, the text written by `generateTestFunc` has
exactly two statements `execute(n);` (`n` the number of fragments), the last three lines
of the wrapper being `execute(n);`, `collide = 1;`, `execute(n);`, when collide mode is on;
exactly one, the last line of the wrapper, and no line `collide = 1;` when threaded is on and
collide is off; and neither when both are off. -/
theorem generateTestFunc_dispatch (opts : Options) (sysTarget : SysTarget) (p : ExecProg)
    (hasVars : Bool) (name : Text)
    (hw : ∀ c ∈ p.Calls, WellFormedCall c)
    (hp : '\n' ∉ sysTarget.SyscallPrefix ∧ '\t' ∉ sysTarget.SyscallPrefix)
    (hn : '\t' ∉ name) :
    ∃ calls, generateCalls opts sysTarget p = some (calls, p.Vars) ∧
    calls.length = p.Calls.length ∧
    (opts.Collide = true →
      occ "\texecute(".toList (generateTestFunc opts calls hasVars name) = 2 ∧
      occ "\tcollide = 1;\n".toList (generateTestFunc opts calls hasVars name) = 1 ∧
      ("\texecute(".toList ++ fmtDec calls.length ++ ");\n".toList ++
          "\tcollide = 1;\n".toList ++
          "\texecute(".toList ++ fmtDec calls.length ++ ");\n".toList ++ "\x7d\n\n".toList)
        <:+ generateTestFunc opts calls hasVars name) ∧
    (opts.Threaded = true → opts.Collide = false →
      occ "\texecute(".toList (generateTestFunc opts calls hasVars name) = 1 ∧
      occ "\tcollide = 1;\n".toList (generateTestFunc opts calls hasVars name) = 0 ∧
      ("\texecute(".toList ++ fmtDec calls.length ++ ");\n".toList ++ "\x7d\n\n".toList)
        <:+ generateTestFunc opts calls hasVars name) ∧
    (opts.Threaded = false → opts.Collide = false →
      occ "\texecute(".toList (generateTestFunc opts calls hasVars name) = 0 ∧
      occ "\tcollide = 1;\n".toList (generateTestFunc opts calls hasVars name) = 0) := by
  have hk : p.Calls.all knownCall = true := by
    rw [List.all_eq_true]
    exact fun c hc => (hw c hc).1
  obtain ⟨calls, hloop, hlen, _⟩ := generateCallsLoop_spec opts sysTarget p.Calls 0 0 [] hk
  have hcalls : generateCalls opts sysTarget p = some (calls, p.Vars) := by
    simp only [generateCalls, hloop, List.nil_append]
  have hfl := fragLines_generateCalls opts sysTarget p hp.1 hp.2 hw calls _ hcalls
  obtain ⟨h1, h2⟩ := dispatch_counts_quiet opts calls hasVars name
    (fun f hf => lineBlock_of_fragLines (hfl f hf))
    (fun f hf => occ_execute_frag (hfl f hf))
    (fun f hf => occ_collide_frag (hfl f hf)) hn
  refine ⟨calls, hcalls, hlen, ?_, ?_, ?_⟩
  · intro hC
    have hs := generateTestFunc_suffix opts calls hasVars name (Or.inr hC)
    rw [hC] at h1 h2
    rw [hC, if_pos rfl] at hs
    exact ⟨h1, h2, hs⟩
  · intro hT hC
    have hs := generateTestFunc_suffix opts calls hasVars name (Or.inl hT)
    rw [hC, hT] at h1
    rw [hC] at h2
    rw [hC] at hs
    exact ⟨h1, h2, hs⟩
  · intro hT hC
    rw [hC, hT] at h1
    rw [hC] at h2
    exact ⟨h1, h2⟩

set_option maxRecDepth 100000 in
theorem generateTestFunc_dispatch_witness :
    ∃ calls, generateCalls { Threaded := true, Collide := true } sampleSysTarget sampleTextProg =
        some (calls, sampleTextProg.Vars) ∧
      "execute(".toList <:+: calls.flatten ∧
      occ "\texecute(".toList (generateTestFunc { Threaded := true, Collide := true } calls
        true "loop".toList) = 2 ∧
      occ "\tcollide = 1;\n".toList (generateTestFunc { Threaded := true, Collide := true }
        calls true "loop".toList) = 1 ∧
      ("\texecute(1);\n\tcollide = 1;\n\texecute(1);\n\x7d\n\n".toList)
        <:+ generateTestFunc { Threaded := true, Collide := true } calls true "loop".toList := by
  obtain ⟨calls, hcalls, hlen, h1, _, _⟩ :=
    generateTestFunc_dispatch { Threaded := true, Collide := true } sampleSysTarget
      sampleTextProg true "loop".toList (by decide) (by decide) (by decide)
  obtain ⟨e1, e2, e3⟩ := h1 rfl
  have hfrag : calls = ["\tNONFAILING(memcpy((void*)0x20000000, \"execute(\", 8));\n\tNONFAILING(memcpy((void*)0x20000010, \"fork()\", 6));\n\tres = syscall(__NR_write, 7);\n\tif (res != -1)\n\t\tr[0] = res;\n".toList] := by
    have h2 : generateCalls { Threaded := true, Collide := true } sampleSysTarget
        sampleTextProg = some (["\tNONFAILING(memcpy((void*)0x20000000, \"execute(\", 8));\n\tNONFAILING(memcpy((void*)0x20000010, \"fork()\", 6));\n\tres = syscall(__NR_write, 7);\n\tif (res != -1)\n\t\tr[0] = res;\n".toList], sampleTextProg.Vars) := by decide
    rw [h2] at hcalls
    simp only [Option.some.injEq, Prod.mk.injEq, and_true] at hcalls
    exact hcalls.symm
  refine ⟨calls, hcalls, ?_, e1, e2, ?_⟩
  · rw [hfrag]; decide
  · have e4 : calls.length = 1 := by rw [hlen]; rfl
    rw [e4] at e3
    exact e3

/-! ## Top-level shape for the fragments of `generateCalls` -/

theorem occ_main_testFunc_quiet (opts : Options) (calls : List Text) (hasVars : Bool)
    (name : Text) (hname : name = "loop".toList ∨ name = "execute_one".toList)
    (hb : ∀ f ∈ calls, LineBlock f)
    (h0 : ∀ f ∈ calls, occ "int main()\n".toList f = 0 ∧
      occ "int main()\n".toList (replaceAll "\t".toList "\t\t".toList f) = 0) :
    occ "int main()\n".toList (generateTestFunc opts calls hasVars name) = 0 := by
  rw [occ_generateTestFunc_blocks _ (additive_occ _ (by decide)) opts calls hasVars name
    occ_main_res (lineBlock_flatten calls hb)
    (occ_flatten_zero _ (by decide) calls hb (fun f hf => (h0 f hf).1))
    (lineBlock_caseLoop calls 0 hb)
    (additive_caseLoop_zero _ (additive_occ _ (by decide)) rfl occ_main_case (by decide)
      calls 0 hb (fun f hf => (h0 f hf).2)),
    occ_main_call]
  rcases hname with h | h <;> subst h <;>
    cases opts.Threaded <;> cases opts.Collide <;> cases opts.Debug <;> cases opts.Repro <;>
    decide

theorem occ_loop_testFunc_quiet (opts : Options) (calls : List Text) (hasVars : Bool)
    (name : Text) (hname : name = "loop".toList ∨ name = "execute_one".toList)
    (hb : ∀ f ∈ calls, LineBlock f)
    (h0 : ∀ f ∈ calls, occ "\tfor (;;) \x7b\n".toList f = 0 ∧
      occ "\tfor (;;) \x7b\n".toList (replaceAll "\t".toList "\t\t".toList f) = 0) :
    occ "\tfor (;;) \x7b\n".toList (generateTestFunc opts calls hasVars name) = 0 := by
  rw [occ_generateTestFunc_blocks _ (additive_occ _ (by decide)) opts calls hasVars name
    occ_loop_res (lineBlock_flatten calls hb)
    (occ_flatten_zero _ (by decide) calls hb (fun f hf => (h0 f hf).1))
    (lineBlock_caseLoop calls 0 hb)
    (additive_caseLoop_zero _ (additive_occ _ (by decide)) rfl occ_loop_case (by decide)
      calls 0 hb (fun f hf => (h0 f hf).2)),
    occ_loop_call]
  rcases hname with h | h <;> subst h <;>
    cases opts.Threaded <;> cases opts.Collide <;> cases opts.Debug <;> cases opts.Repro <;>
    decide

theorem occ_fork_testFunc_quiet (opts : Options) (calls : List Text) (hasVars : Bool)
    (name : Text) (hname : name = "loop".toList ∨ name = "execute_one".toList)
    (hb : ∀ f ∈ calls, LineBlock f)
    (h0 : ∀ f ∈ calls, occ "\tif (fork() == 0) \x7b\n".toList f = 0 ∧
      occ "\tif (fork() == 0) \x7b\n".toList (replaceAll "\t".toList "\t\t".toList f) = 0) :
    occ "\tif (fork() == 0) \x7b\n".toList (generateTestFunc opts calls hasVars name) = 0 := by
  rw [occ_generateTestFunc_blocks _ (additive_occ _ (by decide)) opts calls hasVars name
    occ_fork_res (lineBlock_flatten calls hb)
    (occ_flatten_zero _ (by decide) calls hb (fun f hf => (h0 f hf).1))
    (lineBlock_caseLoop calls 0 hb)
    (additive_caseLoop_zero _ (additive_occ _ (by decide)) rfl occ_fork_case (by decide)
      calls 0 hb (fun f hf => (h0 f hf).2)),
    occ_fork_call]
  rcases hname with h | h <;> subst h <;>
    cases opts.Threaded <;> cases opts.Collide <;> cases opts.Debug <;> cases opts.Repro <;>
    decide

theorem occ_main_mainText_quiet (opts : Options) (mmapCalls : List Text)
    (hb : ∀ f ∈ mmapCalls, LineBlock f)
    (h0 : ∀ f ∈ mmapCalls, occ "int main()\n".toList f = 0) (hS : ' ' ∉ opts.Sandbox) :
    occ "int main()\n".toList (mainText opts mmapCalls) = 1 := by
  have hmb := lineBlock_flatten mmapCalls hb
  have hm0 := occ_flatten_zero "int main()\n".toList (by decide) mmapCalls hb h0
  unfold mainText
  split
  · rw [occ_mainOnce_blocks _ (additive_occ _ (by decide)) opts mmapCalls hmb hm0,
      occ_main_runLoop1 opts hS]
    cases opts.HandleSegv <;> cases opts.UseTmpDir <;> decide
  · split
    · rw [occ_mainLoop_blocks _ (additive_occ _ (by decide)) opts mmapCalls hmb hm0,
        occ_main_runLoop2 opts hS]
      cases opts.HandleSegv <;> cases opts.UseTmpDir <;> decide
    · rw [occ_mainFork_blocks _ (additive_occ _ (by decide)) opts mmapCalls hmb hm0,
        occ_forkChild_blocks _ (additive_occ _ (by decide)) opts, occ_main_runLoop4 opts hS,
        occ_main_procs]
      cases opts.HandleSegv <;> cases opts.UseTmpDir <;> decide

theorem occ_loop_mainText_quiet (opts : Options) (mmapCalls : List Text)
    (hb : ∀ f ∈ mmapCalls, LineBlock f)
    (h0 : ∀ f ∈ mmapCalls, occ "\tfor (;;) \x7b\n".toList f = 0)
    (hS : '\t' ∉ opts.Sandbox) :
    occ "\tfor (;;) \x7b\n".toList (mainText opts mmapCalls) =
      if opts.Repeat = true then 1 else 0 := by
  have hmb := lineBlock_flatten mmapCalls hb
  have hm0 := occ_flatten_zero "\tfor (;;) \x7b\n".toList (by decide) mmapCalls hb h0
  unfold mainText
  cases hR : opts.Repeat
  · simp only [Bool.not_false, if_true, Bool.false_eq_true, if_false]
    rw [occ_mainOnce_blocks _ (additive_occ _ (by decide)) opts mmapCalls hmb hm0,
      occ_loop_runLoop1 opts hS]
    cases opts.HandleSegv <;> cases opts.UseTmpDir <;> decide
  · simp only [Bool.not_true, Bool.false_eq_true, if_false, if_true]
    split
    · rw [occ_mainLoop_blocks _ (additive_occ _ (by decide)) opts mmapCalls hmb hm0,
        occ_loop_runLoop2 opts hS]
      cases opts.HandleSegv <;> cases opts.UseTmpDir <;> decide
    · rw [occ_mainFork_blocks _ (additive_occ _ (by decide)) opts mmapCalls hmb hm0,
        occ_forkChild_blocks _ (additive_occ _ (by decide)) opts, occ_loop_runLoop4 opts hS,
        occ_loop_procs]
      cases opts.HandleSegv <;> cases opts.UseTmpDir <;> decide

theorem occ_fork_mainText_quiet (opts : Options) (mmapCalls : List Text)
    (hb : ∀ f ∈ mmapCalls, LineBlock f)
    (h0 : ∀ f ∈ mmapCalls, occ "\tif (fork() == 0) \x7b\n".toList f = 0)
    (hS : '\t' ∉ opts.Sandbox) :
    occ "\tif (fork() == 0) \x7b\n".toList (mainText opts mmapCalls) =
      if opts.Repeat = true ∧ opts.Procs > 1 then 1 else 0 := by
  have hmb := lineBlock_flatten mmapCalls hb
  have hm0 := occ_flatten_zero "\tif (fork() == 0) \x7b\n".toList (by decide) mmapCalls hb h0
  unfold mainText
  cases hR : opts.Repeat
  · simp only [Bool.not_false, if_true, Bool.false_eq_true, false_and, if_false]
    rw [occ_mainOnce_blocks _ (additive_occ _ (by decide)) opts mmapCalls hmb hm0,
      occ_fork_runLoop1 opts hS]
    cases opts.HandleSegv <;> cases opts.UseTmpDir <;> decide
  · simp only [Bool.not_true, Bool.false_eq_true, if_false, true_and]
    by_cases hP : opts.Procs ≤ 1
    · rw [if_pos hP, if_neg (by omega),
        occ_mainLoop_blocks _ (additive_occ _ (by decide)) opts mmapCalls hmb hm0,
        occ_fork_runLoop2 opts hS]
      cases opts.HandleSegv <;> cases opts.UseTmpDir <;> decide
    · rw [if_neg hP, if_pos (by omega),
        occ_mainFork_blocks _ (additive_occ _ (by decide)) opts mmapCalls hmb hm0,
        occ_forkChild_blocks _ (additive_occ _ (by decide)) opts, occ_fork_runLoop4 opts hS,
        occ_fork_procs]
      cases opts.HandleSegv <;> cases opts.UseTmpDir <;> decide

/-- The three markers of the top-level shape, counted in the skeleton built around
fragments made of fragment lines. -/
theorem writeSkeleton_counts_quiet (opts : Options) (calls : List Text) (vars : List Nat)
    (mmapCalls : List Text)
    (hf : ∀ f ∈ calls, Lines (FragLine fragOpeners fragClosers) f)
    (hm : ∀ f ∈ mmapCalls, Lines (FragLine fragOpeners fragClosers) f)
    (hS : ' ' ∉ opts.Sandbox ∧ '\t' ∉ opts.Sandbox) :
    occ "int main()\n".toList (writeSkeleton opts calls vars mmapCalls) = 1 ∧
    occ "\tfor (;;) \x7b\n".toList (writeSkeleton opts calls vars mmapCalls) =
      (if opts.Repeat = true then 1 else 0) ∧
    occ "\tif (fork() == 0) \x7b\n".toList (writeSkeleton opts calls vars mmapCalls) =
      (if opts.Repeat = true ∧ opts.Procs > 1 then 1 else 0) := by
  have hcb : ∀ f ∈ calls, LineBlock f := fun f h => lineBlock_of_fragLines (hf f h)
  have hmb : ∀ f ∈ mmapCalls, LineBlock f := fun f h => lineBlock_of_fragLines (hm f h)
  refine ⟨?_, ?_, ?_⟩
  · rw [additive_writeSkeleton _ (additive_occ _ (by decide)) opts calls vars mmapCalls
      (fun name hn => occ_main_testFunc_quiet opts calls _ name hn hcb
        (fun f h => occ_main_frag (hf f h)))]
    exact occ_main_mainText_quiet opts mmapCalls hmb (fun f h => (occ_main_frag (hm f h)).1)
      hS.1
  · rw [additive_writeSkeleton _ (additive_occ _ (by decide)) opts calls vars mmapCalls
      (fun name hn => occ_loop_testFunc_quiet opts calls _ name hn hcb
        (fun f h => occ_loop_frag (hf f h)))]
    exact occ_loop_mainText_quiet opts mmapCalls hmb (fun f h => (occ_loop_frag (hm f h)).1)
      hS.2
  · rw [additive_writeSkeleton _ (additive_occ _ (by decide)) opts calls vars mmapCalls
      (fun name hn => occ_fork_testFunc_quiet opts calls _ name hn hcb
        (fun f h => occ_fork_frag (hf f h)))]
    exact occ_fork_mainText_quiet opts mmapCalls hmb (fun f h => (occ_fork_frag (hm f h)).1)
      hS.2

/-- C7: for a well-formed program and memory-mapping program (call names and syscall prefix
without newline and tab, sandbox name without blank and tab), `generateCalls` returns the
fragments of both, and the skeleton that `Write` builds around them (test function and
`main`) has exactly one line `int main()`; its shape is run-once (no `for (;;)` loop, no
fork) iff repeat is off, the single-process loop (`for (;;)`, no fork) iff repeat is on and
the process count is at most 1, and the multi-process fork loop iff repeat is on and the
process count is above 1. -/
theorem writeSkeleton_shape (opts : Options) (sysTarget : SysTarget)
    (decoded mmapDecoded : ExecProg)
    (hw : ∀ c ∈ decoded.Calls, WellFormedCall c)
    (hwm : ∀ c ∈ mmapDecoded.Calls, WellFormedCall c)
    (hp : '\n' ∉ sysTarget.SyscallPrefix ∧ '\t' ∉ sysTarget.SyscallPrefix)
    (hS : ' ' ∉ opts.Sandbox ∧ '\t' ∉ opts.Sandbox) :
    ∃ calls mmapCalls,
      generateCalls opts sysTarget decoded = some (calls, decoded.Vars) ∧
      generateCalls opts sysTarget mmapDecoded = some (mmapCalls, mmapDecoded.Vars) ∧
      occ "int main()\n".toList (writeSkeleton opts calls decoded.Vars mmapCalls) = 1 ∧
      (RunOnceShape (writeSkeleton opts calls decoded.Vars mmapCalls) ↔
        opts.Repeat = false) ∧
      (SingleLoopShape (writeSkeleton opts calls decoded.Vars mmapCalls) ↔
        (opts.Repeat = true ∧ opts.Procs ≤ 1)) ∧
      (ForkLoopShape (writeSkeleton opts calls decoded.Vars mmapCalls) ↔
        (opts.Repeat = true ∧ opts.Procs > 1)) := by
  obtain ⟨calls, hcalls⟩ := generateCalls_isSome opts sysTarget decoded hw
  obtain ⟨mmapCalls, hmm⟩ := generateCalls_isSome opts sysTarget mmapDecoded hwm
  have hf := fragLines_generateCalls opts sysTarget decoded hp.1 hp.2 hw calls _ hcalls
  have hm := fragLines_generateCalls opts sysTarget mmapDecoded hp.1 hp.2 hwm mmapCalls _ hmm
  obtain ⟨h1, h2, h3⟩ := writeSkeleton_counts_quiet opts calls decoded.Vars mmapCalls hf hm hS
  refine ⟨calls, mmapCalls, hcalls, hmm, h1, ?_, ?_, ?_⟩
  · unfold RunOnceShape
    rw [h2, h3]
    cases opts.Repeat <;> simp
  · unfold SingleLoopShape
    rw [h2, h3]
    cases opts.Repeat
    · simp
    · by_cases hP : opts.Procs ≤ 1
      · have : ¬ opts.Procs > 1 := by omega
        simp [hP, this]
      · have : opts.Procs > 1 := by omega
        simp [hP, this]
  · unfold ForkLoopShape
    rw [h2, h3]
    cases opts.Repeat
    · simp
    · by_cases hP : opts.Procs > 1
      · simp [hP]
      · simp [hP]

theorem writeSkeleton_shape_witness :
    ∃ calls mmapCalls,
      generateCalls { Repeat := true, Procs := 3, Sandbox := "none".toList } sampleSysTarget
        sampleTextProg = some (calls, sampleTextProg.Vars) ∧
      generateCalls { Repeat := true, Procs := 3, Sandbox := "none".toList } sampleSysTarget
        sampleMmapProg = some (mmapCalls, sampleMmapProg.Vars) ∧
      occ "int main()\n".toList
        (writeSkeleton { Repeat := true, Procs := 3, Sandbox := "none".toList } calls
          sampleTextProg.Vars mmapCalls) = 1 ∧
      ForkLoopShape
        (writeSkeleton { Repeat := true, Procs := 3, Sandbox := "none".toList } calls
          sampleTextProg.Vars mmapCalls) ∧
      ¬ RunOnceShape
        (writeSkeleton { Repeat := true, Procs := 3, Sandbox := "none".toList } calls
          sampleTextProg.Vars mmapCalls) ∧
      ¬ SingleLoopShape
        (writeSkeleton { Repeat := true, Procs := 3, Sandbox := "none".toList } calls
          sampleTextProg.Vars mmapCalls) := by
  obtain ⟨calls, mmapCalls, h1, h2, h3, h4, h5, h6⟩ :=
    writeSkeleton_shape { Repeat := true, Procs := 3, Sandbox := "none".toList }
      sampleSysTarget sampleTextProg sampleMmapProg (by decide) (by decide) (by decide)
      (by decide)
  exact ⟨calls, mmapCalls, h1, h2, h3, h6.2 (by decide), fun h => absurd (h4.1 h) (by decide),
    fun h => absurd (h5.1 h) (by decide)⟩

end Csource
